import Mathlib

/-!
# Binary decision diagrams of `Kernel/BDD.cpp`

A shallow embedding of the BDD engine (`BDD`) and of the incremental
conjunction (`BDDConjunction`).

Pointers `BDDNode*` are natural numbers: `0` is the null pointer, `1` is the
address of `_trueNode`, `2` the address of `_falseNode`, and `i + 3` is the
address of the `i`-th node inserted into the node set `_nodes`.  The engine is
stateful (the node set grows), so every operation takes the engine state and
returns the new one.
-/

namespace Kernel

/-- The record `BDDNode`: a variable number and the two children. -/
structure BDDNode where
  var : Int
  pos : Nat
  neg : Nat
deriving DecidableEq, Repr

/-- The state of the engine `BDD`: `_newVar` and the node set `_nodes`, kept in
insertion order (the node at index `i` lives at address `i + 3`). -/
structure BDD where
  newVar : Int
  nodes : List BDDNode
deriving DecidableEq, Repr

namespace BDD

/-- The constructor `BDD::BDD()`: `_newVar(0)` and an empty node set. -/
def new : BDD := ⟨0, []⟩

/-- Modelled from the spec: `BDD::getTrue` of the missing `BDD.hpp`, the address
of the leaf `_trueNode`. -/
def getTrue : Nat := 1

/-- Modelled from the spec: `BDD::getFalse` of the missing `BDD.hpp`, the
address of the leaf `_falseNode`. -/
def getFalse : Nat := 2

/-- Modelled from the spec: `BDD::isTrue` of the missing `BDD.hpp`, the
comparison of a pointer with the TRUE leaf. -/
def isTrue (n : Nat) : Bool := n == getTrue

/-- Modelled from the spec: `BDD::isFalse` of the missing `BDD.hpp`, the
comparison of a pointer with the FALSE leaf. -/
def isFalse (n : Nat) : Bool := n == getFalse

/-- The record a pointer points to.  The two leaves have `_var = -1` and null
children (`BDD::BDD()`); the null pointer and addresses never handed out read
as such a record too. -/
def deref (s : BDD) (n : Nat) : BDDNode :=
  if n < 3 then ⟨-1, 0, 0⟩ else s.nodes.getD (n - 3) ⟨-1, 0, 0⟩

/-- Modelled from the spec: `BDD::isConstant` of the missing `BDD.hpp`; a leaf
is a node whose `_var` is `-1`. -/
def isConstant (s : BDD) (n : Nat) : Bool := (s.deref n).var == -1

/-- `BDD::getNode`: the fresh record is offered to the node set, which returns
the address of an equal record (`BDD::equals`: same `_var`, `_pos`, `_neg`) when
it holds one, and stores the fresh record otherwise. -/
def getNode (s : BDD) (varNum : Int) (pos neg : Nat) : Nat × BDD :=
  let newNode : BDDNode := ⟨varNum, pos, neg⟩
  let i := s.nodes.indexOf newNode
  if i < s.nodes.length then (i + 3, s)
  else (s.nodes.length + 3, { s with nodes := s.nodes ++ [newNode] })

/-- `BDD::getAtomic`. -/
def getAtomic (s : BDD) (varNum : Int) (positive : Bool) : Nat × BDD :=
  let s1 : BDD := if varNum ≥ s.newVar then { s with newVar := varNum + 1 } else s
  if positive then s1.getNode varNum getTrue getFalse
  else s1.getNode varNum getFalse getTrue

/-- `BDD::ConjunctionFn::operator()`; the result `0` is the null pointer. -/
def ConjunctionFn (n1 n2 : Nat) : Nat :=
  if isFalse n1 || isFalse n2 then getFalse
  else if isTrue n1 then n2
  else if isTrue n2 then n1
  else 0

/-- `BDD::DisjunctionFn::operator()`. -/
def DisjunctionFn (n1 n2 : Nat) : Nat :=
  if isTrue n1 || isTrue n2 then getTrue
  else if isFalse n1 then n2
  else if isFalse n2 then n1
  else 0

/-- `BDD::XOrNonYFn::operator()`. -/
def XOrNonYFn (n1 n2 : Nat) : Nat :=
  if isTrue n1 || isFalse n2 then getTrue
  else if isTrue n2 then n1
  else 0

/-- The memoization table of `getBinaryFnResult`, a `DHMap` from pairs of
pointers to pointers. -/
abbrev Cache := List ((Nat × Nat) × Nat)

/-- Modelled from the spec: `DHMap::insert` of the missing `Lib/DHMap.hpp`; a
key that is present keeps its value. -/
def cacheInsert (c : Cache) (k : Nat × Nat) (v : Nat) : Cache :=
  match c.lookup k with
  | some _ => c
  | none => (k, v) :: c

/-- The inner `while(results.isNonEmpty() && results.top()!=0)` loop of
`getBinaryFnResult`: as long as the top of `results` is a finished positive
branch, it is combined with `res`, the finished negative branch.  The stacks
are lists with the top first; popping an empty stack gives `none`. -/
def collapse (counter : Nat) :
    Nat → List Nat → List Int → Cache → BDD → Option (Nat × List Nat × List Int × Cache × BDD)
  | res, [], vars, cache, s => some (res, [], vars, cache, s)
  | res, 0 :: results, vars, cache, s => some (res, 0 :: results, vars, cache, s)
  | res, pos :: _ :: arg1 :: arg2 :: results, var :: vars, cache, s =>
    let r : Nat × BDD := if pos = res then (pos, s) else s.getNode var pos res
    let cache := if counter % 4 = 0 then cacheInsert cache (arg1, arg2) r.1 else cache
    collapse counter r.1 results vars cache r.2
  | _, _, _, _, _ => none

/-- The variables of one iteration of the `for(;;)` loop of
`getBinaryFnResult`. -/
structure Loop where
  n1 : Nat
  n2 : Nat
  toDo : List Nat
  results : List Nat
  vars : List Int
  cache : Cache
  counter : Nat
  bdd : BDD

/-- The `for(;;)` loop of `getBinaryFnResult`; each iteration uses one unit of
`fuel`.  The wall clock is outside the model: the poll of
`env.timeLimitReached()` at `counter==50000` is taken to answer "no", the reset
of `counter` stays. -/
def loop (fn : Nat → Nat → Nat) : Nat → Loop → Option (Nat × BDD)
  | 0, _ => none
  | fuel + 1, st =>
    let counter := if st.counter + 1 = 50000 then 0 else st.counter + 1
    let res := fn st.n1 st.n2
    let found : Option Nat := if res ≠ 0 then some res else st.cache.lookup (st.n1, st.n2)
    match found with
    | some res =>
      match collapse counter res st.results st.vars st.cache st.bdd with
      | none => none
      | some (res, results, vars, cache, s) =>
        match st.toDo with
        | [] => some (res, s)
        | [_] => none
        | n1 :: n2 :: toDo =>
          loop fn fuel ⟨n1, n2, toDo, res :: results, vars, cache, counter, s⟩
    | none =>
      let d1 := st.bdd.deref st.n1
      let d2 := st.bdd.deref st.n2
      let splitVar := max d1.var d2.var
      let toDo := (if d2.var = splitVar then d2.neg else st.n2) :: st.toDo
      let toDo := (if d1.var = splitVar then d1.neg else st.n1) :: toDo
      loop fn fuel
        ⟨if d1.var = splitVar then d1.pos else st.n1,
         if d2.var = splitVar then d2.pos else st.n2,
         toDo, 0 :: st.n1 :: st.n2 :: st.results, splitVar :: st.vars,
         st.cache, counter, st.bdd⟩

/-- `BDD::getBinaryFnResult`: the static stacks are empty between calls and the
cache is reset on entry. -/
def getBinaryFnResult (fuel : Nat) (s : BDD) (n1 n2 : Nat) (fn : Nat → Nat → Nat) :
    Option (Nat × BDD) :=
  loop fn fuel ⟨n1, n2, [], [], [], [], 0, s⟩

/-- `BDD::conjunction`. -/
def conjunction (fuel : Nat) (s : BDD) (n1 n2 : Nat) : Option (Nat × BDD) :=
  getBinaryFnResult fuel s n1 n2 ConjunctionFn

/-- `BDD::disjunction`. -/
def disjunction (fuel : Nat) (s : BDD) (n1 n2 : Nat) : Option (Nat × BDD) :=
  getBinaryFnResult fuel s n1 n2 DisjunctionFn

/-- `BDD::xOrNonY`. -/
def xOrNonY (fuel : Nat) (s : BDD) (x y : Nat) : Option (Nat × BDD) :=
  getBinaryFnResult fuel s x y XOrNonYFn

/-- The variables of one iteration of the `for(;;)` loop of
`hasConstantResult`.  The memoization table is a `DHMap` from pairs of pointers
to `bool`; the value stored is always `false` and never read, so the table is
the list of its keys. -/
structure ConstLoop where
  n1 : Nat
  n2 : Nat
  toDo : List Nat
  cache : List (Nat × Nat)
  counter : Nat

/-- The `for(;;)` loop of `hasConstantResult`; each iteration uses one unit of
`fuel`.  An iteration either returns `false` at once (the operator answered
with a node that is not the constant asked for) or leaves a stack and a table:
unchanged when the operator answered or the pair is in the table, with the four
pushed nodes (and, one time in four, the pair added to the table) otherwise.
The loop ends with `true` when the stack is empty.  As in `loop`, the poll of
the wall clock is taken to answer "no". -/
def constLoop (fn : Nat → Nat → Nat) (s : BDD) (resValue : Bool) :
    Nat → ConstLoop → Option Bool
  | 0, _ => none
  | fuel + 1, st =>
    let counter := if st.counter + 1 = 50000 then 0 else st.counter + 1
    let res := fn st.n1 st.n2
    let d1 := s.deref st.n1
    let d2 := s.deref st.n2
    let splitVar := max d1.var d2.var
    let body : Option (List Nat × List (Nat × Nat)) :=
      if res ≠ 0 then
        if (resValue && !isTrue res) || (!resValue && !isFalse res) then none
        else some (st.toDo, st.cache)
      else if st.cache.contains (st.n1, st.n2) then some (st.toDo, st.cache)
      else
        some ((if d1.var = splitVar then d1.pos else st.n1) ::
              (if d2.var = splitVar then d2.pos else st.n2) ::
              (if d1.var = splitVar then d1.neg else st.n1) ::
              (if d2.var = splitVar then d2.neg else st.n2) :: st.toDo,
          if counter % 4 = 0 then (st.n1, st.n2) :: st.cache else st.cache)
    match body with
    | none => some false
    | some (toDo, cache) =>
      match toDo with
      | [] => some true
      | [_] => none
      | n1 :: n2 :: toDo => constLoop fn s resValue fuel ⟨n1, n2, toDo, cache, counter⟩

/-- `BDD::hasConstantResult`: the stack and the table are reset on entry. -/
def hasConstantResult (fuel : Nat) (s : BDD) (n1 n2 : Nat) (resValue : Bool)
    (fn : Nat → Nat → Nat) : Option Bool :=
  constLoop fn s resValue fuel ⟨n1, n2, [], [], 0⟩

/-- `BDD::isXOrNonYConstant`. -/
def isXOrNonYConstant (fuel : Nat) (s : BDD) (x y : Nat) (resValue : Bool) : Option Bool :=
  hasConstantResult fuel s x y resValue XOrNonYFn

end BDD

/-- Modelled from the spec: the class `BDDConjunction` of the missing
`BDD.hpp`: the unsat latch `_isFalse`, `_maxVar`, the list `_nodes` of the
added non-constant nodes (head first), the candidate `_assignment` (an array
that reads `false` where nothing was written) and the set `_decisionPnts` of
remembered decision variables. -/
structure BDDConjunction where
  isFalse : Bool
  maxVar : Int
  nodes : List Nat
  assignment : Nat → Bool
  decisionPnts : List Int

namespace BDDConjunction

/-- Modelled from the spec: the constructor of `BDDConjunction` in the missing
`BDD.hpp`: not unsat, no node, no variable, every variable false. -/
def fresh : BDDConjunction := ⟨false, -1, [], fun _ => false, []⟩

/-- Modelled from the spec: `insert` of the set type of `_decisionPnts`, declared
in the missing `BDD.hpp`. -/
def dpInsert (dp : List Int) (v : Int) : List Int :=
  if v ∈ dp then dp else v :: dp

/-- Modelled from the spec: `findLeastGreater` of the set type of
`_decisionPnts`, "the least variable greater than the current node's root
var"; `none` when there is none. -/
def findLeastGreater (dp : List Int) (key : Int) : Option Int :=
  (dp.filter (fun v => key < v)).min?

/-- The two statements `_assignment[changed]=true;` and
`for(int i=0;i<changed;i++) _assignment[i]=false;` of
`findNextSatAssignment`. -/
def flip (asg : Nat → Bool) (changed : Int) : Nat → Bool :=
  fun i => if (i : Int) < changed then false else if i = changed.toNat then true else asg i

/-- The second walk of `findNextSatAssignment`, run once the first walk has
ended in TRUE: every variable left by its negative branch is remembered. -/
def recordWalk (s : BDD) (asg : Nat → Bool) : Nat → Nat → List Int → Option (List Int)
  | 0, _, _ => none
  | fuel + 1, n, dp =>
    if s.isConstant n then some dp
    else if asg (s.deref n).var.toNat then recordWalk s asg fuel (s.deref n).pos dp
    else recordWalk s asg fuel (s.deref n).neg (dpInsert dp (s.deref n).var)

/-- The body of `findNextSatAssignment` from the label `satSeekStart` on: `n` is
the current node, `decPnts` the local stack (top first), `changed` the value of
`assignmentChanged`.  Every step of a walk and every jump back to the label uses
one unit of fuel.  The result is the returned boolean, `assignmentChanged` and
the aggregator. -/
def satSeek (s : BDD) (n0 : Nat) :
    Nat → Nat → List Nat → Bool → BDDConjunction → Option (Bool × Bool × BDDConjunction)
  | 0, _, _, _, _ => none
  | fuel + 1, n, decPnts, changed, c =>
    if !s.isConstant n then
      if c.assignment (s.deref n).var.toNat then
        satSeek s n0 fuel (s.deref n).pos decPnts changed c
      else
        satSeek s n0 fuel (s.deref n).neg (n :: decPnts) changed c
    else if BDD.isTrue n then
      match recordWalk s c.assignment fuel n0 c.decisionPnts with
      | none => none
      | some dp => some (true, changed, { c with decisionPnts := dp })
    else
      match decPnts with
      | [] =>
        match findLeastGreater c.decisionPnts (s.deref n0).var with
        | none => some (false, true, c)
        | some v => satSeek s n0 fuel n0 [] true { c with assignment := flip c.assignment v }
      | decPnt :: decPnts =>
        satSeek s n0 fuel (s.deref decPnt).pos decPnts true
          { c with assignment := flip c.assignment (s.deref decPnt).var }

/-- `BDDConjunction::findNextSatAssignment`. -/
def findNextSatAssignment (fuel : Nat) (s : BDD) (c : BDDConjunction) (n0 : Nat) :
    Option (Bool × Bool × BDDConjunction) :=
  satSeek s n0 fuel n0 [] false c

/-- The `while(next)` loop of `addNode`.  The list `_nodes` is `front ++ next`,
where `prev` is the last cell of `front`.  A node whose check changed the
assignment is unlinked and becomes the new head, and the walk starts again at
the old head. -/
def addLoop (s : BDD) (fuel : Nat) :
    Nat → List Nat → List Nat → BDDConjunction → Option BDDConjunction
  | 0, _, _, _ => none
  | _ + 1, _, [], c => some c
  | k + 1, front, x :: rest, c =>
    match findNextSatAssignment fuel s c x with
    | none => none
    | some (false, _, c) => some { c with isFalse := true }
    | some (true, true, c) =>
      addLoop s fuel k [x] (front ++ rest)
        { c with nodes := x :: (front ++ rest), decisionPnts := [] }
    | some (true, false, c) => addLoop s fuel k (front ++ [x]) rest c

/-- `BDDConjunction::addNode`. -/
def addNode (fuel : Nat) (s : BDD) (c : BDDConjunction) (n : Nat) : Option BDDConjunction :=
  if c.isFalse then some c
  else if s.isConstant n then
    if BDD.isFalse n then some { c with isFalse := true } else some c
  else
    let c : BDDConjunction :=
      if (s.deref n).var > c.maxVar then { c with maxVar := (s.deref n).var } else c
    let next := c.nodes
    let c : BDDConjunction := { c with nodes := n :: c.nodes }
    match findNextSatAssignment fuel s c n with
    | none => none
    | some (false, _, c) => some { c with isFalse := true }
    | some (true, false, c) => some c
    | some (true, true, c) => addLoop s fuel fuel [n] next c

end BDDConjunction

/-! ## Notions used to state the properties -/

namespace BDD

/-- The walk that evaluates a node under an assignment: from `n` follow `_pos`
where the variable is true and `_neg` where it is false, for at most `fuel`
steps; the value is whether the walk stands on the TRUE leaf. -/
def evalFuel (s : BDD) (asg : Nat → Bool) : Nat → Nat → Bool
  | 0, n => isTrue n
  | fuel + 1, n =>
    if s.isConstant n then isTrue n
    else evalFuel s asg fuel
      (if asg (s.deref n).var.toNat then (s.deref n).pos else (s.deref n).neg)

/-- The Boolean function a node denotes.  A child has a smaller address than
its parent, so `n` steps are enough for the walk from `n`. -/
def eval (s : BDD) (asg : Nat → Bool) (n : Nat) : Bool := evalFuel s asg n n

/-- The pointer `n` is a node of the engine in state `s`: a leaf or a node of
the node set. -/
def Valid (s : BDD) (n : Nat) : Prop := 0 < n ∧ n < s.nodes.length + 3

/-- The invariant of the node set: no record is stored twice; every stored
record has a variable in `[0, _newVar)`, two different children that were
there before it, and a variable above the variables of its children. -/
structure WF (s : BDD) : Prop where
  nodup : s.nodes.Nodup
  node : ∀ n, 3 ≤ n → n < s.nodes.length + 3 →
    0 ≤ (s.deref n).var ∧ (s.deref n).var < s.newVar ∧
    0 < (s.deref n).pos ∧ (s.deref n).pos < n ∧
    0 < (s.deref n).neg ∧ (s.deref n).neg < n ∧
    (s.deref n).pos ≠ (s.deref n).neg ∧
    (s.deref (s.deref n).pos).var < (s.deref n).var ∧
    (s.deref (s.deref n).neg).var < (s.deref n).var

/-- The state `t` is the state `s` after more nodes were created. -/
def Ext (s t : BDD) : Prop := s.newVar ≤ t.newVar ∧ ∃ l, t.nodes = s.nodes ++ l

/-- The operator functor `fn` computes the Boolean operation `op`: where it
answers (a non-null result), the answer is a node not above its arguments that
denotes `op` of them; it answers whenever both arguments are leaves. -/
def FnSpec (fn : Nat → Nat → Nat) (op : Bool → Bool → Bool) : Prop :=
  ∀ n1 n2, 0 < n1 → 0 < n2 →
    (fn n1 n2 = 0 → 3 ≤ n1 ∨ 3 ≤ n2) ∧
    (fn n1 n2 ≠ 0 → ∀ s : BDD, s.WF → s.Valid n1 → s.Valid n2 →
      s.Valid (fn n1 n2) ∧
      (s.deref (fn n1 n2)).var ≤ max (s.deref n1).var (s.deref n2).var ∧
      ∀ asg, s.eval asg (fn n1 n2) = op (s.eval asg n1) (s.eval asg n2))

/-- The engine states that a sequence of operations produces from a new
engine: `getAtomic` of a variable `≥ 0`, and `conjunction`, `disjunction`,
`xOrNonY` of nodes of the engine, whenever the operation returns. -/
inductive Reach : BDD → Prop
  | new : Reach BDD.new
  | atomic {s : BDD} (v : Int) (b : Bool) : Reach s → 0 ≤ v → Reach (s.getAtomic v b).2
  | conj {s t : BDD} {fuel a b r : Nat} : Reach s → s.Valid a → s.Valid b →
      s.conjunction fuel a b = some (r, t) → Reach t
  | disj {s t : BDD} {fuel a b r : Nat} : Reach s → s.Valid a → s.Valid b →
      s.disjunction fuel a b = some (r, t) → Reach t
  | xory {s t : BDD} {fuel a b r : Nat} : Reach s → s.Valid a → s.Valid b →
      s.xOrNonY fuel a b = some (r, t) → Reach t

/-- What remains of an iteration of `loop` once `res` is known (the operator
answered or the cache did): the inner loop, the push on `results`, and the next
pair of `toDo`. -/
def afterFound (fn : Nat → Nat → Nat) (fuel counter res : Nat) (toDo results : List Nat)
    (vars : List Int) (cache : Cache) (s : BDD) : Option (Nat × BDD) :=
  match collapse counter res results vars cache s with
  | none => none
  | some (res, results, vars, cache, s) =>
    match toDo with
    | [] => some (res, s)
    | [_] => none
    | n1 :: n2 :: toDo => loop fn fuel ⟨n1, n2, toDo, res :: results, vars, cache, counter, s⟩

/-- The negation `neg(z)` of the De Morgan law of the spec: `xOrNonY(FALSE, z)`. -/
def neg (fuel : Nat) (s : BDD) (z : Nat) : Option (Nat × BDD) :=
  s.xOrNonY fuel getFalse z

/-- The calls that compute `neg(fn(neg(x), neg(y)))`, one after the other, for a
binary operation with the operator functor `fn`. -/
def negOpNeg (fn : Nat → Nat → Nat) (fuel : Nat) (s : BDD) (x y : Nat) : Option (Nat × BDD) :=
  match s.neg fuel x with
  | none => none
  | some (nx, s1) =>
    match s1.neg fuel y with
    | none => none
    | some (ny, s2) =>
      match s2.getBinaryFnResult fuel nx ny fn with
      | none => none
      | some (d, s3) => s3.neg fuel d

/-- The BDD scenario of the spec, run on the engine state `s`:
`a = conjunction(getAtomic(0,true), getAtomic(1,true))`, then
`disjunction(a, getAtomic(0,false))`.  The result is the node of the
disjunction, the node `getAtomic(1,true)` of the final state, the node
`getAtomic(0,false)`, and the final state. -/
def scenario (fuel : Nat) (s : BDD) : Option (Nat × Nat × Nat × BDD) :=
  let s0 := (s.getAtomic 0 true).2
  let s1 := (s0.getAtomic 1 true).2
  match s1.conjunction fuel (s.getAtomic 0 true).1 (s0.getAtomic 1 true).1 with
  | none => none
  | some (a, s2) =>
    let s3 := (s2.getAtomic 0 false).2
    match s3.disjunction fuel a (s2.getAtomic 0 false).1 with
    | none => none
    | some (d, s4) =>
      some (d, (s4.getAtomic 1 true).1, (s2.getAtomic 0 false).1, (s4.getAtomic 1 true).2)

/-- The operation `op` is constantly `v` on the pair of nodes `(a, b)`. -/
def ConstOn (op : Bool → Bool → Bool) (s : BDD) (v : Bool) (a b : Nat) : Prop :=
  ∀ asg, op (s.eval asg a) (s.eval asg b) = v

/-- The end of an iteration of `constLoop` that did not return `false`: the
test of the stack and the next pair. -/
def constNext (fn : Nat → Nat → Nat) (s : BDD) (resValue : Bool) (fuel : Nat)
    (toDo : List Nat) (cache : List (Nat × Nat)) (counter : Nat) : Option Bool :=
  match toDo with
  | [] => some true
  | [_] => none
  | n1 :: n2 :: toDo => constLoop fn s resValue fuel ⟨n1, n2, toDo, cache, counter⟩

/-- Every entry of the memoization table is right: it maps two nodes to a node
not above them that denotes `op` of them. -/
def CacheOK (op : Bool → Bool → Bool) (s : BDD) (c : Cache) : Prop :=
  ∀ a b r, c.lookup (a, b) = some r →
    s.Valid a ∧ s.Valid b ∧ s.Valid r ∧ (s.deref r).var ≤ max (s.deref a).var (s.deref b).var ∧
    ∀ asg, s.eval asg r = op (s.eval asg a) (s.eval asg b)

/-- The recursive definition of a binary operation, in the words of the
specification: `apply(n1,n2)` is `fn(n1,n2)` when that is non-null; otherwise,
with `splitVar = max(var n1, var n2)`, it is the node for `splitVar`, `apply` of
the pos-cofactors and `apply` of the neg-cofactors, collapsed to the child when
both children are equal; a side whose top variable is not `splitVar` is passed
unchanged.  There is no memoization table.  The first argument bounds the depth
of the recursion. -/
def apply (fn : Nat → Nat → Nat) : Nat → BDD → Nat → Nat → Option (Nat × BDD)
  | 0, _, _, _ => none
  | fuel + 1, s, n1, n2 =>
    if fn n1 n2 ≠ 0 then some (fn n1 n2, s)
    else
      match apply fn fuel s
        (if (s.deref n1).var = max (s.deref n1).var (s.deref n2).var
          then (s.deref n1).pos else n1)
        (if (s.deref n2).var = max (s.deref n1).var (s.deref n2).var
          then (s.deref n2).pos else n2) with
      | none => none
      | some (pos, s1) =>
        match apply fn fuel s1
          (if (s.deref n1).var = max (s.deref n1).var (s.deref n2).var
            then (s.deref n1).neg else n1)
          (if (s.deref n2).var = max (s.deref n1).var (s.deref n2).var
            then (s.deref n2).neg else n2) with
        | none => none
        | some (neg, s2) =>
          some (if pos = neg then (pos, s2)
            else s2.getNode (max (s.deref n1).var (s.deref n2).var) pos neg)

/-- The pair `(a, b)` is done in the state `s` with the result `r`: in `s` and
in every later state, `apply(a,b)` is `r` and creates no node. -/
def Redo (fn : Nat → Nat → Nat) (s : BDD) (a b r : Nat) : Prop :=
  ∀ f, a + b + 1 ≤ f → ∀ u : BDD, Ext s u → u.WF → apply fn f u a b = some (r, u)

/-- Every entry of the memoization table is a pair that is done, with its
result. -/
def CacheRedo (fn : Nat → Nat → Nat) (s : BDD) (c : Cache) : Prop :=
  ∀ a b r, c.lookup (a, b) = some r →
    s.Valid a ∧ s.Valid b ∧ s.Valid r ∧ (s.deref r).var ≤ max (s.deref a).var (s.deref b).var ∧
    Redo fn s a b r

/-- What the split branch of the loops of `getBinaryFnResult` and
`hasConstantResult` relies on, for the pair `(n1, n2)` in the state `s`: the
assertion `ASS_GE(splitVar,0)`, and, for a side whose `_pos` and `_neg` are read
(its variable is the split variable), that the pointer is an internal node of
the node set and that its two children are nodes of the engine. -/
def splitOK (s : BDD) (n1 n2 : Nat) : Bool :=
  decide (0 ≤ max (s.deref n1).var (s.deref n2).var) &&
  (decide ((s.deref n1).var ≠ max (s.deref n1).var (s.deref n2).var) ||
    (decide (3 ≤ n1) && decide (n1 < s.nodes.length + 3) &&
      decide (0 < (s.deref n1).pos) && decide ((s.deref n1).pos < s.nodes.length + 3) &&
      decide (0 < (s.deref n1).neg) && decide ((s.deref n1).neg < s.nodes.length + 3))) &&
  (decide ((s.deref n2).var ≠ max (s.deref n1).var (s.deref n2).var) ||
    (decide (3 ≤ n2) && decide (n2 < s.nodes.length + 3) &&
      decide (0 < (s.deref n2).pos) && decide ((s.deref n2).pos < s.nodes.length + 3) &&
      decide (0 < (s.deref n2).neg) && decide ((s.deref n2).neg < s.nodes.length + 3)))

/-- The `for(;;)` loop of `getBinaryFnResult` with the assertion of its split
branch checked: the iterations are those of `loop`, but an iteration that splits
goes on only when `splitOK` holds for the pair it splits; when it does not, the
assertion `ASS_GE(splitVar,0)` fails or a pointer that is not an internal node
is followed, and the result is `none`, as when the fuel runs out. -/
def loopAss (fn : Nat → Nat → Nat) : Nat → Loop → Option (Nat × BDD)
  | 0, _ => none
  | fuel + 1, st =>
    let counter := if st.counter + 1 = 50000 then 0 else st.counter + 1
    let res := fn st.n1 st.n2
    let found : Option Nat := if res ≠ 0 then some res else st.cache.lookup (st.n1, st.n2)
    match found with
    | some res =>
      match collapse counter res st.results st.vars st.cache st.bdd with
      | none => none
      | some (res, results, vars, cache, s) =>
        match st.toDo with
        | [] => some (res, s)
        | [_] => none
        | n1 :: n2 :: toDo =>
          loopAss fn fuel ⟨n1, n2, toDo, res :: results, vars, cache, counter, s⟩
    | none =>
      if splitOK st.bdd st.n1 st.n2 then
        let d1 := st.bdd.deref st.n1
        let d2 := st.bdd.deref st.n2
        let splitVar := max d1.var d2.var
        let toDo := (if d2.var = splitVar then d2.neg else st.n2) :: st.toDo
        let toDo := (if d1.var = splitVar then d1.neg else st.n1) :: toDo
        loopAss fn fuel
          ⟨if d1.var = splitVar then d1.pos else st.n1,
           if d2.var = splitVar then d2.pos else st.n2,
           toDo, 0 :: st.n1 :: st.n2 :: st.results, splitVar :: st.vars,
           st.cache, counter, st.bdd⟩
      else none

/-- What remains of an iteration of `loopAss` once `res` is known, as
`afterFound` for `loop`. -/
def afterFoundAss (fn : Nat → Nat → Nat) (fuel counter res : Nat) (toDo results : List Nat)
    (vars : List Int) (cache : Cache) (s : BDD) : Option (Nat × BDD) :=
  match collapse counter res results vars cache s with
  | none => none
  | some (res, results, vars, cache, s) =>
    match toDo with
    | [] => some (res, s)
    | [_] => none
    | n1 :: n2 :: toDo => loopAss fn fuel ⟨n1, n2, toDo, res :: results, vars, cache, counter, s⟩

/-- The `for(;;)` loop of `hasConstantResult` with the assertion of its split
branch checked: the iterations are those of `constLoop`, but an iteration that
splits (the operator did not answer and the pair is not in the table) goes on
only when `splitOK` holds for the pair; when it does not, the result is
`none`. -/
def constLoopAss (fn : Nat → Nat → Nat) (s : BDD) (resValue : Bool) :
    Nat → ConstLoop → Option Bool
  | 0, _ => none
  | fuel + 1, st =>
    let counter := if st.counter + 1 = 50000 then 0 else st.counter + 1
    let res := fn st.n1 st.n2
    let d1 := s.deref st.n1
    let d2 := s.deref st.n2
    let splitVar := max d1.var d2.var
    if res = 0 ∧ st.cache.contains (st.n1, st.n2) = false ∧ splitOK s st.n1 st.n2 = false
    then none
    else
      let body : Option (List Nat × List (Nat × Nat)) :=
        if res ≠ 0 then
          if (resValue && !isTrue res) || (!resValue && !isFalse res) then none
          else some (st.toDo, st.cache)
        else if st.cache.contains (st.n1, st.n2) then some (st.toDo, st.cache)
        else
          some ((if d1.var = splitVar then d1.pos else st.n1) ::
                (if d2.var = splitVar then d2.pos else st.n2) ::
                (if d1.var = splitVar then d1.neg else st.n1) ::
                (if d2.var = splitVar then d2.neg else st.n2) :: st.toDo,
            if counter % 4 = 0 then (st.n1, st.n2) :: st.cache else st.cache)
      match body with
      | none => some false
      | some (toDo, cache) =>
        match toDo with
        | [] => some true
        | [_] => none
        | n1 :: n2 :: toDo => constLoopAss fn s resValue fuel ⟨n1, n2, toDo, cache, counter⟩

/-- The end of an iteration of `constLoopAss` that did not return `false`, as
`constNext` for `constLoop`. -/
def constNextAss (fn : Nat → Nat → Nat) (s : BDD) (resValue : Bool) (fuel : Nat)
    (toDo : List Nat) (cache : List (Nat × Nat)) (counter : Nat) : Option Bool :=
  match toDo with
  | [] => some true
  | [_] => none
  | n1 :: n2 :: toDo => constLoopAss fn s resValue fuel ⟨n1, n2, toDo, cache, counter⟩

end BDD

namespace BDDConjunction

/-- The walk from `a` under the assignment `asg` passes through `b`: at every
inner node it takes `_pos` when the variable is true and `_neg` otherwise. -/
inductive Walk (s : BDD) (asg : Nat → Bool) (a : Nat) : Nat → Prop
  | refl : Walk s asg a a
  | tail {b : Nat} : Walk s asg a b → 3 ≤ b →
      Walk s asg a (if asg (s.deref b).var.toNat then (s.deref b).pos else (s.deref b).neg)

/-- The invariant of the first walk of `findNextSatAssignment`: the walk from
`n0` under the current assignment passes through the current node `n` and
through every node of the stack `decPnts`; the nodes of the stack are inner
nodes whose variable is false, with variables above the variable of `n`,
increasing from the top of the stack down. -/
def SeekInv (s : BDD) (n0 : Nat) (asg : Nat → Bool) (n : Nat) (decPnts : List Nat) : Prop :=
  Walk s asg n0 n ∧
  (∀ d ∈ decPnts, Walk s asg n0 d ∧ 3 ≤ d ∧ asg (s.deref d).var.toNat = false ∧
    (s.deref n).var < (s.deref d).var) ∧
  decPnts.Pairwise (fun d e => (s.deref d).var < (s.deref e).var)

/-- The runs of an aggregator: `Run s c added` says that the aggregator `c` is
what a new `BDDConjunction` became after `addNode` was called, in this order
from the last to the first, on the nodes `added`; `s` is the engine state, which
may have grown between the calls. -/
inductive Run : BDD → BDDConjunction → List Nat → Prop
  | fresh {s : BDD} : s.Reach → Run s fresh []
  | grow {s t : BDD} {c : BDDConjunction} {added : List Nat} :
      Run s c added → s.Ext t → t.Reach → Run t c added
  | add {s : BDD} {c c' : BDDConjunction} {added : List Nat} {fuel n : Nat} :
      Run s c added → s.Valid n → c.addNode fuel s n = some c' → Run s c' (n :: added)

/-- Successive calls of `addNode`, on the nodes of the list from the first to
the last. -/
def addNodes (fuel : Nat) (s : BDD) : BDDConjunction → List Nat → Option BDDConjunction
  | c, [] => some c
  | c, n :: rest =>
    match c.addNode fuel s n with
    | none => none
    | some c' => addNodes fuel s c' rest

/-- The engine state of the run that latches a satisfiable conjunction: on a
new engine, `getAtomic(1,true)`, `getAtomic(0,true)` and their `disjunction`
(the node at address `5`), then `getAtomic(2,false)`, `getAtomic(0,false)` and
their `conjunction` (the node at address `8`). -/
def latchState : BDD :=
  ⟨3, [⟨1, 1, 2⟩, ⟨0, 1, 2⟩, ⟨1, 1, 4⟩, ⟨2, 2, 1⟩, ⟨0, 2, 1⟩, ⟨2, 2, 7⟩]⟩

/-- The call `findNextSatAssignment(n, assignmentChanged)` that `addNode(n)`
makes first, when the aggregator is not unsat and `n` is not a constant node. -/
def firstCheck (fuel : Nat) (s : BDD) (c : BDDConjunction) (n : Nat) :
    Option (Bool × Bool × BDDConjunction) :=
  let c : BDDConjunction :=
    if (s.deref n).var > c.maxVar then { c with maxVar := (s.deref n).var } else c
  findNextSatAssignment fuel s { c with nodes := n :: c.nodes } n

/-- The assignment read as a binary number, variable `i` as bit `i`, over the
variables below `k`. -/
def value (asg : Nat → Bool) : Nat → Nat
  | 0 => 0
  | k + 1 => value asg k + if asg k then 2 ^ k else 0

/-- The runs of an aggregator with the list of the nodes it took in:
`Kept s c l` says that `c` is what a new `BDDConjunction` became after calls of
`addNode`, and `l` lists, the last first, the non-constant nodes that were
passed to `addNode` while the aggregator was not unsat. -/
inductive Kept : BDD → BDDConjunction → List Nat → Prop
  | fresh {s : BDD} : s.Reach → Kept s fresh []
  | grow {s t : BDD} {c : BDDConjunction} {l : List Nat} :
      Kept s c l → s.Ext t → t.Reach → Kept t c l
  | skip {s : BDD} {c c' : BDDConjunction} {l : List Nat} {fuel n : Nat} :
      Kept s c l → s.Valid n → (c.isFalse = true ∨ s.isConstant n = true) →
      c.addNode fuel s n = some c' → Kept s c' l
  | add {s : BDD} {c c' : BDDConjunction} {l : List Nat} {fuel n : Nat} :
      Kept s c l → s.Valid n → c.isFalse = false → s.isConstant n = false →
      c.addNode fuel s n = some c' → Kept s c' (n :: l)

/-- The engine state of the run on which the assignment comes back to what it
was: on a new engine, `getAtomic(3,true)` (address `3`), `getAtomic(0,true)`
(address `4`), their `disjunction` (address `5`), their `conjunction` (address
`6`) and `getAtomic(0,false)` (address `7`). -/
def returnState : BDD :=
  ⟨4, [⟨3, 1, 2⟩, ⟨0, 1, 2⟩, ⟨3, 1, 4⟩, ⟨3, 4, 2⟩, ⟨0, 2, 1⟩]⟩

/-- The body of `findNextSatAssignment` with the assertion
`ASS(!_assignment[changed])` checked: the steps are those of `satSeek`, but a
change of the assignment is made only when the variable `changed` is false; when
it is true the assertion fails and the result is `none`, as when the fuel runs
out. -/
def satSeekAss (s : BDD) (n0 : Nat) :
    Nat → Nat → List Nat → Bool → BDDConjunction → Option (Bool × Bool × BDDConjunction)
  | 0, _, _, _, _ => none
  | fuel + 1, n, decPnts, changed, c =>
    if !s.isConstant n then
      if c.assignment (s.deref n).var.toNat then
        satSeekAss s n0 fuel (s.deref n).pos decPnts changed c
      else
        satSeekAss s n0 fuel (s.deref n).neg (n :: decPnts) changed c
    else if BDD.isTrue n then
      match recordWalk s c.assignment fuel n0 c.decisionPnts with
      | none => none
      | some dp => some (true, changed, { c with decisionPnts := dp })
    else
      match decPnts with
      | [] =>
        match findLeastGreater c.decisionPnts (s.deref n0).var with
        | none => some (false, true, c)
        | some v =>
          if c.assignment v.toNat then none
          else satSeekAss s n0 fuel n0 [] true { c with assignment := flip c.assignment v }
      | decPnt :: decPnts =>
        if c.assignment (s.deref decPnt).var.toNat then none
        else
          satSeekAss s n0 fuel (s.deref decPnt).pos decPnts true
            { c with assignment := flip c.assignment (s.deref decPnt).var }

/-- `BDDConjunction::findNextSatAssignment` with the assertion
`ASS(!_assignment[changed])` checked. -/
def findNextSatAssignmentAss (fuel : Nat) (s : BDD) (c : BDDConjunction) (n0 : Nat) :
    Option (Bool × Bool × BDDConjunction) :=
  satSeekAss s n0 fuel n0 [] false c

/-- The `while(next)` loop of `addNode` with the assertion of
`findNextSatAssignment` checked: `addLoop` over `findNextSatAssignmentAss`. -/
def addLoopAss (s : BDD) (fuel : Nat) :
    Nat → List Nat → List Nat → BDDConjunction → Option BDDConjunction
  | 0, _, _, _ => none
  | _ + 1, _, [], c => some c
  | k + 1, front, x :: rest, c =>
    match findNextSatAssignmentAss fuel s c x with
    | none => none
    | some (false, _, c) => some { c with isFalse := true }
    | some (true, true, c) =>
      addLoopAss s fuel k [x] (front ++ rest)
        { c with nodes := x :: (front ++ rest), decisionPnts := [] }
    | some (true, false, c) => addLoopAss s fuel k (front ++ [x]) rest c

/-- `BDDConjunction::addNode` with the assertion `ASS(!_assignment[changed])` of
`findNextSatAssignment` checked: `addNode` over `findNextSatAssignmentAss` and
`addLoopAss`; the result is `none` when the assertion fails in one of the
checks. -/
def addNodeAss (fuel : Nat) (s : BDD) (c : BDDConjunction) (n : Nat) :
    Option BDDConjunction :=
  if c.isFalse then some c
  else if s.isConstant n then
    if BDD.isFalse n then some { c with isFalse := true } else some c
  else
    let c : BDDConjunction :=
      if (s.deref n).var > c.maxVar then { c with maxVar := (s.deref n).var } else c
    let next := c.nodes
    let c : BDDConjunction := { c with nodes := n :: c.nodes }
    match findNextSatAssignmentAss fuel s c n with
    | none => none
    | some (false, _, c) => some { c with isFalse := true }
    | some (true, false, c) => some c
    | some (true, true, c) => addLoopAss s fuel fuel [n] next c

/-- The assignment `b` is above the assignment `a` as a binary number, variable
`i` as bit `i`: at some variable `a` is false and `b` is true, and above that
variable they agree. -/
def Above (a b : Nat → Bool) : Prop :=
  ∃ v : Nat, a v = false ∧ b v = true ∧ ∀ i, v < i → b i = a i

/-- The bounds that `addNode` keeps: the nodes of the list are inner nodes of
the engine with variables up to `_maxVar`, no variable above `_maxVar` is true
in the assignment, and the remembered decision variables lie in
`[0, _maxVar]`. -/
def Bounded (s : BDD) (c : BDDConjunction) : Prop :=
  (∀ m ∈ c.nodes, s.Valid m ∧ 3 ≤ m ∧ (s.deref m).var ≤ c.maxVar) ∧
  (∀ i : Nat, c.maxVar < (i : Int) → c.assignment i = false) ∧
  (∀ v ∈ c.decisionPnts, 0 ≤ v ∧ v ≤ c.maxVar)

end BDDConjunction

end Kernel

/-!
# The index manager of `Indexing/IndexManager.cpp`

The manager keeps, for every requested index type, a pointer to the shared
index and a reference count.  Index objects live on the heap; an address is the
position of the object in the list of all objects allocated so far, and a
deleted object leaves `none` at its address.
-/

namespace Indexing

/-- Modelled from the spec: the enumeration `IndexType` of the missing
`IndexManager.hpp`: the seven tags of the switch of `IndexManager::create`, and
`other n` for every other value of the enumeration. -/
inductive IndexType
  | GENERATING_SUBST_TREE
  | SIMPLIFYING_SUBST_TREE
  | SIMPLIFYING_ATOMIC_CLAUSE_SUBST_TREE
  | SUPERPOSITION_SUBTERM_SUBST_TREE
  | SUPERPOSITION_LHS_SUBST_TREE
  | DEMODULATION_SUBTERM_SUBST_TREE
  | DEMODULATION_LHS_SUBST_TREE
  | other (n : Nat)
deriving DecidableEq, Repr

/-- The indexing structures `create` allocates. -/
inductive IndexingStructure
  | LiteralSubstitutionTree
  | CompitUnificationRecordingLiteralSubstitutionTree
  | TermSubstitutionTree
  | CompitUnificationRecordingTermSubstitutionTree
deriving DecidableEq, Repr

/-- The classes of the index objects `create` allocates. -/
inductive IndexClass
  | GeneratingLiteralIndex
  | SimplifyingLiteralIndex
  | AtomicClauseSimplifyingLiteralIndex
  | SuperpositionSubtermIndex
  | SuperpositionLHSIndex
  | DemodulationSubtermIndex
  | DemodulationLHSIndex
deriving DecidableEq, Repr

/-- The two clause containers of the saturation algorithm an index is attached
to: `getGenerationClauseContainer()` and `getSimplificationClauseContainer()`. -/
inductive Container
  | generation
  | simplification
deriving DecidableEq, Repr

/-- An index object as `create` leaves it: its class, its indexing structure and
the container it is attached to. -/
structure Index where
  cls : IndexClass
  indexingStructure : IndexingStructure
  container : Container
deriving DecidableEq, Repr

/-- Modelled from the spec: the record `IndexManager::Entry` of the missing
`IndexManager.hpp`: the pointer `index` and the `int` reference count
`refCnt`. -/
structure Entry where
  index : Nat
  refCnt : Int
deriving DecidableEq, Repr

/-- The exception `INVALID_OPERATION` throws. -/
inductive Exception
  | InvalidOperation (msg : String)
deriving DecidableEq, Repr

/-- An `int` after an arithmetic step: the value in `[-2^31, 2^31)` congruent to
`x` modulo `2^32`. -/
def intWrap (x : Int) : Int := (x + 2147483648) % 4294967296 - 2147483648

/-- Modelled from the spec: `DHMap::set` of the missing `Lib/DHMap.hpp`: the key
is bound to the value, whether it was stored before or not. -/
def storeSet (st : List (IndexType × Entry)) (t : IndexType) (e : Entry) :
    List (IndexType × Entry) :=
  (t, e) :: st.filter (fun p => p.1 ≠ t)

/-- Modelled from the spec: `DHMap::remove` of the missing `Lib/DHMap.hpp`. -/
def storeRemove (st : List (IndexType × Entry)) (t : IndexType) : List (IndexType × Entry) :=
  st.filter (fun p => p.1 ≠ t)

/-- The state of an `IndexManager`: the map `_store`, the heap of index objects,
and the value of the macro `COMPIT_GENERATOR`, which is fixed when the program
is built. -/
structure IndexManager where
  compitGenerator : Nat
  store : List (IndexType × Entry)
  heap : List (Option Index)
deriving DecidableEq, Repr

namespace IndexManager

/-- The switch of `IndexManager::create`: the index object built for a type, and
`none` in the `default:` case. -/
def newIndex (compitGenerator : Nat) : IndexType → Option Index
  | .GENERATING_SUBST_TREE =>
    some ⟨.GeneratingLiteralIndex,
      if compitGenerator = 2 then .CompitUnificationRecordingLiteralSubstitutionTree
      else .LiteralSubstitutionTree, .generation⟩
  | .SIMPLIFYING_SUBST_TREE =>
    some ⟨.SimplifyingLiteralIndex, .LiteralSubstitutionTree, .simplification⟩
  | .SIMPLIFYING_ATOMIC_CLAUSE_SUBST_TREE =>
    some ⟨.AtomicClauseSimplifyingLiteralIndex, .LiteralSubstitutionTree, .simplification⟩
  | .SUPERPOSITION_SUBTERM_SUBST_TREE =>
    some ⟨.SuperpositionSubtermIndex,
      if compitGenerator = 1 then .CompitUnificationRecordingTermSubstitutionTree
      else .TermSubstitutionTree, .generation⟩
  | .SUPERPOSITION_LHS_SUBST_TREE =>
    some ⟨.SuperpositionLHSIndex, .TermSubstitutionTree, .generation⟩
  | .DEMODULATION_SUBTERM_SUBST_TREE =>
    some ⟨.DemodulationSubtermIndex, .TermSubstitutionTree, .simplification⟩
  | .DEMODULATION_LHS_SUBST_TREE =>
    some ⟨.DemodulationLHSIndex, .TermSubstitutionTree, .simplification⟩
  | .other _ => none

/-- `IndexManager::create`: the new index object is put on the heap and its
address returned; the `default:` case throws. -/
def create (m : IndexManager) (t : IndexType) : Except Exception (Nat × IndexManager) :=
  match newIndex m.compitGenerator t with
  | some idx => .ok (m.heap.length, { m with heap := m.heap ++ [some idx] })
  | none => .error (.InvalidOperation "Unsupported IndexType.")

/-- `IndexManager::request`. -/
def request (m : IndexManager) (t : IndexType) : Except Exception (Nat × IndexManager) :=
  match m.store.lookup t with
  | some e =>
    let e : Entry := { e with refCnt := intWrap (e.refCnt + 1) }
    .ok (e.index, { m with store := storeSet m.store t e })
  | none =>
    match m.create t with
    | .error x => .error x
    | .ok (p, m1) =>
      let e : Entry := ⟨p, 1⟩
      .ok (e.index, { m1 with store := storeSet m1.store t e })

/-- `IndexManager::release`.  `_store.get(t)` of a type that is not stored has no
defined result: `none`. -/
def release (m : IndexManager) (t : IndexType) : Option IndexManager :=
  match m.store.lookup t with
  | none => none
  | some e =>
    let e : Entry := { e with refCnt := intWrap (e.refCnt - 1) }
    if e.refCnt = 0 then
      some { m with heap := m.heap.set e.index none, store := storeRemove m.store t }
    else
      some { m with store := storeSet m.store t e }

/-- `IndexManager::contains`. -/
def contains (m : IndexManager) (t : IndexType) : Bool :=
  (m.store.lookup t).isSome

/-- The type is one of the seven cases of the switch of `create`. -/
def Supported (t : IndexType) : Prop := ∀ n, t ≠ .other n

/-- `k` calls of `request(t)`, one after the other; the result is the manager
after the last call. -/
def requests : Nat → IndexManager → IndexType → Except Exception IndexManager
  | 0, m, _ => .ok m
  | k + 1, m, t =>
    match m.request t with
    | .error x => .error x
    | .ok (_, m1) => requests k m1 t

/-- `j` calls of `release(t)`, one after the other. -/
def releases : Nat → IndexManager → IndexType → Option IndexManager
  | 0, m, _ => some m
  | j + 1, m, t =>
    match m.release t with
    | none => none
    | some m1 => releases j m1 t

/-- The managers a sequence of calls produces: a new manager, with an empty
store and no index allocated, then calls of `request` and `release` that
return. -/
inductive Reach : IndexManager → Prop
  | new (compitGenerator : Nat) : Reach ⟨compitGenerator, [], []⟩
  | request {m m' : IndexManager} {t : IndexType} {p : Nat} :
      Reach m → m.request t = .ok (p, m') → Reach m'
  | release {m m' : IndexManager} {t : IndexType} :
      Reach m → m.release t = some m' → Reach m'

end IndexManager

end Indexing

/-! ## The top-level procedures (`vampire.cpp`) -/

namespace Shell

/-- `Statistics::TerminationReason` of `Shell/Statistics.hpp`. -/
inductive TerminationReason
  | REFUTATION
  | SATISFIABLE
  | UNKNOWN
  | TIME_LIMIT
  | MEMORY_LIMIT
  deriving DecidableEq, Repr

/-- `Shell::Statistics`, the two fields that `vampire.cpp` reads and writes; the
counters are read by `Statistics::print` only.  `refutation` is a pointer, `0`
the null pointer. -/
structure Statistics where
  terminationReason : TerminationReason
  refutation : Nat
  deriving DecidableEq, Repr

/-- Modelled from the spec: `Options::Mode` of the missing `Shell/Options.hpp`
(`--mode vampire|spider`); `other` stands for any further enumerator. -/
inductive Mode
  | MODE_VAMPIRE
  | MODE_SPIDER
  | other (n : Nat)
  deriving DecidableEq, Repr

/-- Modelled from the spec: `Options::Proof` of the missing
`Shell/Options.hpp`; `vampire.cpp` compares it with `PROOF_OFF` only. -/
inductive Proof
  | PROOF_OFF
  | other (n : Nat)
  deriving DecidableEq, Repr

/-- Modelled from the spec: the getters of the missing `Shell/Options.hpp`
that `vampire.cpp` calls. -/
structure Options where
  mode : Mode
  proof : Proof
  memoryLimit : Nat
  inputFile : String
  problemName : String
  testId : String
  deriving DecidableEq, Repr

end Shell

namespace Vampire

open Shell

/-- The exceptions that reach the handlers of `vampire.cpp`.  Modelled from the
spec: the classes of the missing `Lib/Exception.hpp`, where `UserErrorException`,
`TimeLimitExceededException` and `MemoryLimitExceededException` derive from
`Exception`; `Exception msg` is every other exception derived from `Exception`
(`InvalidOperationException` is one), `other` an exception of no class named in a
handler. -/
inductive Thrown
  | AssertionViolationException
  | UserErrorException (msg : String)
  | MemoryLimitExceededException
  | TimeLimitExceededException
  | Exception (msg : String)
  | bad_alloc
  | other
  deriving DecidableEq, Repr

/-- The part of the global `env` and of the allocator that the top-level
procedures use: the text written to `env.out` so far, `*env.options`,
`*env.statistics` and the memory limit of `Allocator` (a `size_t`). -/
structure Environment where
  out : String
  options : Options
  statistics : Statistics
  memoryLimit : Nat
  deriving DecidableEq, Repr

/-- What `vampire.cpp` calls and does not define.  `interpret` is the outcome
of `CommandLine::interpret` on the command line, `newStatistics` the value
built by `Statistics::Statistics()`, `body` the `try` block of `doProving`
(parsing, preprocessing, saturation and `updateStatistics`) as a function from
the environment before it to the environment it leaves and the exception it
throws, if any; `elapsedDeciseconds` and `gBDDTime` are the `int` readings that
`spiderMode` prints, `outputProof`, `print` and `cry` the texts written by
`InferenceStore::outputProof`, `Statistics::print` and `Exception::cry`;
`vdebug` is the compile-time switch `VDEBUG`. -/
structure World where
  interpret : Except Thrown Options
  newStatistics : Statistics
  body : Environment → Environment × Option Thrown
  elapsedDeciseconds : Int
  gBDDTime : Int
  outputProof : Nat → String
  print : Statistics → String
  cry : Thrown → String
  vdebug : Bool

/-- `EXIT_SUCCESS` of `<cstdlib>`. -/
def EXIT_SUCCESS : Int := 0

/-- `doProving`: the two budget exceptions are caught, every other exception
leaves the function. -/
def doProving (w : World) (env : Environment) : Environment × Option Thrown :=
  match w.body env with
  | (e, some .MemoryLimitExceededException) =>
    ({ e with
        statistics := { e.statistics with terminationReason := .MEMORY_LIMIT, refutation := 0 },
        memoryLimit := (e.memoryLimit + 1000000) % 2 ^ 64 }, none)
  | (e, some .TimeLimitExceededException) =>
    ({ e with
        statistics := { e.statistics with terminationReason := .TIME_LIMIT, refutation := 0 } },
      none)
  | r => r

/-- `outputResult`; the usage report of the `VDEBUG` build is left out. -/
def outputResult (w : World) (env : Environment) : Environment :=
  let out :=
    match env.statistics.terminationReason with
    | .REFUTATION =>
      let out := env.out ++ "Refutation found. Thanks to Tanya!\n"
      if env.options.proof ≠ .PROOF_OFF then out ++ w.outputProof env.statistics.refutation
      else out
    | .TIME_LIMIT => env.out ++ "Time limit reached!\n"
    | .MEMORY_LIMIT => env.out ++ "Memory limit exceeded!\n"
    | _ => env.out ++ "Refutation not found!\n"
  { env with out := out ++ w.print env.statistics }

/-- `vampireMode`; `cout` and `env.out` are one stream. -/
def vampireMode (w : World) (env : Environment) : Environment × Option Thrown :=
  let env :=
    { env with out := env.out ++ env.options.testId ++ " on " ++ env.options.inputFile ++ "\n" }
  match doProving w env with
  | (e, some x) => (e, some x)
  | (e, none) =>
    let e := outputResult w e
    ({ e with out := e.out ++ "Time spent on BDDs: " ++ toString w.gBDDTime ++ "\n" }, none)

/-- `spiderMode`. -/
def spiderMode (w : World) (env : Environment) : Environment × Option Thrown :=
  match doProving w env with
  | (e, some x) => (e, some x)
  | (e, none) =>
    let out :=
      match e.statistics.terminationReason with
      | .REFUTATION => e.out ++ "+ "
      | .TIME_LIMIT => e.out ++ "? "
      | .MEMORY_LIMIT => e.out ++ "? "
      | _ => e.out ++ "- "
    let out := out ++ e.options.problemName ++ " "
    let out := out ++ toString w.elapsedDeciseconds ++ " "
    let out := out ++ e.options.testId ++ " " ++ toString w.gBDDTime ++ "\n"
    ({ e with out := out }, none)

/-- `explainException`. -/
def explainException (w : World) (exception : Thrown) (out : String) : String :=
  out ++ w.cry exception

/-- The `try` block of `main`, started with the text `out` already written:
the text written when the block is left, `*env.statistics` if the block got as
far as setting it, and the exception that left the block, if any. -/
def mainTry (w : World) (out : String) : String × Option Statistics × Option Thrown :=
  match w.interpret with
  | .error x => (out, none, some x)
  | .ok options =>
    let env : Environment :=
      ⟨out, options, w.newStatistics, (options.memoryLimit * 1048576) % 2 ^ 64⟩
    match options.mode with
    | .MODE_VAMPIRE =>
      let r := vampireMode w env
      (r.1.out, some r.1.statistics, r.2)
    | .MODE_SPIDER =>
      let r := spiderMode w env
      (r.1.out, some r.1.statistics, r.2)
    | .other _ =>
      (out, some env.statistics, if w.vdebug then some .AssertionViolationException else none)

/-- `main`: the exit code and the text written, `none` when `main` does not
return (an exception that no handler catches, or the handler of `Exception`
reading `env.statistics` before the `try` block has set it). -/
def main (w : World) (out : String) : Option (Int × String) :=
  match mainTry w out with
  | (out, _, none) => some (EXIT_SUCCESS, out)
  | (out, _, some .AssertionViolationException) =>
    if w.vdebug then some (EXIT_SUCCESS, out) else none
  | (out, _, some (.UserErrorException msg)) =>
    some (EXIT_SUCCESS, explainException w (.UserErrorException msg) out)
  | (out, _, some .bad_alloc) => some (EXIT_SUCCESS, out ++ "Insufficient system memory" ++ "\n")
  | (_, _, some .other) => none
  | (_, none, some _) => none
  | (out, some statistics, some x) =>
    some (EXIT_SUCCESS, explainException w x out ++ w.print statistics)

/-- A command line that asks for the terse mode. -/
def spiderOptions : Options := ⟨.MODE_SPIDER, .PROOF_OFF, 100, "p.tptp", "p", "t1"⟩

/-- A run in the terse mode whose proof search hits the deadline after 12
deciseconds. -/
def timeLimitWorld : World :=
  ⟨.ok spiderOptions, ⟨.UNKNOWN, 0⟩, fun e => (e, some .TimeLimitExceededException), 12, 3,
    fun _ => "", fun _ => "", fun _ => "", false⟩

/-- A run whose command line has an unknown option. -/
def userErrorWorld : World :=
  ⟨.error (.UserErrorException "unknown option"), ⟨.UNKNOWN, 0⟩, fun e => (e, none), 0, 0,
    fun _ => "", fun _ => "",
    fun x =>
      match x with
      | .UserErrorException msg => "User error: " ++ msg ++ "\n"
      | _ => "",
    false⟩

end Vampire

/-!
# The subexpression iterator of `Shell/SubexpressionIterator.cpp`

The iterator keeps a stack of expressions still to visit; `next` pops one and
pushes its immediate subexpressions, each with a polarity.
-/

namespace Kernel

mutual
/-- Modelled from the spec: `Kernel::TermList` of the missing `Kernel/Term.hpp`,
by the calls the iterator makes (`isTerm`, `term`): a variable, a pointer to a
term, or the empty mark that ends an argument array. -/
inductive TermList
  | var (n : Nat)
  | term (t : Term)
  | empty
/-- Modelled from the spec: the argument array of a term or literal of the
missing `Kernel/Term.hpp`, in the order of `Term::Iterator`. -/
inductive TermArgs
  | nil
  | cons (head : TermList) (tail : TermArgs)
/-- Modelled from the spec: `Kernel::Term` of the missing `Kernel/Term.hpp`: a
function application (symbol id and arguments), or a special term, given by the
type of its `SpecialTermData` together with the data and the arguments that the
iterator reads: `getFormula` for `SF_FORMULA`; `getCondition`, `nthArgument(0)`
and `nthArgument(1)` for `SF_ITE`; `getBinding` and `nthArgument(0)` for `SF_LET`
and `SF_LET_TUPLE`; `getTupleTerm` for `SF_TUPLE`; `special n` is a special term
of any other type. -/
inductive Term
  | app (functor : Nat) (args : TermArgs)
  | SF_FORMULA (formula : Formula)
  | SF_ITE (condition : Formula) (arg0 arg1 : TermList)
  | SF_LET (binding : TermList) (arg0 : TermList)
  | SF_LET_TUPLE (binding : TermList) (arg0 : TermList)
  | SF_TUPLE (tupleTerm : Term)
  | special (n : Nat)
/-- Modelled from the spec: `Kernel::Formula` of the missing
`Kernel/Formula.hpp`, by connective, with the parts that the iterator reads
(`literal()->args()`, `args`, `left`, `right`, `uarg`, `qarg`,
`getBooleanTerm`); `other n` is a formula of any other connective. -/
inductive Formula
  | LITERAL (predicate : Nat) (positive : Bool) (args : TermArgs)
  | AND (args : FormulaList)
  | OR (args : FormulaList)
  | IMP (left right : Formula)
  | IFF (left right : Formula)
  | XOR (left right : Formula)
  | NOT (uarg : Formula)
  | FORALL (vars : List Nat) (qarg : Formula)
  | EXISTS (vars : List Nat) (qarg : Formula)
  | BOOL_TERM (booleanTerm : TermList)
  | other (n : Nat)
/-- Modelled from the spec: `FormulaList`, the linked list of formulas that
`FormulaList::Iterator` walks from the head. -/
inductive FormulaList
  | nil
  | cons (head : Formula) (tail : FormulaList)
end

end Kernel

namespace Shell

open Kernel

namespace SubexpressionIterator

/-- Modelled from the spec: the class `Expression` of the missing
`SubexpressionIterator.hpp`: the tag with the formula, term or term list it
stands for, and the polarity. -/
inductive Expression
  | FORMULA (formula : Formula) (polarity : Int)
  | TERM (term : Term) (polarity : Int)
  | TERM_LIST (termList : TermList) (polarity : Int)

/-- Modelled from the spec: the polarity that the constructors
`Expression(Formula*)`, `Expression(Term*)` and `Expression(TermList)` of the
missing `SubexpressionIterator.hpp` give when no polarity is passed; the values
are parameters of the model. -/
structure Defaults where
  formula : Int
  term : Int
  termList : Int

/-- The value of `-polarity`, an `int`. -/
def negate (polarity : Int) : Int := Indexing.intWrap (-polarity)

/-- The value of `*f->literal()->args()`: the first argument, or the empty mark
when there is none. -/
def firstArg : TermArgs → TermList
  | .nil => .empty
  | .cons ts _ => ts

/-- The loop `while (args.hasNext()) push(new Expression(args.next(), polarity))`
over a list of formulas; the stack is a list with the top first. -/
def pushFormulas (polarity : Int) : FormulaList → List Expression → List Expression
  | .nil, st => st
  | .cons f rest, st => pushFormulas polarity rest (.FORMULA f polarity :: st)

/-- The loop `while (args.hasNext()) push(new Expression(args.next()))` over the
arguments of a term. -/
def pushTerms (d : Defaults) : TermArgs → List Expression → List Expression
  | .nil, st => st
  | .cons ts rest, st => pushTerms d rest (.TERM_LIST ts d.termList :: st)

/-- The `switch` of `SubexpressionIterator::next`: the stack after the pushes
made for the popped `expression`, from the stack `st` left by the pop.  The
assertion of the `VDEBUG` build on a special term of another type is left
out. -/
def push (d : Defaults) (expression : Expression) (st : List Expression) : List Expression :=
  match expression with
  | .FORMULA f polarity =>
    match f with
    | .LITERAL _ _ args => .TERM_LIST (firstArg args) d.termList :: st
    | .AND args => pushFormulas polarity args st
    | .OR args => pushFormulas polarity args st
    | .IMP left right => .FORMULA right polarity :: .FORMULA left (negate polarity) :: st
    | .IFF left right => .FORMULA right 0 :: .FORMULA left 0 :: st
    | .XOR left right => .FORMULA right 0 :: .FORMULA left 0 :: st
    | .NOT uarg => .FORMULA uarg (negate polarity) :: st
    | .FORALL _ qarg => .FORMULA qarg polarity :: st
    | .EXISTS _ qarg => .FORMULA qarg polarity :: st
    | .BOOL_TERM ts => .TERM_LIST ts polarity :: st
    | .other _ => st
  | .TERM term polarity =>
    match term with
    | .SF_FORMULA formula => .FORMULA formula polarity :: st
    | .SF_ITE condition arg0 arg1 =>
      .TERM_LIST arg1 polarity :: .TERM_LIST arg0 polarity :: .FORMULA condition 0 :: st
    | .SF_LET binding arg0 => .TERM_LIST arg0 polarity :: .TERM_LIST binding 0 :: st
    | .SF_LET_TUPLE binding arg0 => .TERM_LIST arg0 polarity :: .TERM_LIST binding 0 :: st
    | .SF_TUPLE tupleTerm => .TERM tupleTerm d.term :: st
    | .special _ => st
    | .app _ args => pushTerms d args st
  | .TERM_LIST ts _ =>
    match ts with
    | .term t => .TERM t d.term :: st
    | _ => st

end SubexpressionIterator

/-- The class `SubexpressionIterator`: the stack `_subexpressions`, top first. -/
structure SubexpressionIterator where
  subexpressions : List SubexpressionIterator.Expression

namespace SubexpressionIterator

/-- `SubexpressionIterator::SubexpressionIterator(Formula* f)`. -/
def new (d : Defaults) (f : Formula) : SubexpressionIterator :=
  ⟨[.FORMULA f d.formula]⟩

/-- `SubexpressionIterator::hasNext`. -/
def hasNext (it : SubexpressionIterator) : Bool := !it.subexpressions.isEmpty

/-- `SubexpressionIterator::next`: the popped expression, which is returned,
and the iterator after the pushes; `none` on an empty stack, where
`ASS(hasNext())` fails. -/
def next (d : Defaults) (it : SubexpressionIterator) :
    Option (Expression × SubexpressionIterator) :=
  match it.subexpressions with
  | [] => none
  | expression :: st => some (expression, ⟨push d expression st⟩)

end SubexpressionIterator

/-- Modelled from the spec: the class `SubformulaIterator` of the missing
`SubexpressionIterator.hpp`: the subexpression iterator `_sei` and the fields
`_next` and `_polarity`, which hold nothing before the first call of
`hasNext`. -/
structure SubformulaIterator where
  sei : SubexpressionIterator
  next : Option Formula
  polarity : Option Int

namespace SubformulaIterator

open SubexpressionIterator

/-- Modelled from the spec: the constructor `SubformulaIterator(Formula* f)` of
the missing `SubexpressionIterator.hpp`, which builds `_sei` from `f`. -/
def new (d : Defaults) (f : Formula) : SubformulaIterator :=
  ⟨SubexpressionIterator.new d f, none, none⟩

/-- `SubformulaIterator::hasNext`; each iteration of the `while` loop uses one
unit of `fuel`.  The match on the tag `FORMULA` stands for `isFormula()`,
`getFormula()` and `getPolarity()`. -/
def hasNext (d : Defaults) : Nat → SubformulaIterator → Option (Bool × SubformulaIterator)
  | 0, _ => none
  | fuel + 1, it =>
    if it.sei.hasNext then
      match it.sei.next d with
      | none => none
      | some (.FORMULA f polarity, sei) => some (true, ⟨sei, some f, some polarity⟩)
      | some (_, sei) => hasNext d fuel { it with sei := sei }
    else some (false, it)

end SubformulaIterator

end Shell

/-! ## Notions used to state the properties of the iterators -/

namespace Kernel

mutual
/-- The size of a term list: the number of nodes of the tree below it. -/
def TermList.size : TermList → Nat
  | .var _ => 1
  | .term t => t.size + 1
  | .empty => 1
/-- The sum of the sizes of the arguments. -/
def TermArgs.size : TermArgs → Nat
  | .nil => 0
  | .cons head tail => head.size + tail.size
/-- The size of a term. -/
def Term.size : Term → Nat
  | .app _ args => args.size + 1
  | .SF_FORMULA formula => formula.size + 1
  | .SF_ITE condition arg0 arg1 => condition.size + arg0.size + arg1.size + 1
  | .SF_LET binding arg0 => binding.size + arg0.size + 1
  | .SF_LET_TUPLE binding arg0 => binding.size + arg0.size + 1
  | .SF_TUPLE tupleTerm => tupleTerm.size + 1
  | .special _ => 1
/-- The size of a formula. -/
def Formula.size : Formula → Nat
  | .LITERAL _ _ args => args.size + 2
  | .AND args => args.size + 1
  | .OR args => args.size + 1
  | .IMP left right => left.size + right.size + 1
  | .IFF left right => left.size + right.size + 1
  | .XOR left right => left.size + right.size + 1
  | .NOT uarg => uarg.size + 1
  | .FORALL _ qarg => qarg.size + 1
  | .EXISTS _ qarg => qarg.size + 1
  | .BOOL_TERM ts => ts.size + 1
  | .other _ => 1
/-- The sum of the sizes of the formulas of a list. -/
def FormulaList.size : FormulaList → Nat
  | .nil => 0
  | .cons head tail => head.size + tail.size
end

mutual
/-- A term list without special terms. -/
def TermList.plain : TermList → Bool
  | .var _ => true
  | .term t => t.plain
  | .empty => true
/-- Arguments without special terms. -/
def TermArgs.plain : TermArgs → Bool
  | .nil => true
  | .cons head tail => head.plain && tail.plain
/-- A term without special terms. -/
def Term.plain : Term → Bool
  | .app _ args => args.plain
  | _ => false
/-- A formula built from literals without special terms with the connectives
`AND`, `OR`, `IMP`, `IFF`, `XOR`, `NOT`, `FORALL` and `EXISTS`. -/
def Formula.plain : Formula → Bool
  | .LITERAL _ _ args => args.plain
  | .AND args => args.plain
  | .OR args => args.plain
  | .IMP left right => left.plain && right.plain
  | .IFF left right => left.plain && right.plain
  | .XOR left right => left.plain && right.plain
  | .NOT uarg => uarg.plain
  | .FORALL _ qarg => qarg.plain
  | .EXISTS _ qarg => qarg.plain
  | .BOOL_TERM _ => false
  | .other _ => false
/-- A list of such formulas. -/
def FormulaList.plain : FormulaList → Bool
  | .nil => true
  | .cons head tail => head.plain && tail.plain
end

/-- The formulas of a `FormulaList`, from the head. -/
def FormulaList.toList : FormulaList → List Formula
  | .nil => []
  | .cons head tail => head :: tail.toList

mutual
/-- The subformula occurrences of a formula built with the connectives, the
formula itself first: one entry for every occurrence. -/
def Formula.subformulas : Formula → List Formula
  | .LITERAL predicate positive args => [.LITERAL predicate positive args]
  | .AND args => .AND args :: args.subformulas
  | .OR args => .OR args :: args.subformulas
  | .IMP left right => .IMP left right :: (left.subformulas ++ right.subformulas)
  | .IFF left right => .IFF left right :: (left.subformulas ++ right.subformulas)
  | .XOR left right => .XOR left right :: (left.subformulas ++ right.subformulas)
  | .NOT uarg => .NOT uarg :: uarg.subformulas
  | .FORALL vars qarg => .FORALL vars qarg :: qarg.subformulas
  | .EXISTS vars qarg => .EXISTS vars qarg :: qarg.subformulas
  | .BOOL_TERM ts => [.BOOL_TERM ts]
  | .other n => [.other n]
/-- The subformula occurrences of the formulas of a list. -/
def FormulaList.subformulas : FormulaList → List Formula
  | .nil => []
  | .cons head tail => head.subformulas ++ tail.subformulas
end

/-- The formula `g` occurs in `f` below `n` negations (arguments of `NOT`, left
sides of `IMP`), on a path through `AND`, `OR`, `IMP`, `NOT`, `FORALL` and
`EXISTS` only. -/
inductive Under (f : Formula) : Nat → Formula → Prop
  | root : Under f 0 f
  | and {n : Nat} {args : FormulaList} {g : Formula} :
      Under f n (.AND args) → g ∈ args.toList → Under f n g
  | or {n : Nat} {args : FormulaList} {g : Formula} :
      Under f n (.OR args) → g ∈ args.toList → Under f n g
  | impLeft {n : Nat} {left right : Formula} : Under f n (.IMP left right) → Under f (n + 1) left
  | impRight {n : Nat} {left right : Formula} : Under f n (.IMP left right) → Under f n right
  | not {n : Nat} {uarg : Formula} : Under f n (.NOT uarg) → Under f (n + 1) uarg
  | all {n : Nat} {vars : List Nat} {qarg : Formula} :
      Under f n (.FORALL vars qarg) → Under f n qarg
  | ex {n : Nat} {vars : List Nat} {qarg : Formula} :
      Under f n (.EXISTS vars qarg) → Under f n qarg

end Kernel

namespace Shell

open Kernel

namespace SubexpressionIterator

/-- The size of what an expression stands for. -/
def Expression.size : Expression → Nat
  | .FORMULA f _ => f.size
  | .TERM t _ => t.size
  | .TERM_LIST ts _ => ts.size

/-- An expression without special terms and with the connectives of
`Formula.plain` only. -/
def Expression.plain : Expression → Bool
  | .FORMULA f _ => f.plain
  | .TERM t _ => t.plain
  | .TERM_LIST ts _ => ts.plain

/-- The subformula occurrences that an expression without special terms
holds. -/
def Expression.subformulas : Expression → List Formula
  | .FORMULA f _ => f.subformulas
  | _ => []

/-- The expressions returned by the calls of `next` made as long as `hasNext()`
holds, in the order of the calls; each call uses one unit of `fuel`. -/
def run (d : Defaults) : Nat → SubexpressionIterator → Option (List Expression)
  | 0, _ => none
  | fuel + 1, it =>
    if it.hasNext then
      match it.next d with
      | none => none
      | some (expression, it) => (run d fuel it).map (fun l => expression :: l)
    else some []

/-- The iterator, when it visits the formula `f` with polarity `p`, pushes and
so comes to visit the formula `g` with polarity `q`, through formulas only:
`g` is `f`, or an expression pushed for a formula visited in this way. -/
inductive Visits (d : Defaults) (f : Formula) (p : Int) : Formula → Int → Prop
  | root : Visits d f p f p
  | step {g h : Formula} {q r : Int} : Visits d f p g q →
      Expression.FORMULA h r ∈ push d (.FORMULA g q) [] → Visits d f p h r

end SubexpressionIterator

namespace SubformulaIterator

open SubexpressionIterator

/-- Repeated calls of `hasNext`, at most `k` of them, each with `fuel`: the
values of `_next` and `_polarity` after the calls that return true, up to the
first call that returns false. -/
def yields (d : Defaults) (fuel : Nat) : Nat → SubformulaIterator → Option (List (Formula × Int))
  | 0, _ => none
  | k + 1, it =>
    match hasNext d fuel it with
    | none => none
    | some (false, _) => some []
    | some (true, it) =>
      match it.next, it.polarity, yields d fuel k it with
      | some f, some p, some l => some ((f, p) :: l)
      | _, _, _ => none

end SubformulaIterator

end Shell

/-! ## The node set -/

namespace Kernel

namespace BDD

theorem deref_leaf (s : BDD) {n : Nat} (h : n < 3) : s.deref n = ⟨-1, 0, 0⟩ := by
  simp [deref, h]

theorem deref_heap (s : BDD) {n : Nat} (h3 : 3 ≤ n) (h : n < s.nodes.length + 3) :
    s.deref n = s.nodes.get ⟨n - 3, by omega⟩ := by
  have h1 : ¬ n < 3 := by omega
  have h2 : n - 3 < s.nodes.length := by omega
  simp [deref, h1, List.getElem?_eq_getElem h2]

theorem isConstant_leaf (s : BDD) {n : Nat} (h : n < 3) : s.isConstant n = true := by
  simp [isConstant, deref_leaf s h]

theorem WF.not_isConstant {s : BDD} (h : s.WF) {n : Nat} (h3 : 3 ≤ n)
    (hn : n < s.nodes.length + 3) : s.isConstant n = false := by
  have := (h.node n h3 hn).1
  simp only [isConstant, beq_eq_false_iff_ne, ne_eq]
  omega

theorem WF.isConstant_iff {s : BDD} (h : s.WF) {n : Nat} (hv : s.Valid n) :
    s.isConstant n = true ↔ n < 3 := by
  constructor
  · intro hc
    by_contra h3
    have := h.not_isConstant (by omega : 3 ≤ n) hv.2
    simp [hc] at this
  · exact isConstant_leaf s

theorem WF.valid_pos {s : BDD} (h : s.WF) {n : Nat} (h3 : 3 ≤ n) (hv : s.Valid n) :
    s.Valid (s.deref n).pos := by
  have := h.node n h3 hv.2
  have := hv.2
  exact ⟨by omega, by omega⟩

theorem WF.valid_neg {s : BDD} (h : s.WF) {n : Nat} (h3 : 3 ≤ n) (hv : s.Valid n) :
    s.Valid (s.deref n).neg := by
  have := h.node n h3 hv.2
  have := hv.2
  exact ⟨by omega, by omega⟩

theorem valid_true (s : BDD) : s.Valid 1 := ⟨by omega, by omega⟩

theorem valid_false (s : BDD) : s.Valid 2 := ⟨by omega, by omega⟩

theorem Ext.refl (s : BDD) : Ext s s := ⟨le_refl _, [], by simp⟩

theorem Ext.trans {s t u : BDD} (h1 : Ext s t) (h2 : Ext t u) : Ext s u := by
  obtain ⟨hv1, l1, e1⟩ := h1
  obtain ⟨hv2, l2, e2⟩ := h2
  exact ⟨le_trans hv1 hv2, l1 ++ l2, by rw [e2, e1, List.append_assoc]⟩

theorem Ext.length_le {s t : BDD} (h : Ext s t) : s.nodes.length ≤ t.nodes.length := by
  obtain ⟨_, l, e⟩ := h
  rw [e, List.length_append]
  omega

theorem Ext.valid {s t : BDD} (h : Ext s t) {n : Nat} (hv : s.Valid n) : t.Valid n :=
  ⟨hv.1, by have := h.length_le; have := hv.2; omega⟩

theorem Ext.deref {s t : BDD} (h : Ext s t) {n : Nat} (hn : n < s.nodes.length + 3) :
    t.deref n = s.deref n := by
  obtain ⟨_, l, e⟩ := h
  unfold BDD.deref
  split
  · rfl
  · rename_i h3
    have h2 : n - 3 < s.nodes.length := by omega
    rw [e, List.getD_append _ _ _ _ h2]

theorem Ext.isConstant {s t : BDD} (h : Ext s t) {n : Nat} (hn : n < s.nodes.length + 3) :
    t.isConstant n = s.isConstant n := by
  simp [BDD.isConstant, h.deref hn]

/-! ## Evaluation -/

theorem evalFuel_leaf (s : BDD) (asg : Nat → Bool) {n : Nat} (h : n < 3) (f : Nat) :
    evalFuel s asg f n = isTrue n := by
  cases f with
  | zero => rfl
  | succ f => simp [evalFuel, isConstant_leaf s h]

theorem evalFuel_succ_node {s : BDD} (h : s.WF) (asg : Nat → Bool) {n : Nat} (h3 : 3 ≤ n)
    (hn : n < s.nodes.length + 3) (f : Nat) :
    evalFuel s asg (f + 1) n = evalFuel s asg f
      (if asg (s.deref n).var.toNat then (s.deref n).pos else (s.deref n).neg) := by
  simp [evalFuel, h.not_isConstant h3 hn]

theorem evalFuel_stable {s : BDD} (h : s.WF) (asg : Nat → Bool) :
    ∀ n, s.Valid n → ∀ f, n ≤ f → evalFuel s asg f n = evalFuel s asg n n := by
  intro n
  induction n using Nat.strong_induction_on with
  | _ n ih =>
    intro hv f hf
    by_cases h3 : n < 3
    · rw [evalFuel_leaf s asg h3, evalFuel_leaf s asg h3]
    · have h3 : 3 ≤ n := by omega
      obtain ⟨f, rfl⟩ : ∃ g, f = g + 1 := ⟨f - 1, by omega⟩
      obtain ⟨m, rfl⟩ : ∃ g, n = g + 1 := ⟨n - 1, by omega⟩
      rw [evalFuel_succ_node h asg h3 hv.2, evalFuel_succ_node h asg h3 hv.2]
      have hw := h.node _ h3 hv.2
      have hp := h.valid_pos h3 hv
      have hq := h.valid_neg h3 hv
      split
      · rw [ih _ (by omega) hp f (by omega), ih _ (by omega) hp m (by omega)]
      · rw [ih _ (by omega) hq f (by omega), ih _ (by omega) hq m (by omega)]

theorem eval_true (s : BDD) (asg : Nat → Bool) : s.eval asg 1 = true := by
  simp [eval, evalFuel_leaf s asg (by omega : 1 < 3), isTrue, getTrue]

theorem eval_false (s : BDD) (asg : Nat → Bool) : s.eval asg 2 = false := by
  simp [eval, evalFuel_leaf s asg (by omega : 2 < 3), isTrue, getTrue]

theorem eval_node {s : BDD} (h : s.WF) (asg : Nat → Bool) {n : Nat} (h3 : 3 ≤ n)
    (hv : s.Valid n) :
    s.eval asg n =
      if asg (s.deref n).var.toNat then s.eval asg (s.deref n).pos
      else s.eval asg (s.deref n).neg := by
  obtain ⟨m, rfl⟩ : ∃ g, n = g + 1 := ⟨n - 1, by omega⟩
  have hw := h.node _ h3 hv.2
  unfold eval
  rw [evalFuel_succ_node h asg h3 hv.2]
  split
  · exact evalFuel_stable h asg _ (h.valid_pos h3 hv) m (by omega)
  · exact evalFuel_stable h asg _ (h.valid_neg h3 hv) m (by omega)

theorem Ext.evalFuel {s t : BDD} (h : Ext s t) (hs : s.WF) (asg : Nat → Bool) :
    ∀ f n, s.Valid n → t.evalFuel asg f n = s.evalFuel asg f n := by
  intro f
  induction f with
  | zero => intro n _; rfl
  | succ f ih =>
    intro n hv
    by_cases h3 : n < 3
    · rw [evalFuel_leaf t asg h3, evalFuel_leaf s asg h3]
    · have h3 : 3 ≤ n := by omega
      simp only [BDD.evalFuel, h.isConstant hv.2, h.deref hv.2]
      split
      · rfl
      · split
        · exact ih _ (hs.valid_pos h3 hv)
        · exact ih _ (hs.valid_neg h3 hv)

theorem Ext.eval {s t : BDD} (h : Ext s t) (hs : s.WF) (asg : Nat → Bool) {n : Nat}
    (hv : s.Valid n) : t.eval asg n = s.eval asg n :=
  h.evalFuel hs asg n n hv

/-- The specification of `getNode` on a call that meets its assertions. -/
theorem getNode_spec {s : BDD} (h : s.WF) {v : Int} {p n : Nat} (hv0 : 0 ≤ v)
    (hv1 : v < s.newVar) (hp : s.Valid p) (hn : s.Valid n) (hne : p ≠ n)
    (hpv : (s.deref p).var < v) (hnv : (s.deref n).var < v) :
    (s.getNode v p n).2.WF ∧ Ext s (s.getNode v p n).2 ∧
      (s.getNode v p n).2.Valid (s.getNode v p n).1 ∧ 3 ≤ (s.getNode v p n).1 ∧
      (s.getNode v p n).2.deref (s.getNode v p n).1 = ⟨v, p, n⟩ := by
  by_cases hi : s.nodes.indexOf ⟨v, p, n⟩ < s.nodes.length
  · have e : s.getNode v p n = (s.nodes.indexOf ⟨v, p, n⟩ + 3, s) := by
      simp [getNode, hi]
    rw [e]
    refine ⟨h, Ext.refl s, ⟨by omega, ?_⟩, by omega, ?_⟩
    · show _ < s.nodes.length + 3
      omega
    · show s.deref _ = _
      rw [deref_heap s (by omega) (by omega)]
      simp only [Nat.add_sub_cancel]
      exact List.indexOf_get hi
  · have hnot : (⟨v, p, n⟩ : BDDNode) ∉ s.nodes := by
      intro hm
      exact hi (List.indexOf_lt_length.mpr hm)
    have e : s.getNode v p n
        = (s.nodes.length + 3, { s with nodes := s.nodes ++ [⟨v, p, n⟩] }) := by
      simp [getNode, hi]
    rw [e]
    generalize ht : ({ s with nodes := s.nodes ++ [⟨v, p, n⟩] } : BDD) = t
    have hnodes : t.nodes = s.nodes ++ [⟨v, p, n⟩] := by rw [← ht]
    have hvar : t.newVar = s.newVar := by rw [← ht]
    have hext : Ext s t := ⟨by rw [hvar], [⟨v, p, n⟩], hnodes⟩
    have hlen : t.nodes.length = s.nodes.length + 1 := by simp [hnodes]
    have hnew : t.deref (s.nodes.length + 3) = ⟨v, p, n⟩ := by
      rw [deref_heap t (by omega) (by omega)]
      simp [hnodes]
    show t.WF ∧ Ext s t ∧ t.Valid (s.nodes.length + 3) ∧ 3 ≤ s.nodes.length + 3 ∧
      t.deref (s.nodes.length + 3) = ⟨v, p, n⟩
    refine ⟨⟨?_, ?_⟩, hext, ⟨by omega, by omega⟩, by omega, hnew⟩
    · rw [hnodes]
      refine List.Nodup.append h.nodup (List.nodup_singleton _) ?_
      intro a ha hb
      rw [List.mem_singleton] at hb
      exact hnot (hb ▸ ha)
    · intro m h3 hm
      by_cases hold : m < s.nodes.length + 3
      · have hw := h.node m h3 hold
        have e1 := hext.deref hold
        have e2 : t.deref (s.deref m).pos = s.deref (s.deref m).pos :=
          hext.deref (by omega)
        have e3 : t.deref (s.deref m).neg = s.deref (s.deref m).neg :=
          hext.deref (by omega)
        rw [e1, e2, e3, hvar]
        exact hw
      · have hm' : m = s.nodes.length + 3 := by omega
        subst hm'
        rw [hnew]
        simp only
        have e2 : t.deref p = s.deref p := hext.deref hp.2
        have e3 : t.deref n = s.deref n := hext.deref hn.2
        rw [e2, e3, hvar]
        exact ⟨hv0, hv1, hp.1, hp.2, hn.1, hn.2, hne, hpv, hnv⟩

/-! ## Canonicity of the node set -/

theorem WF.deref_inj {s : BDD} (h : s.WF) {a b : Nat} (ha3 : 3 ≤ a) (hb3 : 3 ≤ b)
    (ha : a < s.nodes.length + 3) (hb : b < s.nodes.length + 3)
    (e : s.deref a = s.deref b) : a = b := by
  rw [deref_heap s ha3 ha, deref_heap s hb3 hb] at e
  have := (List.Nodup.get_inj_iff h.nodup).mp e
  simp only [Fin.mk.injEq] at this
  omega

/-- A node depends only on the variables up to its own. -/
theorem eval_congr {s : BDD} (h : s.WF) (asg asg' : Nat → Bool) :
    ∀ n, s.Valid n → (∀ k : Nat, (k : Int) ≤ (s.deref n).var → asg k = asg' k) →
      s.eval asg n = s.eval asg' n := by
  intro n
  induction n using Nat.strong_induction_on with
  | _ n ih =>
    intro hv hk
    by_cases h3 : n < 3
    · simp [eval, evalFuel_leaf s _ h3]
    · have h3 : 3 ≤ n := by omega
      have hw := h.node n h3 hv.2
      rw [eval_node h asg h3 hv, eval_node h asg' h3 hv]
      have e : asg (s.deref n).var.toNat = asg' (s.deref n).var.toNat :=
        hk _ (by rw [Int.toNat_of_nonneg hw.1])
      rw [e]
      split
      · exact ih _ (by omega) (h.valid_pos h3 hv) (fun k hk' => hk k (by omega))
      · exact ih _ (by omega) (h.valid_neg h3 hv) (fun k hk' => hk k (by omega))

theorem eval_update_of_lt {s : BDD} (h : s.WF) (asg : Nat → Bool) {n : Nat} (hv : s.Valid n)
    {v : Int} (hlt : (s.deref n).var < v) (b : Bool) :
    s.eval (Function.update asg v.toNat b) n = s.eval asg n := by
  apply eval_congr h _ _ n hv
  intro k hk
  have : k ≠ v.toNat := by
    intro e
    have := Int.self_le_toNat v
    omega
  simp [Function.update, this]

theorem eval_update_node {s : BDD} (h : s.WF) (asg : Nat → Bool) {n : Nat} (h3 : 3 ≤ n)
    (hv : s.Valid n) (b : Bool) :
    s.eval (Function.update asg (s.deref n).var.toNat b) n =
      if b then s.eval asg (s.deref n).pos else s.eval asg (s.deref n).neg := by
  have hw := h.node n h3 hv.2
  rw [eval_node h _ h3 hv]
  simp only [Function.update_same]
  cases b
  · simpa using eval_update_of_lt h asg (h.valid_neg h3 hv) hw.2.2.2.2.2.2.2.2 false
  · simpa using eval_update_of_lt h asg (h.valid_pos h3 hv) hw.2.2.2.2.2.2.2.1 true

theorem canonical_aux {s : BDD} (h : s.WF) :
    ∀ m a b, a ≤ m → b ≤ m → s.Valid a → s.Valid b →
      (∀ asg, s.eval asg a = s.eval asg b) → a = b := by
  intro m
  induction m with
  | zero =>
    intro a b ha hb hva hvb _
    have := hva.1
    omega
  | succ m ih =>
    -- a node above the variable of `y` that agrees with `y` everywhere: impossible
    have key : ∀ x y, x ≤ m + 1 → s.Valid x → s.Valid y → 3 ≤ x →
        (s.deref y).var < (s.deref x).var →
        (∀ asg, s.eval asg x = s.eval asg y) → False := by
      intro x y hx hvx hvy hx3 hlt he
      have hw := h.node x hx3 hvx.2
      have hpn : ∃ asg, s.eval asg (s.deref x).pos ≠ s.eval asg (s.deref x).neg := by
        by_contra hall
        push_neg at hall
        exact hw.2.2.2.2.2.2.1
          (ih _ _ (by omega) (by omega) (h.valid_pos hx3 hvx) (h.valid_neg hx3 hvx) hall)
      obtain ⟨asg, hd⟩ := hpn
      have e1 := eval_update_node h asg hx3 hvx true
      have e2 := eval_update_node h asg hx3 hvx false
      have e3 := eval_update_of_lt h asg hvy hlt true
      have e4 := eval_update_of_lt h asg hvy hlt false
      rw [he, e3] at e1
      rw [he, e4] at e2
      simp only [if_true] at e1
      simp only [Bool.false_eq_true, if_false] at e2
      exact hd (e1.symm.trans e2)
    intro a b ha hb hva hvb he
    rcases lt_trichotomy (s.deref a).var (s.deref b).var with hlt | heq | hgt
    · have hb3 : 3 ≤ b := by
        by_contra hb3
        have := deref_leaf s (by omega : b < 3)
        have := deref_leaf s (by omega : 0 < 3)
        by_cases ha3 : a < 3
        · rw [deref_leaf s ha3, deref_leaf s (by omega : b < 3)] at hlt
          omega
        · have := (h.node a (by omega) hva.2).1
          rw [deref_leaf s (by omega : b < 3)] at hlt
          simp only at hlt
          omega
      exact (key b a hb hvb hva hb3 hlt (fun asg => (he asg).symm)).elim
    · by_cases ha3 : a < 3
      · have hb3 : b < 3 := by
          by_contra hb3
          have := (h.node b (by omega) hvb.2).1
          rw [deref_leaf s ha3] at heq
          simp only at heq
          omega
        have hva1 := hva.1
        have hvb1 := hvb.1
        have e := he (fun _ => false)
        have ha' : a = 1 ∨ a = 2 := by omega
        have hb' : b = 1 ∨ b = 2 := by omega
        rcases ha' with rfl | rfl <;> rcases hb' with rfl | rfl <;>
          simp [eval_true, eval_false] at e ⊢
      · have ha3 : 3 ≤ a := by omega
        have hb3 : 3 ≤ b := by
          by_contra hb3
          have := (h.node a ha3 hva.2).1
          rw [deref_leaf s (by omega : b < 3)] at heq
          simp only at heq
          omega
        have hwa := h.node a ha3 hva.2
        have hwb := h.node b hb3 hvb.2
        have hp : (s.deref a).pos = (s.deref b).pos := by
          apply ih _ _ (by omega) (by omega) (h.valid_pos ha3 hva) (h.valid_pos hb3 hvb)
          intro asg
          have e1 := eval_update_node h asg ha3 hva true
          have e2 := eval_update_node h asg hb3 hvb true
          rw [heq, he, e2] at e1
          simpa using e1.symm
        have hn : (s.deref a).neg = (s.deref b).neg := by
          apply ih _ _ (by omega) (by omega) (h.valid_neg ha3 hva) (h.valid_neg hb3 hvb)
          intro asg
          have e1 := eval_update_node h asg ha3 hva false
          have e2 := eval_update_node h asg hb3 hvb false
          rw [heq, he, e2] at e1
          simpa using e1.symm
        apply h.deref_inj ha3 hb3 hva.2 hvb.2
        cases hda : s.deref a
        cases hdb : s.deref b
        rw [hda, hdb] at heq hp hn
        simp only at heq hp hn
        rw [heq, hp, hn]
    · have ha3 : 3 ≤ a := by
        by_contra ha3
        by_cases hb3 : b < 3
        · rw [deref_leaf s hb3, deref_leaf s (by omega : a < 3)] at hgt
          omega
        · have := (h.node b (by omega) hvb.2).1
          rw [deref_leaf s (by omega : a < 3)] at hgt
          simp only at hgt
          omega
      exact (key a b ha hva hvb ha3 hgt he).elim

/-- Two nodes of a well-formed node set that denote the same Boolean function
are the same node. -/
theorem WF.canonical {s : BDD} (h : s.WF) {a b : Nat} (ha : s.Valid a) (hb : s.Valid b)
    (he : ∀ asg, s.eval asg a = s.eval asg b) : a = b :=
  canonical_aux h (max a b) a b (le_max_left _ _) (le_max_right _ _) ha hb he

/-! ## The loop of `getBinaryFnResult` -/

theorem CacheOK.ext {op : Bool → Bool → Bool} {s t : BDD} {c : Cache} (hc : CacheOK op s c)
    (hs : s.WF) (h : Ext s t) : CacheOK op t c := by
  intro a b r hl
  obtain ⟨ha, hb, hr, hvar, hev⟩ := hc a b r hl
  refine ⟨h.valid ha, h.valid hb, h.valid hr, ?_, ?_⟩
  · rw [h.deref hr.2, h.deref ha.2, h.deref hb.2]
    exact hvar
  · intro asg
    rw [h.eval hs asg hr, h.eval hs asg ha, h.eval hs asg hb]
    exact hev asg

theorem CacheOK.nil (op : Bool → Bool → Bool) (s : BDD) : CacheOK op s [] := by
  intro a b r hl
  simp at hl

theorem CacheOK.insert {op : Bool → Bool → Bool} {s : BDD} {c : Cache} (hc : CacheOK op s c)
    {a b r : Nat} (ha : s.Valid a) (hb : s.Valid b) (hr : s.Valid r)
    (hvar : (s.deref r).var ≤ max (s.deref a).var (s.deref b).var)
    (hev : ∀ asg, s.eval asg r = op (s.eval asg a) (s.eval asg b)) :
    CacheOK op s (cacheInsert c (a, b) r) := by
  unfold cacheInsert
  split
  · exact hc
  · intro a' b' r' hl
    rw [List.lookup_cons] at hl
    split at hl
    · rename_i hk
      simp only [beq_iff_eq, Prod.mk.injEq] at hk
      obtain ⟨rfl, rfl⟩ := hk
      simp only [Option.some.injEq] at hl
      subst hl
      exact ⟨ha, hb, hr, hvar, hev⟩
    · exact hc a' b' r' hl

theorem collapse_nil (counter res : Nat) (vars : List Int) (cache : Cache) (s : BDD) :
    collapse counter res [] vars cache s = some (res, [], vars, cache, s) := by
  simp [collapse]

theorem collapse_zero (counter res : Nat) (results : List Nat) (vars : List Int)
    (cache : Cache) (s : BDD) :
    collapse counter res (0 :: results) vars cache s
      = some (res, 0 :: results, vars, cache, s) := by
  simp [collapse]

theorem collapse_frame (counter res : Nat) {pos : Nat} (hpos : pos ≠ 0) (z arg1 arg2 : Nat)
    (results : List Nat) (var : Int) (vars : List Int) (cache : Cache) (s : BDD) :
    collapse counter res (pos :: z :: arg1 :: arg2 :: results) (var :: vars) cache s
      = collapse counter (if pos = res then (pos, s) else s.getNode var pos res).1 results vars
          (if counter % 4 = 0 then
            cacheInsert cache (arg1, arg2) (if pos = res then (pos, s) else s.getNode var pos res).1
           else cache)
          (if pos = res then (pos, s) else s.getNode var pos res).2 := by
  cases pos with
  | zero => exact (hpos rfl).elim
  | succ p => simp [collapse]

theorem afterFound_zero (fn : Nat → Nat → Nat) (fuel counter res n1 n2 : Nat)
    (toDo results : List Nat) (vars : List Int) (cache : Cache) (s : BDD) :
    afterFound fn fuel counter res (n1 :: n2 :: toDo) (0 :: results) vars cache s
      = loop fn fuel ⟨n1, n2, toDo, res :: 0 :: results, vars, cache, counter, s⟩ := by
  simp [afterFound, collapse_zero]

theorem afterFound_nil (fn : Nat → Nat → Nat) (fuel counter res : Nat)
    (vars : List Int) (cache : Cache) (s : BDD) :
    afterFound fn fuel counter res [] [] vars cache s = some (res, s) := by
  simp [afterFound, collapse_nil]

theorem afterFound_frame (fn : Nat → Nat → Nat) (fuel counter res : Nat) {pos : Nat}
    (hpos : pos ≠ 0) (z arg1 arg2 : Nat) (toDo results : List Nat) (var : Int)
    (vars : List Int) (cache : Cache) (s : BDD) :
    afterFound fn fuel counter res toDo (pos :: z :: arg1 :: arg2 :: results) (var :: vars)
        cache s
      = afterFound fn fuel counter (if pos = res then (pos, s) else s.getNode var pos res).1
          toDo results vars
          (if counter % 4 = 0 then
            cacheInsert cache (arg1, arg2) (if pos = res then (pos, s) else s.getNode var pos res).1
           else cache)
          (if pos = res then (pos, s) else s.getNode var pos res).2 := by
  unfold afterFound
  rw [collapse_frame counter res hpos]

theorem loop_found (fn : Nat → Nat → Nat) (fuel : Nat) (st : Loop) {r : Nat}
    (h : (if fn st.n1 st.n2 ≠ 0 then some (fn st.n1 st.n2)
          else st.cache.lookup (st.n1, st.n2)) = some r) :
    loop fn (fuel + 1) st
      = afterFound fn fuel (if st.counter + 1 = 50000 then 0 else st.counter + 1) r
          st.toDo st.results st.vars st.cache st.bdd := by
  rw [loop]
  simp only [h]
  rfl

theorem loop_split (fn : Nat → Nat → Nat) (fuel : Nat) (st : Loop)
    (h : (if fn st.n1 st.n2 ≠ 0 then some (fn st.n1 st.n2)
          else st.cache.lookup (st.n1, st.n2)) = none) :
    loop fn (fuel + 1) st
      = loop fn fuel
        ⟨if (st.bdd.deref st.n1).var = max (st.bdd.deref st.n1).var (st.bdd.deref st.n2).var
            then (st.bdd.deref st.n1).pos else st.n1,
         if (st.bdd.deref st.n2).var = max (st.bdd.deref st.n1).var (st.bdd.deref st.n2).var
            then (st.bdd.deref st.n2).pos else st.n2,
         (if (st.bdd.deref st.n1).var = max (st.bdd.deref st.n1).var (st.bdd.deref st.n2).var
            then (st.bdd.deref st.n1).neg else st.n1) ::
         (if (st.bdd.deref st.n2).var = max (st.bdd.deref st.n1).var (st.bdd.deref st.n2).var
            then (st.bdd.deref st.n2).neg else st.n2) :: st.toDo,
         0 :: st.n1 :: st.n2 :: st.results,
         max (st.bdd.deref st.n1).var (st.bdd.deref st.n2).var :: st.vars,
         st.cache, if st.counter + 1 = 50000 then 0 else st.counter + 1, st.bdd⟩ := by
  rw [loop]
  simp only [h]

/-- One side of a split at the variable `v`: the node itself when its variable
is below `v`, its two children when its variable is `v`. -/
theorem split_side {s : BDD} (h : s.WF) {x : Nat} (hx : s.Valid x) {v : Int} (hv : 0 ≤ v)
    (hle : (s.deref x).var ≤ v) :
    s.Valid (if (s.deref x).var = v then (s.deref x).pos else x) ∧
    s.Valid (if (s.deref x).var = v then (s.deref x).neg else x) ∧
    (if (s.deref x).var = v then (s.deref x).pos else x) ≤ x ∧
    (if (s.deref x).var = v then (s.deref x).neg else x) ≤ x ∧
    ((s.deref x).var = v →
      (if (s.deref x).var = v then (s.deref x).pos else x) < x ∧
      (if (s.deref x).var = v then (s.deref x).neg else x) < x ∧ v < s.newVar) ∧
    (s.deref (if (s.deref x).var = v then (s.deref x).pos else x)).var < v ∧
    (s.deref (if (s.deref x).var = v then (s.deref x).neg else x)).var < v ∧
    ∀ asg, s.eval asg x =
      if asg v.toNat then s.eval asg (if (s.deref x).var = v then (s.deref x).pos else x)
      else s.eval asg (if (s.deref x).var = v then (s.deref x).neg else x) := by
  by_cases e : (s.deref x).var = v
  · have h3 : 3 ≤ x := by
      by_contra h3
      rw [deref_leaf s (by omega : x < 3)] at e
      simp only at e
      omega
    have hw := h.node x h3 hx.2
    simp only [e, if_true]
    refine ⟨h.valid_pos h3 hx, h.valid_neg h3 hx, by omega, by omega, ?_, ?_, ?_, ?_⟩
    · intro _; exact ⟨by omega, by omega, by omega⟩
    · omega
    · omega
    · intro asg
      rw [eval_node h asg h3 hx, e]
  · simp only [e, if_false]
    refine ⟨hx, hx, le_refl _, le_refl _, ?_, ?_, ?_, ?_⟩
    · intro e'; exact e'.elim
    · omega
    · omega
    · intro asg; simp

/-- The loop, started on the pair `(a, b)` with any stacks, reaches after `k`
iterations the point where the result `r` of the pair is known, with the same
stacks; `r` denotes `op` of the two nodes. -/
theorem loop_eval {fn : Nat → Nat → Nat} {op : Bool → Bool → Bool} (hfn : FnSpec fn op) :
    ∀ m a b, a + b ≤ m → ∀ (s : BDD) (toDo results : List Nat) (vars : List Int)
      (cache : Cache) (counter : Nat),
      s.WF → s.Valid a → s.Valid b → CacheOK op s cache →
      ∃ k r t cache' counter', 1 ≤ k ∧ k < 2 ^ (m + 1) ∧ t.WF ∧ Ext s t ∧ t.Valid r ∧
        CacheOK op t cache' ∧
        (t.deref r).var ≤ max (s.deref a).var (s.deref b).var ∧
        (∀ asg, t.eval asg r = op (s.eval asg a) (s.eval asg b)) ∧
        ∀ fuel, loop fn (fuel + k) ⟨a, b, toDo, results, vars, cache, counter, s⟩
          = afterFound fn fuel counter' r toDo results vars cache' t := by
  intro m
  induction m with
  | zero =>
    intro a b hab s _ _ _ _ _ _ ha
    have := ha.1
    omega
  | succ m ih =>
    intro a b hab s toDo results vars cache counter hs ha hb hc
    obtain ⟨hnull, hans⟩ := hfn a b ha.1 hb.1
    have hpow : 1 < 2 ^ (m + 1 + 1) := Nat.one_lt_two_pow (by omega)
    cases hfound : (if fn a b ≠ 0 then some (fn a b) else cache.lookup (a, b)) with
    | some r =>
      have hr : s.Valid r ∧ (s.deref r).var ≤ max (s.deref a).var (s.deref b).var ∧
          ∀ asg, s.eval asg r = op (s.eval asg a) (s.eval asg b) := by
        by_cases h0 : fn a b = 0
        · simp only [h0, ne_eq, not_true_eq_false, if_false] at hfound
          obtain ⟨_, _, h1, h2, h3⟩ := hc a b r hfound
          exact ⟨h1, h2, h3⟩
        · simp only [ne_eq, h0, not_false_eq_true, if_true, Option.some.injEq] at hfound
          subst hfound
          exact hans h0 s hs ha hb
      exact ⟨1, r, s, cache, _, le_refl _, hpow, hs, Ext.refl s, hr.1, hc, hr.2.1, hr.2.2,
        fun fuel => loop_found fn fuel ⟨a, b, toDo, results, vars, cache, counter, s⟩ hfound⟩
    | none =>
      have h0 : fn a b = 0 := by
        by_contra h0
        simp [h0] at hfound
      have h3 := hnull h0
      have hstep := fun fuel =>
        loop_split fn fuel ⟨a, b, toDo, results, vars, cache, counter, s⟩ hfound
      simp only at hstep
      have hv0 : 0 ≤ max (s.deref a).var (s.deref b).var := by
        rcases h3 with h3 | h3
        · exact le_trans (hs.node a h3 ha.2).1 (le_max_left _ _)
        · exact le_trans (hs.node b h3 hb.2).1 (le_max_right _ _)
      have hmax : (s.deref a).var = max (s.deref a).var (s.deref b).var ∨
          (s.deref b).var = max (s.deref a).var (s.deref b).var := by
        rcases max_choice (s.deref a).var (s.deref b).var with e | e
        · exact Or.inl e.symm
        · exact Or.inr e.symm
      obtain ⟨hap, han, hap', han', hadec, hapv, hanv, haev⟩ :=
        split_side hs ha hv0 (le_max_left (s.deref a).var (s.deref b).var)
      obtain ⟨hbp, hbn, hbp', hbn', hbdec, hbpv, hbnv, hbev⟩ :=
        split_side hs hb hv0 (le_max_right (s.deref a).var (s.deref b).var)
      generalize hv : max (s.deref a).var (s.deref b).var = v at *
      generalize (if (s.deref a).var = v then (s.deref a).pos else a) = ap at *
      generalize (if (s.deref a).var = v then (s.deref a).neg else a) = an at *
      generalize (if (s.deref b).var = v then (s.deref b).pos else b) = bp at *
      generalize (if (s.deref b).var = v then (s.deref b).neg else b) = bn at *
      generalize (if counter + 1 = 50000 then 0 else counter + 1) = c0 at *
      have hvnew : v < s.newVar := by
        rcases hmax with e | e
        · exact (hadec e).2.2
        · exact (hbdec e).2.2
      have hdp : ap + bp < a + b := by
        rcases hmax with e | e
        · have := (hadec e).1; omega
        · have := (hbdec e).1; omega
      have hdn : an + bn < a + b := by
        rcases hmax with e | e
        · have := (hadec e).2.1; omega
        · have := (hbdec e).2.1; omega
      obtain ⟨k1, r1, t1, cache1, c1, hk1, hk1', ht1, he1, hr1, hc1, hvar1, hev1, hrun1⟩ :=
        ih ap bp (by omega) s (an :: bn :: toDo) (0 :: a :: b :: results) (v :: vars) cache c0
          hs hap hbp hc
      obtain ⟨k2, r2, t2, cache2, c2, hk2, hk2', ht2, he2, hr2, hc2, hvar2, hev2, hrun2⟩ :=
        ih an bn (by omega) t1 toDo (r1 :: 0 :: a :: b :: results) (v :: vars) cache1 c1
          ht1 (he1.valid han) (he1.valid hbn) hc1
      rw [he1.deref han.2, he1.deref hbn.2] at hvar2
      have hr1ne : r1 ≠ 0 := by have := hr1.1; omega
      have hr1v : (t2.deref r1).var < v := by
        rw [he2.deref hr1.2]
        exact lt_of_le_of_lt hvar1 (max_lt hapv hbpv)
      have hr2v : (t2.deref r2).var < v := lt_of_le_of_lt hvar2 (max_lt hanv hbnv)
      have hev1' : ∀ asg, t2.eval asg r1 = op (s.eval asg ap) (s.eval asg bp) := by
        intro asg
        rw [he2.eval ht1 asg hr1]
        exact hev1 asg
      have hev2' : ∀ asg, t2.eval asg r2 = op (s.eval asg an) (s.eval asg bn) := by
        intro asg
        rw [hev2 asg, he1.eval hs asg han, he1.eval hs asg hbn]
      have hk : k2 + k1 + 1 < 2 ^ (m + 1 + 1) := by
        have : 2 ^ (m + 1 + 1) = 2 ^ (m + 1) + 2 ^ (m + 1) := by ring
        omega
      have hrun : ∀ fuel, loop fn (fuel + (k2 + k1 + 1))
            ⟨a, b, toDo, results, vars, cache, counter, s⟩
          = afterFound fn fuel c2 (if r1 = r2 then (r1, t2) else t2.getNode v r1 r2).1
              toDo results vars
              (if c2 % 4 = 0 then
                cacheInsert cache2 (a, b)
                  (if r1 = r2 then (r1, t2) else t2.getNode v r1 r2).1
               else cache2)
              (if r1 = r2 then (r1, t2) else t2.getNode v r1 r2).2 := by
        intro fuel
        have e : fuel + (k2 + k1 + 1) = (fuel + k2 + k1) + 1 := by omega
        rw [e, hstep, hrun1, afterFound_zero, hrun2, afterFound_frame fn fuel c2 r2 hr1ne]
      -- the combined node
      have hcomb : ∃ r3 t3, (if r1 = r2 then (r1, t2) else t2.getNode v r1 r2) = (r3, t3) ∧
          t3.WF ∧ Ext t2 t3 ∧ t3.Valid r3 ∧ (t3.deref r3).var ≤ v ∧
          ∀ asg, t3.eval asg r3 = if asg v.toNat then t2.eval asg r1 else t2.eval asg r2 := by
        by_cases e : r1 = r2
        · refine ⟨r1, t2, by simp [e], ht2, Ext.refl t2, he2.valid hr1, le_of_lt hr1v, ?_⟩
          intro asg
          rw [← e]
          simp
        · obtain ⟨hw, hx, hvalid, h3', hd⟩ :=
            getNode_spec ht2 hv0 (lt_of_lt_of_le hvnew (le_trans he1.1 he2.1))
              (he2.valid hr1) hr2 e hr1v hr2v
          refine ⟨(t2.getNode v r1 r2).1, (t2.getNode v r1 r2).2, by simp [e], hw, hx, hvalid,
            ?_, ?_⟩
          · rw [hd]
          · intro asg
            rw [eval_node hw asg h3' hvalid, hd]
            simp only
            rw [hx.eval ht2 asg (he2.valid hr1), hx.eval ht2 asg hr2]
      obtain ⟨r3, t3, e3, ht3, he3, hr3, hvar3, hev3⟩ := hcomb
      rw [e3] at hrun
      simp only at hrun
      have hext : Ext s t3 := (he1.trans he2).trans he3
      have hsem : ∀ asg, t3.eval asg r3 = op (s.eval asg a) (s.eval asg b) := by
        intro asg
        rw [hev3 asg, hev1' asg, hev2' asg, haev asg, hbev asg]
        split <;> rfl
      have hc3 : CacheOK op t3 (if c2 % 4 = 0 then cacheInsert cache2 (a, b) r3 else cache2) := by
        have hc2' := hc2.ext ht2 he3
        split
        · refine hc2'.insert (hext.valid ha) (hext.valid hb) hr3 ?_ ?_
          · rw [hext.deref ha.2, hext.deref hb.2, hv]
            exact hvar3
          · intro asg
            rw [hsem asg, hext.eval hs asg ha, hext.eval hs asg hb]
        · exact hc2'
      exact ⟨k2 + k1 + 1, r3, t3, _, c2, by omega, hk, ht3, hext, hr3, hc3, hvar3, hsem, hrun⟩

/-! ## The operator functors and the binary operations -/

theorem isTrue_iff (n : Nat) : isTrue n = true ↔ n = 1 := by
  simp [isTrue, getTrue]

theorem isFalse_iff (n : Nat) : isFalse n = true ↔ n = 2 := by
  simp [isFalse, getFalse]

theorem WF.var_ge {s : BDD} (h : s.WF) (n : Nat) : -1 ≤ (s.deref n).var := by
  by_cases h3 : n < 3
  · rw [deref_leaf s h3]
  · by_cases hn : n < s.nodes.length + 3
    · have := (h.node n (by omega) hn).1
      omega
    · have e : s.deref n = ⟨-1, 0, 0⟩ := by
        have h2 : s.nodes.length ≤ n - 3 := by omega
        simp [deref, h3, List.getElem?_eq_none h2]
      rw [e]

theorem conjunctionFn_spec : FnSpec ConjunctionFn (fun x y => x && y) := by
  intro n1 n2 h1 h2
  unfold ConjunctionFn
  simp only [Bool.or_eq_true, isTrue_iff, isFalse_iff, getFalse]
  constructor
  · intro h
    split_ifs at h <;> omega
  · intro h s hs hv1 hv2
    split_ifs at h ⊢ with c1 c2 c3
    · refine ⟨valid_false s, ?_, ?_⟩
      · rw [deref_leaf s (by omega : 2 < 3)]
        exact le_trans (hs.var_ge n1) (le_max_left _ _)
      · intro asg
        rcases c1 with rfl | rfl <;> simp [eval_false]
    · subst c2
      exact ⟨hv2, le_max_right _ _, fun asg => by simp [eval_true]⟩
    · subst c3
      exact ⟨hv1, le_max_left _ _, fun asg => by simp [eval_true]⟩
    · exact (h rfl).elim

theorem disjunctionFn_spec : FnSpec DisjunctionFn (fun x y => x || y) := by
  intro n1 n2 h1 h2
  unfold DisjunctionFn
  simp only [Bool.or_eq_true, isTrue_iff, isFalse_iff, getTrue]
  constructor
  · intro h
    split_ifs at h <;> omega
  · intro h s hs hv1 hv2
    split_ifs at h ⊢ with c1 c2 c3
    · refine ⟨valid_true s, ?_, ?_⟩
      · rw [deref_leaf s (by omega : 1 < 3)]
        exact le_trans (hs.var_ge n1) (le_max_left _ _)
      · intro asg
        rcases c1 with rfl | rfl <;> simp [eval_true]
    · subst c2
      exact ⟨hv2, le_max_right _ _, fun asg => by simp [eval_false]⟩
    · subst c3
      exact ⟨hv1, le_max_left _ _, fun asg => by simp [eval_false]⟩
    · exact (h rfl).elim

theorem xOrNonYFn_spec : FnSpec XOrNonYFn (fun x y => x || !y) := by
  intro n1 n2 h1 h2
  unfold XOrNonYFn
  simp only [Bool.or_eq_true, isTrue_iff, isFalse_iff, getTrue]
  constructor
  · intro h
    split_ifs at h <;> omega
  · intro h s hs hv1 hv2
    split_ifs at h ⊢ with c1 c2
    · refine ⟨valid_true s, ?_, ?_⟩
      · rw [deref_leaf s (by omega : 1 < 3)]
        exact le_trans (hs.var_ge n1) (le_max_left _ _)
      · intro asg
        rcases c1 with rfl | rfl <;> simp [eval_true, eval_false]
    · subst c2
      exact ⟨hv1, le_max_left _ _, fun asg => by simp [eval_true]⟩
    · exact (h rfl).elim

/-- More fuel does not change a result of the loop. -/
theorem loop_mono (fn : Nat → Nat → Nat) :
    ∀ f st x, loop fn f st = some x → ∀ g, f ≤ g → loop fn g st = some x := by
  intro f
  induction f with
  | zero => intro st x h; simp [loop] at h
  | succ f ih =>
    intro st x h g hg
    obtain ⟨g, rfl⟩ : ∃ g', g = g' + 1 := ⟨g - 1, by omega⟩
    have hfg : f ≤ g := by omega
    cases hfound : (if fn st.n1 st.n2 ≠ 0 then some (fn st.n1 st.n2)
        else st.cache.lookup (st.n1, st.n2)) with
    | some r =>
      rw [loop_found fn _ st hfound] at h ⊢
      unfold afterFound at h ⊢
      cases hcol : collapse (if st.counter + 1 = 50000 then 0 else st.counter + 1) r
          st.results st.vars st.cache st.bdd with
      | none => rw [hcol] at h; simp at h
      | some y =>
        obtain ⟨r1, r2, r3, r4, r5⟩ := y
        rw [hcol] at h
        simp only at h ⊢
        cases htd : st.toDo with
        | nil => rw [htd] at h; exact h
        | cons n1 rest =>
          cases rest with
          | nil => rw [htd] at h; simp at h
          | cons n2 rest =>
            rw [htd] at h
            simp only at h ⊢
            exact ih _ _ h g hfg
    | none =>
      rw [loop_split fn _ st hfound] at h ⊢
      exact ih _ _ h g hfg

/-- The specification of `getBinaryFnResult`: with enough fuel the call returns,
and the node returned denotes `op` of the arguments. -/
theorem getBinaryFnResult_spec {fn : Nat → Nat → Nat} {op : Bool → Bool → Bool}
    (hfn : FnSpec fn op) {s : BDD} (hs : s.WF) {a b : Nat} (ha : s.Valid a) (hb : s.Valid b)
    {fuel : Nat} (hf : 2 ^ (a + b + 1) ≤ fuel) :
    ∃ r t, getBinaryFnResult fuel s a b fn = some (r, t) ∧ t.WF ∧ Ext s t ∧ t.Valid r ∧
      (t.deref r).var ≤ max (s.deref a).var (s.deref b).var ∧
      ∀ asg, t.eval asg r = op (s.eval asg a) (s.eval asg b) := by
  obtain ⟨k, r, t, cache', counter', _, hk, ht, he, hr, _, hvar, hev, hrun⟩ :=
    loop_eval hfn (a + b) a b (le_refl _) s [] [] [] [] 0 hs ha hb (CacheOK.nil op s)
  refine ⟨r, t, ?_, ht, he, hr, hvar, hev⟩
  unfold getBinaryFnResult
  have e : fuel = (fuel - k) + k := by omega
  rw [e, hrun, afterFound_nil]

/-- Whatever the fuel, a result of `getBinaryFnResult` is the result the
specification describes. -/
theorem getBinaryFnResult_sound {fn : Nat → Nat → Nat} {op : Bool → Bool → Bool}
    (hfn : FnSpec fn op) {s : BDD} (hs : s.WF) {a b : Nat} (ha : s.Valid a) (hb : s.Valid b)
    {fuel r : Nat} {t : BDD} (h : getBinaryFnResult fuel s a b fn = some (r, t)) :
    t.WF ∧ Ext s t ∧ t.Valid r ∧
      (t.deref r).var ≤ max (s.deref a).var (s.deref b).var ∧
      ∀ asg, t.eval asg r = op (s.eval asg a) (s.eval asg b) := by
  obtain ⟨r', t', h', hw⟩ :=
    getBinaryFnResult_spec hfn hs ha hb (le_max_right fuel (2 ^ (a + b + 1)))
  have h2 := loop_mono fn fuel _ _ h (max fuel (2 ^ (a + b + 1))) (le_max_left _ _)
  unfold getBinaryFnResult at h'
  rw [h2] at h'
  simp only [Option.some.injEq, Prod.mk.injEq] at h'
  obtain ⟨rfl, rfl⟩ := h'
  exact hw

/-- The specification of `getAtomic` on a variable `≥ 0`. -/
theorem getAtomic_spec {s : BDD} (hs : s.WF) {v : Int} (hv : 0 ≤ v) (b : Bool) :
    (s.getAtomic v b).2.WF ∧ Ext s (s.getAtomic v b).2 ∧
      (s.getAtomic v b).2.Valid (s.getAtomic v b).1 ∧
      (∀ asg, (s.getAtomic v b).2.eval asg (s.getAtomic v b).1 = (asg v.toNat == b)) ∧
      3 ≤ (s.getAtomic v b).1 ∧
      (s.getAtomic v b).2.deref (s.getAtomic v b).1
        = ⟨v, if b then getTrue else getFalse, if b then getFalse else getTrue⟩ := by
  unfold getAtomic
  generalize hs1 : (if v ≥ s.newVar then ({ s with newVar := v + 1 } : BDD) else s) = s1
  have hnodes : s1.nodes = s.nodes := by
    rw [← hs1]; split <;> rfl
  have hvar : v < s1.newVar ∧ s.newVar ≤ s1.newVar := by
    rw [← hs1]
    split
    · rename_i h; simp only; omega
    · rename_i h; simp only [ge_iff_le, not_le] at h; exact ⟨h, le_refl _⟩
  have hderef : ∀ n, s1.deref n = s.deref n := by
    intro n; simp [deref, hnodes]
  have hs1wf : s1.WF := by
    refine ⟨by rw [hnodes]; exact hs.nodup, ?_⟩
    intro n h3 hn
    rw [hnodes] at hn
    have := hs.node n h3 hn
    simp only [hderef]
    refine ⟨this.1, by omega, this.2.2⟩
  have hext1 : Ext s s1 := ⟨hvar.2, [], by simp [hnodes]⟩
  simp only
  have hl1 : (s1.deref 1).var < v := by rw [deref_leaf s1 (by omega : 1 < 3)]; simp; omega
  have hl2 : (s1.deref 2).var < v := by rw [deref_leaf s1 (by omega : 2 < 3)]; simp; omega
  cases b
  · obtain ⟨hw, hx, hvalid, h3, hd⟩ :=
      getNode_spec hs1wf hv hvar.1 (valid_false s1) (valid_true s1) (by decide) hl2 hl1
    simp only [Bool.false_eq_true, if_false, getTrue, getFalse]
    refine ⟨hw, hext1.trans hx, hvalid, ?_, h3, hd⟩
    intro asg
    rw [eval_node hw asg h3 hvalid, hd]
    simp only [eval_true, eval_false]
    cases asg v.toNat <;> rfl
  · obtain ⟨hw, hx, hvalid, h3, hd⟩ :=
      getNode_spec hs1wf hv hvar.1 (valid_true s1) (valid_false s1) (by decide) hl1 hl2
    simp only [if_true, getTrue, getFalse]
    refine ⟨hw, hext1.trans hx, hvalid, ?_, h3, hd⟩
    intro asg
    rw [eval_node hw asg h3 hvalid, hd]
    simp only [eval_true, eval_false]
    cases asg v.toNat <;> rfl

theorem WF.new : BDD.new.WF := by
  refine ⟨List.nodup_nil, ?_⟩
  intro n h3 hn
  simp [BDD.new] at hn
  omega

/-- Every state the engine reaches has a well-formed node set. -/
theorem Reach.wf {s : BDD} (h : Reach s) : s.WF := by
  induction h with
  | new => exact WF.new
  | atomic v b _ hv ih => exact (getAtomic_spec ih hv b).1
  | conj _ ha hb hr ih => exact (getBinaryFnResult_sound conjunctionFn_spec ih ha hb hr).1
  | disj _ ha hb hr ih => exact (getBinaryFnResult_sound disjunctionFn_spec ih ha hb hr).1
  | xory _ ha hb hr ih => exact (getBinaryFnResult_sound xOrNonYFn_spec ih ha hb hr).1

/-! ## The claims on the engine -/

/-- The specification of `getBinaryFnResult` read in the state after the call. -/
theorem binop_total {fn : Nat → Nat → Nat} {op : Bool → Bool → Bool} (hfn : FnSpec fn op)
    {s : BDD} (hs : s.WF) {a b : Nat} (ha : s.Valid a) (hb : s.Valid b) {fuel : Nat}
    (hf : 2 ^ (a + b + 1) ≤ fuel) :
    ∃ r t, getBinaryFnResult fuel s a b fn = some (r, t) ∧ t.WF ∧ Ext s t ∧ t.Valid r ∧
      ∀ asg, t.eval asg r = op (t.eval asg a) (t.eval asg b) := by
  obtain ⟨r, t, h, ht, he, hr, _, hev⟩ := getBinaryFnResult_spec hfn hs ha hb hf
  refine ⟨r, t, h, ht, he, hr, ?_⟩
  intro asg
  rw [hev asg, he.eval hs asg ha, he.eval hs asg hb]

/-- C1 (BDD canonicity): in every state the engine reaches by `getAtomic`,
`conjunction`, `disjunction` and `xOrNonY`, two nodes of the engine are the same
node if and only if they evaluate equally under every assignment. -/
theorem canonicity (s : BDD) (hs : s.Reach) (a b : Nat) (ha : s.Valid a) (hb : s.Valid b) :
    a = b ↔ ∀ asg, s.eval asg a = s.eval asg b := by
  constructor
  · intro e asg
    rw [e]
  · exact hs.wf.canonical ha hb

theorem canonicity_witness :
    (3 = 4 ↔ ∀ asg, ((BDD.new.getAtomic 0 true).2.getAtomic 1 true).2.eval asg 3
      = ((BDD.new.getAtomic 0 true).2.getAtomic 1 true).2.eval asg 4) :=
  canonicity _ (Reach.atomic 1 true (Reach.atomic 0 true Reach.new (by decide)) (by decide))
    3 4 ⟨by decide, by decide⟩ ⟨by decide, by decide⟩

/-- C2: for nodes `n1`, `n2` of a reachable engine state, `conjunction` returns
(given fuel for `2 ^ (n1 + n2 + 1)` iterations), the state after the call is
reachable, and under every assignment the node returned evaluates to true
exactly when both `n1` and `n2` do. -/
theorem conjunction_eval (s : BDD) (hs : s.Reach) (n1 n2 : Nat) (h1 : s.Valid n1)
    (h2 : s.Valid n2) (fuel : Nat) (hf : 2 ^ (n1 + n2 + 1) ≤ fuel) :
    ∃ r t, s.conjunction fuel n1 n2 = some (r, t) ∧ t.Reach ∧ t.Valid r ∧
      ∀ asg, t.eval asg r = true ↔ (t.eval asg n1 = true ∧ t.eval asg n2 = true) := by
  obtain ⟨r, t, h, _, _, hr, hev⟩ := binop_total conjunctionFn_spec hs.wf h1 h2 hf
  refine ⟨r, t, h, Reach.conj hs h1 h2 h, hr, ?_⟩
  intro asg
  rw [hev asg]
  simp

theorem conjunction_eval_witness :
    ∃ r t, (BDD.new.getAtomic 0 true).2.conjunction 32 3 1 = some (r, t) ∧ t.Reach ∧
      t.Valid r ∧
      ∀ asg, t.eval asg r = true ↔ (t.eval asg 3 = true ∧ t.eval asg 1 = true) :=
  conjunction_eval _ (Reach.atomic 0 true Reach.new (by decide)) 3 1
    ⟨by decide, by decide⟩ ⟨by decide, by decide⟩ 32 (by decide)

/-- C3: for nodes `n1`, `n2` of a reachable engine state, `disjunction` returns
(given fuel for `2 ^ (n1 + n2 + 1)` iterations), the state after the call is
reachable, and under every assignment the node returned evaluates to true
exactly when `n1` or `n2` does. -/
theorem disjunction_eval (s : BDD) (hs : s.Reach) (n1 n2 : Nat) (h1 : s.Valid n1)
    (h2 : s.Valid n2) (fuel : Nat) (hf : 2 ^ (n1 + n2 + 1) ≤ fuel) :
    ∃ r t, s.disjunction fuel n1 n2 = some (r, t) ∧ t.Reach ∧ t.Valid r ∧
      ∀ asg, t.eval asg r = true ↔ (t.eval asg n1 = true ∨ t.eval asg n2 = true) := by
  obtain ⟨r, t, h, _, _, hr, hev⟩ := binop_total disjunctionFn_spec hs.wf h1 h2 hf
  refine ⟨r, t, h, Reach.disj hs h1 h2 h, hr, ?_⟩
  intro asg
  rw [hev asg]
  simp

theorem disjunction_eval_witness :
    ∃ r t, (BDD.new.getAtomic 0 true).2.disjunction 64 3 2 = some (r, t) ∧ t.Reach ∧
      t.Valid r ∧
      ∀ asg, t.eval asg r = true ↔ (t.eval asg 3 = true ∨ t.eval asg 2 = true) :=
  disjunction_eval _ (Reach.atomic 0 true Reach.new (by decide)) 3 2
    ⟨by decide, by decide⟩ ⟨by decide, by decide⟩ 64 (by decide)

/-- C4: for nodes `x`, `y` of a reachable engine state, `xOrNonY` returns (given
fuel for `2 ^ (x + y + 2)` iterations) a node that evaluates to true exactly
when `x` evaluates to true or `y` to false; and `xOrNonY(FALSE, y)` returns a
node that evaluates to the negation of `y`. -/
theorem xOrNonY_eval (s : BDD) (hs : s.Reach) (x y : Nat) (hx : s.Valid x) (hy : s.Valid y)
    (fuel : Nat) (hf : 2 ^ (x + y + 2) ≤ fuel) :
    (∃ r t, s.xOrNonY fuel x y = some (r, t) ∧ t.Reach ∧ t.Valid r ∧
      ∀ asg, t.eval asg r = true ↔ (t.eval asg x = true ∨ t.eval asg y = false)) ∧
    (∃ r t, s.xOrNonY fuel getFalse y = some (r, t) ∧ t.Reach ∧ t.Valid r ∧
      ∀ asg, t.eval asg r = !t.eval asg y) := by
  constructor
  · have hf1 : 2 ^ (x + y + 1) ≤ fuel :=
      le_trans (Nat.pow_le_pow_right (by omega) (by omega)) hf
    obtain ⟨r, t, h, _, _, hr, hev⟩ := binop_total xOrNonYFn_spec hs.wf hx hy hf1
    refine ⟨r, t, h, Reach.xory hs hx hy h, hr, ?_⟩
    intro asg
    rw [hev asg]
    simp
  · have hf2 : 2 ^ (getFalse + y + 1) ≤ fuel := by
      have := hx.1
      exact le_trans (Nat.pow_le_pow_right (by omega) (by simp only [getFalse]; omega)) hf
    obtain ⟨r, t, h, _, _, hr, hev⟩ :=
      binop_total xOrNonYFn_spec hs.wf (valid_false s) hy hf2
    refine ⟨r, t, h, Reach.xory hs (valid_false s) hy h, hr, ?_⟩
    intro asg
    rw [hev asg]
    simp only [getFalse, eval_false, Bool.false_or]

theorem xOrNonY_eval_witness :
    (∃ r t, (BDD.new.getAtomic 0 true).2.xOrNonY 64 1 3 = some (r, t) ∧ t.Reach ∧ t.Valid r ∧
      ∀ asg, t.eval asg r = true ↔ (t.eval asg 1 = true ∨ t.eval asg 3 = false)) ∧
    (∃ r t, (BDD.new.getAtomic 0 true).2.xOrNonY 64 getFalse 3 = some (r, t) ∧
      t.Reach ∧ t.Valid r ∧ ∀ asg, t.eval asg r = !t.eval asg 3) :=
  xOrNonY_eval _ (Reach.atomic 0 true Reach.new (by decide)) 1 3
    ⟨by decide, by decide⟩ ⟨by decide, by decide⟩ 64 (by decide)

/-- A pair the operator functor answers at once: the loop returns the answer in
its first iteration and leaves the engine as it was. -/
theorem getBinaryFnResult_answered (fn : Nat → Nat → Nat) (s : BDD) (n1 n2 : Nat)
    (h : fn n1 n2 ≠ 0) (fuel : Nat) :
    getBinaryFnResult (fuel + 1) s n1 n2 fn = some (fn n1 n2, s) := by
  have hfound : (if fn n1 n2 ≠ 0 then some (fn n1 n2)
      else ([] : Cache).lookup (n1, n2)) = some (fn n1 n2) := by
    simp only [h, ne_eq, not_false_eq_true, if_true]
  unfold getBinaryFnResult
  rw [loop_found fn fuel ⟨n1, n2, [], [], [], [], 0, s⟩ hfound]
  exact afterFound_nil fn fuel _ _ _ _ _

/-- C9 (constant laws of conjunction): for every node `x` (a non-null pointer),
in any engine state and with fuel for one iteration, `conjunction(x, TRUE)` and
`conjunction(TRUE, x)` return the node `x` itself, `conjunction(x, FALSE)` and
`conjunction(FALSE, x)` return the FALSE node, and the engine is unchanged. -/
theorem conjunction_constant (s : BDD) (x : Nat) (hx : 0 < x) (fuel : Nat) :
    s.conjunction (fuel + 1) x getTrue = some (x, s) ∧
    s.conjunction (fuel + 1) x getFalse = some (getFalse, s) ∧
    s.conjunction (fuel + 1) getTrue x = some (x, s) ∧
    s.conjunction (fuel + 1) getFalse x = some (getFalse, s) := by
  have e1 : ConjunctionFn x getTrue = x := by
    simp only [ConjunctionFn, isTrue, isFalse, getTrue, getFalse]
    by_cases h2 : x = 2
    · simp [h2]
    · by_cases h1 : x = 1
      · simp [h1]
      · simp [h1, h2]
  have e2 : ConjunctionFn x getFalse = getFalse := by
    simp [ConjunctionFn, isFalse]
  have e3 : ConjunctionFn getTrue x = x := by
    simp only [ConjunctionFn, isTrue, isFalse, getTrue, getFalse]
    by_cases h2 : x = 2
    · simp [h2]
    · simp [h2]
  have e4 : ConjunctionFn getFalse x = getFalse := by
    simp [ConjunctionFn, isFalse]
  have hx0 : x ≠ 0 := by omega
  have h2 : getFalse ≠ 0 := by decide
  unfold conjunction
  refine ⟨?_, ?_, ?_, ?_⟩
  · have := getBinaryFnResult_answered ConjunctionFn s x getTrue (by rw [e1]; exact hx0) fuel
    rw [e1] at this
    exact this
  · have := getBinaryFnResult_answered ConjunctionFn s x getFalse (by rw [e2]; exact h2) fuel
    rw [e2] at this
    exact this
  · have := getBinaryFnResult_answered ConjunctionFn s getTrue x (by rw [e3]; exact hx0) fuel
    rw [e3] at this
    exact this
  · have := getBinaryFnResult_answered ConjunctionFn s getFalse x (by rw [e4]; exact h2) fuel
    rw [e4] at this
    exact this

theorem conjunction_constant_witness :
    (BDD.new.getAtomic 0 true).2.conjunction (0 + 1) 3 getTrue
        = some (3, (BDD.new.getAtomic 0 true).2) ∧
    (BDD.new.getAtomic 0 true).2.conjunction (0 + 1) 3 getFalse
        = some (getFalse, (BDD.new.getAtomic 0 true).2) ∧
    (BDD.new.getAtomic 0 true).2.conjunction (0 + 1) getTrue 3
        = some (3, (BDD.new.getAtomic 0 true).2) ∧
    (BDD.new.getAtomic 0 true).2.conjunction (0 + 1) getFalse 3
        = some (getFalse, (BDD.new.getAtomic 0 true).2) :=
  conjunction_constant (BDD.new.getAtomic 0 true).2 3 (by decide) 0

/-- C8 (conjunction is commutative on nodes): for nodes `x`, `y` of a reachable
engine state, with enough fuel `conjunction(x,y)` returns a node `r`, and
`conjunction(y,x)`, called next, returns the same node `r`. -/
theorem conjunction_comm (s : BDD) (hs : s.Reach) (x y : Nat) (hx : s.Valid x)
    (hy : s.Valid y) (fuel : Nat) (hf : 2 ^ (x + y + 1) ≤ fuel) :
    ∃ r t u, s.conjunction fuel x y = some (r, t) ∧ t.conjunction fuel y x = some (r, u) := by
  obtain ⟨r, t, h, ht, he, hr, hev⟩ := binop_total conjunctionFn_spec hs.wf hx hy hf
  have hf' : 2 ^ (y + x + 1) ≤ fuel := by rw [Nat.add_comm y x]; exact hf
  obtain ⟨r', u, h', hu, he', hr', hev'⟩ :=
    binop_total conjunctionFn_spec ht (he.valid hy) (he.valid hx) hf'
  have e : r' = r := by
    apply hu.canonical hr' (he'.valid hr)
    intro asg
    rw [hev' asg, he'.eval ht asg hr, hev asg, he'.eval ht asg (he.valid hx),
      he'.eval ht asg (he.valid hy), Bool.and_comm]
  subst e
  exact ⟨r', t, u, h, h'⟩

theorem conjunction_comm_witness :
    ∃ r t u, ((BDD.new.getAtomic 0 true).2.getAtomic 1 true).2.conjunction 256 3 4 = some (r, t) ∧
      t.conjunction 256 4 3 = some (r, u) :=
  conjunction_comm _ (Reach.atomic 1 true (Reach.atomic 0 true Reach.new (by decide)) (by decide))
    3 4 ⟨by decide, by decide⟩ ⟨by decide, by decide⟩ 256 (by decide)

/-- The result of a binary operation does not depend on the fuel, once there is
enough of it. -/
theorem binop_result {fn : Nat → Nat → Nat} {op : Bool → Bool → Bool} (hfn : FnSpec fn op)
    {s : BDD} (hs : s.WF) {a b : Nat} (ha : s.Valid a) (hb : s.Valid b) :
    ∃ r t, (∀ fuel, 2 ^ (a + b + 1) ≤ fuel → getBinaryFnResult fuel s a b fn = some (r, t)) ∧
      t.WF ∧ Ext s t ∧ t.Valid r ∧
      ∀ asg, t.eval asg r = op (t.eval asg a) (t.eval asg b) := by
  obtain ⟨r, t, h, hw⟩ := binop_total hfn hs ha hb (le_refl (2 ^ (a + b + 1)))
  exact ⟨r, t, fun fuel hf => loop_mono fn _ _ _ h fuel hf, hw⟩

theorem neg_result {s : BDD} (hs : s.WF) {z : Nat} (hz : s.Valid z) :
    ∃ r t, (∀ fuel, 2 ^ (z + 3) ≤ fuel → s.neg fuel z = some (r, t)) ∧
      t.WF ∧ Ext s t ∧ t.Valid r ∧ ∀ asg, t.eval asg r = !t.eval asg z := by
  obtain ⟨r, t, h, ht, he, hr, hev⟩ := binop_result xOrNonYFn_spec hs (valid_false s) hz
  refine ⟨r, t, ?_, ht, he, hr, ?_⟩
  · intro fuel hf
    apply h fuel
    have e : getFalse + z + 1 = z + 3 := by simp only [getFalse]; omega
    simp only [getFalse] at e
    rw [e]
    exact hf
  · intro asg
    rw [hev asg]
    simp only [getFalse, eval_false, Bool.false_or]

theorem negOpNeg_result {fn : Nat → Nat → Nat} {op : Bool → Bool → Bool} (hfn : FnSpec fn op)
    {s : BDD} (hs : s.WF) {x y : Nat} (hx : s.Valid x) (hy : s.Valid y) :
    ∃ F r t, (∀ fuel, F ≤ fuel → negOpNeg fn fuel s x y = some (r, t)) ∧
      t.WF ∧ Ext s t ∧ t.Valid r ∧
      ∀ asg, t.eval asg r = !(op (!t.eval asg x) (!t.eval asg y)) := by
  obtain ⟨nx, s1, h1, hs1, he1, hnx, hev1⟩ := neg_result hs hx
  obtain ⟨ny, s2, h2, hs2, he2, hny, hev2⟩ := neg_result hs1 (he1.valid hy)
  obtain ⟨d, s3, h3, hs3, he3, hd, hev3⟩ := binop_result hfn hs2 (he2.valid hnx) hny
  obtain ⟨r, s4, h4, hs4, he4, hr, hev4⟩ := neg_result hs3 hd
  generalize 2 ^ (x + 3) = p1 at h1
  generalize 2 ^ (y + 3) = p2 at h2
  generalize 2 ^ (nx + ny + 1) = p3 at h3
  generalize 2 ^ (d + 3) = p4 at h4
  refine ⟨p1 + p2 + p3 + p4, r, s4, ?_, hs4,
    ((he1.trans he2).trans he3).trans he4, hr, ?_⟩
  · intro fuel hf
    unfold negOpNeg
    rw [h1 fuel (by omega)]
    simp only
    rw [h2 fuel (by omega)]
    simp only
    rw [h3 fuel (by omega)]
    simp only
    exact h4 fuel (by omega)
  · intro asg
    have hx2 : s2.Valid x := he2.valid (he1.valid hx)
    have hy2 : s2.Valid y := he2.valid (he1.valid hy)
    have e34 := he3.trans he4
    have e14 := he2.trans e34
    have a1 : s3.eval asg nx = !s4.eval asg x := by
      rw [he3.eval hs2 asg (he2.valid hnx), he2.eval hs1 asg hnx, hev1 asg,
        e14.eval hs1 asg (he1.valid hx)]
    have a2 : s3.eval asg ny = !s4.eval asg y := by
      rw [he3.eval hs2 asg hny, hev2 asg, e34.eval hs2 asg hy2]
    rw [hev4 asg, he4.eval hs3 asg hd, hev3 asg, a1, a2]

/-- C10 (De Morgan via `xOrNonY`): with `neg(z) = xOrNonY(FALSE, z)`, for nodes
`x`, `y` of a reachable engine state and enough fuel, `conjunction(x,y)` and
then `neg(disjunction(neg(x), neg(y)))` return the same node, and
`disjunction(x,y)` and then `neg(conjunction(neg(x), neg(y)))` return the same
node. -/
theorem deMorgan (s : BDD) (hs : s.Reach) (x y : Nat) (hx : s.Valid x) (hy : s.Valid y) :
    ∃ F, ∀ fuel, F ≤ fuel →
      (∃ r t u, s.conjunction fuel x y = some (r, t) ∧
        negOpNeg DisjunctionFn fuel t x y = some (r, u)) ∧
      (∃ r t u, s.disjunction fuel x y = some (r, t) ∧
        negOpNeg ConjunctionFn fuel t x y = some (r, u)) := by
  obtain ⟨c, t, hc, ht, het, hcv, hcev⟩ := binop_result conjunctionFn_spec hs.wf hx hy
  obtain ⟨F1, r, u, hr, hu, heu, hrv, hrev⟩ :=
    negOpNeg_result disjunctionFn_spec ht (het.valid hx) (het.valid hy)
  obtain ⟨d, t', hd, ht', het', hdv, hdev⟩ := binop_result disjunctionFn_spec hs.wf hx hy
  obtain ⟨F2, r', u', hr', hu', heu', hrv', hrev'⟩ :=
    negOpNeg_result conjunctionFn_spec ht' (het'.valid hx) (het'.valid hy)
  have e1 : r = c := by
    apply hu.canonical hrv (heu.valid hcv)
    intro asg
    rw [hrev asg, heu.eval ht asg hcv, hcev asg, heu.eval ht asg (het.valid hx),
      heu.eval ht asg (het.valid hy)]
    cases t.eval asg x <;> cases t.eval asg y <;> rfl
  have e2 : r' = d := by
    apply hu'.canonical hrv' (heu'.valid hdv)
    intro asg
    rw [hrev' asg, heu'.eval ht' asg hdv, hdev asg, heu'.eval ht' asg (het'.valid hx),
      heu'.eval ht' asg (het'.valid hy)]
    cases t'.eval asg x <;> cases t'.eval asg y <;> rfl
  subst e1 e2
  generalize 2 ^ (x + y + 1) = p at hc hd
  refine ⟨p + F1 + F2, ?_⟩
  intro fuel hf
  exact ⟨⟨r, t, u, hc fuel (by omega), hr fuel (by omega)⟩,
    ⟨r', t', u', hd fuel (by omega), hr' fuel (by omega)⟩⟩

theorem deMorgan_witness :
    ∃ F, ∀ fuel, F ≤ fuel →
      (∃ r t u, ((BDD.new.getAtomic 0 true).2.getAtomic 1 true).2.conjunction fuel 3 4
          = some (r, t) ∧
        negOpNeg DisjunctionFn fuel t 3 4 = some (r, u)) ∧
      (∃ r t u, ((BDD.new.getAtomic 0 true).2.getAtomic 1 true).2.disjunction fuel 3 4
          = some (r, t) ∧
        negOpNeg ConjunctionFn fuel t 3 4 = some (r, u)) :=
  deMorgan _ (Reach.atomic 1 true (Reach.atomic 0 true Reach.new (by decide)) (by decide))
    3 4 ⟨by decide, by decide⟩ ⟨by decide, by decide⟩

/-- C7, the scenario as the spec states it, fails: on a new engine the
disjunction of `conjunction(getAtomic(0,true), getAtomic(1,true))` with
`getAtomic(0,false)` is the node at address `7`, while `getAtomic(1,true)` is the
node at address `4`. -/
theorem scenario_counterexample :
    ∃ d x1 nx0 t, scenario 16 BDD.new = some (d, x1, nx0, t) ∧ d ≠ x1 :=
  ⟨7, 4, 6, _, rfl, by decide⟩

/-- C7 as amended: in every reachable engine state and with enough fuel the
scenario returns the node `d` with variable `1`, positive child TRUE and
negative child `getAtomic(0,false)`; it evaluates to true exactly when variable
`1` is true or variable `0` is false, and it is not the node
`getAtomic(1,true)`. -/
theorem scenario_amended (s : BDD) (hs : s.Reach) :
    ∃ F, ∀ fuel, F ≤ fuel → ∃ d x1 nx0 t, scenario fuel s = some (d, x1, nx0, t) ∧
      t.deref d = ⟨1, getTrue, nx0⟩ ∧ t.deref nx0 = ⟨0, getFalse, getTrue⟩ ∧
      t.deref x1 = ⟨1, getTrue, getFalse⟩ ∧ d ≠ x1 ∧
      ∀ asg, t.eval asg d = (asg 1 || !asg 0) := by
  obtain ⟨hw0, he0, hv0, hev0, _, _⟩ := getAtomic_spec hs.wf (le_refl (0 : Int)) true
  generalize hx0 : (s.getAtomic 0 true).1 = x0 at *
  generalize hs0 : (s.getAtomic 0 true).2 = s0 at *
  obtain ⟨hw1, he1, hv1, hev1, _, _⟩ := getAtomic_spec hw0 (by decide : (0 : Int) ≤ 1) true
  generalize hx1 : (s0.getAtomic 1 true).1 = x1 at *
  generalize hs1 : (s0.getAtomic 1 true).2 = s1 at *
  obtain ⟨a, s2, hconj, hw2, he2, hva, heva⟩ :=
    binop_result conjunctionFn_spec hw1 (he1.valid hv0) hv1
  obtain ⟨hw3, he3, hvn, hevn, hn3, hdn⟩ :=
    getAtomic_spec hw2 (le_refl (0 : Int)) false
  generalize hnx0 : (s2.getAtomic 0 false).1 = nx0 at *
  generalize hs3 : (s2.getAtomic 0 false).2 = s3 at *
  obtain ⟨d, s4, hdisj, hw4, he4, hvd, hevd⟩ :=
    binop_result disjunctionFn_spec hw3 (he3.valid hva) hvn
  obtain ⟨hw5, he5, hvy, hevy, hy3, hdy⟩ :=
    getAtomic_spec hw4 (by decide : (0 : Int) ≤ 1) true
  generalize hy : (s4.getAtomic 1 true).1 = y at *
  generalize ht : (s4.getAtomic 1 true).2 = t at *
  generalize 2 ^ (x0 + x1 + 1) = p1 at hconj
  generalize 2 ^ (a + nx0 + 1) = p2 at hdisj
  simp only [if_true, Bool.false_eq_true, if_false] at hdn hdy
  -- the nodes of the scenario in the final state
  have e45 := he4.trans he5
  have hnt : t.Valid nx0 := e45.valid hvn
  have hdt : t.Valid d := he5.valid hvd
  have hdn' : t.deref nx0 = ⟨0, getFalse, getTrue⟩ := by
    rw [e45.deref hvn.2]; exact hdn
  have hevd' : ∀ asg, t.eval asg d = (asg 1 || !asg 0) := by
    intro asg
    have b1 : s4.eval asg a = (asg 0 && asg 1) := by
      rw [(he3.trans he4).eval hw2 asg hva, heva asg, he2.eval hw1 asg (he1.valid hv0),
        he2.eval hw1 asg hv1, he1.eval hw0 asg hv0, hev0 asg, hev1 asg]
      simp
    have b2 : s4.eval asg nx0 = !asg 0 := by
      rw [he4.eval hw3 asg hvn, hevn asg]
      simp
    rw [he5.eval hw4 asg hvd, hevd asg, b1, b2]
    cases asg 0 <;> cases asg 1 <;> rfl
  -- the node with variable 1 and children TRUE, `nx0`
  have hnew : (1 : Int) < t.newVar := by
    have := (hw5.node y hy3 hvy.2).2.1
    rw [hdy] at this
    exact this
  obtain ⟨hwg, heg, hvg, hg3, hdg⟩ :=
    getNode_spec hw5 (by decide : (0 : Int) ≤ 1) hnew (valid_true t) hnt
      (by have := hn3; omega)
      (by rw [deref_leaf t (by decide : 1 < 3)]; decide)
      (by rw [hdn']; decide)
  have hdg' : d = (t.getNode 1 getTrue nx0).1 := by
    apply hwg.canonical (heg.valid hdt) hvg
    intro asg
    rw [heg.eval hw5 asg hdt, hevd' asg, eval_node hwg asg hg3 hvg, hdg]
    simp only
    rw [heg.eval hw5 asg (valid_true t), heg.eval hw5 asg hnt,
      eval_node hw5 asg hn3 hnt, hdn']
    have t0 : Int.toNat 0 = 0 := rfl
    have t1 : Int.toNat 1 = 1 := rfl
    simp only [getTrue, getFalse, eval_true, eval_false, t0, t1]
    cases asg 0 <;> cases asg 1 <;> rfl
  have hdd : t.deref d = ⟨1, getTrue, nx0⟩ := by
    rw [← heg.deref hdt.2, hdg']
    exact hdg
  refine ⟨p1 + p2, ?_⟩
  intro fuel hf
  refine ⟨d, y, nx0, t, ?_, hdd, hdn', hdy, ?_, hevd'⟩
  · unfold scenario
    simp only [hs0, hx0, hs1, hx1]
    unfold conjunction
    rw [hconj fuel (by omega)]
    simp only [hs3, hnx0]
    unfold disjunction
    rw [hdisj fuel (by omega)]
    simp only [hy, ht]
  · intro e
    rw [e, hdy] at hdd
    simp only [BDDNode.mk.injEq, true_and] at hdd
    simp only [getFalse] at hdd
    omega

theorem scenario_amended_witness :
    ∃ F, ∀ fuel, F ≤ fuel → ∃ d x1 nx0 t, scenario fuel BDD.new = some (d, x1, nx0, t) ∧
      t.deref d = ⟨1, getTrue, nx0⟩ ∧ t.deref nx0 = ⟨0, getFalse, getTrue⟩ ∧
      t.deref x1 = ⟨1, getTrue, getFalse⟩ ∧ d ≠ x1 ∧
      ∀ asg, t.eval asg d = (asg 1 || !asg 0) :=
  scenario_amended BDD.new Reach.new

end BDD

end Kernel

/-! ## The incremental conjunction -/

namespace Kernel

namespace BDDConjunction

open BDD

theorem Walk.valid_end {s : BDD} (hs : s.WF) {asg : Nat → Bool} {a b : Nat} (h : Walk s asg a b)
    (ha : s.Valid a) : s.Valid b := by
  induction h with
  | refl => exact ha
  | tail _ h3 ih =>
    split
    · exact hs.valid_pos h3 ih
    · exact hs.valid_neg h3 ih

theorem Walk.eval_eq {s : BDD} (hs : s.WF) {asg : Nat → Bool} {a b : Nat} (h : Walk s asg a b)
    (ha : s.Valid a) : s.eval asg a = s.eval asg b := by
  induction h with
  | refl => rfl
  | tail hw h3 ih =>
    rw [ih, eval_node hs asg h3 (hw.valid_end hs ha)]
    split <;> rfl

/-- A walk that ends at `b` only reads variables above the variable of `b`. -/
theorem Walk.congr {s : BDD} (hs : s.WF) {asg asg' : Nat → Bool} {a b : Nat}
    (h : Walk s asg a b) (ha : s.Valid a)
    (hk : ∀ k : Nat, (s.deref b).var < (k : Int) → asg' k = asg k) : Walk s asg' a b := by
  induction h with
  | refl => exact Walk.refl
  | @tail b hw h3 ih =>
    have hb := hw.valid_end hs ha
    have hnode := hs.node b h3 hb.2
    have hlt : (s.deref (if asg (s.deref b).var.toNat then (s.deref b).pos
        else (s.deref b).neg)).var < (s.deref b).var := by
      split
      · exact hnode.2.2.2.2.2.2.2.1
      · exact hnode.2.2.2.2.2.2.2.2
    have hw' : Walk s asg' a b := ih (fun k hk' => hk k (lt_trans hlt hk'))
    have e : asg' (s.deref b).var.toNat = asg (s.deref b).var.toNat :=
      hk _ (by rw [Int.toNat_of_nonneg hnode.1]; exact hlt)
    have := Walk.tail hw' h3
    rw [e] at this
    exact this

theorem flip_above (asg : Nat → Bool) {v : Int} (hv : 0 ≤ v) {k : Nat} (hk : v < (k : Int)) :
    flip asg v k = asg k := by
  have h1 : ¬ (k : Int) < v := by omega
  have h2 : k ≠ v.toNat := by
    intro e
    rw [e, Int.toNat_of_nonneg hv] at hk
    omega
  simp [flip, h1, h2]

theorem flip_at (asg : Nat → Bool) {v : Int} (hv : 0 ≤ v) : flip asg v v.toNat = true := by
  have h1 : ¬ ((v.toNat : Nat) : Int) < v := by
    rw [Int.toNat_of_nonneg hv]
    omega
  simp [flip, h1]

theorem SeekInv.start (s : BDD) (n0 : Nat) (asg : Nat → Bool) : SeekInv s n0 asg n0 [] :=
  ⟨Walk.refl, by simp, List.Pairwise.nil⟩

theorem SeekInv.pos {s : BDD} (hs : s.WF) {n0 : Nat} (h0 : s.Valid n0) {asg : Nat → Bool}
    {n : Nat} {decPnts : List Nat} (h : SeekInv s n0 asg n decPnts) (h3 : 3 ≤ n)
    (ha : asg (s.deref n).var.toNat = true) : SeekInv s n0 asg (s.deref n).pos decPnts := by
  obtain ⟨hw, hd, hp⟩ := h
  have hn := hw.valid_end hs h0
  have hnode := hs.node n h3 hn.2
  refine ⟨?_, ?_, hp⟩
  · have := Walk.tail hw h3
    rw [ha] at this
    simpa using this
  · intro d hdm
    obtain ⟨g1, g2, g3, g4⟩ := hd d hdm
    exact ⟨g1, g2, g3, by omega⟩

theorem SeekInv.neg {s : BDD} (hs : s.WF) {n0 : Nat} (h0 : s.Valid n0) {asg : Nat → Bool}
    {n : Nat} {decPnts : List Nat} (h : SeekInv s n0 asg n decPnts) (h3 : 3 ≤ n)
    (ha : asg (s.deref n).var.toNat = false) :
    SeekInv s n0 asg (s.deref n).neg (n :: decPnts) := by
  obtain ⟨hw, hd, hp⟩ := h
  have hn := hw.valid_end hs h0
  have hnode := hs.node n h3 hn.2
  refine ⟨?_, ?_, ?_⟩
  · have := Walk.tail hw h3
    rw [ha] at this
    simpa using this
  · intro d hdm
    rcases List.mem_cons.mp hdm with rfl | hdm
    · exact ⟨hw, h3, ha, hnode.2.2.2.2.2.2.2.2⟩
    · obtain ⟨g1, g2, g3, g4⟩ := hd d hdm
      exact ⟨g1, g2, g3, by omega⟩
  · exact List.Pairwise.cons (fun d hdm => (hd d hdm).2.2.2) hp

theorem SeekInv.pop {s : BDD} (hs : s.WF) {n0 : Nat} (h0 : s.Valid n0) {asg : Nat → Bool}
    {n d : Nat} {decPnts : List Nat} (h : SeekInv s n0 asg n (d :: decPnts)) :
    SeekInv s n0 (flip asg (s.deref d).var) (s.deref d).pos decPnts := by
  obtain ⟨_, hd, hp⟩ := h
  obtain ⟨hwd, hd3, _, _⟩ := hd d (List.mem_cons_self _ _)
  have hdv := hwd.valid_end hs h0
  have hnode := hs.node d hd3 hdv.2
  have hwd' : Walk s (flip asg (s.deref d).var) n0 d :=
    hwd.congr hs h0 (fun k hk => flip_above asg hnode.1 hk)
  rw [List.pairwise_cons] at hp
  refine ⟨?_, ?_, hp.2⟩
  · have := Walk.tail hwd' hd3
    rw [flip_at asg hnode.1] at this
    simpa using this
  · intro e hem
    obtain ⟨g1, g2, g3, _⟩ := hd e (List.mem_cons_of_mem _ hem)
    have hlt := hp.1 e hem
    have hev := g1.valid_end hs h0
    have henode := hs.node e g2 hev.2
    refine ⟨g1.congr hs h0 (fun k hk => flip_above asg hnode.1 (lt_trans hlt hk)), g2, ?_, ?_⟩
    · rw [flip_above asg hnode.1 (by rw [Int.toNat_of_nonneg henode.1]; exact hlt)]
      exact g3
    · omega

theorem satSeek_succ (s : BDD) (n0 fuel n : Nat) (decPnts : List Nat) (changed : Bool)
    (c : BDDConjunction) :
    satSeek s n0 (fuel + 1) n decPnts changed c =
      if !s.isConstant n then
        if c.assignment (s.deref n).var.toNat then
          satSeek s n0 fuel (s.deref n).pos decPnts changed c
        else
          satSeek s n0 fuel (s.deref n).neg (n :: decPnts) changed c
      else if BDD.isTrue n then
        match recordWalk s c.assignment fuel n0 c.decisionPnts with
        | none => none
        | some dp => some (true, changed, { c with decisionPnts := dp })
      else
        match decPnts with
        | [] =>
          match findLeastGreater c.decisionPnts (s.deref n0).var with
          | none => some (false, true, c)
          | some v => satSeek s n0 fuel n0 [] true { c with assignment := flip c.assignment v }
        | decPnt :: decPnts =>
          satSeek s n0 fuel (s.deref decPnt).pos decPnts true
            { c with assignment := flip c.assignment (s.deref decPnt).var } := by
  rfl

/-- Once `assignmentChanged` is set it stays set. -/
theorem satSeek_changed (s : BDD) (n0 : Nat) :
    ∀ (fuel n : Nat) (decPnts : List Nat) (c : BDDConjunction) (ok ch : Bool)
      (c' : BDDConjunction),
      satSeek s n0 fuel n decPnts true c = some (ok, ch, c') → ¬ ch = false := by
  intro fuel
  induction fuel with
  | zero =>
    intro n decPnts c ok ch c' h
    simp [satSeek] at h
  | succ fuel ih =>
    intro n decPnts c ok ch c' h
    rw [satSeek_succ] at h
    split at h
    · split at h
      · exact ih _ _ _ _ _ _ h
      · exact ih _ _ _ _ _ _ h
    · split at h
      · split at h
        · simp at h
        · simp only [Option.some.injEq, Prod.mk.injEq] at h
          obtain ⟨_, rfl, _⟩ := h
          simp
      · split at h
        · split at h
          · simp only [Option.some.injEq, Prod.mk.injEq] at h
            obtain ⟨_, rfl, _⟩ := h
            simp
          · exact ih _ _ _ _ _ _ h
        · exact ih _ _ _ _ _ _ h

/-- What a call of `findNextSatAssignment` that returns leaves behind: the list
of nodes and the latch are untouched; when it answers `true` the assignment
satisfies `n0`; when it reports no change the assignment is the old one. -/
theorem satSeek_spec {s : BDD} (hs : s.WF) {n0 : Nat} (h0 : s.Valid n0) :
    ∀ (fuel n : Nat) (decPnts : List Nat) (changed : Bool) (c : BDDConjunction)
      (ok ch : Bool) (c' : BDDConjunction),
      SeekInv s n0 c.assignment n decPnts →
      satSeek s n0 fuel n decPnts changed c = some (ok, ch, c') →
      c'.nodes = c.nodes ∧ c'.isFalse = c.isFalse ∧
      (ok = true → s.eval c'.assignment n0 = true) ∧
      (ch = false → c'.assignment = c.assignment) := by
  intro fuel
  induction fuel with
  | zero =>
    intro n decPnts changed c ok ch c' _ h
    simp [satSeek] at h
  | succ fuel ih =>
    intro n decPnts changed c ok ch c' hinv h
    have hn := hinv.1.valid_end hs h0
    rw [satSeek_succ] at h
    by_cases h3 : 3 ≤ n
    · have hc : s.isConstant n = false := hs.not_isConstant h3 hn.2
      simp only [hc, Bool.not_false, if_true] at h
      by_cases ha : c.assignment (s.deref n).var.toNat = true
      · simp only [ha, if_true] at h
        exact ih _ _ _ _ _ _ _ (hinv.pos hs h0 h3 ha) h
      · simp only [ha, Bool.false_eq_true, if_false] at h
        exact ih _ _ _ _ _ _ _ (hinv.neg hs h0 h3 (by simpa using ha)) h
    · have hc : s.isConstant n = true := isConstant_leaf s (by omega)
      simp only [hc, Bool.not_true, Bool.false_eq_true, if_false] at h
      by_cases ht : BDD.isTrue n = true
      · simp only [ht, if_true] at h
        cases hrec : recordWalk s c.assignment fuel n0 c.decisionPnts with
        | none => rw [hrec] at h; simp at h
        | some dp =>
          rw [hrec] at h
          simp only [Option.some.injEq, Prod.mk.injEq] at h
          obtain ⟨rfl, rfl, rfl⟩ := h
          refine ⟨rfl, rfl, ?_, fun _ => rfl⟩
          intro _
          have e := hinv.1.eval_eq hs h0
          rw [(isTrue_iff n).mp ht, eval_true] at e
          exact e
      · simp only [ht, Bool.false_eq_true, if_false] at h
        cases decPnts with
        | nil =>
          simp only at h
          cases hfl : findLeastGreater c.decisionPnts (s.deref n0).var with
          | none =>
            rw [hfl] at h
            simp only [Option.some.injEq, Prod.mk.injEq] at h
            obtain ⟨rfl, rfl, rfl⟩ := h
            exact ⟨rfl, rfl, fun e => by simp at e, fun e => by simp at e⟩
          | some v =>
            rw [hfl] at h
            simp only at h
            obtain ⟨g1, g2, g3, g4⟩ := ih _ _ _ _ _ _ _ (SeekInv.start s n0 _) h
            refine ⟨g1, g2, g3, ?_⟩
            intro e
            -- the flag was set before the jump, so the call cannot report "no change"
            exact absurd e (satSeek_changed s n0 _ _ _ _ _ _ _ h)
        | cons d rest =>
          simp only at h
          obtain ⟨g1, g2, g3, g4⟩ := ih _ _ _ _ _ _ _ (hinv.pop hs h0) h
          refine ⟨g1, g2, g3, ?_⟩
          intro e
          exact absurd e (satSeek_changed s n0 _ _ _ _ _ _ _ h)

theorem findNextSatAssignment_spec {s : BDD} (hs : s.WF) {n0 : Nat} (h0 : s.Valid n0)
    {fuel : Nat} {c c' : BDDConjunction} {ok ch : Bool}
    (h : findNextSatAssignment fuel s c n0 = some (ok, ch, c')) :
    c'.nodes = c.nodes ∧ c'.isFalse = c.isFalse ∧
      (ok = true → s.eval c'.assignment n0 = true) ∧
      (ch = false → c'.assignment = c.assignment) :=
  satSeek_spec hs h0 fuel n0 [] false c ok ch c' (SeekInv.start s n0 c.assignment) h

theorem addLoop_cons (s : BDD) (fuel k : Nat) (front : List Nat) (x : Nat) (rest : List Nat)
    (c : BDDConjunction) :
    addLoop s fuel (k + 1) front (x :: rest) c =
      match findNextSatAssignment fuel s c x with
      | none => none
      | some (false, _, c) => some { c with isFalse := true }
      | some (true, true, c) =>
        addLoop s fuel k [x] (front ++ rest)
          { c with nodes := x :: (front ++ rest), decisionPnts := [] }
      | some (true, false, c) => addLoop s fuel k (front ++ [x]) rest c := by
  rfl

/-- The `while(next)` loop of `addNode`: the list of nodes is only reordered,
and if the loop ends without latching, the assignment satisfies every node of
the list. -/
theorem addLoop_spec {s : BDD} (hs : s.WF) (fuel : Nat) :
    ∀ (k : Nat) (front next : List Nat) (c c' : BDDConjunction),
      (∀ n ∈ front ++ next, s.Valid n) → c.nodes = front ++ next →
      (∀ n ∈ front, s.eval c.assignment n = true) →
      addLoop s fuel k front next c = some c' →
      c'.nodes.Perm (front ++ next) ∧
        (c'.isFalse = false → ∀ n ∈ c'.nodes, s.eval c'.assignment n = true) := by
  intro k
  induction k with
  | zero =>
    intro front next c c' _ _ _ h
    simp [addLoop] at h
  | succ k ih =>
    intro front next c c' hv hn hsat h
    cases next with
    | nil =>
      simp only [addLoop, Option.some.injEq] at h
      subst h
      rw [hn]
      refine ⟨List.Perm.refl _, ?_⟩
      intro _ n hm
      simp only [List.append_nil] at hm
      exact hsat n hm
    | cons x rest =>
      rw [addLoop_cons] at h
      have hx : s.Valid x := hv x (by simp)
      cases hres : findNextSatAssignment fuel s c x with
      | none => rw [hres] at h; simp at h
      | some r =>
        obtain ⟨ok, ch, c2⟩ := r
        obtain ⟨g1, g2, g3, g4⟩ := findNextSatAssignment_spec hs hx hres
        rw [hres] at h
        cases ok with
        | false =>
          simp only [Option.some.injEq] at h
          subst h
          simp only [g1, hn]
          exact ⟨List.Perm.refl _, fun e => by simp at e⟩
        | true =>
          cases ch with
          | true =>
            simp only at h
            have hperm : (x :: (front ++ rest)).Perm (front ++ x :: rest) :=
              List.perm_middle.symm
            obtain ⟨p1, p2⟩ := ih [x] (front ++ rest) _ c' (by
                intro n hm
                exact hv n (hperm.subset hm)) rfl (by
                intro n hm
                rw [List.mem_singleton] at hm
                subst hm
                exact g3 rfl) h
            exact ⟨p1.trans hperm, p2⟩
          | false =>
            simp only at h
            have e : front ++ [x] ++ rest = front ++ x :: rest := by simp
            obtain ⟨p1, p2⟩ := ih (front ++ [x]) rest c2 c' (by rw [e]; exact hv)
              (by rw [g1, hn, e]) (by
                intro n hm
                rw [g4 rfl]
                rcases List.mem_append.mp hm with hm | hm
                · exact hsat n hm
                · rw [List.mem_singleton] at hm
                  subst hm
                  have := g3 rfl
                  rw [g4 rfl] at this
                  exact this) h
            rw [e] at p1
            exact ⟨p1, p2⟩

/-- What a call of `addNode` that returns leaves behind, on an aggregator that
is not latched and whose nodes are satisfied by its assignment. -/
theorem addNode_spec {s : BDD} (hs : s.WF) {fuel n : Nat} (hn : s.Valid n)
    {c c' : BDDConjunction} (hv : ∀ m ∈ c.nodes, s.Valid m)
    (hsat : ∀ m ∈ c.nodes, s.eval c.assignment m = true) (hc : c.isFalse = false)
    (h : c.addNode fuel s n = some c') :
    (c'.isFalse = false →
      (∀ m ∈ c'.nodes, s.Valid m) ∧ (∀ m ∈ c'.nodes, s.eval c'.assignment m = true) ∧
      (∀ m ∈ c.nodes, m ∈ c'.nodes) ∧ (3 ≤ n → n ∈ c'.nodes)) := by
  unfold addNode at h
  rw [if_neg (by rw [hc]; decide : ¬ c.isFalse = true)] at h
  by_cases h3 : 3 ≤ n
  · have hconst : s.isConstant n = false := hs.not_isConstant h3 hn.2
    rw [if_neg (by rw [hconst]; decide : ¬ s.isConstant n = true)] at h
    simp only [] at h
    generalize hc1 : (if (s.deref n).var > c.maxVar
      then ({ c with maxVar := (s.deref n).var } : BDDConjunction) else c) = c1 at h
    have e1 : c1.nodes = c.nodes ∧ c1.assignment = c.assignment := by
      rw [← hc1]; split <;> exact ⟨rfl, rfl⟩
    cases hres : findNextSatAssignment fuel s { c1 with nodes := n :: c1.nodes } n with
    | none => rw [hres] at h; simp at h
    | some r =>
      obtain ⟨ok, ch, c2⟩ := r
      obtain ⟨g1, g2, g3, g4⟩ := findNextSatAssignment_spec hs hn hres
      simp only at g1 g4
      rw [hres] at h
      cases ok with
      | false =>
        simp only [Option.some.injEq] at h
        subst h
        intro e
        simp at e
      | true =>
        cases ch with
        | false =>
          simp only [Option.some.injEq] at h
          subst h
          intro _
          have ea : c2.assignment = c.assignment := by rw [g4 rfl, e1.2]
          have en : c2.nodes = n :: c.nodes := by rw [g1, e1.1]
          refine ⟨?_, ?_, ?_, ?_⟩
          · intro m hm
            rw [en] at hm
            rcases List.mem_cons.mp hm with rfl | hm
            · exact hn
            · exact hv m hm
          · intro m hm
            rw [en] at hm
            rcases List.mem_cons.mp hm with rfl | hm
            · exact g3 rfl
            · rw [ea]; exact hsat m hm
          · intro m hm
            rw [en]; exact List.mem_cons_of_mem _ hm
          · intro _
            rw [en]; exact List.mem_cons_self _ _
        | true =>
          simp only at h
          have en : c2.nodes = [n] ++ c1.nodes := by rw [g1]; rfl
          obtain ⟨p1, p2⟩ := addLoop_spec hs fuel fuel [n] c1.nodes c2 c' (by
              intro m hm
              rcases List.mem_append.mp hm with hm | hm
              · rw [List.mem_singleton] at hm
                subst hm
                exact hn
              · rw [e1.1] at hm
                exact hv m hm) en (by
              intro m hm
              rw [List.mem_singleton] at hm
              subst hm
              exact g3 rfl) h
          intro e
          rw [e1.1] at p1
          refine ⟨?_, p2 e, ?_, ?_⟩
          · intro m hm
            rcases List.mem_append.mp (p1.subset hm) with hm | hm
            · rw [List.mem_singleton] at hm
              subst hm
              exact hn
            · exact hv m hm
          · intro m hm
            exact p1.symm.subset (List.mem_append_right _ hm)
          · intro _
            exact p1.symm.subset (List.mem_append_left _ (List.mem_singleton_self _))
  · have hconst : s.isConstant n = true := isConstant_leaf s (by omega)
    rw [if_pos hconst] at h
    split at h
    · simp only [Option.some.injEq] at h
      subst h
      intro e
      simp at e
    · simp only [Option.some.injEq] at h
      subst h
      intro _
      exact ⟨hv, hsat, fun m hm => hm, fun e => absurd e h3⟩

theorem addNode_latched {c : BDDConjunction} (hc : c.isFalse = true) (fuel : Nat) (s : BDD)
    (n : Nat) : c.addNode fuel s n = some c := by
  unfold addNode
  rw [if_pos hc]

/-- The invariant of the runs of an aggregator. -/
theorem Run.inv {s : BDD} {c : BDDConjunction} {added : List Nat} (h : Run s c added) :
    s.Reach ∧ (∀ n ∈ added, s.Valid n) ∧
      (c.isFalse = false →
        (∀ m ∈ c.nodes, s.Valid m) ∧ (∀ m ∈ c.nodes, s.eval c.assignment m = true) ∧
        ∀ n ∈ added, 3 ≤ n → n ∈ c.nodes) := by
  induction h with
  | fresh hr =>
    refine ⟨hr, by simp, fun _ => ⟨?_, ?_, by simp⟩⟩
    · intro m hm
      simp [BDDConjunction.fresh] at hm
    · intro m hm
      simp [BDDConjunction.fresh] at hm
  | @grow s t c added _ he hr ih =>
    obtain ⟨hs, hv, hinv⟩ := ih
    refine ⟨hr, fun n hn => he.valid (hv n hn), ?_⟩
    intro hc
    obtain ⟨g1, g2, g3⟩ := hinv hc
    refine ⟨fun m hm => he.valid (g1 m hm), ?_, g3⟩
    intro m hm
    rw [he.eval hs.wf _ (g1 m hm)]
    exact g2 m hm
  | @add s c c' added fuel n _ hn hadd ih =>
    obtain ⟨hs, hv, hinv⟩ := ih
    refine ⟨hs, ?_, ?_⟩
    · intro m hm
      rcases List.mem_cons.mp hm with rfl | hm
      · exact hn
      · exact hv m hm
    · intro hc'
      by_cases hc : c.isFalse = false
      · obtain ⟨g1, g2, g3⟩ := hinv hc
        obtain ⟨k1, k2, k3, k4⟩ := addNode_spec hs.wf hn g1 g2 hc hadd hc'
        refine ⟨k1, k2, ?_⟩
        intro m hm h3
        rcases List.mem_cons.mp hm with rfl | hm
        · exact k4 h3
        · exact k3 m (g3 m hm h3)
      · have hc1 : c.isFalse = true := by
          cases hcf : c.isFalse
          · exact absurd hcf hc
          · rfl
        rw [addNode_latched hc1] at hadd
        simp only [Option.some.injEq] at hadd
        subst hadd
        rw [hc1] at hc'
        exact absurd hc' (by decide)

end BDDConjunction

/-- C5 (satisfiability invariant of the aggregator): after any sequence of
`addNode` calls on a new `BDDConjunction` with nodes of the engine, if the
aggregator is not unsat then the walk from every added non-constant node along
the current assignment ends in TRUE. -/
theorem aggregator_sat (s : BDD) (c : BDDConjunction) (added : List Nat)
    (h : BDDConjunction.Run s c added) (hc : c.isFalse = false) :
    ∀ n ∈ added, s.isConstant n = false → s.eval c.assignment n = true := by
  obtain ⟨hs, hv, hinv⟩ := h.inv
  obtain ⟨_, g2, g3⟩ := hinv hc
  intro n hn hconst
  have h3 : 3 ≤ n := by
    by_contra h3
    rw [BDD.isConstant_leaf s (by omega)] at hconst
    exact absurd hconst (by decide)
  exact g2 n (g3 n hn h3)

theorem aggregator_sat_witness :
    (BDD.new.getAtomic 0 true).2.eval (BDDConjunction.flip (fun _ => false) 0) 3 = true :=
  aggregator_sat (BDD.new.getAtomic 0 true).2
    ⟨false, 0, [3], BDDConjunction.flip (fun _ => false) 0, []⟩ [3]
    (BDDConjunction.Run.add
      (BDDConjunction.Run.fresh (BDD.Reach.atomic 0 true BDD.Reach.new (by decide)))
      ⟨by decide, by decide⟩
      (rfl : BDDConjunction.addNode 8 (BDD.new.getAtomic 0 true).2 BDDConjunction.fresh 3
        = some ⟨false, 0, [3], BDDConjunction.flip (fun _ => false) 0, []⟩))
    rfl 3 (List.mem_singleton_self 3) (by decide)

/-- C6 fails on the code: the nodes `x1 ∨ x0` (address `5`) and `¬x2 ∧ ¬x0`
(address `8`) of a reachable engine state, added in this order to a new
aggregator, leave it unsat, although the assignment that makes only variable
`1` true satisfies both. -/
theorem aggregator_unsat_unsound :
    BDDConjunction.latchState.Reach ∧ BDDConjunction.latchState.Valid 5 ∧ BDDConjunction.latchState.Valid 8 ∧
    (BDDConjunction.addNodes 64 BDDConjunction.latchState BDDConjunction.fresh [5, 8]).map
      (fun c => c.isFalse) = some true ∧
    BDDConjunction.latchState.eval (fun i => decide (i = 1)) 5 = true ∧
    BDDConjunction.latchState.eval (fun i => decide (i = 1)) 8 = true := by
  refine ⟨?_, ⟨by decide, by decide⟩, ⟨by decide, by decide⟩, by decide, by decide, by decide⟩
  have r1 : ((BDD.new.getAtomic 1 true).2.getAtomic 0 true).2.Reach :=
    BDD.Reach.atomic 0 true (BDD.Reach.atomic 1 true BDD.Reach.new (by decide)) (by decide)
  have r2 : (⟨2, [⟨1, 1, 2⟩, ⟨0, 1, 2⟩, ⟨1, 1, 4⟩]⟩ : BDD).Reach :=
    BDD.Reach.disj r1 ⟨by decide, by decide⟩ ⟨by decide, by decide⟩
      (rfl : BDD.disjunction 64 ((BDD.new.getAtomic 1 true).2.getAtomic 0 true).2 3 4
        = some (5, ⟨2, [⟨1, 1, 2⟩, ⟨0, 1, 2⟩, ⟨1, 1, 4⟩]⟩))
  have r3 := BDD.Reach.atomic 0 false (BDD.Reach.atomic 2 false r2 (by decide)) (by decide)
  exact BDD.Reach.conj r3 ⟨by decide, by decide⟩ ⟨by decide, by decide⟩
    (rfl : BDD.conjunction 64
        (((⟨2, [⟨1, 1, 2⟩, ⟨0, 1, 2⟩, ⟨1, 1, 4⟩]⟩ : BDD).getAtomic 2 false).2.getAtomic
          0 false).2 6 7
      = some (8, BDDConjunction.latchState))

end Kernel

/-! ## The node table of `getNode` -/

namespace Kernel

namespace BDD

theorem getNode_ext (s : BDD) (v : Int) (p n : Nat) : Ext s (s.getNode v p n).2 := by
  unfold getNode
  simp only
  split
  · exact Ext.refl s
  · exact ⟨le_refl _, [⟨v, p, n⟩], rfl⟩

theorem getNode_nodes (s : BDD) (v : Int) (p n : Nat) :
    (s.getNode v p n).2.nodes = s.nodes ∨
      (s.getNode v p n).2.nodes = s.nodes ++ [⟨v, p, n⟩] := by
  unfold getNode
  simp only
  split
  · exact Or.inl rfl
  · exact Or.inr rfl

/-- In any state, the node `getNode` returns is a node of the table whose
record is the triple asked for. -/
theorem getNode_deref (s : BDD) (v : Int) (p n : Nat) :
    3 ≤ (s.getNode v p n).1 ∧ (s.getNode v p n).1 < (s.getNode v p n).2.nodes.length + 3 ∧
      (s.getNode v p n).2.deref (s.getNode v p n).1 = ⟨v, p, n⟩ := by
  by_cases hi : s.nodes.indexOf ⟨v, p, n⟩ < s.nodes.length
  · have e : s.getNode v p n = (s.nodes.indexOf ⟨v, p, n⟩ + 3, s) := by
      simp [getNode, hi]
    rw [e]
    refine ⟨by omega, ?_, ?_⟩
    · show _ < s.nodes.length + 3
      omega
    · show s.deref _ = _
      rw [deref_heap s (by omega) (by omega)]
      simp only [Nat.add_sub_cancel]
      exact List.indexOf_get hi
  · have e : s.getNode v p n
        = (s.nodes.length + 3, { s with nodes := s.nodes ++ [⟨v, p, n⟩] }) := by
      simp [getNode, hi]
    rw [e]
    refine ⟨by omega, ?_, ?_⟩
    · show _ < (s.nodes ++ [(⟨v, p, n⟩ : BDDNode)]).length + 3
      simp
    · show BDD.deref ⟨s.newVar, s.nodes ++ [⟨v, p, n⟩]⟩ (s.nodes.length + 3) = _
      rw [deref_heap _ (by omega) (by simp)]
      simp

/-- A second call of `getNode` with the same triple returns the same node and
leaves the table as it is. -/
theorem getNode_again (s : BDD) (v : Int) (p n : Nat) :
    (s.getNode v p n).2.getNode v p n = s.getNode v p n := by
  by_cases hi : s.nodes.indexOf ⟨v, p, n⟩ < s.nodes.length
  · have e : s.getNode v p n = (s.nodes.indexOf ⟨v, p, n⟩ + 3, s) := by
      simp [getNode, hi]
    rw [e]
    exact e
  · have e : s.getNode v p n
        = (s.nodes.length + 3, { s with nodes := s.nodes ++ [⟨v, p, n⟩] }) := by
      simp [getNode, hi]
    rw [e]
    have hnot : (⟨v, p, n⟩ : BDDNode) ∉ s.nodes := fun hm => hi (List.indexOf_lt_length.mpr hm)
    have hidx : (s.nodes ++ [(⟨v, p, n⟩ : BDDNode)]).indexOf ⟨v, p, n⟩ = s.nodes.length := by
      rw [List.indexOf_append_of_not_mem hnot]
      simp
    simp [getNode, hidx]

/-- C12 (node-table uniqueness): in any state of the engine, a second call
`getNode(v,pos,neg)` returns the node of the first call and adds nothing; a
later call of `getNode` with a different triple returns a different node; and
in every state the engine reaches, two internal nodes of the table with the
same triple `(var,pos,neg)` are the same node. -/
theorem node_table_unique (s : BDD) (hs : s.Reach) (v : Int) (pos neg : Nat) :
    (s.getNode v pos neg).2.getNode v pos neg = s.getNode v pos neg ∧
    (∀ (t : BDD) (v' : Int) (pos' neg' : Nat), Ext (s.getNode v pos neg).2 t →
      (v', pos', neg') ≠ (v, pos, neg) →
      (t.getNode v' pos' neg').1 ≠ (s.getNode v pos neg).1) ∧
    (∀ a b, 3 ≤ a → a < s.nodes.length + 3 → 3 ≤ b → b < s.nodes.length + 3 →
      s.deref a = s.deref b → a = b) := by
  refine ⟨getNode_again s v pos neg, ?_, ?_⟩
  · intro t v' pos' neg' he hne heq
    obtain ⟨_, h2, h3⟩ := getNode_deref s v pos neg
    obtain ⟨_, _, k3⟩ := getNode_deref t v' pos' neg'
    have e1 := (he.trans (getNode_ext t v' pos' neg')).deref h2
    rw [h3, ← heq, k3] at e1
    simp only [BDDNode.mk.injEq] at e1
    exact hne (by rw [e1.1, e1.2.1, e1.2.2])
  · intro a b ha3 ha hb3 hb e
    exact hs.wf.deref_inj ha3 hb3 ha hb e

theorem node_table_unique_witness :
    ((BDD.new.getAtomic 0 true).2.getNode 0 2 1).2.getNode 0 2 1
        = (BDD.new.getAtomic 0 true).2.getNode 0 2 1 ∧
    (∀ (t : BDD) (v' : Int) (pos' neg' : Nat), Ext ((BDD.new.getAtomic 0 true).2.getNode 0 2 1).2 t →
      (v', pos', neg') ≠ (0, 2, 1) →
      (t.getNode v' pos' neg').1 ≠ ((BDD.new.getAtomic 0 true).2.getNode 0 2 1).1) ∧
    (∀ a b, 3 ≤ a → a < (BDD.new.getAtomic 0 true).2.nodes.length + 3 → 3 ≤ b →
      b < (BDD.new.getAtomic 0 true).2.nodes.length + 3 →
      (BDD.new.getAtomic 0 true).2.deref a = (BDD.new.getAtomic 0 true).2.deref b → a = b) :=
  node_table_unique _ (Reach.atomic 0 true Reach.new (by decide)) 0 2 1

/-- C13 as the spec states it fails: after `getAtomic(0,true)` on a new engine,
`getNode(0, TRUE, TRUE)` returns the address `4`, not TRUE (address `1`), and
the table has grown from one node to two. -/
theorem getNode_collapse_counterexample :
    ((BDD.new.getAtomic 0 true).2.getNode 0 getTrue getTrue).1 ≠ getTrue ∧
    (BDD.new.getAtomic 0 true).2.nodes.length = 1 ∧
    ((BDD.new.getAtomic 0 true).2.getNode 0 getTrue getTrue).2.nodes.length = 2 := by
  decide

/-- C13 as amended: the collapse of equal children is done by the inner loop of
`getBinaryFnResult`, not by `getNode`.  When the finished positive branch on
top of `results` is the node `p` and the negative branch `res` is `p` too, the
loop goes on with `p` and the same table, without a call of `getNode`.  A call
of `getNode` that meets its assertions (`pos ≠ neg`, children below the
variable) returns a node with the record `(var,pos,neg)`, different from both
children, and adds at most this one record to the table. -/
theorem collapse_equal_children (s : BDD) (hs : s.WF) (p : Nat) (hp : s.Valid p) :
    (∀ (counter z arg1 arg2 : Nat) (results : List Nat) (var : Int) (vars : List Int)
        (cache : Cache),
      collapse counter p (p :: z :: arg1 :: arg2 :: results) (var :: vars) cache s
        = collapse counter p results vars
            (if counter % 4 = 0 then cacheInsert cache (arg1, arg2) p else cache) s) ∧
    (∀ (var : Int) (n : Nat), 0 ≤ var → var < s.newVar → s.Valid n → p ≠ n →
      (s.deref p).var < var → (s.deref n).var < var →
      (s.getNode var p n).2.deref (s.getNode var p n).1 = ⟨var, p, n⟩ ∧
      (s.getNode var p n).1 ≠ p ∧ (s.getNode var p n).1 ≠ n ∧
      ((s.getNode var p n).2.nodes = s.nodes ∨
        (s.getNode var p n).2.nodes = s.nodes ++ [⟨var, p, n⟩])) := by
  constructor
  · intro counter z arg1 arg2 results var vars cache
    have hp0 : p ≠ 0 := by have := hp.1; omega
    rw [collapse_frame counter p hp0]
    simp
  · intro var n hv0 hv1 hn hne hpv hnv
    obtain ⟨hw, hx, hvalid, h3, hd⟩ := getNode_spec hs hv0 hv1 hp hn hne hpv hnv
    refine ⟨hd, ?_, ?_, getNode_nodes s var p n⟩
    · intro e
      rw [e, hx.deref hp.2] at hd
      rw [hd] at hpv
      exact lt_irrefl _ hpv
    · intro e
      rw [e, hx.deref hn.2] at hd
      rw [hd] at hnv
      exact lt_irrefl _ hnv

theorem collapse_equal_children_witness :
    (∀ (counter z arg1 arg2 : Nat) (results : List Nat) (var : Int) (vars : List Int)
        (cache : Cache),
      collapse counter 3 (3 :: z :: arg1 :: arg2 :: results) (var :: vars) cache
          (BDD.new.getAtomic 0 true).2
        = collapse counter 3 results vars
            (if counter % 4 = 0 then cacheInsert cache (arg1, arg2) 3 else cache)
            (BDD.new.getAtomic 0 true).2) ∧
    (∀ (var : Int) (n : Nat), 0 ≤ var → var < (BDD.new.getAtomic 0 true).2.newVar →
      (BDD.new.getAtomic 0 true).2.Valid n → 3 ≠ n →
      ((BDD.new.getAtomic 0 true).2.deref 3).var < var →
      ((BDD.new.getAtomic 0 true).2.deref n).var < var →
      ((BDD.new.getAtomic 0 true).2.getNode var 3 n).2.deref
          ((BDD.new.getAtomic 0 true).2.getNode var 3 n).1 = ⟨var, 3, n⟩ ∧
      ((BDD.new.getAtomic 0 true).2.getNode var 3 n).1 ≠ 3 ∧
      ((BDD.new.getAtomic 0 true).2.getNode var 3 n).1 ≠ n ∧
      (((BDD.new.getAtomic 0 true).2.getNode var 3 n).2.nodes
          = (BDD.new.getAtomic 0 true).2.nodes ∨
        ((BDD.new.getAtomic 0 true).2.getNode var 3 n).2.nodes
          = (BDD.new.getAtomic 0 true).2.nodes ++ [⟨var, 3, n⟩])) :=
  collapse_equal_children _ (Reach.atomic 0 true Reach.new (by decide)).wf 3
    ⟨by decide, by decide⟩

/-- C14 (reducedness and ordering are preserved): in every state the engine
reaches by `getAtomic`, `conjunction`, `disjunction` and `xOrNonY`, every
internal node of the table has two different children, both nodes of the
table, and each child is a constant or has a strictly lower variable than the
node. -/
theorem reduced_ordered (s : BDD) (hs : s.Reach) (n : Nat) (hn : s.Valid n) (h3 : 3 ≤ n) :
    (s.deref n).pos ≠ (s.deref n).neg ∧
    s.Valid (s.deref n).pos ∧ s.Valid (s.deref n).neg ∧
    (s.isConstant (s.deref n).pos = true ∨ (s.deref (s.deref n).pos).var < (s.deref n).var) ∧
    (s.isConstant (s.deref n).neg = true ∨ (s.deref (s.deref n).neg).var < (s.deref n).var) := by
  have hw := hs.wf.node n h3 hn.2
  exact ⟨hw.2.2.2.2.2.2.1, hs.wf.valid_pos h3 hn, hs.wf.valid_neg h3 hn,
    Or.inr hw.2.2.2.2.2.2.2.1, Or.inr hw.2.2.2.2.2.2.2.2⟩

theorem reduced_ordered_witness :
    ((BDD.new.getAtomic 0 true).2.deref 3).pos ≠ ((BDD.new.getAtomic 0 true).2.deref 3).neg ∧
    (BDD.new.getAtomic 0 true).2.Valid ((BDD.new.getAtomic 0 true).2.deref 3).pos ∧
    (BDD.new.getAtomic 0 true).2.Valid ((BDD.new.getAtomic 0 true).2.deref 3).neg ∧
    ((BDD.new.getAtomic 0 true).2.isConstant ((BDD.new.getAtomic 0 true).2.deref 3).pos = true ∨
      ((BDD.new.getAtomic 0 true).2.deref ((BDD.new.getAtomic 0 true).2.deref 3).pos).var
        < ((BDD.new.getAtomic 0 true).2.deref 3).var) ∧
    ((BDD.new.getAtomic 0 true).2.isConstant ((BDD.new.getAtomic 0 true).2.deref 3).neg = true ∨
      ((BDD.new.getAtomic 0 true).2.deref ((BDD.new.getAtomic 0 true).2.deref 3).neg).var
        < ((BDD.new.getAtomic 0 true).2.deref 3).var) :=
  reduced_ordered _ (Reach.atomic 0 true Reach.new (by decide)) 3 ⟨by decide, by decide⟩
    (by decide)

/-! ## More laws of the engine and of the aggregator -/

/-- C11 (conjunction is associative on nodes): for nodes `x`, `y`, `z` of a
reachable engine state and enough fuel, the calls `conjunction(x,y)`,
`conjunction(·,z)`, `conjunction(y,z)`, `conjunction(x,·)`, made one after the
other, all return, and `conjunction(conjunction(x,y), z)` and
`conjunction(x, conjunction(y,z))` are the same node. -/
theorem conjunction_assoc (s : BDD) (hs : s.Reach) (x y z : Nat) (hx : s.Valid x)
    (hy : s.Valid y) (hz : s.Valid z) :
    ∃ F, ∀ fuel, F ≤ fuel → ∃ xy t1 r t2 yz t3 t4,
      s.conjunction fuel x y = some (xy, t1) ∧ t1.conjunction fuel xy z = some (r, t2) ∧
      t2.conjunction fuel y z = some (yz, t3) ∧ t3.conjunction fuel x yz = some (r, t4) := by
  obtain ⟨xy, t1, h1, hw1, he1, hv1, hev1⟩ := binop_result conjunctionFn_spec hs.wf hx hy
  obtain ⟨l, t2, h2, hw2, he2, hv2, hev2⟩ :=
    binop_result conjunctionFn_spec hw1 hv1 (he1.valid hz)
  have e12 := he1.trans he2
  obtain ⟨yz, t3, h3, hw3, he3, hv3, hev3⟩ :=
    binop_result conjunctionFn_spec hw2 (e12.valid hy) (e12.valid hz)
  have e13 := e12.trans he3
  obtain ⟨r, t4, h4, hw4, he4, hv4, hev4⟩ :=
    binop_result conjunctionFn_spec hw3 (e13.valid hx) hv3
  have e : r = l := by
    apply hw4.canonical hv4 ((he3.trans he4).valid hv2)
    intro asg
    have a1 : t4.eval asg yz = (t4.eval asg y && t4.eval asg z) := by
      rw [he4.eval hw3 asg hv3, hev3 asg, he4.eval hw3 asg (e13.valid hy),
        he4.eval hw3 asg (e13.valid hz)]
    have a2 : t4.eval asg l = (t4.eval asg xy && t4.eval asg z) := by
      have e24 := he3.trans he4
      rw [e24.eval hw2 asg hv2, hev2 asg, e24.eval hw2 asg (he2.valid hv1),
        e24.eval hw2 asg (e12.valid hz)]
    have a3 : t4.eval asg xy = (t4.eval asg x && t4.eval asg y) := by
      have e14 := (he2.trans he3).trans he4
      rw [e14.eval hw1 asg hv1, hev1 asg, e14.eval hw1 asg (he1.valid hx),
        e14.eval hw1 asg (he1.valid hy)]
    rw [hev4 asg, a1, a2, a3, Bool.and_assoc]
  subst e
  generalize 2 ^ (x + y + 1) = p1 at h1
  generalize 2 ^ (xy + z + 1) = p2 at h2
  generalize 2 ^ (y + z + 1) = p3 at h3
  generalize 2 ^ (x + yz + 1) = p4 at h4
  refine ⟨p1 + p2 + p3 + p4, ?_⟩
  intro fuel hf
  exact ⟨xy, t1, r, t2, yz, t3, t4, h1 fuel (by omega), h2 fuel (by omega),
    h3 fuel (by omega), h4 fuel (by omega)⟩

theorem conjunction_assoc_witness :
    ∃ F, ∀ fuel, F ≤ fuel → ∃ xy t1 r t2 yz t3 t4,
      ((BDD.new.getAtomic 0 true).2.getAtomic 1 true).2.conjunction fuel 3 4 = some (xy, t1) ∧
      t1.conjunction fuel xy 1 = some (r, t2) ∧
      t2.conjunction fuel 4 1 = some (yz, t3) ∧ t3.conjunction fuel 3 yz = some (r, t4) :=
  conjunction_assoc _
    (Reach.atomic 1 true (Reach.atomic 0 true Reach.new (by decide)) (by decide))
    3 4 1 ⟨by decide, by decide⟩ ⟨by decide, by decide⟩ ⟨by decide, by decide⟩

end BDD

namespace BDDConjunction

open BDD

/-- C16 (constants in the aggregator): on a `BDDConjunction` that is not unsat,
`addNode(FALSE)` sets the unsat latch and touches nothing else, and
`addNode(TRUE)` leaves the aggregator (latch, list of nodes, maximal variable,
assignment) as it is. -/
theorem addNode_constant (c : BDDConjunction) (hc : c.isFalse = false) (fuel : Nat) (s : BDD) :
    c.addNode fuel s getFalse = some { c with isFalse := true } ∧
    c.addNode fuel s getTrue = some c := by
  constructor
  · unfold addNode
    rw [if_neg (by rw [hc]; decide : ¬ c.isFalse = true),
      if_pos (isConstant_leaf s (by decide : getFalse < 3)),
      if_pos (by decide : BDD.isFalse getFalse = true)]
  · unfold addNode
    rw [if_neg (by rw [hc]; decide : ¬ c.isFalse = true),
      if_pos (isConstant_leaf s (by decide : getTrue < 3)),
      if_neg (by decide : ¬ BDD.isFalse getTrue = true)]

theorem addNode_constant_witness :
    fresh.addNode 0 BDD.new getFalse = some { fresh with isFalse := true } ∧
    fresh.addNode 0 BDD.new getTrue = some fresh :=
  addNode_constant fresh rfl 0 BDD.new

/-- C18 (the unsat latch is permanent): once a `BDDConjunction` is unsat, a call
of `addNode`, whatever the node, the engine state and the fuel, returns and
leaves the aggregator as it is (latch, list of nodes, assignment); so does any
sequence of such calls. -/
theorem latch_permanent (c : BDDConjunction) (hc : c.isFalse = true) :
    (∀ (fuel : Nat) (s : BDD) (n : Nat), c.addNode fuel s n = some c) ∧
    (∀ (fuel : Nat) (s : BDD) (l : List Nat), addNodes fuel s c l = some c) := by
  refine ⟨fun fuel s n => addNode_latched hc fuel s n, ?_⟩
  intro fuel s l
  induction l with
  | nil => rfl
  | cons n rest ih =>
    unfold addNodes
    rw [addNode_latched hc fuel s n]
    exact ih

theorem latch_permanent_witness :
    (∀ (fuel : Nat) (s : BDD) (n : Nat),
      BDDConjunction.addNode fuel s { fresh with isFalse := true } n
        = some { fresh with isFalse := true }) ∧
    (∀ (fuel : Nat) (s : BDD) (l : List Nat),
      addNodes fuel s { fresh with isFalse := true } l = some { fresh with isFalse := true }) :=
  latch_permanent { fresh with isFalse := true } rfl

theorem recordWalk_succ (s : BDD) (asg : Nat → Bool) (fuel n : Nat) (dp : List Int) :
    recordWalk s asg (fuel + 1) n dp =
      if s.isConstant n then some dp
      else if asg (s.deref n).var.toNat then recordWalk s asg fuel (s.deref n).pos dp
      else recordWalk s asg fuel (s.deref n).neg (dpInsert dp (s.deref n).var) := by
  rfl

/-- Adding the node of a positive atom to a new aggregator: the variable is
flipped to true and the aggregator is not unsat. -/
theorem addNode_atom_pos (s : BDD) (a : Nat) (v : Int) (hv : 0 ≤ v)
    (hd : s.deref a = ⟨v, getTrue, getFalse⟩) (fuel : Nat) :
    fresh.addNode (fuel + 5) s a
      = some ⟨false, v, [a], flip (fun _ => false) v, []⟩ := by
  have hc : s.isConstant a = false := by
    simp only [isConstant, hd, beq_eq_false_iff_ne, ne_eq]
    omega
  have hcT : s.isConstant getTrue = true := isConstant_leaf s (by decide)
  have hcF : s.isConstant getFalse = true := isConstant_leaf s (by decide)
  have hfl : flip (fun _ => false) v v.toNat = true := flip_at _ hv
  have hgt : v > (-1 : Int) := by omega
  unfold addNode
  simp only [fresh, Bool.false_eq_true, if_false, hc, hd, hgt, if_true]
  unfold findNextSatAssignment
  rw [satSeek_succ]
  simp only [hc, hd, Bool.not_false, if_true, Bool.false_eq_true, if_false]
  rw [satSeek_succ]
  simp only [hcF, hd, Bool.not_true, Bool.false_eq_true, if_false,
    (by decide : BDD.isTrue getFalse = false)]
  rw [satSeek_succ]
  simp only [hcT, Bool.not_true, Bool.false_eq_true, if_false,
    (by decide : BDD.isTrue getTrue = true), if_true]
  rw [recordWalk_succ]
  simp only [hc, hd, hfl, Bool.false_eq_true, if_false, if_true]
  rw [recordWalk_succ]
  simp only [hcT, if_true]
  rfl

/-- Adding the node of the negative atom of a variable that is true, with no
remembered decision point above it: the aggregator becomes unsat. -/
theorem addNode_atom_neg (s : BDD) (a b : Nat) (v : Int) (hv : 0 ≤ v)
    (hd : s.deref b = ⟨v, getFalse, getTrue⟩) (fuel : Nat) :
    BDDConjunction.addNode (fuel + 5) s ⟨false, v, [a], flip (fun _ => false) v, []⟩ b
      = some ⟨true, v, [b, a], flip (fun _ => false) v, []⟩ := by
  have hc : s.isConstant b = false := by
    simp only [isConstant, hd, beq_eq_false_iff_ne, ne_eq]
    omega
  have hcF : s.isConstant getFalse = true := isConstant_leaf s (by decide)
  have hfl : flip (fun _ => false) v v.toNat = true := flip_at _ hv
  unfold addNode
  simp only [Bool.false_eq_true, if_false, hc, hd, gt_iff_lt, lt_self_iff_false]
  unfold findNextSatAssignment
  rw [satSeek_succ]
  simp only [hc, hd, hfl, Bool.not_false, if_true]
  rw [satSeek_succ]
  simp only [hcF, hd, Bool.not_true, Bool.false_eq_true, if_false,
    (by decide : BDD.isTrue getFalse = false)]
  rfl

end BDDConjunction

/-- C17 (aggregator scenario, for every variable `v ≥ 0`): in a reachable engine
state, adding `getAtomic(v,true)` to a new `BDDConjunction` returns an
aggregator that is not unsat, and adding `getAtomic(v,false)` next returns an
aggregator that is unsat. -/
theorem aggregator_scenario (s : BDD) (hs : s.Reach) (v : Int) (hv : 0 ≤ v) (fuel : Nat) :
    ∃ c1 c2,
      BDDConjunction.fresh.addNode (fuel + 5) (s.getAtomic v true).2 (s.getAtomic v true).1
        = some c1 ∧ c1.isFalse = false ∧
      c1.addNode (fuel + 5) ((s.getAtomic v true).2.getAtomic v false).2
          ((s.getAtomic v true).2.getAtomic v false).1 = some c2 ∧
      c2.isFalse = true := by
  obtain ⟨hw1, _, _, _, _, hd1⟩ := BDD.getAtomic_spec hs.wf hv true
  obtain ⟨_, _, _, _, _, hd2⟩ := BDD.getAtomic_spec hw1 hv false
  simp only [if_true, Bool.false_eq_true, if_false] at hd1 hd2
  exact ⟨_, _, BDDConjunction.addNode_atom_pos _ _ v hv hd1 fuel, rfl,
    BDDConjunction.addNode_atom_neg _ _ _ v hv hd2 fuel, rfl⟩

theorem aggregator_scenario_witness :
    ∃ c1 c2,
      BDDConjunction.fresh.addNode (0 + 5) (BDD.new.getAtomic 0 true).2
        (BDD.new.getAtomic 0 true).1 = some c1 ∧ c1.isFalse = false ∧
      c1.addNode (0 + 5) ((BDD.new.getAtomic 0 true).2.getAtomic 0 false).2
          ((BDD.new.getAtomic 0 true).2.getAtomic 0 false).1 = some c2 ∧
      c2.isFalse = true :=
  aggregator_scenario BDD.new BDD.Reach.new 0 (by decide) 0

end Kernel

/-! ## The loop of `hasConstantResult` -/

namespace Kernel

namespace BDD

theorem constLoop_succ (fn : Nat → Nat → Nat) (s : BDD) (v : Bool) (fuel : Nat)
    (st : ConstLoop) :
    constLoop fn s v (fuel + 1) st =
      match (if fn st.n1 st.n2 ≠ 0 then
          if (v && !isTrue (fn st.n1 st.n2)) || (!v && !isFalse (fn st.n1 st.n2)) then none
          else some (st.toDo, st.cache)
        else if st.cache.contains (st.n1, st.n2) then some (st.toDo, st.cache)
        else
          some ((if (s.deref st.n1).var = max (s.deref st.n1).var (s.deref st.n2).var
                  then (s.deref st.n1).pos else st.n1) ::
                (if (s.deref st.n2).var = max (s.deref st.n1).var (s.deref st.n2).var
                  then (s.deref st.n2).pos else st.n2) ::
                (if (s.deref st.n1).var = max (s.deref st.n1).var (s.deref st.n2).var
                  then (s.deref st.n1).neg else st.n1) ::
                (if (s.deref st.n2).var = max (s.deref st.n1).var (s.deref st.n2).var
                  then (s.deref st.n2).neg else st.n2) :: st.toDo,
            if (if st.counter + 1 = 50000 then 0 else st.counter + 1) % 4 = 0
              then (st.n1, st.n2) :: st.cache else st.cache)
        : Option (List Nat × List (Nat × Nat))) with
      | none => some false
      | some (toDo, cache) =>
        constNext fn s v fuel toDo cache (if st.counter + 1 = 50000 then 0 else st.counter + 1) := by
  rfl

/-- The node a functor answers with is the constant asked for exactly when the
operation is constant on the pair. -/
theorem answered_const {fn : Nat → Nat → Nat} {op : Bool → Bool → Bool} (hfn : FnSpec fn op)
    {s : BDD} (hs : s.WF) {a b : Nat} (ha : s.Valid a) (hb : s.Valid b) (h : fn a b ≠ 0)
    (v : Bool) :
    ((v && !isTrue (fn a b)) || (!v && !isFalse (fn a b))) = false ↔ ConstOn op s v a b := by
  obtain ⟨hr, _, hev⟩ := (hfn a b ha.1 hb.1).2 h s hs ha hb
  cases v with
  | true =>
    simp only [Bool.true_and, Bool.not_true, Bool.false_and, Bool.or_false,
      Bool.not_eq_false', isTrue_iff]
    constructor
    · intro e asg
      rw [← hev asg, e, eval_true]
    · intro hc
      apply hs.canonical hr (valid_true s)
      intro asg
      rw [hev asg, hc asg, eval_true]
  | false =>
    simp only [Bool.false_and, Bool.not_false, Bool.true_and, Bool.false_or,
      Bool.not_eq_false', isFalse_iff]
    constructor
    · intro e asg
      rw [← hev asg, e, eval_false]
    · intro hc
      apply hs.canonical hr (valid_false s)
      intro asg
      rw [hev asg, hc asg, eval_false]

/-- The operation is constant on a pair exactly when it is constant on the two
pairs the split at the top variable produces. -/
theorem constOn_split {s : BDD} (hs : s.WF) (op : Bool → Bool → Bool) (v : Bool) {a b : Nat}
    {sv : Int} {ap an bp bn : Nat} (hap : s.Valid ap) (han : s.Valid an) (hbp : s.Valid bp)
    (hbn : s.Valid bn)
    (hapv : (s.deref ap).var < sv) (hanv : (s.deref an).var < sv)
    (hbpv : (s.deref bp).var < sv) (hbnv : (s.deref bn).var < sv)
    (haev : ∀ asg, s.eval asg a = if asg sv.toNat then s.eval asg ap else s.eval asg an)
    (hbev : ∀ asg, s.eval asg b = if asg sv.toNat then s.eval asg bp else s.eval asg bn) :
    ConstOn op s v a b ↔ (ConstOn op s v ap bp ∧ ConstOn op s v an bn) := by
  constructor
  · intro h
    constructor
    · intro asg
      have := h (Function.update asg sv.toNat true)
      rw [haev, hbev] at this
      simp only [Function.update_same, if_true] at this
      rw [eval_update_of_lt hs asg hap hapv, eval_update_of_lt hs asg hbp hbpv] at this
      exact this
    · intro asg
      have := h (Function.update asg sv.toNat false)
      rw [haev, hbev] at this
      simp only [Function.update_same, Bool.false_eq_true, if_false] at this
      rw [eval_update_of_lt hs asg han hanv, eval_update_of_lt hs asg hbn hbnv] at this
      exact this
  · intro h asg
    rw [haev asg, hbev asg]
    split
    · exact h.1 asg
    · exact h.2 asg

theorem constNext_cons (fn : Nat → Nat → Nat) (s : BDD) (v : Bool) (fuel n1 n2 : Nat)
    (toDo : List Nat) (cache : List (Nat × Nat)) (counter : Nat) :
    constNext fn s v fuel (n1 :: n2 :: toDo) cache counter
      = constLoop fn s v fuel ⟨n1, n2, toDo, cache, counter⟩ := by
  rfl

/-- The loop of `hasConstantResult`, started on the pair `(a, b)` with any stack:
if the operation is not constantly `v` on the pair, the loop returns `false`;
otherwise it reaches the end of the iteration that finishes the pair, with the
same stack, and every pair it has added to the table is one on which the
operation is constantly `v`. -/
theorem constLoop_eval {fn : Nat → Nat → Nat} {op : Bool → Bool → Bool} (hfn : FnSpec fn op)
    {s : BDD} (hs : s.WF) (v : Bool) :
    ∀ m a b, a + b = m → s.Valid a → s.Valid b →
      ∀ (toDo : List Nat) (cache : List (Nat × Nat)) (counter : Nat),
      (∀ p q, (p, q) ∈ cache → ConstOn op s v p q ∨ a + b < p + q) →
      ∃ k, 1 ≤ k ∧ k < 2 ^ (m + 1) ∧
        ((¬ ConstOn op s v a b ∧
            ∀ fuel, constLoop fn s v (fuel + k) ⟨a, b, toDo, cache, counter⟩ = some false) ∨
         (ConstOn op s v a b ∧ ∃ cache' counter',
            (∀ p q, (p, q) ∈ cache' → ConstOn op s v p q ∨ (p, q) ∈ cache) ∧
            ∀ fuel, constLoop fn s v (fuel + k) ⟨a, b, toDo, cache, counter⟩
              = constNext fn s v fuel toDo cache' counter')) := by
  intro m
  induction m using Nat.strong_induction_on with
  | _ m ih =>
    intro a b hab ha hb toDo cache counter hcache
    have hpow : 1 < 2 ^ (m + 1) := Nat.one_lt_two_pow (by omega)
    by_cases h0 : fn a b = 0
    · by_cases hcached : cache.contains (a, b) = true
      · have hmem : (a, b) ∈ cache := by simpa using hcached
        have hconst : ConstOn op s v a b := by
          rcases hcache a b hmem with h | h
          · exact h
          · omega
        refine ⟨1, le_refl _, hpow, Or.inr ⟨hconst, cache,
          (if counter + 1 = 50000 then 0 else counter + 1), fun p q hpq => Or.inr hpq, ?_⟩⟩
        intro fuel
        rw [constLoop_succ]
        simp only [h0, ne_eq, not_true_eq_false, if_false, hcached, if_true]
      · -- the pair is split
        have h3 := (hfn a b ha.1 hb.1).1 h0
        have hv0 : 0 ≤ max (s.deref a).var (s.deref b).var := by
          rcases h3 with h3 | h3
          · exact le_trans (hs.node a h3 ha.2).1 (le_max_left _ _)
          · exact le_trans (hs.node b h3 hb.2).1 (le_max_right _ _)
        have hmax : (s.deref a).var = max (s.deref a).var (s.deref b).var ∨
            (s.deref b).var = max (s.deref a).var (s.deref b).var := by
          rcases max_choice (s.deref a).var (s.deref b).var with e | e
          · exact Or.inl e.symm
          · exact Or.inr e.symm
        obtain ⟨hap, han, hap', han', hadec, hapv, hanv, haev⟩ :=
          split_side hs ha hv0 (le_max_left (s.deref a).var (s.deref b).var)
        obtain ⟨hbp, hbn, hbp', hbn', hbdec, hbpv, hbnv, hbev⟩ :=
          split_side hs hb hv0 (le_max_right (s.deref a).var (s.deref b).var)
        have hstep : ∀ fuel, constLoop fn s v (fuel + 1) ⟨a, b, toDo, cache, counter⟩
            = constLoop fn s v fuel
              ⟨if (s.deref a).var = max (s.deref a).var (s.deref b).var
                  then (s.deref a).pos else a,
               if (s.deref b).var = max (s.deref a).var (s.deref b).var
                  then (s.deref b).pos else b,
               (if (s.deref a).var = max (s.deref a).var (s.deref b).var
                  then (s.deref a).neg else a) ::
               (if (s.deref b).var = max (s.deref a).var (s.deref b).var
                  then (s.deref b).neg else b) :: toDo,
               if (if counter + 1 = 50000 then 0 else counter + 1) % 4 = 0
                 then (a, b) :: cache else cache,
               if counter + 1 = 50000 then 0 else counter + 1⟩ := by
          intro fuel
          rw [constLoop_succ]
          simp only [h0, ne_eq, not_true_eq_false, if_false, hcached, Bool.false_eq_true]
          rfl
        generalize hv : max (s.deref a).var (s.deref b).var = sv at *
        generalize (if (s.deref a).var = sv then (s.deref a).pos else a) = ap at *
        generalize (if (s.deref a).var = sv then (s.deref a).neg else a) = an at *
        generalize (if (s.deref b).var = sv then (s.deref b).pos else b) = bp at *
        generalize (if (s.deref b).var = sv then (s.deref b).neg else b) = bn at *
        generalize (if counter + 1 = 50000 then 0 else counter + 1) = c0 at *
        generalize hcache1 : (if c0 % 4 = 0 then (a, b) :: cache else cache) = cache1 at *
        have hsplit := constOn_split hs op v hap han hbp hbn hapv hanv hbpv hbnv haev hbev
        have hdp : ap + bp < a + b := by
          rcases hmax with e | e
          · have := (hadec e).1; omega
          · have := (hbdec e).1; omega
        have hdn : an + bn < a + b := by
          rcases hmax with e | e
          · have := (hadec e).2.1; omega
          · have := (hbdec e).2.1; omega
        have hc1 : ∀ p q, (p, q) ∈ cache1 → (p, q) = (a, b) ∨ (p, q) ∈ cache := by
          intro p q hpq
          rw [← hcache1] at hpq
          split at hpq
          · rcases List.mem_cons.mp hpq with e | e
            · exact Or.inl e
            · exact Or.inr e
          · exact Or.inr hpq
        have hb1 : 2 ^ (ap + bp + 1) ≤ 2 ^ m := Nat.pow_le_pow_right (by omega) (by omega)
        have hb2 : 2 ^ (an + bn + 1) ≤ 2 ^ m := Nat.pow_le_pow_right (by omega) (by omega)
        have hb3 : 2 ^ (m + 1) = 2 ^ m + 2 ^ m := by ring
        obtain ⟨k1, hk1, hk1', hres1⟩ := ih (ap + bp) (by omega) ap bp rfl hap hbp
          (an :: bn :: toDo) cache1 c0 (by
            intro p q hpq
            rcases hc1 p q hpq with e | e
            · simp only [Prod.mk.injEq] at e
              right; rw [e.1, e.2]; exact hdp
            · rcases hcache p q e with h | h
              · exact Or.inl h
              · right; omega)
        rcases hres1 with ⟨hn1, hrun1⟩ | ⟨hy1, cache2, c2, hc2, hrun1⟩
        · refine ⟨k1 + 1, by omega, by omega, Or.inl ⟨fun h => hn1 (hsplit.mp h).1, ?_⟩⟩
          intro fuel
          have e : fuel + (k1 + 1) = (fuel + k1) + 1 := by omega
          rw [e, hstep, hrun1]
        · obtain ⟨k2, hk2, hk2', hres2⟩ := ih (an + bn) (by omega) an bn rfl han hbn
            toDo cache2 c2 (by
              intro p q hpq
              rcases hc2 p q hpq with h | h
              · exact Or.inl h
              · rcases hc1 p q h with e | e
                · simp only [Prod.mk.injEq] at e
                  right; rw [e.1, e.2]; exact hdn
                · rcases hcache p q e with h | h
                  · exact Or.inl h
                  · right; omega)
          rcases hres2 with ⟨hn2, hrun2⟩ | ⟨hy2, cache3, c3, hc3, hrun2⟩
          · refine ⟨k2 + k1 + 1, by omega, by omega,
              Or.inl ⟨fun h => hn2 (hsplit.mp h).2, ?_⟩⟩
            intro fuel
            have e : fuel + (k2 + k1 + 1) = (fuel + k2 + k1) + 1 := by omega
            rw [e, hstep, hrun1, constNext_cons, hrun2]
          · have hab' : ConstOn op s v a b := hsplit.mpr ⟨hy1, hy2⟩
            refine ⟨k2 + k1 + 1, by omega, by omega,
              Or.inr ⟨hab', cache3, c3, ?_, ?_⟩⟩
            · intro p q hpq
              rcases hc3 p q hpq with h | h
              · exact Or.inl h
              · rcases hc2 p q h with h | h
                · exact Or.inl h
                · rcases hc1 p q h with e | e
                  · simp only [Prod.mk.injEq] at e
                    left; rw [e.1, e.2]; exact hab'
                  · exact Or.inr e
            · intro fuel
              have e : fuel + (k2 + k1 + 1) = (fuel + k2 + k1) + 1 := by omega
              rw [e, hstep, hrun1, constNext_cons, hrun2]
    · have hiff := answered_const hfn hs ha hb h0 v
      cases hbad : ((v && !isTrue (fn a b)) || (!v && !isFalse (fn a b))) with
      | true =>
        refine ⟨1, le_refl _, hpow, Or.inl ⟨?_, ?_⟩⟩
        · intro hc
          have := hiff.mpr hc
          rw [hbad] at this
          exact absurd this (by decide)
        · intro fuel
          rw [constLoop_succ]
          simp only [ne_eq, h0, not_false_eq_true, if_true, hbad]
      | false =>
        refine ⟨1, le_refl _, hpow,
          Or.inr ⟨hiff.mp hbad, cache, (if counter + 1 = 50000 then 0 else counter + 1),
            fun p q hpq => Or.inr hpq, ?_⟩⟩
        intro fuel
        rw [constLoop_succ]
        simp only [ne_eq, h0, not_false_eq_true, if_true, hbad, Bool.false_eq_true, if_false]

/-- The specification of `hasConstantResult`: with enough fuel the call returns,
and it returns `true` exactly when the operation is constantly `resValue` on
the two nodes. -/
theorem hasConstantResult_spec {fn : Nat → Nat → Nat} {op : Bool → Bool → Bool}
    (hfn : FnSpec fn op) {s : BDD} (hs : s.WF) {a b : Nat} (ha : s.Valid a) (hb : s.Valid b)
    (v : Bool) {fuel : Nat} (hf : 2 ^ (a + b + 1) ≤ fuel) :
    ∃ r, hasConstantResult fuel s a b v fn = some r ∧ (r = true ↔ ConstOn op s v a b) := by
  obtain ⟨k, _, hk, hres⟩ := constLoop_eval hfn hs v (a + b) a b rfl ha hb [] [] 0
    (by intro p q hpq; simp at hpq)
  have e : fuel = (fuel - k) + k := by omega
  unfold hasConstantResult
  rcases hres with ⟨hn, hrun⟩ | ⟨hy, cache', counter', _, hrun⟩
  · refine ⟨false, by rw [e, hrun], ?_⟩
    simp only [Bool.false_eq_true, false_iff]
    exact hn
  · refine ⟨true, by rw [e, hrun]; rfl, ?_⟩
    simp only [true_iff]
    exact hy

/-- C15 (`isXOrNonYConstant` agrees with `xOrNonY`): for nodes `x`, `y` of a
reachable engine state, every boolean `v` and enough fuel, both calls return,
and `isXOrNonYConstant(x,y,v)` is `true` if and only if the node `xOrNonY(x,y)`
is the constant with truth value `v`. -/
theorem isXOrNonYConstant_agrees (s : BDD) (hs : s.Reach) (x y : Nat) (hx : s.Valid x)
    (hy : s.Valid y) (v : Bool) (fuel : Nat) (hf : 2 ^ (x + y + 1) ≤ fuel) :
    ∃ b r t, s.isXOrNonYConstant fuel x y v = some b ∧ s.xOrNonY fuel x y = some (r, t) ∧
      (b = true ↔ r = if v then getTrue else getFalse) := by
  obtain ⟨b, hb, hiff⟩ := hasConstantResult_spec xOrNonYFn_spec hs.wf hx hy v hf
  obtain ⟨r, t, hr, ht, he, hrv, _, hev⟩ := getBinaryFnResult_spec xOrNonYFn_spec hs.wf hx hy hf
  refine ⟨b, r, t, hb, hr, ?_⟩
  rw [hiff]
  constructor
  · intro hc
    cases v with
    | true =>
      apply ht.canonical hrv (valid_true t)
      intro asg
      rw [eval_true]
      exact (hev asg).trans (hc asg)
    | false =>
      apply ht.canonical hrv (valid_false t)
      intro asg
      rw [eval_false]
      exact (hev asg).trans (hc asg)
  · intro e asg
    refine (hev asg).symm.trans ?_
    rw [e]
    cases v with
    | true => exact eval_true t asg
    | false => exact eval_false t asg

theorem isXOrNonYConstant_agrees_witness :
    ∃ b r t, ((BDD.new.getAtomic 0 true).2.getAtomic 1 true).2.isXOrNonYConstant 256 3 4 true
        = some b ∧
      ((BDD.new.getAtomic 0 true).2.getAtomic 1 true).2.xOrNonY 256 3 4 = some (r, t) ∧
      (b = true ↔ r = if true then getTrue else getFalse) :=
  isXOrNonYConstant_agrees _
    (Reach.atomic 1 true (Reach.atomic 0 true Reach.new (by decide)) (by decide))
    3 4 ⟨by decide, by decide⟩ ⟨by decide, by decide⟩ true 256 (by decide)

end BDD

end Kernel

/-! ## The index manager -/

namespace Indexing

theorem intWrap_id {x : Int} (h1 : -2147483648 ≤ x) (h2 : x < 2147483648) : intWrap x = x := by
  unfold intWrap
  omega

theorem lookup_filter_self (st : List (IndexType × Entry)) (t : IndexType) :
    (st.filter (fun p => p.1 ≠ t)).lookup t = none := by
  induction st with
  | nil => rfl
  | cons p rest ih =>
    obtain ⟨k, e⟩ := p
    rw [List.filter_cons]
    by_cases h : k = t
    · have hd : decide ((k, e).1 ≠ t) = false := by simp [h]
      rw [hd]
      simp only [Bool.false_eq_true, if_false]
      exact ih
    · have hd : decide ((k, e).1 ≠ t) = true := by simp [h]
      have h' : (t == k) = false := by
        simp only [beq_eq_false_iff_ne, ne_eq]
        exact fun e => h e.symm
      rw [hd]
      simp only [if_true, List.lookup_cons, h']
      exact ih

theorem lookup_storeSet (st : List (IndexType × Entry)) (t : IndexType) (e : Entry) :
    (storeSet st t e).lookup t = some e := by
  simp [storeSet, List.lookup_cons]

theorem lookup_storeRemove (st : List (IndexType × Entry)) (t : IndexType) :
    (storeRemove st t).lookup t = none :=
  lookup_filter_self st t

namespace IndexManager

theorem newIndex_supported (c : Nat) {t : IndexType} (ht : Supported t) :
    ∃ idx, newIndex c t = some idx := by
  cases t with
  | other n => exact absurd rfl (ht n)
  | _ => exact ⟨_, rfl⟩

theorem contains_false_iff (m : IndexManager) (t : IndexType) :
    m.contains t = false ↔ m.store.lookup t = none := by
  unfold contains
  cases m.store.lookup t <;> simp

theorem request_absent {m : IndexManager} {t : IndexType} (h : m.store.lookup t = none)
    {idx : Index} (hi : newIndex m.compitGenerator t = some idx) :
    m.request t = .ok (m.heap.length,
      ⟨m.compitGenerator, storeSet m.store t ⟨m.heap.length, 1⟩, m.heap ++ [some idx]⟩) := by
  unfold request create
  rw [h, hi]

theorem request_present {m : IndexManager} {t : IndexType} {e : Entry}
    (h : m.store.lookup t = some e) :
    m.request t = .ok (e.index,
      ⟨m.compitGenerator, storeSet m.store t ⟨e.index, intWrap (e.refCnt + 1)⟩, m.heap⟩) := by
  unfold request
  rw [h]

theorem release_present {m : IndexManager} {t : IndexType} {e : Entry}
    (h : m.store.lookup t = some e) :
    m.release t =
      if intWrap (e.refCnt - 1) = 0 then
        some ⟨m.compitGenerator, storeRemove m.store t, m.heap.set e.index none⟩
      else
        some ⟨m.compitGenerator, storeSet m.store t ⟨e.index, intWrap (e.refCnt - 1)⟩, m.heap⟩ := by
  unfold release
  rw [h]

/-- Further requests of a stored type only raise its count. -/
theorem requests_present (t : IndexType) (p : Nat) :
    ∀ (i : Nat) (m : IndexManager) (c : Nat), m.store.lookup t = some ⟨p, (c : Int)⟩ →
      c + i < 2147483648 →
      ∃ m', requests i m t = .ok m' ∧ m'.store.lookup t = some ⟨p, ((c + i : Nat) : Int)⟩ ∧
        m'.heap = m.heap := by
  intro i
  induction i with
  | zero => intro m c h _; exact ⟨m, rfl, h, rfl⟩
  | succ i ih =>
    intro m c h hc
    unfold requests
    rw [request_present h]
    simp only
    have hw : intWrap ((c : Int) + 1) = ((c + 1 : Nat) : Int) := by
      rw [intWrap_id (by omega) (by omega)]
      push_cast
      rfl
    obtain ⟨m', h1, h2, h3⟩ := ih
      ⟨m.compitGenerator, storeSet m.store t ⟨p, intWrap ((c : Int) + 1)⟩, m.heap⟩ (c + 1)
      (by rw [← hw]; exact lookup_storeSet _ _ _) (by omega)
    refine ⟨m', h1, ?_, h3⟩
    have e : c + 1 + i = c + (i + 1) := by omega
    rw [h2, e]

/-- Releases that do not bring the count to zero only lower it. -/
theorem releases_present (t : IndexType) (p : Nat) :
    ∀ (j : Nat) (m : IndexManager) (c : Nat), m.store.lookup t = some ⟨p, (c : Int)⟩ →
      j < c → c < 2147483648 →
      ∃ m', releases j m t = some m' ∧ m'.store.lookup t = some ⟨p, ((c - j : Nat) : Int)⟩ ∧
        m'.heap = m.heap := by
  intro j
  induction j with
  | zero => intro m c h _ _; exact ⟨m, rfl, h, rfl⟩
  | succ j ih =>
    intro m c h hj hc
    unfold releases
    rw [release_present h]
    have hw : intWrap ((c : Int) - 1) = ((c - 1 : Nat) : Int) := by
      rw [intWrap_id (by omega) (by omega)]
      omega
    have hne : ¬ intWrap ((c : Int) - 1) = 0 := by
      rw [hw]
      omega
    simp only [hne, if_false]
    obtain ⟨m', h1, h2, h3⟩ := ih
      ⟨m.compitGenerator, storeSet m.store t ⟨p, intWrap ((c : Int) - 1)⟩, m.heap⟩ (c - 1)
      (by rw [← hw]; exact lookup_storeSet _ _ _) (by omega) (by omega)
    refine ⟨m', h1, ?_, h3⟩
    have e : c - 1 - j = c - (j + 1) := by omega
    rw [h2, e]

/-- The release that brings the count to zero deletes the index and removes the
entry. -/
theorem releases_all (t : IndexType) (p : Nat) :
    ∀ (c : Nat) (m : IndexManager), m.store.lookup t = some ⟨p, ((c + 1 : Nat) : Int)⟩ →
      c + 1 < 2147483648 →
      ∃ m', releases (c + 1) m t = some m' ∧ m'.store.lookup t = none ∧
        m'.heap = m.heap.set p none := by
  intro c
  induction c with
  | zero =>
    intro m h _
    unfold releases
    rw [release_present h]
    have hw : intWrap (((0 + 1 : Nat) : Int) - 1) = 0 := by
      rw [intWrap_id (by omega) (by omega)]
      omega
    simp only [hw, if_true]
    exact ⟨_, rfl, lookup_storeRemove _ _, rfl⟩
  | succ c ih =>
    intro m h hc
    unfold releases
    rw [release_present h]
    have hw : intWrap (((c + 1 + 1 : Nat) : Int) - 1) = ((c + 1 : Nat) : Int) := by
      rw [intWrap_id (by omega) (by omega)]
      omega
    have hne : ¬ intWrap (((c + 1 + 1 : Nat) : Int) - 1) = 0 := by
      rw [hw]
      omega
    simp only [hne, if_false]
    exact ih
      ⟨m.compitGenerator, storeSet m.store t ⟨p, intWrap (((c + 1 + 1 : Nat) : Int) - 1)⟩, m.heap⟩
      (by rw [← hw]; exact lookup_storeSet _ _ _) (by omega)

theorem request_compit (m : IndexManager) (t : IndexType) (p : Nat) (m' : IndexManager)
    (h : m.request t = .ok (p, m')) : m'.compitGenerator = m.compitGenerator := by
  cases hl : m.store.lookup t with
  | some e =>
    rw [request_present hl] at h
    simp only [Except.ok.injEq, Prod.mk.injEq] at h
    rw [← h.2]
  | none =>
    cases hi : newIndex m.compitGenerator t with
    | some idx =>
      rw [request_absent hl hi] at h
      simp only [Except.ok.injEq, Prod.mk.injEq] at h
      rw [← h.2]
    | none =>
      unfold request create at h
      rw [hl, hi] at h
      simp at h

theorem requests_compit :
    ∀ (k : Nat) (m : IndexManager) (t : IndexType) (m' : IndexManager),
      requests k m t = .ok m' → m'.compitGenerator = m.compitGenerator := by
  intro k
  induction k with
  | zero =>
    intro m t m' h
    simp only [requests, Except.ok.injEq] at h
    rw [h]
  | succ k ih =>
    intro m t m' h
    unfold requests at h
    cases hr : m.request t with
    | error x => rw [hr] at h; simp at h
    | ok r =>
      obtain ⟨p, m1⟩ := r
      rw [hr] at h
      simp only at h
      rw [ih m1 t m' h, request_compit m t p m1 hr]

/-- C19 (sharing): for a supported index type `t`, a `request(t)` on a manager
that does not hold `t` allocates the index of the switch of `create` at a new
address and stores it with reference count `1`; a `request(t)` on a manager
that holds `t` with a count in `[1, 2^31 - 1)` returns the stored index,
allocates nothing and raises the count by one. -/
theorem request_shares (m : IndexManager) (t : IndexType) (ht : Supported t) :
    (m.contains t = false →
      ∃ idx m', newIndex m.compitGenerator t = some idx ∧
        m.request t = .ok (m.heap.length, m') ∧ m'.heap = m.heap ++ [some idx] ∧
        m'.store.lookup t = some ⟨m.heap.length, 1⟩) ∧
    (∀ e, m.store.lookup t = some e → 0 < e.refCnt → e.refCnt < 2147483647 →
      ∃ m', m.request t = .ok (e.index, m') ∧ m'.heap = m.heap ∧
        m'.store.lookup t = some ⟨e.index, e.refCnt + 1⟩) := by
  constructor
  · intro hc
    obtain ⟨idx, hi⟩ := newIndex_supported m.compitGenerator ht
    exact ⟨idx, _, hi, request_absent ((contains_false_iff m t).mp hc) hi, rfl,
      lookup_storeSet _ _ _⟩
  · intro e he h0 h1
    have hw := intWrap_id (by omega : -2147483648 ≤ e.refCnt + 1) (by omega)
    refine ⟨_, request_present he, rfl, ?_⟩
    show (storeSet m.store t ⟨e.index, intWrap (e.refCnt + 1)⟩).lookup t = _
    rw [lookup_storeSet, hw]

theorem request_shares_witness :
    ((⟨0, [], []⟩ : IndexManager).contains .SIMPLIFYING_SUBST_TREE = false →
      ∃ idx m', newIndex (⟨0, [], []⟩ : IndexManager).compitGenerator .SIMPLIFYING_SUBST_TREE
          = some idx ∧
        (⟨0, [], []⟩ : IndexManager).request .SIMPLIFYING_SUBST_TREE
          = .ok ((⟨0, [], []⟩ : IndexManager).heap.length, m') ∧
        m'.heap = (⟨0, [], []⟩ : IndexManager).heap ++ [some idx] ∧
        m'.store.lookup .SIMPLIFYING_SUBST_TREE
          = some ⟨(⟨0, [], []⟩ : IndexManager).heap.length, 1⟩) ∧
    (∀ e, (⟨0, [], []⟩ : IndexManager).store.lookup .SIMPLIFYING_SUBST_TREE = some e →
      0 < e.refCnt → e.refCnt < 2147483647 →
      ∃ m', (⟨0, [], []⟩ : IndexManager).request .SIMPLIFYING_SUBST_TREE = .ok (e.index, m') ∧
        m'.heap = (⟨0, [], []⟩ : IndexManager).heap ∧
        m'.store.lookup .SIMPLIFYING_SUBST_TREE = some ⟨e.index, e.refCnt + 1⟩) :=
  request_shares ⟨0, [], []⟩ .SIMPLIFYING_SUBST_TREE (fun _ h => by cases h)

/-- The state after `k ≥ 1` requests of a type the manager did not hold. -/
theorem requests_absent {m : IndexManager} {t : IndexType} (h : m.store.lookup t = none)
    {idx : Index} (hi : newIndex m.compitGenerator t = some idx) (k : Nat)
    (hk : k + 1 < 2147483648) :
    ∃ mk, requests (k + 1) m t = .ok mk ∧
      mk.store.lookup t = some ⟨m.heap.length, ((k + 1 : Nat) : Int)⟩ ∧
      mk.heap = m.heap ++ [some idx] ∧ mk.compitGenerator = m.compitGenerator := by
  unfold requests
  rw [request_absent h hi]
  simp only
  obtain ⟨mk, h1, h2, h3⟩ := requests_present t m.heap.length k
    ⟨m.compitGenerator, storeSet m.store t ⟨m.heap.length, 1⟩, m.heap ++ [some idx]⟩ 1
    (lookup_storeSet _ _ _) (by omega)
  refine ⟨mk, h1, ?_, h3, ?_⟩
  · have e : 1 + k = k + 1 := by omega
    rw [h2, e]
  · have := requests_compit k _ t mk h1
    exact this

theorem release_compit (m : IndexManager) (t : IndexType) (m' : IndexManager)
    (h : m.release t = some m') : m'.compitGenerator = m.compitGenerator := by
  cases hl : m.store.lookup t with
  | none =>
    unfold release at h
    rw [hl] at h
    simp at h
  | some e =>
    rw [release_present hl] at h
    split at h
    · simp only [Option.some.injEq] at h
      rw [← h]
    · simp only [Option.some.injEq] at h
      rw [← h]

theorem releases_compit :
    ∀ (j : Nat) (m : IndexManager) (t : IndexType) (m' : IndexManager),
      releases j m t = some m' → m'.compitGenerator = m.compitGenerator := by
  intro j
  induction j with
  | zero =>
    intro m t m' h
    simp only [releases, Option.some.injEq] at h
    rw [h]
  | succ j ih =>
    intro m t m' h
    unfold releases at h
    cases hr : m.release t with
    | none => rw [hr] at h; simp at h
    | some m1 =>
      rw [hr] at h
      simp only at h
      rw [ih m1 t m' h, release_compit m t m1 hr]

/-- C20 (balanced release): for a supported type `t` that the manager does not
hold and `1 ≤ k < 2^31`, the `k` calls of `request(t)` return; after `j < k`
calls of `release(t)` the manager still contains `t` and the index is alive;
after the `k`-th release the manager does not contain `t` and the index is
deleted; and a `request(t)` made then allocates the index anew, at a new
address, with count `1`. -/
theorem release_balanced (m : IndexManager) (t : IndexType) (ht : Supported t)
    (hm : m.contains t = false) (k : Nat) (hk1 : 1 ≤ k) (hk2 : k < 2147483648) :
    ∃ idx mk, newIndex m.compitGenerator t = some idx ∧ requests k m t = .ok mk ∧
      (∀ j, j < k → ∃ mj, releases j mk t = some mj ∧ mj.contains t = true ∧
        mj.heap[m.heap.length]? = some (some idx)) ∧
      (∃ mj, releases k mk t = some mj ∧ mj.contains t = false ∧
        mj.heap[m.heap.length]? = some none ∧
        ∃ m', mj.request t = .ok (mj.heap.length, m') ∧ mj.heap.length ≠ m.heap.length ∧
          m'.store.lookup t = some ⟨mj.heap.length, 1⟩ ∧
          m'.heap[mj.heap.length]? = some (some idx)) := by
  obtain ⟨idx, hi⟩ := newIndex_supported m.compitGenerator ht
  obtain ⟨k, rfl⟩ : ∃ k', k = k' + 1 := ⟨k - 1, by omega⟩
  obtain ⟨mk, h1, h2, h3, h4⟩ :=
    requests_absent ((contains_false_iff m t).mp hm) hi k hk2
  refine ⟨idx, mk, hi, h1, ?_, ?_⟩
  · intro j hj
    obtain ⟨mj, g1, g2, g3⟩ := releases_present t m.heap.length j mk (k + 1) h2 hj hk2
    refine ⟨mj, g1, ?_, ?_⟩
    · unfold contains
      rw [g2]
      rfl
    · rw [g3, h3]
      simp
  · obtain ⟨mj, g1, g2, g3⟩ := releases_all t m.heap.length k mk h2 hk2
    have hc : mj.compitGenerator = m.compitGenerator := by
      rw [releases_compit _ _ _ _ g1, h4]
    have hlen : mj.heap.length = m.heap.length + 1 := by
      rw [g3, h3]
      simp
    refine ⟨mj, g1, (contains_false_iff mj t).mpr g2, ?_, ?_⟩
    · rw [g3, h3]
      simp
    · rw [← hc] at hi
      refine ⟨_, request_absent g2 hi, by omega, lookup_storeSet _ _ _, ?_⟩
      show (mj.heap ++ [some idx])[mj.heap.length]? = _
      simp

theorem release_balanced_witness :
    ∃ idx mk, newIndex (⟨0, [], []⟩ : IndexManager).compitGenerator .DEMODULATION_LHS_SUBST_TREE
        = some idx ∧
      requests 2 ⟨0, [], []⟩ .DEMODULATION_LHS_SUBST_TREE = .ok mk ∧
      (∀ j, j < 2 → ∃ mj, releases j mk .DEMODULATION_LHS_SUBST_TREE = some mj ∧
        mj.contains .DEMODULATION_LHS_SUBST_TREE = true ∧
        mj.heap[(⟨0, [], []⟩ : IndexManager).heap.length]? = some (some idx)) ∧
      (∃ mj, releases 2 mk .DEMODULATION_LHS_SUBST_TREE = some mj ∧
        mj.contains .DEMODULATION_LHS_SUBST_TREE = false ∧
        mj.heap[(⟨0, [], []⟩ : IndexManager).heap.length]? = some none ∧
        ∃ m', mj.request .DEMODULATION_LHS_SUBST_TREE = .ok (mj.heap.length, m') ∧
          mj.heap.length ≠ (⟨0, [], []⟩ : IndexManager).heap.length ∧
          m'.store.lookup .DEMODULATION_LHS_SUBST_TREE = some ⟨mj.heap.length, 1⟩ ∧
          m'.heap[mj.heap.length]? = some (some idx)) :=
  release_balanced ⟨0, [], []⟩ .DEMODULATION_LHS_SUBST_TREE (fun _ h => by cases h) rfl 2
    (by decide) (by decide)

end IndexManager

end Indexing

/-! ## Unknown index types -/

namespace Indexing

theorem lookup_filter_ne (st : List (IndexType × Entry)) {t t0 : IndexType} (h : t ≠ t0) :
    (st.filter (fun p => p.1 ≠ t0)).lookup t = st.lookup t := by
  induction st with
  | nil => rfl
  | cons p rest ih =>
    obtain ⟨k, e⟩ := p
    rw [List.filter_cons]
    by_cases hk : k = t0
    · have hd : decide ((k, e).1 ≠ t0) = false := by simp [hk]
      have h' : (t == k) = false := by
        simp only [beq_eq_false_iff_ne, ne_eq]
        rw [hk]; exact h
      rw [hd]
      simp only [Bool.false_eq_true, if_false, List.lookup_cons, h']
      exact ih
    · have hd : decide ((k, e).1 ≠ t0) = true := by simp [hk]
      rw [hd]
      simp only [if_true, List.lookup_cons]
      rw [ih]

theorem lookup_storeSet_ne (st : List (IndexType × Entry)) {t t0 : IndexType} (h : t ≠ t0)
    (e : Entry) : (storeSet st t0 e).lookup t = st.lookup t := by
  have h' : (t == t0) = false := by
    simp only [beq_eq_false_iff_ne, ne_eq]
    exact h
  unfold storeSet
  simp only [List.lookup_cons, h']
  exact lookup_filter_ne st h

theorem lookup_storeRemove_ne (st : List (IndexType × Entry)) {t t0 : IndexType} (h : t ≠ t0) :
    (storeRemove st t0).lookup t = st.lookup t :=
  lookup_filter_ne st h

namespace IndexManager

theorem newIndex_other (c n : Nat) : newIndex c (.other n) = none := rfl

/-- A reachable manager holds no type outside the switch of `create`. -/
theorem Reach.no_other {m : IndexManager} (h : Reach m) (n : Nat) :
    m.store.lookup (.other n) = none := by
  induction h with
  | new c => rfl
  | @request m m' t p _ hr ih =>
    cases hl : m.store.lookup t with
    | some e =>
      rw [request_present hl] at hr
      simp only [Except.ok.injEq, Prod.mk.injEq] at hr
      rw [← hr.2]
      have hne : IndexType.other n ≠ t := by
        intro e'
        rw [← e', ih] at hl
        simp at hl
      show (storeSet m.store t _).lookup (.other n) = none
      rw [lookup_storeSet_ne _ hne, ih]
    | none =>
      cases hi : newIndex m.compitGenerator t with
      | none =>
        unfold IndexManager.request create at hr
        rw [hl, hi] at hr
        simp at hr
      | some idx =>
        rw [request_absent hl hi] at hr
        simp only [Except.ok.injEq, Prod.mk.injEq] at hr
        rw [← hr.2]
        have hne : IndexType.other n ≠ t := by
          intro e'
          rw [← e', newIndex_other] at hi
          simp at hi
        show (storeSet m.store t _).lookup (.other n) = none
        rw [lookup_storeSet_ne _ hne, ih]
  | @release m m' t _ hr ih =>
    cases hl : m.store.lookup t with
    | none =>
      unfold IndexManager.release at hr
      rw [hl] at hr
      simp at hr
    | some e =>
      have hne : IndexType.other n ≠ t := by
        intro e'
        rw [← e', ih] at hl
        simp at hl
      rw [release_present hl] at hr
      split at hr
      · simp only [Option.some.injEq] at hr
        rw [← hr]
        show (storeRemove m.store t).lookup (.other n) = none
        rw [lookup_storeRemove_ne _ hne, ih]
      · simp only [Option.some.injEq] at hr
        rw [← hr]
        show (storeSet m.store t _).lookup (.other n) = none
        rw [lookup_storeSet_ne _ hne, ih]

/-- C21 (unknown index types are rejected): on every manager reached by calls of
`request` and `release`, `request(t)` for a type `t` outside the seven cases of
the switch of `create` throws `InvalidOperation`; the exception leaves
`request` before `_store.set`, so the manager is the one before the call, and it
does not contain `t`. -/
theorem request_unknown (m : IndexManager) (hm : m.Reach) (n : Nat) :
    m.request (.other n) = .error (.InvalidOperation "Unsupported IndexType.") ∧
    m.contains (.other n) = false := by
  have hl := hm.no_other n
  refine ⟨?_, (contains_false_iff m _).mpr hl⟩
  unfold request create
  rw [hl, newIndex_other]

theorem request_unknown_witness :
    (⟨0, [], []⟩ : IndexManager).request (.other 7)
      = .error (.InvalidOperation "Unsupported IndexType.") ∧
    (⟨0, [], []⟩ : IndexManager).contains (.other 7) = false :=
  request_unknown ⟨0, [], []⟩ (Reach.new 0) 7

end IndexManager

end Indexing

/-! ## Equal arguments, and the split of the binary loops -/

namespace Kernel

namespace BDD

theorem split_safe {fn : Nat → Nat → Nat} {op : Bool → Bool → Bool} (hfn : FnSpec fn op)
    {s : BDD} (hs : s.WF) {n1 n2 : Nat} (h1 : s.Valid n1) (h2 : s.Valid n2) :
    (s.isConstant n1 = true → s.isConstant n2 = true → fn n1 n2 ≠ 0) ∧
    (fn n1 n2 = 0 →
      0 ≤ max (s.deref n1).var (s.deref n2).var ∧
      ((s.deref n1).var = max (s.deref n1).var (s.deref n2).var →
        s.isConstant n1 = false ∧ s.Valid (s.deref n1).pos ∧ s.Valid (s.deref n1).neg) ∧
      ((s.deref n2).var = max (s.deref n1).var (s.deref n2).var →
        s.isConstant n2 = false ∧ s.Valid (s.deref n2).pos ∧ s.Valid (s.deref n2).neg)) := by
  have key := (hfn n1 n2 h1.1 h2.1).1
  have hpos : ∀ n, s.Valid n → 0 ≤ (s.deref n).var → 3 ≤ n := by
    intro n hn hv
    by_contra h3
    rw [deref_leaf s (by omega : n < 3)] at hv
    simp at hv
  have hge : fn n1 n2 = 0 → 0 ≤ max (s.deref n1).var (s.deref n2).var := by
    intro h0
    rcases key h0 with h3 | h3
    · have := (hs.node n1 h3 h1.2).1
      exact le_trans this (le_max_left _ _)
    · have := (hs.node n2 h3 h2.2).1
      exact le_trans this (le_max_right _ _)
  refine ⟨?_, ?_⟩
  · intro c1 c2 h0
    have a1 := (hs.isConstant_iff h1).mp c1
    have a2 := (hs.isConstant_iff h2).mp c2
    rcases key h0 with h3 | h3 <;> omega
  · intro h0
    refine ⟨hge h0, ?_, ?_⟩
    · intro e
      have h3 : 3 ≤ n1 := hpos n1 h1 (by rw [e]; exact hge h0)
      exact ⟨hs.not_isConstant h3 h1.2, hs.valid_pos h3 h1, hs.valid_neg h3 h1⟩
    · intro e
      have h3 : 3 ≤ n2 := hpos n2 h2 (by rw [e]; exact hge h0)
      exact ⟨hs.not_isConstant h3 h2.2, hs.valid_pos h3 h2, hs.valid_neg h3 h2⟩

/-- C30 (conjunction and disjunction are idempotent on nodes): for a node `x`
of a reachable engine state, with enough fuel `conjunction(x,x)` returns `x`
and `disjunction(x,x)` returns `x`; when `x` is not a constant node neither
`ConjunctionFn` nor `DisjunctionFn` answers for the pair `(x,x)`, so the result
comes out of the loop and the node table. -/
theorem conjunction_idempotent (s : BDD) (hs : s.Reach) (x : Nat) (hx : s.Valid x)
    (fuel : Nat) (hf : 2 ^ (x + x + 1) ≤ fuel) :
    (∃ t, s.conjunction fuel x x = some (x, t)) ∧
    (∃ t, s.disjunction fuel x x = some (x, t)) ∧
    (s.isConstant x = false → ConjunctionFn x x = 0 ∧ DisjunctionFn x x = 0) := by
  refine ⟨?_, ?_, ?_⟩
  · obtain ⟨r, t, h, ht, he, hr, hev⟩ := binop_total conjunctionFn_spec hs.wf hx hx hf
    have e : r = x := by
      apply ht.canonical hr (he.valid hx)
      intro asg
      rw [hev asg, Bool.and_self]
    subst e
    exact ⟨t, h⟩
  · obtain ⟨r, t, h, ht, he, hr, hev⟩ := binop_total disjunctionFn_spec hs.wf hx hx hf
    have e : r = x := by
      apply ht.canonical hr (he.valid hx)
      intro asg
      rw [hev asg, Bool.or_self]
    subst e
    exact ⟨t, h⟩
  · intro hc
    have h3 : 3 ≤ x := by
      by_contra h
      rw [isConstant_leaf s (by omega : x < 3)] at hc
      simp at hc
    have a : isTrue x = false := by simp [isTrue, getTrue]; omega
    have b : isFalse x = false := by simp [isFalse, getFalse]; omega
    simp [ConjunctionFn, DisjunctionFn, a, b]

theorem conjunction_idempotent_witness :
    (∃ t, (BDD.new.getAtomic 0 true).2.conjunction 128 3 3 = some (3, t)) ∧
    (∃ t, (BDD.new.getAtomic 0 true).2.disjunction 128 3 3 = some (3, t)) ∧
    ((BDD.new.getAtomic 0 true).2.isConstant 3 = false →
      ConjunctionFn 3 3 = 0 ∧ DisjunctionFn 3 3 = 0) :=
  conjunction_idempotent _ (Reach.atomic 0 true Reach.new (by decide)) 3
    ⟨by decide, by decide⟩ 128 (by decide)

end BDD

end Kernel

/-! ## Budget errors, the terse line and the exit code -/

namespace Vampire

open Shell

/-- C23 (budget errors become termination reasons): when the `try` block of
`doProving` throws `TimeLimitExceededException`, `doProving` returns normally
with `terminationReason = TIME_LIMIT` and `refutation = 0`; when it throws
`MemoryLimitExceededException`, `doProving` returns normally with
`terminationReason = MEMORY_LIMIT`, `refutation = 0` and the memory limit of the
allocator raised by 1000000; in both cases no exception leaves `doProving`. -/
theorem doProving_budget (w : World) (env e : Environment) :
    (w.body env = (e, some .TimeLimitExceededException) →
      doProving w env = ({ e with statistics := ⟨.TIME_LIMIT, 0⟩ }, none)) ∧
    (w.body env = (e, some .MemoryLimitExceededException) →
      doProving w env =
        ({ e with statistics := ⟨.MEMORY_LIMIT, 0⟩,
                  memoryLimit := (e.memoryLimit + 1000000) % 2 ^ 64 }, none)) := by
  constructor
  · intro h
    simp only [doProving, h]
  · intro h
    simp only [doProving, h]

theorem doProving_budget_witness :
    doProving timeLimitWorld ⟨"", spiderOptions, ⟨.REFUTATION, 5⟩, 1000⟩
      = (⟨"", spiderOptions, ⟨.TIME_LIMIT, 0⟩, 1000⟩, none) :=
  (doProving_budget timeLimitWorld ⟨"", spiderOptions, ⟨.REFUTATION, 5⟩, 1000⟩
    ⟨"", spiderOptions, ⟨.REFUTATION, 5⟩, 1000⟩).1 rfl

/-- C24 (terse output): when `doProving` returns, `spiderMode` appends to the
output one text `<status> <problem> <deciseconds> <test_id> <bdd_time>` ended by
a newline, whose status is `+` exactly when the termination reason is
`REFUTATION`, `?` exactly when it is `TIME_LIMIT` or `MEMORY_LIMIT`, and `-`
exactly when it is `SATISFIABLE` or `UNKNOWN`; nothing else is changed. -/
theorem spiderMode_line (w : World) (env e : Environment) (h : doProving w env = (e, none)) :
    ∃ status : String,
      spiderMode w env =
        ({ e with out := e.out ++ (status ++ " " ++ e.options.problemName ++ " " ++
            toString w.elapsedDeciseconds ++ " " ++ e.options.testId ++ " " ++
            toString w.gBDDTime ++ "\n") }, none) ∧
      (status = "+" ↔ e.statistics.terminationReason = .REFUTATION) ∧
      (status = "?" ↔ e.statistics.terminationReason = .TIME_LIMIT ∨
        e.statistics.terminationReason = .MEMORY_LIMIT) ∧
      (status = "-" ↔ e.statistics.terminationReason = .SATISFIABLE ∨
        e.statistics.terminationReason = .UNKNOWN) := by
  have a1 : "+ " = "+" ++ " " := rfl
  have a2 : "? " = "?" ++ " " := rfl
  have a3 : "- " = "-" ++ " " := rfl
  cases hr : e.statistics.terminationReason
  · refine ⟨"+", ?_, by decide, by decide, by decide⟩
    simp only [spiderMode, h, hr, a1, String.append_assoc]
  · refine ⟨"-", ?_, by decide, by decide, by decide⟩
    simp only [spiderMode, h, hr, a3, String.append_assoc]
  · refine ⟨"-", ?_, by decide, by decide, by decide⟩
    simp only [spiderMode, h, hr, a3, String.append_assoc]
  · refine ⟨"?", ?_, by decide, by decide, by decide⟩
    simp only [spiderMode, h, hr, a2, String.append_assoc]
  · refine ⟨"?", ?_, by decide, by decide, by decide⟩
    simp only [spiderMode, h, hr, a2, String.append_assoc]

theorem spiderMode_line_witness :
    ∃ status : String,
      spiderMode timeLimitWorld ⟨"", spiderOptions, ⟨.UNKNOWN, 0⟩, 1000⟩ =
        (⟨"" ++ (status ++ " " ++ "p" ++ " " ++ toString (12 : Int) ++ " " ++ "t1" ++ " " ++
            toString (3 : Int) ++ "\n"), spiderOptions, ⟨.TIME_LIMIT, 0⟩, 1000⟩, none) ∧
      (status = "+" ↔ TerminationReason.TIME_LIMIT = .REFUTATION) ∧
      (status = "?" ↔ TerminationReason.TIME_LIMIT = .TIME_LIMIT ∨
        TerminationReason.TIME_LIMIT = .MEMORY_LIMIT) ∧
      (status = "-" ↔ TerminationReason.TIME_LIMIT = .SATISFIABLE ∨
        TerminationReason.TIME_LIMIT = .UNKNOWN) :=
  spiderMode_line timeLimitWorld ⟨"", spiderOptions, ⟨.UNKNOWN, 0⟩, 1000⟩
    ⟨"", spiderOptions, ⟨.TIME_LIMIT, 0⟩, 1000⟩ rfl

/-- C22, as the claim states it, fails: when `CommandLine::interpret` throws a
`UserErrorException` (an unknown option), `main` writes the message and returns
`EXIT_SUCCESS`, the exit code 0. -/
theorem main_user_error_exit_zero :
    main userErrorWorld "" = some (0, "User error: unknown option\n") := by
  rfl

/-- C22, amended: whenever `main` returns, it returns the exit code 0.  It
does so when `CommandLine::interpret` throws a `UserErrorException`, after
writing the text of `Exception::cry`; and it does so in both modes whenever
`doProving` returns, whatever the termination reason. -/
theorem main_exit_code (w : World) (out : String) :
    (∀ r, main w out = some r → r.1 = 0) ∧
    (∀ msg, w.interpret = .error (.UserErrorException msg) →
      main w out = some (0, out ++ w.cry (.UserErrorException msg))) ∧
    (∀ options e, w.interpret = .ok options →
      (options.mode = .MODE_VAMPIRE ∨ options.mode = .MODE_SPIDER) →
      doProving w ⟨out ++ (if options.mode = .MODE_VAMPIRE
          then options.testId ++ " on " ++ options.inputFile ++ "\n" else ""),
        options, w.newStatistics, (options.memoryLimit * 1048576) % 2 ^ 64⟩ = (e, none) →
      ∃ o, main w out = some (0, o)) := by
  refine ⟨?_, ?_, ?_⟩
  · intro r h
    unfold main at h
    split at h <;> first
      | (simp only [Option.some.injEq] at h; rw [← h]; rfl)
      | (split at h <;> first
          | (simp only [Option.some.injEq] at h; rw [← h]; rfl)
          | exact absurd h (by simp))
      | exact absurd h (by simp)
  · intro msg h
    simp only [main, mainTry, h]
    rfl
  · intro options e h hm hd
    rcases hm with hm | hm
    · rw [if_pos hm] at hd
      have hd' : doProving w ⟨out ++ options.testId ++ " on " ++ options.inputFile ++ "\n",
          options, w.newStatistics, (options.memoryLimit * 1048576) % 2 ^ 64⟩ = (e, none) := by
        rw [← hd]
        simp only [String.append_assoc]
      simp only [main, mainTry, h, hm, vampireMode, hd']
      exact ⟨_, rfl⟩
    · rw [if_neg (by rw [hm]; decide)] at hd
      have hd' : doProving w
          ⟨out, options, w.newStatistics, (options.memoryLimit * 1048576) % 2 ^ 64⟩
            = (e, none) := by
        rw [← hd]
        simp only [String.append_empty]
      simp only [main, mainTry, h, hm, spiderMode, hd']
      exact ⟨_, rfl⟩

theorem main_exit_code_witness :
    (∀ r, main userErrorWorld "" = some r → r.1 = 0) ∧
    (∀ msg, userErrorWorld.interpret = .error (.UserErrorException msg) →
      main userErrorWorld "" = some (0, "" ++ userErrorWorld.cry (.UserErrorException msg))) ∧
    (∀ options e, userErrorWorld.interpret = .ok options →
      (options.mode = .MODE_VAMPIRE ∨ options.mode = .MODE_SPIDER) →
      doProving userErrorWorld ⟨"" ++ (if options.mode = .MODE_VAMPIRE
          then options.testId ++ " on " ++ options.inputFile ++ "\n" else ""),
        options, userErrorWorld.newStatistics, (options.memoryLimit * 1048576) % 2 ^ 64⟩
          = (e, none) →
      ∃ o, main userErrorWorld "" = some (0, o)) :=
  main_exit_code userErrorWorld ""

end Vampire

/-! ## The list of nodes of the aggregator -/

namespace Kernel

namespace BDDConjunction

open BDD

/-- What `addNode` does to the list of nodes: a non-constant node added to an
aggregator that is not unsat is put into the list, which is otherwise only
reordered; when the first check does not change the assignment, the node is the
new head and the assignment is the one before. -/
theorem addNode_nodes {s : BDD} (hs : s.WF) {fuel n : Nat} (hn : s.Valid n)
    {c c' : BDDConjunction} (hv : ∀ m ∈ c.nodes, s.Valid m) (hc : c.isFalse = false)
    (hconst : s.isConstant n = false) (h : c.addNode fuel s n = some c') :
    c'.nodes.Perm (n :: c.nodes) ∧
    ((firstCheck fuel s c n).map (fun r => r.2.1) = some false →
      c'.nodes = n :: c.nodes ∧ c'.assignment = c.assignment) := by
  unfold addNode at h
  rw [if_neg (by rw [hc]; decide : ¬ c.isFalse = true)] at h
  rw [if_neg (by rw [hconst]; decide : ¬ s.isConstant n = true)] at h
  simp only [] at h
  unfold firstCheck
  simp only []
  generalize hc1 : (if (s.deref n).var > c.maxVar
    then ({ c with maxVar := (s.deref n).var } : BDDConjunction) else c) = c1 at h ⊢
  have e1 : c1.nodes = c.nodes ∧ c1.assignment = c.assignment := by
    rw [← hc1]; split <;> exact ⟨rfl, rfl⟩
  cases hres : findNextSatAssignment fuel s { c1 with nodes := n :: c1.nodes } n with
  | none => rw [hres] at h; simp at h
  | some r =>
    obtain ⟨ok, ch, c2⟩ := r
    obtain ⟨g1, g2, g3, g4⟩ := findNextSatAssignment_spec hs hn hres
    simp only at g1 g4
    rw [hres] at h
    simp only [Option.map_some']
    cases ok with
    | false =>
      simp only [Option.some.injEq] at h
      subst h
      have en : c2.nodes = n :: c.nodes := by rw [g1, e1.1]
      refine ⟨by rw [← en], ?_⟩
      intro hch
      simp only [Option.some.injEq] at hch
      exact ⟨en, by rw [← e1.2]; exact g4 hch⟩
    | true =>
      cases ch with
      | false =>
        simp only [Option.some.injEq] at h
        subst h
        have en : c2.nodes = n :: c.nodes := by rw [g1, e1.1]
        refine ⟨by rw [en], ?_⟩
        intro _
        exact ⟨en, by rw [← e1.2]; exact g4 rfl⟩
      | true =>
        simp only at h
        have en : c2.nodes = [n] ++ c1.nodes := by rw [g1]; rfl
        obtain ⟨p1, _⟩ := addLoop_spec hs fuel fuel [n] c1.nodes c2 c' (by
            intro m hm
            rcases List.mem_append.mp hm with hm | hm
            · rw [List.mem_singleton] at hm
              subst hm
              exact hn
            · rw [e1.1] at hm
              exact hv m hm) en (by
            intro m hm
            rw [List.mem_singleton] at hm
            subst hm
            exact g3 rfl) h
        rw [e1.1] at p1
        refine ⟨p1, ?_⟩
        intro hch
        simp at hch

/-- What `addNode` does to the list of nodes when it takes nothing in. -/
theorem addNode_skip {s : BDD} {fuel n : Nat} {c c' : BDDConjunction}
    (hsk : c.isFalse = true ∨ s.isConstant n = true) (h : c.addNode fuel s n = some c') :
    c'.nodes = c.nodes := by
  unfold addNode at h
  by_cases hc : c.isFalse = true
  · rw [if_pos hc] at h
    simp only [Option.some.injEq] at h
    rw [← h]
  · rw [if_neg hc] at h
    have hconst : s.isConstant n = true := hsk.resolve_left hc
    rw [if_pos hconst] at h
    split at h
    · simp only [Option.some.injEq] at h
      rw [← h]
    · simp only [Option.some.injEq] at h
      rw [← h]

theorem Kept.perm {s : BDD} {c : BDDConjunction} {l : List Nat} (h : Kept s c l) :
    s.Reach ∧ (∀ n ∈ l, s.Valid n) ∧ c.nodes.Perm l := by
  induction h with
  | fresh hr => exact ⟨hr, by simp, by simp [BDDConjunction.fresh]⟩
  | @grow s t c l _ he hr ih =>
    exact ⟨hr, fun n hn => he.valid (ih.2.1 n hn), ih.2.2⟩
  | @skip s c c' l fuel n _ hn hsk hadd ih =>
    refine ⟨ih.1, ih.2.1, ?_⟩
    rw [addNode_skip hsk hadd]
    exact ih.2.2
  | @add s c c' l fuel n _ hn hc hconst hadd ih =>
    obtain ⟨hs, hv, hp⟩ := ih
    refine ⟨hs, ?_, ?_⟩
    · intro m hm
      rcases List.mem_cons.mp hm with rfl | hm
      · exact hn
      · exact hv m hm
    · have hv' : ∀ m ∈ c.nodes, s.Valid m := fun m hm => hv m (hp.subset hm)
      exact (addNode_nodes hs.wf hn hv' hc hconst hadd).1.trans (List.Perm.cons n hp)

theorem satSeekAss_succ (s : BDD) (n0 fuel n : Nat) (decPnts : List Nat) (changed : Bool)
    (c : BDDConjunction) :
    satSeekAss s n0 (fuel + 1) n decPnts changed c =
      if !s.isConstant n then
        if c.assignment (s.deref n).var.toNat then
          satSeekAss s n0 fuel (s.deref n).pos decPnts changed c
        else
          satSeekAss s n0 fuel (s.deref n).neg (n :: decPnts) changed c
      else if BDD.isTrue n then
        match recordWalk s c.assignment fuel n0 c.decisionPnts with
        | none => none
        | some dp => some (true, changed, { c with decisionPnts := dp })
      else
        match decPnts with
        | [] =>
          match findLeastGreater c.decisionPnts (s.deref n0).var with
          | none => some (false, true, c)
          | some v =>
            if c.assignment v.toNat then none
            else satSeekAss s n0 fuel n0 [] true { c with assignment := flip c.assignment v }
        | decPnt :: decPnts =>
          if c.assignment (s.deref decPnt).var.toNat then none
          else
            satSeekAss s n0 fuel (s.deref decPnt).pos decPnts true
              { c with assignment := flip c.assignment (s.deref decPnt).var } := by
  rfl

theorem addLoopAss_cons (s : BDD) (fuel k : Nat) (front : List Nat) (x : Nat)
    (rest : List Nat) (c : BDDConjunction) :
    addLoopAss s fuel (k + 1) front (x :: rest) c =
      match findNextSatAssignmentAss fuel s c x with
      | none => none
      | some (false, _, c) => some { c with isFalse := true }
      | some (true, true, c) =>
        addLoopAss s fuel k [x] (front ++ rest)
          { c with nodes := x :: (front ++ rest), decisionPnts := [] }
      | some (true, false, c) => addLoopAss s fuel k (front ++ [x]) rest c := by
  rfl

theorem Above.chain {a b c : Nat → Bool} (h1 : Above a b) (h2 : Above b c) : Above a c := by
  obtain ⟨v, hav, hbv, hv⟩ := h1
  obtain ⟨w, hbw, hcw, hw⟩ := h2
  rcases Nat.lt_trichotomy v w with h | h | h
  · refine ⟨w, ?_, hcw, ?_⟩
    · rw [← hv w h]; exact hbw
    · intro i hi
      rw [hw i hi, hv i (by omega)]
  · subst h
    rw [hbv] at hbw
    cases hbw
  · refine ⟨v, hav, ?_, ?_⟩
    · rw [hw v h]; exact hbv
    · intro i hi
      rw [hw i (by omega), hv i hi]

theorem Above.differs {a b : Nat → Bool} (h : Above a b) : b ≠ a := by
  obtain ⟨v, hav, hbv, _⟩ := h
  intro e
  rw [e, hav] at hbv
  cases hbv

/-- A change of the assignment at a variable that is false gives an assignment
above the old one. -/
theorem flip_Above (asg : Nat → Bool) (v : Int) (h : asg v.toNat = false) :
    Above asg (flip asg v) := by
  refine ⟨v.toNat, h, ?_, ?_⟩
  · have h1 : ¬ ((v.toNat : Nat) : Int) < v := by omega
    simp [flip, h1]
  · intro i hi
    have h1 : ¬ (i : Int) < v := by omega
    have h2 : i ≠ v.toNat := by omega
    simp [flip, h1, h2]

/-- A run of `satSeekAss` is a run of `satSeek`. -/
theorem satSeekAss_le (s : BDD) (n0 : Nat) :
    ∀ (fuel n : Nat) (decPnts : List Nat) (changed : Bool) (c : BDDConjunction)
      (r : Bool × Bool × BDDConjunction),
      satSeekAss s n0 fuel n decPnts changed c = some r →
      satSeek s n0 fuel n decPnts changed c = some r := by
  intro fuel
  induction fuel with
  | zero => intro n decPnts changed c r h; simp [satSeekAss] at h
  | succ fuel ih =>
    intro n decPnts changed c r h
    rw [satSeekAss_succ] at h
    rw [satSeek_succ]
    by_cases hconst : (!s.isConstant n) = true
    · rw [if_pos hconst] at h ⊢
      by_cases ha : c.assignment (s.deref n).var.toNat = true
      · rw [if_pos ha] at h ⊢
        exact ih _ _ _ _ _ h
      · rw [if_neg ha] at h ⊢
        exact ih _ _ _ _ _ h
    · rw [if_neg hconst] at h ⊢
      by_cases ht : BDD.isTrue n = true
      · rw [if_pos ht] at h ⊢
        exact h
      · rw [if_neg ht] at h ⊢
        cases decPnts with
        | nil =>
          simp only [] at h ⊢
          cases hf : findLeastGreater c.decisionPnts (s.deref n0).var with
          | none =>
            rw [hf] at h
            exact h
          | some v =>
            rw [hf] at h
            simp only [] at h ⊢
            by_cases hv : c.assignment v.toNat = true
            · rw [if_pos hv] at h
              cases h
            · rw [if_neg hv] at h
              exact ih _ _ _ _ _ h
        | cons d rest =>
          simp only [] at h ⊢
          by_cases hv : c.assignment (s.deref d).var.toNat = true
          · rw [if_pos hv] at h
            cases h
          · rw [if_neg hv] at h
            exact ih _ _ _ _ _ h

/-- With the assertion checked, `findNextSatAssignment` keeps the list of nodes
and leaves the assignment as it was or above it; when it returns `true` with
`assignmentChanged` set, the assignment is above the old one. -/
theorem satSeekAss_incr (s : BDD) (n0 : Nat) :
    ∀ (fuel n : Nat) (decPnts : List Nat) (changed : Bool) (c : BDDConjunction)
      (ok ch : Bool) (c' : BDDConjunction),
      satSeekAss s n0 fuel n decPnts changed c = some (ok, ch, c') →
      c'.nodes = c.nodes ∧
      (c'.assignment = c.assignment ∨ Above c.assignment c'.assignment) ∧
      (ok = true → ch = true → changed = false → Above c.assignment c'.assignment) := by
  intro fuel
  induction fuel with
  | zero => intro n decPnts changed c ok ch c' h; simp [satSeekAss] at h
  | succ fuel ih =>
    intro n decPnts changed c ok ch c' h
    rw [satSeekAss_succ] at h
    by_cases hconst : (!s.isConstant n) = true
    · rw [if_pos hconst] at h
      by_cases ha : c.assignment (s.deref n).var.toNat = true
      · rw [if_pos ha] at h
        exact ih _ _ _ _ _ _ _ h
      · rw [if_neg ha] at h
        exact ih _ _ _ _ _ _ _ h
    · rw [if_neg hconst] at h
      by_cases ht : BDD.isTrue n = true
      · rw [if_pos ht] at h
        cases hr : recordWalk s c.assignment fuel n0 c.decisionPnts with
        | none => rw [hr] at h; cases h
        | some dp =>
          rw [hr] at h
          simp only [Option.some.injEq, Prod.mk.injEq] at h
          obtain ⟨_, hch, hc⟩ := h
          subst hc
          refine ⟨rfl, Or.inl rfl, ?_⟩
          intro _ h1 h2
          rw [← hch, h2] at h1
          cases h1
      · rw [if_neg ht] at h
        cases decPnts with
        | nil =>
          simp only [] at h
          cases hf : findLeastGreater c.decisionPnts (s.deref n0).var with
          | none =>
            rw [hf] at h
            simp only [Option.some.injEq, Prod.mk.injEq] at h
            obtain ⟨hok, _, hc⟩ := h
            subst hc
            refine ⟨rfl, Or.inl rfl, ?_⟩
            intro h1
            rw [← hok] at h1
            cases h1
          | some v =>
            rw [hf] at h
            simp only [] at h
            by_cases hv : c.assignment v.toNat = true
            · rw [if_pos hv] at h
              cases h
            · rw [if_neg hv] at h
              have hv' : c.assignment v.toNat = false := by
                cases hx : c.assignment v.toNat
                · rfl
                · exact (hv hx).elim
              obtain ⟨i1, i2, _⟩ := ih _ _ _ _ _ _ _ h
              have hab : Above c.assignment c'.assignment := by
                rcases i2 with e | e
                · simp only [] at e
                  rw [e]
                  exact flip_Above _ _ hv'
                · exact (flip_Above _ _ hv').chain e
              exact ⟨i1, Or.inr hab, fun _ _ _ => hab⟩
        | cons d rest =>
          simp only [] at h
          by_cases hv : c.assignment (s.deref d).var.toNat = true
          · rw [if_pos hv] at h
            cases h
          · rw [if_neg hv] at h
            have hv' : c.assignment (s.deref d).var.toNat = false := by
              cases hx : c.assignment (s.deref d).var.toNat
              · rfl
              · exact (hv hx).elim
            obtain ⟨i1, i2, _⟩ := ih _ _ _ _ _ _ _ h
            have hab : Above c.assignment c'.assignment := by
              rcases i2 with e | e
              · simp only [] at e
                rw [e]
                exact flip_Above _ _ hv'
              · exact (flip_Above _ _ hv').chain e
            exact ⟨i1, Or.inr hab, fun _ _ _ => hab⟩

/-- A run of `addLoopAss` is a run of `addLoop`. -/
theorem addLoopAss_le (s : BDD) (fuel : Nat) :
    ∀ (k : Nat) (front next : List Nat) (c c' : BDDConjunction),
      addLoopAss s fuel k front next c = some c' → addLoop s fuel k front next c = some c' := by
  intro k
  induction k with
  | zero => intro front next c c' h; simp [addLoopAss] at h
  | succ k ih =>
    intro front next c c' h
    cases next with
    | nil =>
      simp only [addLoopAss] at h
      simp only [addLoop]
      exact h
    | cons x rest =>
      rw [addLoopAss_cons] at h
      rw [addLoop_cons]
      cases hr : findNextSatAssignmentAss fuel s c x with
      | none => rw [hr] at h; cases h
      | some r =>
        obtain ⟨ok, ch, c1⟩ := r
        rw [hr] at h
        rw [show findNextSatAssignment fuel s c x = some (ok, ch, c1) from
          satSeekAss_le s x fuel x [] false c _ hr]
        cases ok with
        | false => exact h
        | true =>
          cases ch with
          | false => exact ih _ _ _ _ h
          | true => exact ih _ _ _ _ h

/-- With the assertion checked, the loop of `addNode` leaves the assignment as
it was or above it. -/
theorem addLoopAss_incr (s : BDD) (fuel : Nat) :
    ∀ (k : Nat) (front next : List Nat) (c c' : BDDConjunction),
      addLoopAss s fuel k front next c = some c' →
      c'.assignment = c.assignment ∨ Above c.assignment c'.assignment := by
  intro k
  induction k with
  | zero => intro front next c c' h; simp [addLoopAss] at h
  | succ k ih =>
    intro front next c c' h
    cases next with
    | nil =>
      simp only [addLoopAss, Option.some.injEq] at h
      subst h
      exact Or.inl rfl
    | cons x rest =>
      rw [addLoopAss_cons] at h
      cases hr : findNextSatAssignmentAss fuel s c x with
      | none => rw [hr] at h; cases h
      | some r =>
        obtain ⟨ok, ch, c1⟩ := r
        rw [hr] at h
        obtain ⟨_, i2, _⟩ := satSeekAss_incr s x fuel x [] false c ok ch c1 hr
        have step : ∀ c2 : BDDConjunction, c2.assignment = c1.assignment →
            (c'.assignment = c2.assignment ∨ Above c2.assignment c'.assignment) →
            c'.assignment = c.assignment ∨ Above c.assignment c'.assignment := by
          intro c2 e2 hh
          rw [e2] at hh
          rcases hh with e | e
          · rw [e]; exact i2
          · rcases i2 with f | f
            · rw [f] at e; exact Or.inr e
            · exact Or.inr (f.chain e)
        cases ok with
        | false =>
          simp only [Option.some.injEq] at h
          exact step c' (by rw [← h]) (Or.inl rfl)
        | true =>
          cases ch with
          | false => exact step c1 rfl (ih _ _ _ _ h)
          | true =>
            exact step { c1 with nodes := x :: (front ++ rest), decisionPnts := [] } rfl
              (ih _ _ _ _ h)

/-- With the assertion `ASS(!_assignment[changed])` checked, the last clause of
the property of the list of nodes holds as it is worded: a call `addNode(n)` of
a non-constant node on an aggregator that is not unsat, after which the
assignment is what it was before, is a call of `addNode` that leaves `n` at the
head of the list. -/
theorem addNodeAss_head {s : BDD} {fuel n : Nat} {c c' : BDDConjunction}
    (hc : c.isFalse = false) (hconst : s.isConstant n = false)
    (h : addNodeAss fuel s c n = some c') (hasg : c'.assignment = c.assignment) :
    c.addNode fuel s n = some c' ∧ c'.nodes = n :: c.nodes := by
  unfold addNodeAss at h
  unfold addNode
  rw [if_neg (by rw [hc]; decide : ¬ c.isFalse = true)] at h ⊢
  rw [if_neg (by rw [hconst]; decide : ¬ s.isConstant n = true)] at h ⊢
  simp only [] at h ⊢
  generalize hc1 : (if (s.deref n).var > c.maxVar
    then ({ c with maxVar := (s.deref n).var } : BDDConjunction) else c) = c1 at h ⊢
  have e1 : c1.nodes = c.nodes ∧ c1.assignment = c.assignment := by
    rw [← hc1]
    split <;> exact ⟨rfl, rfl⟩
  cases hr : findNextSatAssignmentAss fuel s { c1 with nodes := n :: c1.nodes } n with
  | none => rw [hr] at h; cases h
  | some r =>
    obtain ⟨ok, ch, c2⟩ := r
    rw [hr] at h
    rw [show findNextSatAssignment fuel s { c1 with nodes := n :: c1.nodes } n
        = some (ok, ch, c2) from satSeekAss_le s n fuel n [] false _ _ hr]
    obtain ⟨i1, i2, i3⟩ := satSeekAss_incr s n fuel n [] false _ ok ch c2 hr
    have i3 : ok = true → ch = true → Above c.assignment c2.assignment := by
      intro h1 h2
      have := i3 h1 h2 rfl
      rw [← e1.2]
      exact this
    have i1 : c2.nodes = n :: c.nodes := by
      rw [i1, ← e1.1]
    cases ok with
    | false =>
      simp only [Option.some.injEq] at h ⊢
      refine ⟨h, ?_⟩
      rw [← h]
      exact i1
    | true =>
      cases ch with
      | false =>
        simp only [Option.some.injEq] at h ⊢
        refine ⟨h, ?_⟩
        rw [← h]
        exact i1
      | true =>
        exfalso
        have a1 : Above c.assignment c2.assignment := i3 rfl rfl
        have a2 : Above c.assignment c'.assignment := by
          rcases addLoopAss_incr s fuel fuel _ _ _ _ h with e | e
          · rw [e]; exact a1
          · exact a1.chain e
        exact a2.differs hasg

/-- The engine state `returnState` is reached by the operations of the engine. -/
theorem returnState_reach : returnState.Reach := by
  have r1 : ((BDD.new.getAtomic 3 true).2.getAtomic 0 true).2.Reach :=
    BDD.Reach.atomic 0 true (BDD.Reach.atomic 3 true BDD.Reach.new (by decide)) (by decide)
  have r2 : (⟨4, [⟨3, 1, 2⟩, ⟨0, 1, 2⟩, ⟨3, 1, 4⟩]⟩ : BDD).Reach :=
    BDD.Reach.disj r1 ⟨by decide, by decide⟩ ⟨by decide, by decide⟩
      (rfl : BDD.disjunction 64 ((BDD.new.getAtomic 3 true).2.getAtomic 0 true).2 3 4
        = some (5, ⟨4, [⟨3, 1, 2⟩, ⟨0, 1, 2⟩, ⟨3, 1, 4⟩]⟩))
  have r3 : (⟨4, [⟨3, 1, 2⟩, ⟨0, 1, 2⟩, ⟨3, 1, 4⟩, ⟨3, 4, 2⟩]⟩ : BDD).Reach :=
    BDD.Reach.conj r2 ⟨by decide, by decide⟩ ⟨by decide, by decide⟩
      (rfl : BDD.conjunction 64 (⟨4, [⟨3, 1, 2⟩, ⟨0, 1, 2⟩, ⟨3, 1, 4⟩]⟩ : BDD) 3 4
        = some (6, ⟨4, [⟨3, 1, 2⟩, ⟨0, 1, 2⟩, ⟨3, 1, 4⟩, ⟨3, 4, 2⟩]⟩))
  exact BDD.Reach.atomic 0 false r3 (by decide)

/-- The list of nodes only reorders: after any sequence of `addNode` calls on a
new `BDDConjunction`, the list of nodes is a permutation of the list of the
non-constant nodes that were passed to `addNode` while the aggregator was not
unsat, each as often as it was passed; and a further `addNode(n)` of a
non-constant node whose first check leaves `assignmentChanged` false, so that no
assignment change is made, puts `n` at the head of the list and keeps the
assignment. -/
theorem nodes_reorder {s : BDD} {c : BDDConjunction} {l : List Nat} (h : Kept s c l) :
    c.nodes.Perm l ∧
    ∀ (fuel n : Nat) (c' : BDDConjunction), s.Valid n → c.isFalse = false →
      s.isConstant n = false → c.addNode fuel s n = some c' →
      (firstCheck fuel s c n).map (fun r => r.2.1) = some false →
      c'.nodes = n :: c.nodes ∧ c'.assignment = c.assignment := by
  obtain ⟨hs, hv, hp⟩ := h.perm
  refine ⟨hp, ?_⟩
  intro fuel n c' hn hc hconst hadd hch
  have hv' : ∀ m ∈ c.nodes, s.Valid m := fun m hm => hv m (hp.subset hm)
  exact (addNode_nodes hs.wf hn hv' hc hconst hadd).2 hch

theorem nodes_reorder_witness :
    (BDDConjunction.nodes
      ⟨false, 3, [6, 5], flip (flip (flip (fun _ => false) 0) 3) 0, [3]⟩).Perm [6, 5] ∧
    ∀ (fuel n : Nat) (c' : BDDConjunction), returnState.Valid n →
      BDDConjunction.isFalse
        ⟨false, 3, [6, 5], flip (flip (flip (fun _ => false) 0) 3) 0, [3]⟩ = false →
      returnState.isConstant n = false →
      BDDConjunction.addNode fuel returnState
        ⟨false, 3, [6, 5], flip (flip (flip (fun _ => false) 0) 3) 0, [3]⟩ n = some c' →
      (firstCheck fuel returnState
        ⟨false, 3, [6, 5], flip (flip (flip (fun _ => false) 0) 3) 0, [3]⟩ n).map
          (fun r => r.2.1) = some false →
      c'.nodes = n :: BDDConjunction.nodes
        ⟨false, 3, [6, 5], flip (flip (flip (fun _ => false) 0) 3) 0, [3]⟩ ∧
      c'.assignment = BDDConjunction.assignment
        ⟨false, 3, [6, 5], flip (flip (flip (fun _ => false) 0) 3) 0, [3]⟩ :=
  nodes_reorder
    (Kept.add
      (Kept.add (Kept.fresh returnState_reach) ⟨by decide, by decide⟩ rfl (by decide)
        (rfl : BDDConjunction.addNode 64 returnState BDDConjunction.fresh 5
          = some ⟨false, 3, [5], flip (fun _ => false) 0, [3]⟩))
      ⟨by decide, by decide⟩ rfl (by decide)
      (rfl : BDDConjunction.addNode 64 returnState
          ⟨false, 3, [5], flip (fun _ => false) 0, [3]⟩ 6
        = some ⟨false, 3, [6, 5], flip (flip (flip (fun _ => false) 0) 3) 0, [3]⟩))

/-- C29 fails on the code in its last clause: on the reachable engine state
`returnState`, add to a new aggregator the nodes `x3 ∨ x0` (address `5`) and
`x3 ∧ x0` (address `6`), then call `addNode` on `¬x0` (address `7`).  Before
the call the list of nodes is `[6, 5]`, the assignment is `x0 = x3 = true` and
`_decisionPnts` holds the variable `3`, remembered when it was false.  The first
check of the call walks to FALSE with an empty stack and restarts at the
variable `3`, which is true: `ASS(!_assignment[changed])` fails (with the
assertion checked the call does not return), and the assignment becomes
`x3 = true` alone.  The loop then checks node `6`, which sets `x0` to true again
and is moved to the head; the next check of node `7` finds no variable to
restart at and the aggregator becomes unsat.  After the call the assignment is
what it was before, and the head of the list is `6`, not the node `7` that was
added. -/
theorem unchanged_assignment_head :
    returnState.Reach ∧ returnState.Valid 5 ∧ returnState.Valid 6 ∧ returnState.Valid 7 ∧
    ∃ c c1 c' : BDDConjunction,
      addNodes 64 returnState fresh [5, 6] = some c ∧ c.isFalse = false ∧
      c.nodes = [6, 5] ∧ returnState.isConstant 7 = false ∧
      returnState.deref 7 = ⟨0, 2, 1⟩ ∧ c.assignment 0 = true ∧
      findLeastGreater c.decisionPnts (returnState.deref 7).var = some 3 ∧
      c.assignment 3 = true ∧
      firstCheck 64 returnState c 7 = some (true, true, c1) ∧
      c1.assignment 0 = false ∧ c1.assignment 3 = true ∧
      addNodeAss 64 returnState c 7 = none ∧
      c.addNode 64 returnState 7 = some c' ∧
      (∀ i, c'.assignment i = c.assignment i) ∧
      c'.nodes = [6, 7, 5] ∧ c'.nodes.head? ≠ some 7 :=
  ⟨returnState_reach, ⟨by decide, by decide⟩, ⟨by decide, by decide⟩, ⟨by decide, by decide⟩,
    ⟨false, 3, [6, 5], flip (flip (flip (fun _ => false) 0) 3) 0, [3]⟩,
    ⟨false, 3, [7, 6, 5], flip (flip (flip (flip (fun _ => false) 0) 3) 0) 3, [0, 3]⟩,
    ⟨true, 3, [6, 7, 5], flip (flip (flip (flip (flip (fun _ => false) 0) 3) 0) 3) 0, []⟩,
    rfl, rfl, rfl, rfl, rfl, rfl, rfl, rfl, rfl, rfl, rfl, rfl, rfl,
    (by
      intro i
      simp only [flip]
      split_ifs <;> rfl),
    rfl, by decide⟩

/-- The engine state `latchState` is reached by the operations of the engine. -/
theorem latchState_reach : latchState.Reach := by
  have r1 : ((BDD.new.getAtomic 1 true).2.getAtomic 0 true).2.Reach :=
    BDD.Reach.atomic 0 true (BDD.Reach.atomic 1 true BDD.Reach.new (by decide)) (by decide)
  have r2 : (⟨2, [⟨1, 1, 2⟩, ⟨0, 1, 2⟩, ⟨1, 1, 4⟩]⟩ : BDD).Reach :=
    BDD.Reach.disj r1 ⟨by decide, by decide⟩ ⟨by decide, by decide⟩
      (rfl : BDD.disjunction 64 ((BDD.new.getAtomic 1 true).2.getAtomic 0 true).2 3 4
        = some (5, ⟨2, [⟨1, 1, 2⟩, ⟨0, 1, 2⟩, ⟨1, 1, 4⟩]⟩))
  have r3 := BDD.Reach.atomic 0 false (BDD.Reach.atomic 2 false r2 (by decide)) (by decide)
  exact BDD.Reach.conj r3 ⟨by decide, by decide⟩ ⟨by decide, by decide⟩
    (rfl : BDD.conjunction 64
        (((⟨2, [⟨1, 1, 2⟩, ⟨0, 1, 2⟩, ⟨1, 1, 4⟩]⟩ : BDD).getAtomic 2 false).2.getAtomic
          0 false).2 6 7
      = some (8, BDDConjunction.latchState))

/-- C27 fails on the code: on the reachable engine state `latchState`, add to a
new aggregator the nodes `x1 ∨ x0` (address `5`) and `¬x0` (address `7`), then
call `addNode` on `x0` (address `4`).  The first check of that call changes the
assignment to `x0 = x1 = true`; the loop then checks node `7`, whose walk ends
in FALSE with an empty stack, and the restart takes from `_decisionPnts` the
variable `1`, which is true already: `ASS(!_assignment[changed])` fails, and
the check returns with the assignment changed from the number 3 to the
number 2. -/
theorem assignment_change_not_increasing :
    latchState.Reach ∧ latchState.Valid 5 ∧ latchState.Valid 7 ∧ latchState.Valid 4 ∧
    ∃ c c1 c2 : BDDConjunction,
      addNodes 64 latchState fresh [5, 7] = some c ∧ c.isFalse = false ∧
      c.nodes = [7, 5] ∧
      firstCheck 64 latchState c 4 = some (true, true, c1) ∧
      latchState.deref 7 = ⟨0, 2, 1⟩ ∧ c1.assignment 0 = true ∧
      findLeastGreater c1.decisionPnts (latchState.deref 7).var = some 1 ∧
      c1.assignment 1 = true ∧
      findNextSatAssignment 64 latchState c1 7 = some (true, true, c2) ∧
      value c1.assignment 2 = 3 ∧ value c2.assignment 2 = 2 :=
  ⟨latchState_reach, ⟨by decide, by decide⟩, ⟨by decide, by decide⟩, ⟨by decide, by decide⟩,
    ⟨false, 1, [7, 5], flip (flip (fun _ => false) 0) 1, [0, 1]⟩,
    ⟨false, 1, [4, 7, 5], flip (flip (flip (fun _ => false) 0) 1) 0, [0, 1]⟩,
    ⟨false, 1, [4, 7, 5], flip (flip (flip (flip (fun _ => false) 0) 1) 0) 1, [0, 1]⟩,
    rfl, rfl, rfl, rfl, rfl, rfl, rfl, rfl, rfl, rfl, rfl⟩

end BDDConjunction

end Kernel

/-! ## Termination of the aggregator -/

namespace Kernel

namespace BDDConjunction

open BDD

theorem mem_dpInsert {dp : List Int} {x v : Int} : v ∈ dpInsert dp x ↔ v ∈ dp ∨ v = x := by
  unfold dpInsert
  split
  · constructor
    · exact Or.inl
    · rintro (h | h)
      · exact h
      · subst h; assumption
  · rw [List.mem_cons]
    constructor
    · rintro (h | h)
      · exact Or.inr h
      · exact Or.inl h
    · rintro (h | h)
      · exact Or.inr h
      · exact Or.inl h

theorem findLeastGreater_some {dp : List Int} {key v : Int}
    (h : findLeastGreater dp key = some v) : v ∈ dp ∧ key < v := by
  unfold findLeastGreater at h
  have hm := List.min?_mem (fun a b => by omega : ∀ a b : Int, min a b = a ∨ min a b = b) h
  simpa using hm

theorem Walk.var_le {s : BDD} (hs : s.WF) {asg : Nat → Bool} {a b : Nat} (h : Walk s asg a b)
    (ha : s.Valid a) : (s.deref b).var ≤ (s.deref a).var := by
  induction h with
  | refl => exact le_refl _
  | @tail b hw h3 ih =>
    have hb := hw.valid_end hs ha
    have hnode := hs.node b h3 hb.2
    split <;> omega

/-- The second walk of `findNextSatAssignment` ends, and it records only
variables of the node that are false. -/
theorem recordWalk_total {s : BDD} (hs : s.WF) (asg : Nat → Bool) :
    ∀ (fuel n : Nat) (dp : List Int), s.Valid n → n < fuel →
      ∃ dp', recordWalk s asg fuel n dp = some dp' ∧
        ∀ v ∈ dp', v ∈ dp ∨ (0 ≤ v ∧ v ≤ (s.deref n).var ∧ asg v.toNat = false) := by
  intro fuel
  induction fuel with
  | zero => intro n dp _ h; omega
  | succ fuel ih =>
    intro n dp hn hf
    rw [recordWalk_succ]
    by_cases h3 : 3 ≤ n
    · have hc : s.isConstant n = false := hs.not_isConstant h3 hn.2
      have hnode := hs.node n h3 hn.2
      simp only [hc, Bool.false_eq_true, if_false]
      by_cases ha : asg (s.deref n).var.toNat = true
      · simp only [ha, if_true]
        obtain ⟨dp', e, hd⟩ := ih (s.deref n).pos dp (hs.valid_pos h3 hn) (by omega)
        refine ⟨dp', e, ?_⟩
        intro v hv
        rcases hd v hv with h | ⟨h1, h2, h3'⟩
        · exact Or.inl h
        · exact Or.inr ⟨h1, by omega, h3'⟩
      · simp only [ha, Bool.false_eq_true, if_false]
        obtain ⟨dp', e, hd⟩ := ih (s.deref n).neg (dpInsert dp (s.deref n).var)
          (hs.valid_neg h3 hn) (by omega)
        refine ⟨dp', e, ?_⟩
        intro v hv
        rcases hd v hv with h | ⟨h1, h2, h3'⟩
        · rcases mem_dpInsert.mp h with h | h
          · exact Or.inl h
          · subst h
            exact Or.inr ⟨hnode.1, le_refl _, by simpa using ha⟩
        · exact Or.inr ⟨h1, by omega, h3'⟩
    · have hc : s.isConstant n = true := isConstant_leaf s (by omega)
      simp only [hc, if_true]
      exact ⟨dp, rfl, fun v hv => Or.inl hv⟩

theorem recordWalk_mono (s : BDD) (asg : Nat → Bool) :
    ∀ (fuel n : Nat) (dp dp' : List Int), recordWalk s asg fuel n dp = some dp' →
      ∀ g, fuel ≤ g → recordWalk s asg g n dp = some dp' := by
  intro fuel
  induction fuel with
  | zero => intro n dp dp' h; simp [recordWalk] at h
  | succ fuel ih =>
    intro n dp dp' h g hg
    obtain ⟨g, rfl⟩ : ∃ g', g = g' + 1 := ⟨g - 1, by omega⟩
    rw [recordWalk_succ] at h ⊢
    split
    · rename_i hc
      rw [if_pos hc] at h
      exact h
    · rename_i hc
      rw [if_neg hc] at h
      split
      · rename_i ha
        rw [if_pos ha] at h
        exact ih _ _ _ h g (by omega)
      · rename_i ha
        rw [if_neg ha] at h
        exact ih _ _ _ h g (by omega)

theorem satSeek_mono (s : BDD) (n0 : Nat) :
    ∀ (fuel n : Nat) (decPnts : List Nat) (changed : Bool) (c : BDDConjunction)
      (r : Bool × Bool × BDDConjunction),
      satSeek s n0 fuel n decPnts changed c = some r →
      ∀ g, fuel ≤ g → satSeek s n0 g n decPnts changed c = some r := by
  intro fuel
  induction fuel with
  | zero => intro n decPnts changed c r h; simp [satSeek] at h
  | succ fuel ih =>
    intro n decPnts changed c r h g hg
    obtain ⟨g, rfl⟩ : ∃ g', g = g' + 1 := ⟨g - 1, by omega⟩
    have hfg : fuel ≤ g := by omega
    rw [satSeek_succ] at h ⊢
    split
    · rename_i hc
      rw [if_pos hc] at h
      split
      · rename_i ha
        rw [if_pos ha] at h
        exact ih _ _ _ _ _ h g hfg
      · rename_i ha
        rw [if_neg ha] at h
        exact ih _ _ _ _ _ h g hfg
    · rename_i hc
      rw [if_neg hc] at h
      split
      · rename_i ht
        rw [if_pos ht] at h
        cases hr : recordWalk s c.assignment fuel n0 c.decisionPnts with
        | none => rw [hr] at h; simp at h
        | some dp =>
          rw [hr] at h
          rw [recordWalk_mono s _ _ _ _ _ hr g hfg]
          exact h
      · rename_i ht
        rw [if_neg ht] at h
        cases decPnts with
        | nil =>
          simp only at h ⊢
          cases hl : findLeastGreater c.decisionPnts (s.deref n0).var with
          | none => rw [hl] at h; exact h
          | some v =>
            rw [hl] at h
            exact ih _ _ _ _ _ h g hfg
        | cons d rest =>
          simp only at h ⊢
          exact ih _ _ _ _ _ h g hfg

theorem value_lt (asg : Nat → Bool) : ∀ k, value asg k < 2 ^ k := by
  intro k
  induction k with
  | zero => simp [value]
  | succ k ih =>
    have e : 2 ^ (k + 1) = 2 ^ k + 2 ^ k := by rw [pow_succ]; omega
    unfold value
    split <;> omega

theorem value_zero (asg : Nat → Bool) :
    ∀ k, (∀ i, i < k → asg i = false) → value asg k = 0 := by
  intro k
  induction k with
  | zero => intro _; rfl
  | succ k ih =>
    intro h
    unfold value
    rw [ih (fun i hi => h i (by omega)), h k (by omega)]
    simp

theorem value_mono (asg asg' : Nat → Bool) (h : ∀ i, asg i = true → asg' i = true) :
    ∀ k, value asg k ≤ value asg' k := by
  intro k
  induction k with
  | zero => exact le_refl _
  | succ k ih =>
    unfold value
    by_cases ha : asg k = true
    · rw [ha, h k ha]
      simp only [if_true]
      omega
    · have : asg k = false := by simpa using ha
      rw [this]
      simp only [Bool.false_eq_true, if_false]
      generalize 2 ^ k = p
      split <;> omega

/-- Setting a variable that is false to true, and the variables below it to
false, makes the binary number of the assignment greater. -/
theorem value_flip (asg : Nat → Bool) {v : Int} (hv : 0 ≤ v) (ha : asg v.toNat = false) :
    ∀ k, v.toNat < k → value asg k < value (flip asg v) k := by
  intro k
  induction k with
  | zero => intro h; omega
  | succ k ih =>
    intro hk
    by_cases hvk : v.toNat = k
    · subst hvk
      have z : value (flip asg v) v.toNat = 0 := by
        apply value_zero
        intro i hi
        have : (i : Int) < v := by omega
        simp [flip, this]
      have lt := value_lt asg v.toNat
      unfold value
      rw [z, ha, flip_at asg hv]
      simp only [Bool.false_eq_true, if_false, if_true]
      omega
    · have := ih (by omega)
      have e : flip asg v k = asg k := flip_above asg hv (by omega)
      unfold value
      rw [e]
      omega

/-- The search after a restart: from a node other than FALSE, with every
variable up to the variable of the node false, the walk with backtracking
reaches TRUE without emptying the stack it started with; only variables up to
the variable of the node are changed. -/
theorem satSeek_restarted {s : BDD} (hs : s.WF) {n0 : Nat} (h0 : s.Valid n0) :
    ∀ (m : Nat) (S : List Nat) (c : BDDConjunction) (fuel : Nat),
      s.Valid m → m ≠ 2 →
      (∀ i : Nat, (i : Int) ≤ (s.deref m).var → c.assignment i = false) →
      2 * m + n0 + 2 ≤ fuel →
      ∃ asg' dp',
        satSeek s n0 fuel m S true c
          = some (true, true, { c with assignment := asg', decisionPnts := dp' }) ∧
        (∀ i : Nat, (s.deref m).var < (i : Int) → asg' i = c.assignment i) ∧
        (∀ i : Nat, c.assignment i = true → asg' i = true) ∧
        (∀ v ∈ dp', v ∈ c.decisionPnts ∨
          (0 ≤ v ∧ v ≤ (s.deref n0).var ∧ asg' v.toNat = false)) := by
  intro m
  induction m using Nat.strong_induction_on with
  | _ m ih =>
    intro S c fuel hm hne hz hf
    obtain ⟨f, rfl⟩ : ∃ f, fuel = f + 1 := ⟨fuel - 1, by omega⟩
    rw [satSeek_succ]
    by_cases h3 : 3 ≤ m
    · have hc : s.isConstant m = false := hs.not_isConstant h3 hm.2
      have hnode := hs.node m h3 hm.2
      have ha : c.assignment (s.deref m).var.toNat = false :=
        hz _ (by rw [Int.toNat_of_nonneg hnode.1])
      simp only [hc, Bool.not_false, if_true, ha, Bool.false_eq_true, if_false]
      by_cases hneg : (s.deref m).neg = 2
      · obtain ⟨f, rfl⟩ : ∃ f', f = f' + 1 := ⟨f - 1, by omega⟩
        rw [hneg, satSeek_succ]
        have hcF : s.isConstant 2 = true := isConstant_leaf s (by decide)
        have hnt : BDD.isTrue 2 = false := by decide
        simp only [hcF, Bool.not_true, Bool.false_eq_true, if_false, hnt]
        have hp2 : (s.deref m).pos ≠ 2 := by
          intro e
          exact hnode.2.2.2.2.2.2.1 (by rw [e, hneg])
        obtain ⟨asg', dp', e, g1, g2, g3⟩ := ih (s.deref m).pos hnode.2.2.2.1 S
          { c with assignment := flip c.assignment (s.deref m).var } f
          (hs.valid_pos h3 hm) hp2 (by
            intro i hi
            have : (i : Int) < (s.deref m).var := by omega
            simp [flip, this]) (by omega)
        refine ⟨asg', dp', e, ?_, ?_, g3⟩
        · intro i hi
          rw [g1 i (by omega)]
          exact flip_above c.assignment hnode.1 hi
        · intro i hi
          by_cases hle : (i : Int) ≤ (s.deref m).var
          · rw [hz i hle] at hi
            simp at hi
          · apply g2
            show flip c.assignment (s.deref m).var i = true
            rw [flip_above c.assignment hnode.1 (by omega)]
            exact hi
      · obtain ⟨asg', dp', e, g1, g2, g3⟩ := ih (s.deref m).neg hnode.2.2.2.2.2.1 (m :: S) c f
          (hs.valid_neg h3 hm) hneg (fun i hi => hz i (by omega)) (by omega)
        exact ⟨asg', dp', e, fun i hi => g1 i (by omega), g2, g3⟩
    · have hm1 : m = 1 := by
        have := hm.1
        omega
      subst hm1
      have hcT : s.isConstant 1 = true := isConstant_leaf s (by decide)
      have ht : BDD.isTrue 1 = true := by decide
      simp only [hcT, Bool.not_true, Bool.false_eq_true, if_false, ht, if_true]
      obtain ⟨dp', e, hd⟩ := recordWalk_total hs c.assignment f n0 c.decisionPnts h0 (by omega)
      rw [e]
      exact ⟨c.assignment, dp', rfl, fun _ _ => rfl, fun _ h => h, hd⟩

theorem pow_children {n p q : Nat} (h3 : 3 ≤ n) (hp : p < n) (hq : q < n) :
    4 ^ p + 4 ^ q + 2 ≤ 4 ^ n := by
  obtain ⟨m, rfl⟩ : ∃ m, n = m + 1 := ⟨n - 1, by omega⟩
  have h1 : 4 ^ p ≤ 4 ^ m := Nat.pow_le_pow_right (by norm_num) (by omega)
  have h2 : 4 ^ q ≤ 4 ^ m := Nat.pow_le_pow_right (by norm_num) (by omega)
  have h4 : 1 ≤ 4 ^ m := Nat.one_le_pow _ _ (by norm_num)
  have e : 4 ^ (m + 1) = 4 * 4 ^ m := by rw [pow_succ]; omega
  omega

/-- The search of `findNextSatAssignment` ends: from any state of the first
walk it returns within the number of steps that the potential of the state
allows.  The variables it changes are variables of the node or variables below
a remembered decision variable; when no remembered decision variable above the
node is true, every change makes the binary number of the assignment greater. -/
theorem satSeek_total {s : BDD} (hs : s.WF) {n0 : Nat} (h0 : s.Valid n0) (h03 : 3 ≤ n0) :
    ∀ (fuel n : Nat) (S : List Nat) (ch : Bool) (c : BDDConjunction),
      SeekInv s n0 c.assignment n S →
      4 ^ n + (S.map (fun d => 1 + 4 ^ (s.deref d).pos)).sum + (3 * n0 + 4) ≤ fuel →
      ∃ ok ch' asg' dp',
        satSeek s n0 fuel n S ch c
          = some (ok, ch', { c with assignment := asg', decisionPnts := dp' }) ∧
        (∀ v ∈ dp', v ∈ c.decisionPnts ∨
          (0 ≤ v ∧ v ≤ (s.deref n0).var ∧ asg' v.toNat = false)) ∧
        (∀ top : Int, (s.deref n0).var ≤ top → (∀ v ∈ c.decisionPnts, v ≤ top) →
          ∀ i : Nat, top < (i : Int) → asg' i = c.assignment i) ∧
        ((∀ v ∈ c.decisionPnts, (s.deref n0).var < v → c.assignment v.toNat = false) →
          ∀ k : Nat, (s.deref n0).var < (k : Int) → (∀ v ∈ c.decisionPnts, v < (k : Int)) →
            value c.assignment k ≤ value asg' k ∧
            (ok = true → ch = false → ch' = true → value c.assignment k < value asg' k)) := by
  have hv0 : 0 ≤ (s.deref n0).var := (hs.node n0 h03 h0.2).1
  intro fuel
  induction fuel with
  | zero =>
    intro n S ch c _ hf
    have : 1 ≤ 4 ^ n := Nat.one_le_pow _ _ (by norm_num)
    omega
  | succ fuel ih =>
    intro n S ch c hinv hf
    have hn := hinv.1.valid_end hs h0
    rw [satSeek_succ]
    by_cases h3 : 3 ≤ n
    · have hc : s.isConstant n = false := hs.not_isConstant h3 hn.2
      have hnode := hs.node n h3 hn.2
      simp only [hc, Bool.not_false, if_true]
      have hpow := pow_children h3 hnode.2.2.2.1 hnode.2.2.2.2.2.1
      have hp1 : 1 ≤ 4 ^ (s.deref n).pos := Nat.one_le_pow _ _ (by norm_num)
      have hq1 : 1 ≤ 4 ^ (s.deref n).neg := Nat.one_le_pow _ _ (by norm_num)
      by_cases ha : c.assignment (s.deref n).var.toNat = true
      · simp only [ha, if_true]
        exact ih _ S ch c (hinv.pos hs h0 h3 ha) (by omega)
      · simp only [ha, Bool.false_eq_true, if_false]
        refine ih _ (n :: S) ch c (hinv.neg hs h0 h3 (by simpa using ha)) ?_
        simp only [List.map_cons, List.sum_cons]
        omega
    · have hc : s.isConstant n = true := isConstant_leaf s (by omega)
      simp only [hc, Bool.not_true, Bool.false_eq_true, if_false]
      by_cases h1 : n = 1
      · subst h1
        have ht : BDD.isTrue 1 = true := by decide
        simp only [ht, if_true]
        obtain ⟨dp', e, hd⟩ :=
          recordWalk_total hs c.assignment fuel n0 c.decisionPnts h0 (by omega)
        rw [e]
        refine ⟨true, ch, c.assignment, dp', rfl, hd, fun _ _ _ _ _ => rfl, ?_⟩
        intro _ k _ _
        refine ⟨le_refl _, ?_⟩
        intro _ e1 e2
        rw [e1] at e2
        simp at e2
      · have h2 : n = 2 := by
          have := hn.1
          omega
        subst h2
        have hnt : BDD.isTrue 2 = false := by decide
        simp only [hnt, Bool.false_eq_true, if_false]
        cases S with
        | nil =>
          simp only
          cases hl : findLeastGreater c.decisionPnts (s.deref n0).var with
          | none =>
            simp only
            refine ⟨false, true, c.assignment, c.decisionPnts, rfl, fun v hv => Or.inl hv,
              fun _ _ _ _ _ => rfl, ?_⟩
            intro _ k _ _
            refine ⟨le_refl _, ?_⟩
            intro e
            simp at e
          | some v =>
            simp only
            obtain ⟨hvm, hvgt⟩ := findLeastGreater_some hl
            have hv : 0 ≤ v := by omega
            obtain ⟨asg', dp', e, g1, g2, g3⟩ := satSeek_restarted hs h0 n0 []
              { c with assignment := flip c.assignment v } fuel h0 (by omega) (by
                intro i hi
                have : (i : Int) < v := by omega
                simp [flip, this]) (by omega)
            refine ⟨true, true, asg', dp', e, g3, ?_, ?_⟩
            · intro top ht1 ht2 i hi
              rw [g1 i (by omega)]
              exact flip_above c.assignment hv (by have := ht2 v hvm; omega)
            · intro hfresh k hk1 hk2
              have hlt : value c.assignment k < value (flip c.assignment v) k :=
                value_flip c.assignment hv (hfresh v hvm hvgt) k (by
                  have := hk2 v hvm
                  omega)
              have hle : value (flip c.assignment v) k ≤ value asg' k :=
                value_mono _ _ g2 k
              exact ⟨by omega, fun _ _ _ => by omega⟩
        | cons d rest =>
          simp only
          obtain ⟨hwd, hd3, hdf, _⟩ := hinv.2.1 d (List.mem_cons_self _ _)
          have hdv := hwd.valid_end hs h0
          have hdnode := hs.node d hd3 hdv.2
          have hdle : (s.deref d).var ≤ (s.deref n0).var := hwd.var_le hs h0
          simp only [List.map_cons, List.sum_cons] at hf
          obtain ⟨ok, ch', asg', dp', e, g1, g2, g3⟩ := ih (s.deref d).pos rest true
            { c with assignment := flip c.assignment (s.deref d).var }
            (hinv.pop hs h0) (by
              have : (4 : Nat) ^ 2 = 16 := by norm_num
              omega)
          refine ⟨ok, ch', asg', dp', e, g1, ?_, ?_⟩
          · intro top ht1 ht2 i hi
            rw [g2 top ht1 ht2 i hi]
            exact flip_above c.assignment hdnode.1 (by omega)
          · intro hfresh k hk1 hk2
            have hlt : value c.assignment k < value (flip c.assignment (s.deref d).var) k :=
              value_flip c.assignment hdnode.1 hdf k (by omega)
            obtain ⟨hle, _⟩ := g3 (by
              intro v hv hgt
              show flip c.assignment (s.deref d).var v.toNat = false
              rw [flip_above c.assignment hdnode.1 (by
                rw [Int.toNat_of_nonneg (by omega)]
                omega)]
              exact hfresh v hv hgt) k hk1 hk2
            have hle : value (flip c.assignment (s.deref d).var) k ≤ value asg' k := hle
            exact ⟨by omega, fun _ _ _ => by omega⟩

/-- A call of `findNextSatAssignment` on an inner node returns, given fuel
above a bound that depends on the address of the node only. -/
theorem findNext_total {s : BDD} (hs : s.WF) {n0 : Nat} (h0 : s.Valid n0) (h03 : 3 ≤ n0)
    (c : BDDConjunction) {fuel : Nat} (hf : 4 ^ n0 + 3 * n0 + 4 ≤ fuel) :
    ∃ ok ch' asg' dp',
      findNextSatAssignment fuel s c n0
        = some (ok, ch', { c with assignment := asg', decisionPnts := dp' }) ∧
      (∀ v ∈ dp', v ∈ c.decisionPnts ∨
        (0 ≤ v ∧ v ≤ (s.deref n0).var ∧ asg' v.toNat = false)) ∧
      (∀ top : Int, (s.deref n0).var ≤ top → (∀ v ∈ c.decisionPnts, v ≤ top) →
        ∀ i : Nat, top < (i : Int) → asg' i = c.assignment i) ∧
      ((∀ v ∈ c.decisionPnts, (s.deref n0).var < v → c.assignment v.toNat = false) →
        ∀ k : Nat, (s.deref n0).var < (k : Int) → (∀ v ∈ c.decisionPnts, v < (k : Int)) →
          value c.assignment k ≤ value asg' k ∧
          (ok = true → ch' = true → value c.assignment k < value asg' k)) ∧
      (ch' = false → asg' = c.assignment) := by
  obtain ⟨ok, ch', asg', dp', e, g1, g2, g3⟩ :=
    satSeek_total hs h0 h03 fuel n0 [] false c (SeekInv.start s n0 c.assignment) (by
      simp only [List.map_nil, List.sum_nil]
      omega)
  refine ⟨ok, ch', asg', dp', e, g1, g2, ?_, ?_⟩
  · intro hfresh k hk1 hk2
    obtain ⟨a, b⟩ := g3 hfresh k hk1 hk2
    exact ⟨a, fun h1 h2 => b h1 rfl h2⟩
  · intro hch
    exact (findNextSatAssignment_spec hs h0 e).2.2.2 hch

theorem findNext_mono {s : BDD} {c : BDDConjunction} {n0 fuel : Nat}
    {r : Bool × Bool × BDDConjunction} (h : findNextSatAssignment fuel s c n0 = some r)
    {g : Nat} (hg : fuel ≤ g) : findNextSatAssignment g s c n0 = some r :=
  satSeek_mono s n0 fuel n0 [] false c r h g hg

theorem pow_address {s : BDD} {n : Nat} (hn : s.Valid n) :
    4 ^ n + 3 * n + 4 ≤ 4 ^ (s.nodes.length + 3) + 3 * (s.nodes.length + 3) + 4 := by
  have h1 : 4 ^ n ≤ 4 ^ (s.nodes.length + 3) :=
    Nat.pow_le_pow_right (by norm_num) (by have := hn.2; omega)
  have := hn.2
  omega

/-- The `while(next)` loop of `addNode` ends.  Until the first change made in
the loop the remembered decision variables may be out of date; from then on
every change makes the binary number of the assignment greater, and between two
changes the loop moves along the list. -/
theorem addLoop_total {s : BDD} (hs : s.WF) (fuel : Nat)
    (hfuel : 4 ^ (s.nodes.length + 3) + 3 * (s.nodes.length + 3) + 4 ≤ fuel) :
    ∀ (k : Nat) (front next : List Nat) (c : BDDConjunction) (g : Bool),
      (∀ m ∈ front ++ next, s.Valid m ∧ 3 ≤ m ∧ (s.deref m).var ≤ c.maxVar) →
      c.nodes = front ++ next →
      (∀ i : Nat, c.maxVar < (i : Int) → c.assignment i = false) →
      (∀ v ∈ c.decisionPnts, 0 ≤ v ∧ v ≤ c.maxVar) →
      (g = false → ∀ v ∈ c.decisionPnts, c.assignment v.toNat = false) →
      ((if g = true then 2 ^ (c.maxVar + 1).toNat else 0) +
          (2 ^ (c.maxVar + 1).toNat - value c.assignment (c.maxVar + 1).toNat)) *
        (front.length + next.length + 1) + next.length < k →
      ∃ c', addLoop s fuel k front next c = some c' ∧ Bounded s c' := by
  intro k
  induction k with
  | zero => intro front next c g _ _ _ _ _ h; omega
  | succ k ih =>
    intro front next c g hv hn hB hD hg hk
    cases next with
    | nil =>
      refine ⟨c, rfl, ?_, hB, hD⟩
      rw [hn]
      exact hv
    | cons x rest =>
      rw [addLoop_cons]
      obtain ⟨hxv, hx3, hxm⟩ := hv x (by simp)
      obtain ⟨ok, ch, asg', dp', e, g1, g2, g3, g4⟩ :=
        findNext_total hs hxv hx3 c (le_trans (pow_address hxv) hfuel)
      have hxnode := hs.node x hx3 hxv.2
      have hB' : ∀ i : Nat, c.maxVar < (i : Int) → asg' i = false := by
        intro i hi
        rw [g2 c.maxVar hxm (fun v hv => (hD v hv).2) i hi]
        exact hB i hi
      have hD' : ∀ v ∈ dp', 0 ≤ v ∧ v ≤ c.maxVar := by
        intro v hv
        rcases g1 v hv with h | ⟨h1, h2, _⟩
        · exact hD v h
        · exact ⟨h1, by omega⟩
      rw [e]
      cases ok with
      | false =>
        refine ⟨_, rfl, ?_, hB', hD'⟩
        show ∀ m ∈ c.nodes, _
        rw [hn]
        exact hv
      | true =>
        cases ch with
        | false =>
          have ea : asg' = c.assignment := g4 rfl
          subst ea
          simp only
          refine ih (front ++ [x]) rest _ g ?_ ?_ hB' hD' ?_ ?_
          · intro m hm
            apply hv m
            simp only [List.mem_append, List.mem_singleton, List.mem_cons] at hm ⊢
            tauto
          · show c.nodes = _
            rw [hn]
            simp
          · intro hgf v hv'
            rcases g1 v hv' with h | ⟨_, _, h⟩
            · exact hg hgf v h
            · exact h
          · show ((if g = true then 2 ^ (c.maxVar + 1).toNat else 0) +
                (2 ^ (c.maxVar + 1).toNat - value c.assignment (c.maxVar + 1).toNat)) *
              ((front ++ [x]).length + rest.length + 1) + rest.length < k
            simp only [List.length_cons] at hk
            simp only [List.length_append, List.length_singleton]
            have e1 : front.length + 1 + rest.length + 1
                = front.length + (rest.length + 1) + 1 := by
              omega
            rw [e1]
            omega
        | true =>
          simp only
          have hM : ((c.maxVar + 1).toNat : Int) = c.maxVar + 1 :=
            Int.toNat_of_nonneg (by omega)
          have hlt' := value_lt asg' (c.maxVar + 1).toNat
          have hlt := value_lt c.assignment (c.maxVar + 1).toNat
          have hX : (2 ^ (c.maxVar + 1).toNat - value asg' (c.maxVar + 1).toNat) + 1 ≤
              (if g = true then 2 ^ (c.maxVar + 1).toNat else 0) +
                (2 ^ (c.maxVar + 1).toNat - value c.assignment (c.maxVar + 1).toNat) := by
            cases g with
            | true =>
              simp only [if_true]
              omega
            | false =>
              have hfr := hg rfl
              obtain ⟨_, hs'⟩ := g3 (fun v hv _ => hfr v hv) (c.maxVar + 1).toNat
                (by omega) (fun v hv => by have := (hD v hv).2; omega)
              have := hs' rfl rfl
              simp only [Bool.false_eq_true, if_false]
              omega
          refine ih [x] (front ++ rest) _ false ?_ ?_ hB' ?_ ?_ ?_
          · intro m hm
            apply hv m
            simp only [List.mem_append, List.mem_singleton, List.mem_cons] at hm ⊢
            tauto
          · rfl
          · intro v hv'
            simp at hv'
          · intro _ v hv'
            simp at hv'
          · show ((if false = true then 2 ^ (c.maxVar + 1).toNat else 0) +
                (2 ^ (c.maxVar + 1).toNat - value asg' (c.maxVar + 1).toNat)) *
              ([x].length + (front ++ rest).length + 1) + (front ++ rest).length < k
            simp only [List.length_cons] at hk
            simp only [List.length_append, List.length_singleton, Bool.false_eq_true, if_false,
              Nat.zero_add]
            have e1 : 1 + (front.length + rest.length) + 1
                = front.length + (rest.length + 1) + 1 := by
              omega
            rw [e1]
            have hmul := Nat.mul_le_mul_right (front.length + (rest.length + 1) + 1) hX
            rw [Nat.add_mul, Nat.one_mul] at hmul
            omega

theorem addLoop_mono (s : BDD) {fuel fuel' : Nat} (hf : fuel ≤ fuel') :
    ∀ (k : Nat) (front next : List Nat) (c c' : BDDConjunction),
      addLoop s fuel k front next c = some c' →
      ∀ k', k ≤ k' → addLoop s fuel' k' front next c = some c' := by
  intro k
  induction k with
  | zero => intro front next c c' h; simp [addLoop] at h
  | succ k ih =>
    intro front next c c' h k' hk
    obtain ⟨k', rfl⟩ : ∃ j, k' = j + 1 := ⟨k' - 1, by omega⟩
    cases next with
    | nil =>
      simp only [addLoop] at h ⊢
      exact h
    | cons x rest =>
      rw [addLoop_cons] at h ⊢
      cases hres : findNextSatAssignment fuel s c x with
      | none => rw [hres] at h; simp at h
      | some r =>
        rw [hres] at h
        rw [findNext_mono hres hf]
        obtain ⟨ok, ch, c2⟩ := r
        cases ok with
        | false => exact h
        | true =>
          cases ch with
          | false => exact ih _ _ _ _ h k' (by omega)
          | true => exact ih _ _ _ _ h k' (by omega)

theorem addNode_mono {s : BDD} {c c' : BDDConjunction} {n fuel : Nat}
    (h : c.addNode fuel s n = some c') {fuel' : Nat} (hf : fuel ≤ fuel') :
    c.addNode fuel' s n = some c' := by
  unfold addNode at h ⊢
  split
  · rename_i hc
    rw [if_pos hc] at h
    exact h
  · rename_i hc
    rw [if_neg hc] at h
    split
    · rename_i hconst
      rw [if_pos hconst] at h
      exact h
    · rename_i hconst
      rw [if_neg hconst] at h
      simp only [] at h ⊢
      generalize (if (s.deref n).var > c.maxVar
        then ({ c with maxVar := (s.deref n).var } : BDDConjunction) else c) = c1 at h ⊢
      cases hres : findNextSatAssignment fuel s { c1 with nodes := n :: c1.nodes } n with
      | none => rw [hres] at h; simp at h
      | some r =>
        rw [hres] at h
        rw [findNext_mono hres hf]
        obtain ⟨ok, ch, c2⟩ := r
        cases ok with
        | false => exact h
        | true =>
          cases ch with
          | false => exact h
          | true => exact addLoop_mono s hf _ _ _ _ _ h fuel' hf

/-- A call of `addNode` on an aggregator within its bounds returns, given
enough fuel, and leaves the aggregator within its bounds. -/
theorem addNode_total {s : BDD} (hs : s.WF) {c : BDDConjunction}
    (hb : c.isFalse = false → Bounded s c) {n : Nat} (hn : s.Valid n) :
    ∃ F, ∀ fuel, F ≤ fuel →
      ∃ c', c.addNode fuel s n = some c' ∧ (c'.isFalse = false → Bounded s c') := by
  by_cases hc : c.isFalse = true
  · refine ⟨0, fun fuel _ => ⟨c, addNode_latched hc fuel s n, ?_⟩⟩
    intro h
    rw [hc] at h
    simp at h
  have hc' : c.isFalse = false := by simpa using hc
  obtain ⟨hb1, hb2, hb3⟩ := hb hc'
  by_cases h3 : 3 ≤ n
  · have hconst : s.isConstant n = false := hs.not_isConstant h3 hn.2
    have hnode := hs.node n h3 hn.2
    refine ⟨4 ^ (s.nodes.length + 3) + 3 * (s.nodes.length + 3) + 4 +
      (2 * 2 ^ ((if (s.deref n).var > c.maxVar then (s.deref n).var else c.maxVar) + 1).toNat) *
        (c.nodes.length + 2) + c.nodes.length + 1, ?_⟩
    intro fuel hfuel
    unfold addNode
    rw [if_neg hc, if_neg (by rw [hconst]; decide : ¬ s.isConstant n = true)]
    simp only []
    generalize hc1 : (if (s.deref n).var > c.maxVar
      then ({ c with maxVar := (s.deref n).var } : BDDConjunction) else c) = c1
    have e1 : c1.nodes = c.nodes ∧ c1.assignment = c.assignment ∧
        c1.decisionPnts = c.decisionPnts ∧ c1.isFalse = c.isFalse ∧
        c1.maxVar = (if (s.deref n).var > c.maxVar then (s.deref n).var else c.maxVar) := by
      rw [← hc1]; split <;> exact ⟨rfl, rfl, rfl, rfl, rfl⟩
    obtain ⟨en, ea, ed, ef, em⟩ := e1
    rw [← em] at hfuel
    have hm1 : c.maxVar ≤ c1.maxVar := by rw [em]; split <;> omega
    have hm2 : (s.deref n).var ≤ c1.maxVar := by rw [em]; split <;> omega
    have hv1 : ∀ m ∈ [n] ++ c1.nodes, s.Valid m ∧ 3 ≤ m ∧ (s.deref m).var ≤ c1.maxVar := by
      intro m hm
      rcases List.mem_append.mp hm with hm | hm
      · rw [List.mem_singleton] at hm
        subst hm
        exact ⟨hn, h3, hm2⟩
      · rw [en] at hm
        obtain ⟨a, b, d⟩ := hb1 m hm
        exact ⟨a, b, by omega⟩
    have hB1 : ∀ i : Nat, c1.maxVar < (i : Int) → c1.assignment i = false := by
      intro i hi
      rw [ea]
      exact hb2 i (by omega)
    have hD1 : ∀ v ∈ c1.decisionPnts, 0 ≤ v ∧ v ≤ c1.maxVar := by
      intro v hv
      rw [ed] at hv
      obtain ⟨a, b⟩ := hb3 v hv
      exact ⟨a, by omega⟩
    generalize hp : 4 ^ (s.nodes.length + 3) = p at hfuel
    obtain ⟨ok, ch, asg', dp', e, g1, g2, g3, g4⟩ :=
      findNext_total hs hn h3 { c1 with nodes := n :: c1.nodes }
        (by
          have := pow_address hn
          rw [hp] at this
          have : 0 ≤ 2 * 2 ^ (c1.maxVar + 1).toNat * (c.nodes.length + 2) := Nat.zero_le _
          omega : 4 ^ n + 3 * n + 4 ≤ fuel)
    have hB' : ∀ i : Nat, c1.maxVar < (i : Int) → asg' i = false := by
      intro i hi
      rw [g2 c1.maxVar hm2 (fun v hv => (hD1 v hv).2) i hi]
      exact hB1 i hi
    have hD' : ∀ v ∈ dp', 0 ≤ v ∧ v ≤ c1.maxVar := by
      intro v hv
      rcases g1 v hv with h | ⟨h1, h2, _⟩
      · exact hD1 v h
      · exact ⟨h1, by omega⟩
    rw [e]
    cases ok with
    | false => exact ⟨_, rfl, fun h => by simp at h⟩
    | true =>
      cases ch with
      | false =>
        refine ⟨_, rfl, fun _ => ⟨?_, hB', hD'⟩⟩
        exact hv1
      | true =>
        simp only
        have hlt := value_lt asg' (c1.maxVar + 1).toNat
        obtain ⟨c', e', hb'⟩ := addLoop_total hs fuel (by rw [hp]; omega) fuel [n] c1.nodes
          { c1 with nodes := n :: c1.nodes, assignment := asg', decisionPnts := dp' } true
          hv1 rfl hB' hD' (fun h => by simp at h) (by
            show ((if true = true then 2 ^ (c1.maxVar + 1).toNat else 0) +
                (2 ^ (c1.maxVar + 1).toNat - value asg' (c1.maxVar + 1).toNat)) *
              ([n].length + c1.nodes.length + 1) + c1.nodes.length < fuel
            simp only [if_true, List.length_singleton]
            rw [en]
            have e1 : 1 + c.nodes.length + 1 = c.nodes.length + 2 := by omega
            rw [e1]
            have hle : 2 ^ (c1.maxVar + 1).toNat +
                (2 ^ (c1.maxVar + 1).toNat - value asg' (c1.maxVar + 1).toNat)
                  ≤ 2 * 2 ^ (c1.maxVar + 1).toNat := by omega
            have hmul := Nat.mul_le_mul_right (c.nodes.length + 2) hle
            omega)
        exact ⟨c', e', fun _ => hb'⟩
  · have hconst : s.isConstant n = true := isConstant_leaf s (by omega)
    refine ⟨0, fun fuel _ => ?_⟩
    unfold addNode
    rw [if_neg hc, if_pos hconst]
    split
    · exact ⟨_, rfl, fun h => by simp at h⟩
    · exact ⟨c, rfl, fun _ => ⟨hb1, hb2, hb3⟩⟩

/-- Every aggregator of a run that is not unsat is within its bounds. -/
theorem Run.bounded {s : BDD} {c : BDDConjunction} {added : List Nat} (h : Run s c added) :
    s.Reach ∧ (c.isFalse = false → Bounded s c) := by
  induction h with
  | fresh hr =>
    refine ⟨hr, fun _ => ⟨?_, ?_, ?_⟩⟩
    · intro m hm
      simp [BDDConjunction.fresh] at hm
    · intro i _
      rfl
    · intro v hv
      simp [BDDConjunction.fresh] at hv
  | @grow s t c added _ he hr ih =>
    refine ⟨hr, fun hc => ?_⟩
    obtain ⟨b1, b2, b3⟩ := ih.2 hc
    refine ⟨?_, b2, b3⟩
    intro m hm
    obtain ⟨a, b, d⟩ := b1 m hm
    exact ⟨he.valid a, b, by rw [he.deref a.2]; exact d⟩
  | @add s c c' added fuel n _ hn hadd ih =>
    refine ⟨ih.1, ?_⟩
    obtain ⟨F, hF⟩ := addNode_total ih.1.wf ih.2 hn
    obtain ⟨c'', e, hb⟩ := hF (max F fuel) (le_max_left _ _)
    have := addNode_mono hadd (le_max_right F fuel)
    rw [this] at e
    simp only [Option.some.injEq] at e
    subst e
    exact hb

/-- C28 (aggregator termination): for every aggregator reached by `addNode`
calls on a new `BDDConjunction` (the engine may grow between the calls) and
every node `n` of the engine, `addNode(n)` returns: there is an amount of fuel
from which on the call, the search of `findNextSatAssignment` with its
backtracking and its restart and the re-verification loop included, ends with a
result. -/
theorem addNode_terminates {s : BDD} {c : BDDConjunction} {added : List Nat}
    (h : Run s c added) {n : Nat} (hn : s.Valid n) :
    ∃ F, ∀ fuel, F ≤ fuel → ∃ c', c.addNode fuel s n = some c' := by
  obtain ⟨F, hF⟩ := addNode_total h.bounded.1.wf h.bounded.2 hn
  refine ⟨F, fun fuel hf => ?_⟩
  obtain ⟨c', e, _⟩ := hF fuel hf
  exact ⟨c', e⟩

theorem addNode_terminates_witness :
    ∃ F, ∀ fuel, F ≤ fuel →
      ∃ c', BDDConjunction.addNode fuel latchState
        ⟨false, 1, [5], flip (fun _ => false) 0, [1]⟩ 7 = some c' :=
  addNode_terminates
    (Run.add (Run.fresh latchState_reach) ⟨by decide, by decide⟩
      (rfl : BDDConjunction.addNode 64 latchState BDDConjunction.fresh 5
        = some ⟨false, 1, [5], flip (fun _ => false) 0, [1]⟩))
    ⟨by decide, by decide⟩

end BDDConjunction

end Kernel

/-! ## The loop of `getBinaryFnResult` and the recursive definition -/

namespace Kernel

namespace BDD

theorem apply_succ (fn : Nat → Nat → Nat) (fuel : Nat) (s : BDD) (n1 n2 : Nat) :
    apply fn (fuel + 1) s n1 n2 =
      if fn n1 n2 ≠ 0 then some (fn n1 n2, s)
      else
        match apply fn fuel s
          (if (s.deref n1).var = max (s.deref n1).var (s.deref n2).var
            then (s.deref n1).pos else n1)
          (if (s.deref n2).var = max (s.deref n1).var (s.deref n2).var
            then (s.deref n2).pos else n2) with
        | none => none
        | some (pos, s1) =>
          match apply fn fuel s1
            (if (s.deref n1).var = max (s.deref n1).var (s.deref n2).var
              then (s.deref n1).neg else n1)
            (if (s.deref n2).var = max (s.deref n1).var (s.deref n2).var
              then (s.deref n2).neg else n2) with
          | none => none
          | some (neg, s2) =>
            some (if pos = neg then (pos, s2)
              else s2.getNode (max (s.deref n1).var (s.deref n2).var) pos neg) := by
  rfl

/-- In a well-formed node set `getNode` returns the node that holds the
triple, and creates nothing. -/
theorem getNode_existing {s : BDD} (hs : s.WF) {r : Nat} (h3 : 3 ≤ r)
    (hr : r < s.nodes.length + 3) {v : Int} {p n : Nat} (hd : s.deref r = ⟨v, p, n⟩) :
    s.getNode v p n = (r, s) := by
  rw [deref_heap s h3 hr] at hd
  have hi := List.get_indexOf hs.nodup ⟨r - 3, by omega⟩
  rw [hd] at hi
  simp only at hi
  unfold getNode
  simp only [hi]
  rw [if_pos (by omega)]
  congr 1
  omega

theorem Redo.mono {fn : Nat → Nat → Nat} {s t : BDD} {a b r : Nat} (h : Redo fn s a b r)
    (he : Ext s t) : Redo fn t a b r :=
  fun f hf u hu hw => h f hf u (he.trans hu) hw

theorem CacheRedo.grow {fn : Nat → Nat → Nat} {s t : BDD} {c : Cache} (hc : CacheRedo fn s c)
    (h : Ext s t) : CacheRedo fn t c := by
  intro a b r hl
  obtain ⟨ha, hb, hr, hvar, hre⟩ := hc a b r hl
  refine ⟨h.valid ha, h.valid hb, h.valid hr, ?_, hre.mono h⟩
  rw [h.deref hr.2, h.deref ha.2, h.deref hb.2]
  exact hvar

theorem CacheRedo.empty (fn : Nat → Nat → Nat) (s : BDD) : CacheRedo fn s [] := by
  intro a b r hl
  simp at hl

theorem CacheRedo.store {fn : Nat → Nat → Nat} {s : BDD} {c : Cache} (hc : CacheRedo fn s c)
    {a b r : Nat} (ha : s.Valid a) (hb : s.Valid b) (hr : s.Valid r)
    (hvar : (s.deref r).var ≤ max (s.deref a).var (s.deref b).var)
    (hre : Redo fn s a b r) :
    CacheRedo fn s (cacheInsert c (a, b) r) := by
  unfold cacheInsert
  split
  · exact hc
  · intro a' b' r' hl
    rw [List.lookup_cons] at hl
    split at hl
    · rename_i hk
      simp only [beq_iff_eq, Prod.mk.injEq] at hk
      obtain ⟨rfl, rfl⟩ := hk
      simp only [Option.some.injEq] at hl
      subst hl
      exact ⟨ha, hb, hr, hvar, hre⟩
    · exact hc a' b' r' hl

/-- One level of the recursive definition, read in a state `u` that extends
the state `s` in which the pair was split. -/
theorem apply_split {fn : Nat → Nat → Nat} {s u : BDD} {a b : Nat} (h0 : fn a b = 0)
    (ha : s.Valid a) (hb : s.Valid b) (he : Ext s u) {f r1 r2 : Nat} {u1 u2 : BDD}
    (h1 : apply fn f u
      (if (s.deref a).var = max (s.deref a).var (s.deref b).var then (s.deref a).pos else a)
      (if (s.deref b).var = max (s.deref a).var (s.deref b).var then (s.deref b).pos else b)
        = some (r1, u1))
    (h2 : apply fn f u1
      (if (s.deref a).var = max (s.deref a).var (s.deref b).var then (s.deref a).neg else a)
      (if (s.deref b).var = max (s.deref a).var (s.deref b).var then (s.deref b).neg else b)
        = some (r2, u2)) :
    apply fn (f + 1) u a b =
      some (if r1 = r2 then (r1, u2)
        else u2.getNode (max (s.deref a).var (s.deref b).var) r1 r2) := by
  rw [apply_succ, he.deref ha.2, he.deref hb.2]
  simp only [h0, ne_eq, not_true_eq_false, if_false, h1, h2]

/-- The loop, started on the pair `(a, b)` with any stacks, any counter and any
table of pairs that are done, reaches the point where the result of the pair
is known with the node and the node set of the recursive definition. -/
theorem loop_apply {fn : Nat → Nat → Nat} {op : Bool → Bool → Bool} (hfn : FnSpec fn op) :
    ∀ m a b, a + b ≤ m → ∀ (s : BDD) (toDo results : List Nat) (vars : List Int)
      (cache : Cache) (counter : Nat),
      s.WF → s.Valid a → s.Valid b → CacheRedo fn s cache →
      ∃ k r t cache' counter', 1 ≤ k ∧ k < 2 ^ (m + 1) ∧ t.WF ∧ Ext s t ∧ t.Valid r ∧
        CacheRedo fn t cache' ∧
        (t.deref r).var ≤ max (s.deref a).var (s.deref b).var ∧
        (∀ f, a + b + 1 ≤ f → apply fn f s a b = some (r, t)) ∧
        Redo fn t a b r ∧
        ∀ fuel, loop fn (fuel + k) ⟨a, b, toDo, results, vars, cache, counter, s⟩
          = afterFound fn fuel counter' r toDo results vars cache' t := by
  intro m
  induction m with
  | zero =>
    intro a b hab s _ _ _ _ _ _ ha
    have := ha.1
    omega
  | succ m ih =>
    intro a b hab s toDo results vars cache counter hs ha hb hc
    obtain ⟨hnull, hans⟩ := hfn a b ha.1 hb.1
    have hpow : 1 < 2 ^ (m + 1 + 1) := Nat.one_lt_two_pow (by omega)
    cases hfound : (if fn a b ≠ 0 then some (fn a b) else cache.lookup (a, b)) with
    | some r =>
      have hr : s.Valid r ∧ (s.deref r).var ≤ max (s.deref a).var (s.deref b).var ∧
          Redo fn s a b r := by
        by_cases h0 : fn a b = 0
        · simp only [h0, ne_eq, not_true_eq_false, if_false] at hfound
          obtain ⟨_, _, h1, h2, h3⟩ := hc a b r hfound
          exact ⟨h1, h2, h3⟩
        · simp only [ne_eq, h0, not_false_eq_true, if_true, Option.some.injEq] at hfound
          subst hfound
          obtain ⟨g1, g2, _⟩ := hans h0 s hs ha hb
          refine ⟨g1, g2, ?_⟩
          intro f hf u _ _
          obtain ⟨f, rfl⟩ : ∃ f', f = f' + 1 := ⟨f - 1, by omega⟩
          rw [apply_succ]
          simp only [ne_eq, h0, not_false_eq_true, if_true]
      exact ⟨1, r, s, cache, _, le_refl _, hpow, hs, Ext.refl s, hr.1, hc, hr.2.1,
        fun f hf => hr.2.2 f hf s (Ext.refl s) hs, hr.2.2,
        fun fuel => loop_found fn fuel ⟨a, b, toDo, results, vars, cache, counter, s⟩ hfound⟩
    | none =>
      have h0 : fn a b = 0 := by
        by_contra h0
        simp [h0] at hfound
      have h3 := hnull h0
      have hstep := fun fuel =>
        loop_split fn fuel ⟨a, b, toDo, results, vars, cache, counter, s⟩ hfound
      simp only at hstep
      have hsplit := fun (u : BDD) (he : Ext s u) (f r1 r2 : Nat) (u1 u2 : BDD) =>
        @apply_split fn s u a b h0 ha hb he f r1 r2 u1 u2
      have hv0 : 0 ≤ max (s.deref a).var (s.deref b).var := by
        rcases h3 with h3 | h3
        · exact le_trans (hs.node a h3 ha.2).1 (le_max_left _ _)
        · exact le_trans (hs.node b h3 hb.2).1 (le_max_right _ _)
      have hmax : (s.deref a).var = max (s.deref a).var (s.deref b).var ∨
          (s.deref b).var = max (s.deref a).var (s.deref b).var := by
        rcases max_choice (s.deref a).var (s.deref b).var with e | e
        · exact Or.inl e.symm
        · exact Or.inr e.symm
      obtain ⟨hap, han, hap', han', hadec, hapv, hanv, _⟩ :=
        split_side hs ha hv0 (le_max_left (s.deref a).var (s.deref b).var)
      obtain ⟨hbp, hbn, hbp', hbn', hbdec, hbpv, hbnv, _⟩ :=
        split_side hs hb hv0 (le_max_right (s.deref a).var (s.deref b).var)
      generalize hv : max (s.deref a).var (s.deref b).var = v at *
      generalize (if (s.deref a).var = v then (s.deref a).pos else a) = ap at *
      generalize (if (s.deref a).var = v then (s.deref a).neg else a) = an at *
      generalize (if (s.deref b).var = v then (s.deref b).pos else b) = bp at *
      generalize (if (s.deref b).var = v then (s.deref b).neg else b) = bn at *
      generalize (if counter + 1 = 50000 then 0 else counter + 1) = c0 at *
      have hvnew : v < s.newVar := by
        rcases hmax with e | e
        · exact (hadec e).2.2
        · exact (hbdec e).2.2
      have hdp : ap + bp < a + b := by
        rcases hmax with e | e
        · have := (hadec e).1; omega
        · have := (hbdec e).1; omega
      have hdn : an + bn < a + b := by
        rcases hmax with e | e
        · have := (hadec e).2.1; omega
        · have := (hbdec e).2.1; omega
      obtain ⟨k1, r1, t1, cache1, c1, hk1, hk1', ht1, he1, hr1, hc1, hvar1, happ1, hre1,
          hrun1⟩ :=
        ih ap bp (by omega) s (an :: bn :: toDo) (0 :: a :: b :: results) (v :: vars) cache c0
          hs hap hbp hc
      obtain ⟨k2, r2, t2, cache2, c2, hk2, hk2', ht2, he2, hr2, hc2, hvar2, happ2, hre2,
          hrun2⟩ :=
        ih an bn (by omega) t1 toDo (r1 :: 0 :: a :: b :: results) (v :: vars) cache1 c1
          ht1 (he1.valid han) (he1.valid hbn) hc1
      rw [he1.deref han.2, he1.deref hbn.2] at hvar2
      have hr1ne : r1 ≠ 0 := by have := hr1.1; omega
      have hr1v : (t2.deref r1).var < v := by
        rw [he2.deref hr1.2]
        exact lt_of_le_of_lt hvar1 (max_lt hapv hbpv)
      have hr2v : (t2.deref r2).var < v := lt_of_le_of_lt hvar2 (max_lt hanv hbnv)
      have hk : k2 + k1 + 1 < 2 ^ (m + 1 + 1) := by
        have : 2 ^ (m + 1 + 1) = 2 ^ (m + 1) + 2 ^ (m + 1) := by ring
        omega
      have hrun : ∀ fuel, loop fn (fuel + (k2 + k1 + 1))
            ⟨a, b, toDo, results, vars, cache, counter, s⟩
          = afterFound fn fuel c2 (if r1 = r2 then (r1, t2) else t2.getNode v r1 r2).1
              toDo results vars
              (if c2 % 4 = 0 then
                cacheInsert cache2 (a, b)
                  (if r1 = r2 then (r1, t2) else t2.getNode v r1 r2).1
               else cache2)
              (if r1 = r2 then (r1, t2) else t2.getNode v r1 r2).2 := by
        intro fuel
        have e : fuel + (k2 + k1 + 1) = (fuel + k2 + k1) + 1 := by omega
        rw [e, hstep, hrun1, afterFound_zero, hrun2, afterFound_frame fn fuel c2 r2 hr1ne]
      -- the combined node
      have hcomb : ∃ r3 t3, (if r1 = r2 then (r1, t2) else t2.getNode v r1 r2) = (r3, t3) ∧
          t3.WF ∧ Ext t2 t3 ∧ t3.Valid r3 ∧ (t3.deref r3).var ≤ v ∧
          ∀ u : BDD, Ext t3 u → u.WF →
            (if r1 = r2 then (r1, u) else u.getNode v r1 r2) = (r3, u) := by
        by_cases e : r1 = r2
        · refine ⟨r1, t2, by simp [e], ht2, Ext.refl t2, he2.valid hr1, le_of_lt hr1v, ?_⟩
          intro u _ _
          simp [e]
        · obtain ⟨hw, hx, hvalid, h3', hd⟩ :=
            getNode_spec ht2 hv0 (lt_of_lt_of_le hvnew (le_trans he1.1 he2.1))
              (he2.valid hr1) hr2 e hr1v hr2v
          refine ⟨(t2.getNode v r1 r2).1, (t2.getNode v r1 r2).2, by simp [e], hw, hx, hvalid,
            ?_, ?_⟩
          · rw [hd]
          · intro u hu huw
            rw [if_neg e]
            apply getNode_existing huw h3' (hu.valid hvalid).2
            rw [hu.deref hvalid.2]
            exact hd
      obtain ⟨r3, t3, e3, ht3, he3, hr3, hvar3, hagain⟩ := hcomb
      rw [e3] at hrun
      simp only at hrun
      have hext : Ext s t3 := (he1.trans he2).trans he3
      have happ : ∀ f, a + b + 1 ≤ f → apply fn f s a b = some (r3, t3) := by
        intro f hf
        obtain ⟨f, rfl⟩ : ∃ f', f = f' + 1 := ⟨f - 1, by omega⟩
        rw [hsplit s (Ext.refl s) f r1 r2 t1 t2 (happ1 f (by omega)) (happ2 f (by omega)), e3]
      have hre : Redo fn t3 a b r3 := by
        intro f hf u hu huw
        obtain ⟨f, rfl⟩ : ∃ f', f = f' + 1 := ⟨f - 1, by omega⟩
        rw [hsplit u (hext.trans hu) f r1 r2 u u
          (hre1 f (by omega) u ((he2.trans he3).trans hu) huw)
          (hre2 f (by omega) u (he3.trans hu) huw), hagain u hu huw]
      have hc3 : CacheRedo fn t3
          (if c2 % 4 = 0 then cacheInsert cache2 (a, b) r3 else cache2) := by
        have hc2' := hc2.grow he3
        split
        · refine hc2'.store (hext.valid ha) (hext.valid hb) hr3 ?_ hre
          rw [hext.deref ha.2, hext.deref hb.2, hv]
          exact hvar3
        · exact hc2'
      exact ⟨k2 + k1 + 1, r3, t3, _, c2, by omega, hk, ht3, hext, hr3, hc3, hvar3, happ, hre,
        hrun⟩

theorem loop_refines {fn : Nat → Nat → Nat} {op : Bool → Bool → Bool} (hfn : FnSpec fn op)
    {s : BDD} (hs : s.WF) {a b : Nat} (ha : s.Valid a) (hb : s.Valid b) :
    ∃ r t, ∀ fuel, 2 ^ (a + b + 1) ≤ fuel →
      apply fn fuel s a b = some (r, t) ∧
      ∀ counter, loop fn fuel ⟨a, b, [], [], [], [], counter, s⟩ = some (r, t) := by
  obtain ⟨_, r, t, _, _, _, _, _, _, _, _, _, happ, _, _⟩ :=
    loop_apply hfn (a + b) a b (le_refl _) s [] [] [] [] 0 hs ha hb (CacheRedo.empty fn s)
  refine ⟨r, t, ?_⟩
  intro fuel hf
  have hlt : a + b + 1 < 2 ^ (a + b + 1) := Nat.lt_two_pow _
  refine ⟨happ fuel (by omega), ?_⟩
  intro counter
  obtain ⟨k, r', t', _, _, _, hk, _, _, _, _, _, happ', _, hrun⟩ :=
    loop_apply hfn (a + b) a b (le_refl _) s [] [] [] [] counter hs ha hb (CacheRedo.empty fn s)
  have e := happ' fuel (by omega)
  rw [happ fuel (by omega)] at e
  simp only [Option.some.injEq, Prod.mk.injEq] at e
  obtain ⟨rfl, rfl⟩ := e
  have e : fuel = (fuel - k) + k := by omega
  rw [e, hrun, afterFound_nil]

/-- C25 (the iterative binary operation equals the plain recursive one): for a
reachable engine state, nodes `n1`, `n2` of the engine and each of the three
operator functors, there are a node `r` and a node set `t` such that, with
enough fuel, `getBinaryFnResult(n1,n2,fn)` returns `r` and leaves `t`, and so
does the recursive definition `apply`, which has no memoization table; the loop
gives the same node and node set whatever the value of the counter it starts
with, that is, whichever subproblems the 1-in-4 rule stores in the table. -/
theorem getBinaryFnResult_refines (s : BDD) (hs : s.Reach) (n1 n2 : Nat) (h1 : s.Valid n1)
    (h2 : s.Valid n2) (fn : Nat → Nat → Nat)
    (hfn : fn = ConjunctionFn ∨ fn = DisjunctionFn ∨ fn = XOrNonYFn) :
    ∃ r t, ∀ fuel, 2 ^ (n1 + n2 + 1) ≤ fuel →
      s.getBinaryFnResult fuel n1 n2 fn = some (r, t) ∧
      apply fn fuel s n1 n2 = some (r, t) ∧
      ∀ counter, loop fn fuel ⟨n1, n2, [], [], [], [], counter, s⟩ = some (r, t) := by
  have key : ∃ r t, ∀ fuel, 2 ^ (n1 + n2 + 1) ≤ fuel →
      apply fn fuel s n1 n2 = some (r, t) ∧
      ∀ counter, loop fn fuel ⟨n1, n2, [], [], [], [], counter, s⟩ = some (r, t) := by
    rcases hfn with e | e | e
    · rw [e]; exact loop_refines conjunctionFn_spec hs.wf h1 h2
    · rw [e]; exact loop_refines disjunctionFn_spec hs.wf h1 h2
    · rw [e]; exact loop_refines xOrNonYFn_spec hs.wf h1 h2
  obtain ⟨r, t, h⟩ := key
  refine ⟨r, t, fun fuel hf => ?_⟩
  obtain ⟨g1, g2⟩ := h fuel hf
  exact ⟨g2 0, g1, g2⟩

theorem getBinaryFnResult_refines_witness :
    ∃ r t, ∀ fuel, 2 ^ (3 + 4 + 1) ≤ fuel →
      ((BDD.new.getAtomic 0 true).2.getAtomic 1 true).2.getBinaryFnResult fuel 3 4 ConjunctionFn
        = some (r, t) ∧
      apply ConjunctionFn fuel ((BDD.new.getAtomic 0 true).2.getAtomic 1 true).2 3 4
        = some (r, t) ∧
      ∀ counter, loop ConjunctionFn fuel
        ⟨3, 4, [], [], [], [], counter, ((BDD.new.getAtomic 0 true).2.getAtomic 1 true).2⟩
          = some (r, t) :=
  getBinaryFnResult_refines _
    (Reach.atomic 1 true (Reach.atomic 0 true Reach.new (by decide)) (by decide))
    3 4 ⟨by decide, by decide⟩ ⟨by decide, by decide⟩ ConjunctionFn (Or.inl rfl)

end BDD

end Kernel

/-! ## The subexpression iterator -/

namespace Shell

open Kernel

namespace SubexpressionIterator

theorem negate_eq {p : Int} (h1 : -2147483648 < p) (h2 : p < 2147483648) : negate p = -p := by
  unfold negate Indexing.intWrap
  omega

theorem negate_zero : negate 0 = 0 := by
  decide

theorem pushFormulas_eq (p : Int) :
    ∀ (args : FormulaList) (st : List Expression),
      pushFormulas p args st
        = (args.toList.map (fun g => Expression.FORMULA g p)).reverse ++ st
  | .nil, st => by simp [pushFormulas, FormulaList.toList]
  | .cons h t, st => by
    rw [pushFormulas, pushFormulas_eq p t]
    simp [FormulaList.toList]

theorem toList_size : ∀ args : FormulaList, (args.toList.map Formula.size).sum = args.size
  | .nil => by simp [FormulaList.toList, FormulaList.size]
  | .cons h t => by
    simp only [FormulaList.toList, FormulaList.size, List.map_cons, List.sum_cons]
    rw [toList_size t]

theorem pushTerms_size (d : Defaults) :
    ∀ (args : TermArgs) (st : List Expression),
      ((pushTerms d args st).map Expression.size).sum
        = args.size + (st.map Expression.size).sum
  | .nil, st => by simp [pushTerms, TermArgs.size]
  | .cons h t, st => by
    rw [pushTerms, pushTerms_size d t]
    simp only [List.map_cons, List.sum_cons, Expression.size, TermArgs.size]
    omega

theorem pushTerms_append (d : Defaults) :
    ∀ (args : TermArgs) (st : List Expression),
      pushTerms d args st = pushTerms d args [] ++ st
  | .nil, st => by simp [pushTerms]
  | .cons h t, st => by
    rw [pushTerms, pushTerms_append d t, pushTerms, pushTerms_append d t [_]]
    simp

theorem firstArg_size (args : TermArgs) : (firstArg args).size ≤ args.size + 1 := by
  cases args with
  | nil => simp [firstArg, TermList.size]
  | cons h t =>
    simp only [firstArg, TermArgs.size]
    omega

/-- The pushes do not depend on the stack below them. -/
theorem push_append (d : Defaults) (e : Expression) (st : List Expression) :
    push d e st = push d e [] ++ st := by
  cases e with
  | FORMULA f p =>
    cases f <;> simp [push, pushFormulas_eq]
  | TERM t p =>
    cases t <;> simp [push]
    exact pushTerms_append d _ st
  | TERM_LIST ts p =>
    cases ts <;> simp [push]

/-- The expressions pushed for an expression are smaller than it, taken
together. -/
theorem push_size (d : Defaults) (e : Expression) :
    ((push d e []).map Expression.size).sum < e.size := by
  cases e with
  | FORMULA f p =>
    cases f with
    | LITERAL pr po args =>
      have := firstArg_size args
      simp only [push, List.map_cons, List.map_nil, List.sum_cons, List.sum_nil,
        Expression.size, Formula.size]
      omega
    | AND args =>
      simp only [push, pushFormulas_eq, List.append_nil, List.map_reverse, List.sum_reverse,
        List.map_map, Expression.size, Formula.size]
      have := toList_size args
      have e : (Expression.size ∘ fun g => Expression.FORMULA g p) = Formula.size := rfl
      rw [e, this]
      omega
    | OR args =>
      simp only [push, pushFormulas_eq, List.append_nil, List.map_reverse, List.sum_reverse,
        List.map_map, Expression.size, Formula.size]
      have := toList_size args
      have e : (Expression.size ∘ fun g => Expression.FORMULA g p) = Formula.size := rfl
      rw [e, this]
      omega
    | IMP l r => simp only [push, List.map_cons, List.map_nil, List.sum_cons, List.sum_nil,
        Expression.size, Formula.size]; omega
    | IFF l r => simp only [push, List.map_cons, List.map_nil, List.sum_cons, List.sum_nil,
        Expression.size, Formula.size]; omega
    | XOR l r => simp only [push, List.map_cons, List.map_nil, List.sum_cons, List.sum_nil,
        Expression.size, Formula.size]; omega
    | NOT u => simp only [push, List.map_cons, List.map_nil, List.sum_cons, List.sum_nil,
        Expression.size, Formula.size]; omega
    | FORALL v q => simp only [push, List.map_cons, List.map_nil, List.sum_cons, List.sum_nil,
        Expression.size, Formula.size]; omega
    | EXISTS v q => simp only [push, List.map_cons, List.map_nil, List.sum_cons, List.sum_nil,
        Expression.size, Formula.size]; omega
    | BOOL_TERM ts => simp only [push, List.map_cons, List.map_nil, List.sum_cons, List.sum_nil,
        Expression.size, Formula.size]; omega
    | other n => simp [push, Expression.size, Formula.size]
  | TERM t p =>
    cases t with
    | app f args =>
      simp only [push, pushTerms_size, List.map_nil, List.sum_nil, Expression.size, Term.size]
      omega
    | SF_FORMULA f => simp only [push, List.map_cons, List.map_nil, List.sum_cons,
        List.sum_nil, Expression.size, Term.size]; omega
    | SF_ITE c a b => simp only [push, List.map_cons, List.map_nil, List.sum_cons,
        List.sum_nil, Expression.size, Term.size]; omega
    | SF_LET b a => simp only [push, List.map_cons, List.map_nil, List.sum_cons,
        List.sum_nil, Expression.size, Term.size]; omega
    | SF_LET_TUPLE b a => simp only [push, List.map_cons, List.map_nil, List.sum_cons,
        List.sum_nil, Expression.size, Term.size]; omega
    | SF_TUPLE t => simp only [push, List.map_cons, List.map_nil, List.sum_cons,
        List.sum_nil, Expression.size, Term.size]; omega
    | special n => simp [push, Expression.size, Term.size]
  | TERM_LIST ts p =>
    cases ts with
    | var n => simp [push, Expression.size, TermList.size]
    | term t => simp only [push, List.map_cons, List.map_nil, List.sum_cons,
        List.sum_nil, Expression.size, TermList.size]; omega
    | empty => simp [push, Expression.size, TermList.size]

theorem run_succ (d : Defaults) (fuel : Nat) (e : Expression) (st : List Expression) :
    run d (fuel + 1) ⟨e :: st⟩ = (run d fuel ⟨push d e st⟩).map (fun l => e :: l) := by
  rfl

theorem run_nil (d : Defaults) (fuel : Nat) : run d (fuel + 1) ⟨[]⟩ = some [] := by
  rfl

/-- The iterator empties its stack: the calls of `next` end, every expression
of the stack is returned, and with an expression every expression pushed for
it. -/
theorem run_total (d : Defaults) :
    ∀ (n : Nat) (st : List Expression), (st.map Expression.size).sum ≤ n →
      ∀ fuel, n + 1 ≤ fuel →
        ∃ l, run d fuel ⟨st⟩ = some l ∧ (∀ e ∈ st, e ∈ l) ∧
          ∀ e ∈ l, ∀ c ∈ push d e [], c ∈ l := by
  intro n
  induction n using Nat.strong_induction_on with
  | _ n ih =>
    intro st hn fuel hf
    obtain ⟨fuel, rfl⟩ : ∃ f, fuel = f + 1 := ⟨fuel - 1, by omega⟩
    cases st with
    | nil => exact ⟨[], run_nil d fuel, by simp, by simp⟩
    | cons e rest =>
      have hlt := push_size d e
      simp only [List.map_cons, List.sum_cons] at hn
      have hm : ((push d e rest).map Expression.size).sum < n := by
        rw [push_append, List.map_append, List.sum_append]
        omega
      obtain ⟨l, hl, h1, h2⟩ := ih _ hm (push d e rest) (le_refl _) fuel (by omega)
      refine ⟨e :: l, ?_, ?_, ?_⟩
      · rw [run_succ, hl]
        rfl
      · intro x hx
        rcases List.mem_cons.mp hx with rfl | hx
        · exact List.mem_cons_self _ _
        · apply List.mem_cons_of_mem
          apply h1
          rw [push_append]
          exact List.mem_append_right _ hx
      · intro x hx c hc
        apply List.mem_cons_of_mem
        rcases List.mem_cons.mp hx with rfl | hx
        · apply h1
          rw [push_append]
          exact List.mem_append_left _ hc
        · exact h2 x hx c hc

theorem mem_pushFormulas {p : Int} {args : FormulaList} {e : Expression} :
    e ∈ pushFormulas p args [] ↔ ∃ g ∈ args.toList, e = .FORMULA g p := by
  rw [pushFormulas_eq]
  simp only [List.append_nil, List.mem_reverse, List.mem_map]
  constructor
  · rintro ⟨g, hg, rfl⟩
    exact ⟨g, hg, rfl⟩
  · rintro ⟨g, hg, rfl⟩
    exact ⟨g, hg, rfl⟩

/-- The polarity of a formula pushed for a formula of polarity `q` is `q`,
`-q` or `0`. -/
theorem push_polarity {d : Defaults} {g h : Formula} {q r : Int}
    (hm : Expression.FORMULA h r ∈ push d (.FORMULA g q) []) :
    r = q ∨ r = negate q ∨ r = 0 := by
  cases g with
  | LITERAL pr po args => simp [push] at hm
  | AND args =>
    obtain ⟨_, _, e⟩ := mem_pushFormulas.mp hm
    simp only [Expression.FORMULA.injEq] at e
    exact Or.inl e.2
  | OR args =>
    obtain ⟨_, _, e⟩ := mem_pushFormulas.mp hm
    simp only [Expression.FORMULA.injEq] at e
    exact Or.inl e.2
  | IMP l r' =>
    simp only [push, List.mem_cons, Expression.FORMULA.injEq, List.mem_nil_iff, or_false] at hm
    rcases hm with ⟨_, e⟩ | ⟨_, e⟩
    · exact Or.inl e
    · exact Or.inr (Or.inl e)
  | IFF l r' =>
    simp only [push, List.mem_cons, Expression.FORMULA.injEq, List.mem_nil_iff, or_false] at hm
    rcases hm with ⟨_, e⟩ | ⟨_, e⟩ <;> exact Or.inr (Or.inr e)
  | XOR l r' =>
    simp only [push, List.mem_cons, Expression.FORMULA.injEq, List.mem_nil_iff, or_false] at hm
    rcases hm with ⟨_, e⟩ | ⟨_, e⟩ <;> exact Or.inr (Or.inr e)
  | NOT u =>
    simp only [push, List.mem_cons, Expression.FORMULA.injEq, List.mem_nil_iff, or_false] at hm
    exact Or.inr (Or.inl hm.2)
  | FORALL v b =>
    simp only [push, List.mem_cons, Expression.FORMULA.injEq, List.mem_nil_iff, or_false] at hm
    exact Or.inl hm.2
  | EXISTS v b =>
    simp only [push, List.mem_cons, Expression.FORMULA.injEq, List.mem_nil_iff, or_false] at hm
    exact Or.inl hm.2
  | BOOL_TERM ts => simp [push] at hm
  | other n => simp [push] at hm

/-- From a formula of polarity `0` only formulas of polarity `0` are reached
through formulas. -/
theorem Visits.zero {d : Defaults} {f g : Formula} {q : Int} (h : Visits d f 0 g q) : q = 0 := by
  induction h with
  | root => rfl
  | step _ hm ih =>
    subst ih
    rcases push_polarity hm with e | e | e
    · exact e
    · rw [e]; exact negate_zero
    · exact e

/-- A formula below `n` negations is reached with the polarity of the root
when `n` is even and with the opposite polarity when `n` is odd. -/
theorem under_visits (d : Defaults) {p : Int} (h1 : -2147483648 < p) (h2 : p < 2147483648)
    {f g : Formula} {n : Nat} (h : Under f n g) :
    Visits d f p g (if n % 2 = 0 then p else -p) := by
  induction h with
  | root => exact Visits.root
  | and _ hm ih => exact Visits.step ih (mem_pushFormulas.mpr ⟨_, hm, rfl⟩)
  | or _ hm ih => exact Visits.step ih (mem_pushFormulas.mpr ⟨_, hm, rfl⟩)
  | @impLeft n l r _ ih =>
    have e : negate (if n % 2 = 0 then p else -p) = if (n + 1) % 2 = 0 then p else -p := by
      split
      · rw [negate_eq h1 h2, if_neg (by omega)]
      · rw [negate_eq (by omega) (by omega), if_pos (by omega)]
        omega
    rw [← e]
    exact Visits.step ih (by simp [push])
  | impRight _ ih => exact Visits.step ih (by simp [push])
  | @not n u _ ih =>
    have e : negate (if n % 2 = 0 then p else -p) = if (n + 1) % 2 = 0 then p else -p := by
      split
      · rw [negate_eq h1 h2, if_neg (by omega)]
      · rw [negate_eq (by omega) (by omega), if_pos (by omega)]
        omega
    rw [← e]
    exact Visits.step ih (by simp [push])
  | all _ ih => exact Visits.step ih (by simp [push])
  | ex _ ih => exact Visits.step ih (by simp [push])

/-- What is reached through formulas is returned by the iterator. -/
theorem Visits.returned {d : Defaults} {f g : Formula} {p q : Int} (h : Visits d f p g q)
    {l : List Expression} (h1 : Expression.FORMULA f p ∈ l)
    (h2 : ∀ e ∈ l, ∀ c ∈ push d e [], c ∈ l) : Expression.FORMULA g q ∈ l := by
  induction h with
  | root => exact h1
  | step _ hm ih => exact h2 _ ih _ hm

/-- C32 (polarity calculus of the connectives): when `next` pops a formula of
polarity `p` (an `int` other than the least one), the stack afterwards holds, on
top of what it held: the argument of `NOT` with `-p`; the right side of `IMP`
with `p` and its left side with `-p`; both sides of `IFF` and of `XOR` with `0`;
every argument of `AND`/`OR` with `p`; the body of `FORALL`/`EXISTS` with `p`.
Hence a formula below an even number of negations on a path without `IFF` and
`XOR` is reached with the polarity `p` of the root (and below an odd number
with `-p`); from a formula of polarity `0` only polarity `0` is reached; and
every formula reached in this way is returned by a call of `next` before the
iterator is exhausted. -/
theorem polarity_calculus (d : Defaults) (p : Int) (hp1 : -2147483648 < p)
    (hp2 : p < 2147483648) :
    (∀ (st : List Expression) (u : Formula),
      next d ⟨.FORMULA (.NOT u) p :: st⟩
        = some (.FORMULA (.NOT u) p, ⟨.FORMULA u (-p) :: st⟩)) ∧
    (∀ (st : List Expression) (l r : Formula),
      next d ⟨.FORMULA (.IMP l r) p :: st⟩
        = some (.FORMULA (.IMP l r) p, ⟨.FORMULA r p :: .FORMULA l (-p) :: st⟩)) ∧
    (∀ (st : List Expression) (l r : Formula),
      next d ⟨.FORMULA (.IFF l r) p :: st⟩
        = some (.FORMULA (.IFF l r) p, ⟨.FORMULA r 0 :: .FORMULA l 0 :: st⟩)) ∧
    (∀ (st : List Expression) (l r : Formula),
      next d ⟨.FORMULA (.XOR l r) p :: st⟩
        = some (.FORMULA (.XOR l r) p, ⟨.FORMULA r 0 :: .FORMULA l 0 :: st⟩)) ∧
    (∀ (st : List Expression) (args : FormulaList),
      next d ⟨.FORMULA (.AND args) p :: st⟩
        = some (.FORMULA (.AND args) p,
            ⟨(args.toList.map (fun g => Expression.FORMULA g p)).reverse ++ st⟩)) ∧
    (∀ (st : List Expression) (args : FormulaList),
      next d ⟨.FORMULA (.OR args) p :: st⟩
        = some (.FORMULA (.OR args) p,
            ⟨(args.toList.map (fun g => Expression.FORMULA g p)).reverse ++ st⟩)) ∧
    (∀ (st : List Expression) (vars : List Nat) (q : Formula),
      next d ⟨.FORMULA (.FORALL vars q) p :: st⟩
        = some (.FORMULA (.FORALL vars q) p, ⟨.FORMULA q p :: st⟩)) ∧
    (∀ (st : List Expression) (vars : List Nat) (q : Formula),
      next d ⟨.FORMULA (.EXISTS vars q) p :: st⟩
        = some (.FORMULA (.EXISTS vars q) p, ⟨.FORMULA q p :: st⟩)) ∧
    (∀ (f g : Formula) (n : Nat), Under f n g →
      Visits d f p g (if n % 2 = 0 then p else -p)) ∧
    (∀ (f g : Formula) (q : Int), Visits d f 0 g q → q = 0) ∧
    (∀ (f g : Formula) (q : Int), Visits d f p g q →
      ∀ fuel, f.size + 1 ≤ fuel →
        ∃ l, run d fuel ⟨[.FORMULA f p]⟩ = some l ∧ Expression.FORMULA g q ∈ l) := by
  have hneg := negate_eq hp1 hp2
  refine ⟨?_, ?_, ?_, ?_, ?_, ?_, ?_, ?_, ?_, ?_, ?_⟩
  · intro st u
    simp only [next, push, hneg]
  · intro st l r
    simp only [next, push, hneg]
  · intro st l r
    simp only [next, push]
  · intro st l r
    simp only [next, push]
  · intro st args
    simp only [next, push, pushFormulas_eq]
  · intro st args
    simp only [next, push, pushFormulas_eq]
  · intro st vars q
    simp only [next, push]
  · intro st vars q
    simp only [next, push]
  · intro f g n h
    exact under_visits d hp1 hp2 h
  · intro f g q h
    exact h.zero
  · intro f g q h fuel hf
    obtain ⟨l, hl, h1, h2⟩ := run_total d f.size [.FORMULA f p]
      (by simp [Expression.size]) fuel hf
    exact ⟨l, hl, h.returned (h1 _ (List.mem_singleton_self _)) h2⟩

theorem polarity_calculus_witness :
    (∀ (st : List Expression) (u : Formula),
      next ⟨1, 1, 1⟩ ⟨.FORMULA (.NOT u) 1 :: st⟩
        = some (.FORMULA (.NOT u) 1, ⟨.FORMULA u (-1) :: st⟩)) ∧
    (∀ (st : List Expression) (l r : Formula),
      next ⟨1, 1, 1⟩ ⟨.FORMULA (.IMP l r) 1 :: st⟩
        = some (.FORMULA (.IMP l r) 1, ⟨.FORMULA r 1 :: .FORMULA l (-1) :: st⟩)) :=
  ⟨(polarity_calculus ⟨1, 1, 1⟩ 1 (by decide) (by decide)).1,
    (polarity_calculus ⟨1, 1, 1⟩ 1 (by decide) (by decide)).2.1⟩

end SubexpressionIterator

open SubexpressionIterator

/-- C31 fails on the code: a formula `BOOL_TERM` of polarity `p` pushes its
boolean term as a term list of polarity `p`; the case `TERM_LIST` of `next`
pushes the term with `new Expression(ts.term())`, without the polarity, so the
term has the polarity that this constructor gives by default; the case
`SF_FORMULA` passes that polarity on to the wrapped formula.  On the formula
`NOT(BOOL_TERM(t))`, where `t` wraps a literal `G`, the subformula iterator
yields the `BOOL_TERM` formula with the polarity `-` of the root and `G` with
the default polarity of a term, whatever the polarity of the root. -/
theorem boolTerm_polarity_lost (d : Defaults) (p : Int) (g : Formula) (st : List Expression) :
    SubexpressionIterator.next d ⟨.FORMULA (.BOOL_TERM (.term (.SF_FORMULA g))) p :: st⟩
      = some (.FORMULA (.BOOL_TERM (.term (.SF_FORMULA g))) p,
          ⟨.TERM_LIST (.term (.SF_FORMULA g)) p :: st⟩) ∧
    SubexpressionIterator.next d ⟨.TERM_LIST (.term (.SF_FORMULA g)) p :: st⟩
      = some (.TERM_LIST (.term (.SF_FORMULA g)) p, ⟨.TERM (.SF_FORMULA g) d.term :: st⟩) ∧
    SubexpressionIterator.next d ⟨.TERM (.SF_FORMULA g) d.term :: st⟩
      = some (.TERM (.SF_FORMULA g) d.term, ⟨.FORMULA g d.term :: st⟩) ∧
    SubformulaIterator.yields d 8 8
        (SubformulaIterator.new d
          (.NOT (.BOOL_TERM (.term (.SF_FORMULA (.LITERAL 0 true .nil))))))
      = some [(.NOT (.BOOL_TERM (.term (.SF_FORMULA (.LITERAL 0 true .nil)))), d.formula),
          (.BOOL_TERM (.term (.SF_FORMULA (.LITERAL 0 true .nil))), negate d.formula),
          (.LITERAL 0 true .nil, d.term)] ∧
    SubformulaIterator.yields ⟨1, 1, 1⟩ 8 8
        (SubformulaIterator.new ⟨1, 1, 1⟩
          (.NOT (.BOOL_TERM (.term (.SF_FORMULA (.LITERAL 0 true .nil))))))
      = some [(.NOT (.BOOL_TERM (.term (.SF_FORMULA (.LITERAL 0 true .nil)))), 1),
          (.BOOL_TERM (.term (.SF_FORMULA (.LITERAL 0 true .nil))), -1),
          (.LITERAL 0 true .nil, 1)] :=
  ⟨rfl, rfl, rfl, rfl, rfl⟩

end Shell

namespace Shell

open Kernel

namespace SubexpressionIterator

theorem toList_plain : ∀ args : FormulaList, args.plain = true → ∀ g ∈ args.toList, g.plain = true
  | .nil, _, g, hg => by simp [FormulaList.toList] at hg
  | .cons h t, hp, g, hg => by
    simp only [FormulaList.plain, Bool.and_eq_true] at hp
    simp only [FormulaList.toList, List.mem_cons] at hg
    rcases hg with rfl | hg
    · exact hp.1
    · exact toList_plain t hp.2 g hg

theorem toList_subformulas :
    ∀ args : FormulaList, args.subformulas = args.toList.flatMap Formula.subformulas
  | .nil => by simp [FormulaList.subformulas, FormulaList.toList]
  | .cons h t => by
    simp only [FormulaList.subformulas, FormulaList.toList, List.flatMap_cons]
    rw [toList_subformulas t]

theorem pushTerms_plain (d : Defaults) :
    ∀ (args : TermArgs) (st : List Expression), args.plain = true →
      (∀ e ∈ st, e.plain = true ∧ e.subformulas = []) →
      ∀ e ∈ pushTerms d args st, e.plain = true ∧ e.subformulas = []
  | .nil, st, _, hst, e, he => by
    simp only [pushTerms] at he
    exact hst e he
  | .cons h t, st, hp, hst, e, he => by
    simp only [TermArgs.plain, Bool.and_eq_true] at hp
    rw [pushTerms] at he
    refine pushTerms_plain d t _ hp.2 ?_ e he
    intro x hx
    rcases List.mem_cons.mp hx with rfl | hx
    · exact ⟨hp.1, rfl⟩
    · exact hst x hx

theorem firstArg_plain {args : TermArgs} (h : args.plain = true) :
    (firstArg args).plain = true := by
  cases args with
  | nil => rfl
  | cons a t =>
    simp only [TermArgs.plain, Bool.and_eq_true] at h
    exact h.1

/-- The expressions pushed for an expression without special terms have no
special terms. -/
theorem push_plain (d : Defaults) {e : Expression} (he : e.plain = true) :
    ∀ c ∈ push d e [], c.plain = true := by
  intro c hc
  cases e with
  | FORMULA f p =>
    cases f with
    | LITERAL pr po args =>
      simp only [push, List.mem_singleton] at hc
      subst hc
      exact firstArg_plain he
    | AND args =>
      obtain ⟨g, hg, rfl⟩ := mem_pushFormulas.mp hc
      exact toList_plain args he g hg
    | OR args =>
      obtain ⟨g, hg, rfl⟩ := mem_pushFormulas.mp hc
      exact toList_plain args he g hg
    | IMP l r =>
      simp only [Expression.plain, Formula.plain, Bool.and_eq_true] at he
      simp only [push, List.mem_cons, List.mem_nil_iff, or_false] at hc
      rcases hc with rfl | rfl
      · exact he.2
      · exact he.1
    | IFF l r =>
      simp only [Expression.plain, Formula.plain, Bool.and_eq_true] at he
      simp only [push, List.mem_cons, List.mem_nil_iff, or_false] at hc
      rcases hc with rfl | rfl
      · exact he.2
      · exact he.1
    | XOR l r =>
      simp only [Expression.plain, Formula.plain, Bool.and_eq_true] at he
      simp only [push, List.mem_cons, List.mem_nil_iff, or_false] at hc
      rcases hc with rfl | rfl
      · exact he.2
      · exact he.1
    | NOT u =>
      simp only [push, List.mem_singleton] at hc
      subst hc
      exact he
    | FORALL v q =>
      simp only [push, List.mem_singleton] at hc
      subst hc
      exact he
    | EXISTS v q =>
      simp only [push, List.mem_singleton] at hc
      subst hc
      exact he
    | BOOL_TERM ts => simp [Expression.plain, Formula.plain] at he
    | other n => simp [Expression.plain, Formula.plain] at he
  | TERM t p =>
    cases t with
    | app f args =>
      exact (pushTerms_plain d args [] he (by simp) c hc).1
    | SF_FORMULA f => simp [Expression.plain, Term.plain] at he
    | SF_ITE c' a b => simp [Expression.plain, Term.plain] at he
    | SF_LET b a => simp [Expression.plain, Term.plain] at he
    | SF_LET_TUPLE b a => simp [Expression.plain, Term.plain] at he
    | SF_TUPLE t => simp [Expression.plain, Term.plain] at he
    | special n => simp [Expression.plain, Term.plain] at he
  | TERM_LIST ts p =>
    cases ts with
    | var n => simp [push] at hc
    | term t =>
      simp only [push, List.mem_singleton] at hc
      subst hc
      exact he
    | empty => simp [push] at hc

theorem flatMap_nil_of {l : List Expression} (h : ∀ e ∈ l, e.subformulas = []) :
    l.flatMap Expression.subformulas = [] := by
  induction l with
  | nil => rfl
  | cons a t ih =>
    rw [List.flatMap_cons, h a (List.mem_cons_self _ _),
      ih (fun e he => h e (List.mem_cons_of_mem _ he))]
    rfl

/-- A term or a term list without special terms pushes no formula, at any
depth. -/
theorem push_term (d : Defaults) {e : Expression} (he : e.plain = true)
    (hf : ∀ f p, e ≠ .FORMULA f p) :
    (push d e []).flatMap Expression.subformulas = [] := by
  cases e with
  | FORMULA f p => exact (hf f p rfl).elim
  | TERM t p =>
    cases t with
    | app f args =>
      exact flatMap_nil_of (fun c hc => (pushTerms_plain d args [] he (by simp) c hc).2)
    | SF_FORMULA f => simp [Expression.plain, Term.plain] at he
    | SF_ITE c' a b => simp [Expression.plain, Term.plain] at he
    | SF_LET b a => simp [Expression.plain, Term.plain] at he
    | SF_LET_TUPLE b a => simp [Expression.plain, Term.plain] at he
    | SF_TUPLE t => simp [Expression.plain, Term.plain] at he
    | special n => simp [Expression.plain, Term.plain] at he
  | TERM_LIST ts p =>
    cases ts <;> simp [push, Expression.subformulas]

/-- The subformula occurrences of a formula are the formula and the
occurrences in the expressions pushed for it. -/
theorem push_formula (d : Defaults) {f : Formula} (p : Int) (hf : f.plain = true) :
    f.subformulas.Perm
      (f :: (push d (.FORMULA f p) []).flatMap Expression.subformulas) := by
  have key : ∀ args : FormulaList,
      ((pushFormulas p args []).flatMap Expression.subformulas).Perm args.subformulas := by
    intro args
    rw [pushFormulas_eq, List.append_nil, toList_subformulas]
    have e : ((args.toList.map (fun g => Expression.FORMULA g p)).reverse).flatMap
        Expression.subformulas = args.toList.reverse.flatMap Formula.subformulas := by
      rw [← List.map_reverse, List.flatMap_map]
      rfl
    rw [e]
    exact List.Perm.flatMap_right _ (List.reverse_perm _)
  cases f with
  | LITERAL pr po args =>
    simp [push, Formula.subformulas, Expression.subformulas]
  | AND args =>
    simp only [push, Formula.subformulas]
    exact List.Perm.cons _ (key args).symm
  | OR args =>
    simp only [push, Formula.subformulas]
    exact List.Perm.cons _ (key args).symm
  | IMP l r =>
    simp only [push, Formula.subformulas, List.flatMap_cons, List.flatMap_nil,
      Expression.subformulas, List.append_nil]
    exact List.Perm.cons _ List.perm_append_comm
  | IFF l r =>
    simp only [push, Formula.subformulas, List.flatMap_cons, List.flatMap_nil,
      Expression.subformulas, List.append_nil]
    exact List.Perm.cons _ List.perm_append_comm
  | XOR l r =>
    simp only [push, Formula.subformulas, List.flatMap_cons, List.flatMap_nil,
      Expression.subformulas, List.append_nil]
    exact List.Perm.cons _ List.perm_append_comm
  | NOT u =>
    simp [push, Formula.subformulas, Expression.subformulas]
  | FORALL v q =>
    simp [push, Formula.subformulas, Expression.subformulas]
  | EXISTS v q =>
    simp [push, Formula.subformulas, Expression.subformulas]
  | BOOL_TERM ts => simp [Formula.plain] at hf
  | other n => simp [Formula.plain] at hf

end SubexpressionIterator

end Shell

namespace Shell

open Kernel

namespace SubformulaIterator

open SubexpressionIterator

theorem hasNext_nil (d : Defaults) (fuel : Nat) (nx : Option Formula) (pl : Option Int) :
    hasNext d (fuel + 1) ⟨⟨[]⟩, nx, pl⟩ = some (false, ⟨⟨[]⟩, nx, pl⟩) := by
  rfl

theorem hasNext_formula (d : Defaults) (fuel : Nat) (f : Formula) (p : Int)
    (st : List Expression) (nx : Option Formula) (pl : Option Int) :
    hasNext d (fuel + 1) ⟨⟨.FORMULA f p :: st⟩, nx, pl⟩
      = some (true, ⟨⟨push d (.FORMULA f p) st⟩, some f, some p⟩) := by
  rfl

theorem hasNext_other (d : Defaults) (fuel : Nat) {e : Expression}
    (he : ∀ f p, e ≠ .FORMULA f p) (st : List Expression) (nx : Option Formula)
    (pl : Option Int) :
    hasNext d (fuel + 1) ⟨⟨e :: st⟩, nx, pl⟩ = hasNext d fuel ⟨⟨push d e st⟩, nx, pl⟩ := by
  cases e with
  | FORMULA f p => exact (he f p rfl).elim
  | TERM t p => rfl
  | TERM_LIST ts p => rfl

/-- A call of `hasNext` on a stack without special terms returns: with false
when the stack holds no formula at any depth, and otherwise with true, the next
formula, and a smaller stack that holds the other subformula occurrences. -/
theorem hasNext_total (d : Defaults) :
    ∀ (n : Nat) (st : List Expression), (st.map Expression.size).sum ≤ n →
      (∀ e ∈ st, e.plain = true) → ∀ fuel, n + 1 ≤ fuel →
      ∀ (nx : Option Formula) (pl : Option Int),
        (hasNext d fuel ⟨⟨st⟩, nx, pl⟩ = some (false, ⟨⟨[]⟩, nx, pl⟩) ∧
          st.flatMap Expression.subformulas = []) ∨
        ∃ f p st', hasNext d fuel ⟨⟨st⟩, nx, pl⟩ = some (true, ⟨⟨st'⟩, some f, some p⟩) ∧
          (st'.map Expression.size).sum < (st.map Expression.size).sum ∧
          (∀ e ∈ st', e.plain = true) ∧
          (st.flatMap Expression.subformulas).Perm
            (f :: st'.flatMap Expression.subformulas) := by
  intro n
  induction n using Nat.strong_induction_on with
  | _ n ih =>
    intro st hn hpl fuel hf nx pl
    obtain ⟨fuel, rfl⟩ : ∃ f, fuel = f + 1 := ⟨fuel - 1, by omega⟩
    cases st with
    | nil => exact Or.inl ⟨hasNext_nil d fuel nx pl, rfl⟩
    | cons e rest =>
      have hlt := push_size d e
      have hep : e.plain = true := hpl e (List.mem_cons_self _ _)
      have hsz : ((push d e rest).map Expression.size).sum
          < ((e :: rest).map Expression.size).sum := by
        rw [push_append, List.map_append, List.sum_append, List.map_cons, List.sum_cons]
        omega
      have hpp : ∀ c ∈ push d e rest, c.plain = true := by
        intro c hc
        rw [push_append] at hc
        rcases List.mem_append.mp hc with hc | hc
        · exact push_plain d hep c hc
        · exact hpl c (List.mem_cons_of_mem _ hc)
      by_cases hform : ∃ f p, e = .FORMULA f p
      · obtain ⟨f, p, rfl⟩ := hform
        refine Or.inr ⟨f, p, push d (.FORMULA f p) rest, hasNext_formula d fuel f p rest nx pl,
          hsz, hpp, ?_⟩
        rw [push_append d _ rest, List.flatMap_append, List.flatMap_cons]
        have := push_formula d p hep
        exact (List.Perm.append_right _ this)
      · have hne : ∀ f p, e ≠ .FORMULA f p := fun f p h => hform ⟨f, p, h⟩
        have hsub : (e :: rest).flatMap Expression.subformulas
            = (push d e rest).flatMap Expression.subformulas := by
          rw [push_append d e rest, List.flatMap_append, push_term d hep hne,
            List.flatMap_cons]
          cases e with
          | FORMULA f p => exact (hne f p rfl).elim
          | TERM t p => rfl
          | TERM_LIST ts p => rfl
        rw [hasNext_other d fuel hne, hsub]
        simp only [List.map_cons, List.sum_cons] at hn hsz
        rcases ih _ (by omega : ((push d e rest).map Expression.size).sum < n)
            (push d e rest) (le_refl _) hpp fuel (by omega) nx pl with h | h
        · exact Or.inl h
        · obtain ⟨f, p, st', h1, h2, h3, h4⟩ := h
          refine Or.inr ⟨f, p, st', h1, ?_, h3, h4⟩
          simp only [List.map_cons, List.sum_cons]
          omega

theorem yields_succ (d : Defaults) (fuel k : Nat) (it : SubformulaIterator) :
    yields d fuel (k + 1) it =
      match hasNext d fuel it with
      | none => none
      | some (false, _) => some []
      | some (true, it) =>
        match it.next, it.polarity, yields d fuel k it with
        | some f, some p, some l => some ((f, p) :: l)
        | _, _, _ => none := by
  rfl

/-- Repeated calls of `hasNext` on a stack without special terms yield the
subformula occurrences that the stack holds, each once, and then false. -/
theorem yields_total (d : Defaults) :
    ∀ (n : Nat) (st : List Expression), (st.map Expression.size).sum ≤ n →
      (∀ e ∈ st, e.plain = true) → ∀ fuel k, n + 1 ≤ fuel → n + 1 ≤ k →
      ∀ (nx : Option Formula) (pl : Option Int),
        ∃ l, yields d fuel k ⟨⟨st⟩, nx, pl⟩ = some l ∧
          (l.map Prod.fst).Perm (st.flatMap Expression.subformulas) := by
  intro n
  induction n using Nat.strong_induction_on with
  | _ n ih =>
    intro st hn hpl fuel k hf hk nx pl
    obtain ⟨k, rfl⟩ : ∃ j, k = j + 1 := ⟨k - 1, by omega⟩
    rw [yields_succ]
    rcases hasNext_total d n st hn hpl fuel hf nx pl with ⟨h, hs⟩ | ⟨f, p, st', h, h2, h3, h4⟩
    · rw [h, hs]
      exact ⟨[], rfl, List.Perm.refl _⟩
    · rw [h]
      obtain ⟨l, hl, hperm⟩ := ih ((st'.map Expression.size).sum) (by omega) st' (le_refl _) h3
        fuel k (by omega) (by omega) (some f) (some p)
      refine ⟨(f, p) :: l, ?_, ?_⟩
      · simp only [hl]
      · simp only [List.map_cons]
        exact (List.Perm.cons f hperm).trans h4.symm

/-- C33 (the subformula iterator is exhaustive and terminates): for a formula
`f` built from literals without special terms with the connectives `AND`, `OR`,
`IMP`, `IFF`, `XOR`, `NOT`, `FORALL` and `EXISTS`, repeated calls of
`SubformulaIterator::hasNext` on an iterator built from `f` return true with a
formula in `_next` a finite number of times and then return false, each call
ending after finitely many steps; the formulas yielded are the subformula
occurrences of `f`, `f` included, each occurrence once. -/
theorem subformulas_exhaustive (d : Defaults) (f : Formula) (hf : f.plain = true) :
    ∀ fuel k, f.size + 1 ≤ fuel → f.size + 1 ≤ k →
      ∃ l, yields d fuel k (SubformulaIterator.new d f) = some l ∧
        (l.map Prod.fst).Perm f.subformulas := by
  intro fuel k h1 h2
  obtain ⟨l, hl, hp⟩ := yields_total d f.size [.FORMULA f d.formula]
    (by simp [Expression.size]) (by
      intro e he
      rw [List.mem_singleton] at he
      subst he
      exact hf) fuel k h1 h2 none none
  refine ⟨l, hl, ?_⟩
  simpa [Expression.subformulas] using hp

theorem subformulas_exhaustive_witness :
    ∃ l, yields ⟨1, 1, 1⟩ 8 8 (SubformulaIterator.new ⟨1, 1, 1⟩
        (.IMP (.LITERAL 0 true .nil) (.NOT (.LITERAL 1 true (.cons (.var 0) .nil)))))
      = some l ∧
      (l.map Prod.fst).Perm
        (Formula.IMP (.LITERAL 0 true .nil)
          (.NOT (.LITERAL 1 true (.cons (.var 0) .nil)))).subformulas :=
  subformulas_exhaustive ⟨1, 1, 1⟩
    (.IMP (.LITERAL 0 true .nil) (.NOT (.LITERAL 1 true (.cons (.var 0) .nil)))) rfl
    8 8 (by decide) (by decide)

end SubformulaIterator

end Shell

/-! ## The assertion of the split branch -/

namespace Kernel

namespace BDD

/-- In a well-formed state, a pair of nodes of the engine of which one is an
internal node can be split. -/
theorem splitOK_of {s : BDD} (hs : s.WF) {a b : Nat} (ha : s.Valid a) (hb : s.Valid b)
    (h3 : 3 ≤ a ∨ 3 ≤ b) : splitOK s a b = true := by
  have hv0 : 0 ≤ max (s.deref a).var (s.deref b).var := by
    rcases h3 with h3 | h3
    · exact le_trans (hs.node a h3 ha.2).1 (le_max_left _ _)
    · exact le_trans (hs.node b h3 hb.2).1 (le_max_right _ _)
  have side : ∀ x, s.Valid x → (s.deref x).var = max (s.deref a).var (s.deref b).var →
      3 ≤ x ∧ x < s.nodes.length + 3 ∧ 0 < (s.deref x).pos ∧
        (s.deref x).pos < s.nodes.length + 3 ∧ 0 < (s.deref x).neg ∧
        (s.deref x).neg < s.nodes.length + 3 := by
    intro x hx e
    have hx3 : 3 ≤ x := by
      by_contra h
      rw [deref_leaf s (by omega : x < 3)] at e
      simp only at e
      omega
    have hp := hs.valid_pos hx3 hx
    have hn := hs.valid_neg hx3 hx
    exact ⟨hx3, hx.2, hp.1, hp.2, hn.1, hn.2⟩
  unfold splitOK
  simp only [Bool.and_eq_true, Bool.or_eq_true, decide_eq_true_eq]
  refine ⟨⟨hv0, ?_⟩, ?_⟩
  · by_cases e : (s.deref a).var = max (s.deref a).var (s.deref b).var
    · obtain ⟨g1, g2, g3, g4, g5, g6⟩ := side a ha e
      exact Or.inr ⟨⟨⟨⟨⟨g1, g2⟩, g3⟩, g4⟩, g5⟩, g6⟩
    · exact Or.inl e
  · by_cases e : (s.deref b).var = max (s.deref a).var (s.deref b).var
    · obtain ⟨g1, g2, g3, g4, g5, g6⟩ := side b hb e
      exact Or.inr ⟨⟨⟨⟨⟨g1, g2⟩, g3⟩, g4⟩, g5⟩, g6⟩
    · exact Or.inl e

theorem afterFoundAss_zero (fn : Nat → Nat → Nat) (fuel counter res n1 n2 : Nat)
    (toDo results : List Nat) (vars : List Int) (cache : Cache) (s : BDD) :
    afterFoundAss fn fuel counter res (n1 :: n2 :: toDo) (0 :: results) vars cache s
      = loopAss fn fuel ⟨n1, n2, toDo, res :: 0 :: results, vars, cache, counter, s⟩ := by
  simp [afterFoundAss, collapse_zero]

theorem afterFoundAss_nil (fn : Nat → Nat → Nat) (fuel counter res : Nat)
    (vars : List Int) (cache : Cache) (s : BDD) :
    afterFoundAss fn fuel counter res [] [] vars cache s = some (res, s) := by
  simp [afterFoundAss, collapse_nil]

theorem afterFoundAss_frame (fn : Nat → Nat → Nat) (fuel counter res : Nat) {pos : Nat}
    (hpos : pos ≠ 0) (z arg1 arg2 : Nat) (toDo results : List Nat) (var : Int)
    (vars : List Int) (cache : Cache) (s : BDD) :
    afterFoundAss fn fuel counter res toDo (pos :: z :: arg1 :: arg2 :: results) (var :: vars)
        cache s
      = afterFoundAss fn fuel counter
          (if pos = res then (pos, s) else s.getNode var pos res).1
          toDo results vars
          (if counter % 4 = 0 then
            cacheInsert cache (arg1, arg2) (if pos = res then (pos, s) else s.getNode var pos res).1
           else cache)
          (if pos = res then (pos, s) else s.getNode var pos res).2 := by
  unfold afterFoundAss
  rw [collapse_frame counter res hpos]

theorem loopAss_found (fn : Nat → Nat → Nat) (fuel : Nat) (st : Loop) {r : Nat}
    (h : (if fn st.n1 st.n2 ≠ 0 then some (fn st.n1 st.n2)
          else st.cache.lookup (st.n1, st.n2)) = some r) :
    loopAss fn (fuel + 1) st
      = afterFoundAss fn fuel (if st.counter + 1 = 50000 then 0 else st.counter + 1) r
          st.toDo st.results st.vars st.cache st.bdd := by
  rw [loopAss]
  simp only [h]
  rfl

theorem loopAss_split (fn : Nat → Nat → Nat) (fuel : Nat) (st : Loop)
    (h : (if fn st.n1 st.n2 ≠ 0 then some (fn st.n1 st.n2)
          else st.cache.lookup (st.n1, st.n2)) = none)
    (hok : splitOK st.bdd st.n1 st.n2 = true) :
    loopAss fn (fuel + 1) st
      = loopAss fn fuel
        ⟨if (st.bdd.deref st.n1).var = max (st.bdd.deref st.n1).var (st.bdd.deref st.n2).var
            then (st.bdd.deref st.n1).pos else st.n1,
         if (st.bdd.deref st.n2).var = max (st.bdd.deref st.n1).var (st.bdd.deref st.n2).var
            then (st.bdd.deref st.n2).pos else st.n2,
         (if (st.bdd.deref st.n1).var = max (st.bdd.deref st.n1).var (st.bdd.deref st.n2).var
            then (st.bdd.deref st.n1).neg else st.n1) ::
         (if (st.bdd.deref st.n2).var = max (st.bdd.deref st.n1).var (st.bdd.deref st.n2).var
            then (st.bdd.deref st.n2).neg else st.n2) :: st.toDo,
         0 :: st.n1 :: st.n2 :: st.results,
         max (st.bdd.deref st.n1).var (st.bdd.deref st.n2).var :: st.vars,
         st.cache, if st.counter + 1 = 50000 then 0 else st.counter + 1, st.bdd⟩ := by
  rw [loopAss]
  simp only [h, hok, if_true]

/-- A result of the loop with the assertion checked is the result of the
loop. -/
theorem loopAss_le (fn : Nat → Nat → Nat) :
    ∀ fuel st x, loopAss fn fuel st = some x → loop fn fuel st = some x := by
  intro fuel
  induction fuel with
  | zero => intro st x h; simp [loopAss] at h
  | succ fuel ih =>
    intro st x h
    cases hfound : (if fn st.n1 st.n2 ≠ 0 then some (fn st.n1 st.n2)
        else st.cache.lookup (st.n1, st.n2)) with
    | some r =>
      rw [loopAss_found fn _ st hfound] at h
      rw [loop_found fn _ st hfound]
      unfold afterFoundAss at h
      unfold afterFound
      cases hc : collapse (if st.counter + 1 = 50000 then 0 else st.counter + 1) r st.results
          st.vars st.cache st.bdd with
      | none => rw [hc] at h; simp at h
      | some y =>
        obtain ⟨res, results, vars, cache, s⟩ := y
        rw [hc] at h
        simp only at h ⊢
        cases htd : st.toDo with
        | nil => rw [htd] at h; exact h
        | cons n1 rest =>
          cases rest with
          | nil => rw [htd] at h; simp at h
          | cons n2 toDo =>
            rw [htd] at h
            simp only at h ⊢
            exact ih _ _ h
    | none =>
      by_cases hok : splitOK st.bdd st.n1 st.n2 = true
      · rw [loopAss_split fn _ st hfound hok] at h
        rw [loop_split fn _ st hfound]
        exact ih _ _ h
      · rw [loopAss] at h
        simp only [hfound, hok, Bool.false_eq_true, if_false] at h
        simp at h

/-- The loop with the assertion checked, started on the pair `(a, b)` with any
stacks, reaches after `k` iterations the point where the result `r` of the pair
is known: no split on the way fails the check. -/
theorem loopAss_eval {fn : Nat → Nat → Nat} {op : Bool → Bool → Bool} (hfn : FnSpec fn op) :
    ∀ m a b, a + b ≤ m → ∀ (s : BDD) (toDo results : List Nat) (vars : List Int)
      (cache : Cache) (counter : Nat),
      s.WF → s.Valid a → s.Valid b → CacheOK op s cache →
      ∃ k r t cache' counter', 1 ≤ k ∧ k < 2 ^ (m + 1) ∧ t.WF ∧ Ext s t ∧ t.Valid r ∧
        CacheOK op t cache' ∧
        (t.deref r).var ≤ max (s.deref a).var (s.deref b).var ∧
        (∀ asg, t.eval asg r = op (s.eval asg a) (s.eval asg b)) ∧
        ∀ fuel, loopAss fn (fuel + k) ⟨a, b, toDo, results, vars, cache, counter, s⟩
          = afterFoundAss fn fuel counter' r toDo results vars cache' t := by
  intro m
  induction m with
  | zero =>
    intro a b hab s _ _ _ _ _ _ ha
    have := ha.1
    omega
  | succ m ih =>
    intro a b hab s toDo results vars cache counter hs ha hb hc
    obtain ⟨hnull, hans⟩ := hfn a b ha.1 hb.1
    have hpow : 1 < 2 ^ (m + 1 + 1) := Nat.one_lt_two_pow (by omega)
    cases hfound : (if fn a b ≠ 0 then some (fn a b) else cache.lookup (a, b)) with
    | some r =>
      have hr : s.Valid r ∧ (s.deref r).var ≤ max (s.deref a).var (s.deref b).var ∧
          ∀ asg, s.eval asg r = op (s.eval asg a) (s.eval asg b) := by
        by_cases h0 : fn a b = 0
        · simp only [h0, ne_eq, not_true_eq_false, if_false] at hfound
          obtain ⟨_, _, h1, h2, h3⟩ := hc a b r hfound
          exact ⟨h1, h2, h3⟩
        · simp only [ne_eq, h0, not_false_eq_true, if_true, Option.some.injEq] at hfound
          subst hfound
          exact hans h0 s hs ha hb
      exact ⟨1, r, s, cache, _, le_refl _, hpow, hs, Ext.refl s, hr.1, hc, hr.2.1, hr.2.2,
        fun fuel => loopAss_found fn fuel ⟨a, b, toDo, results, vars, cache, counter, s⟩ hfound⟩
    | none =>
      have h0 : fn a b = 0 := by
        by_contra h0
        simp [h0] at hfound
      have h3 := hnull h0
      have hstep := fun fuel =>
        loopAss_split fn fuel ⟨a, b, toDo, results, vars, cache, counter, s⟩ hfound
          (splitOK_of hs ha hb h3)
      simp only at hstep
      have hv0 : 0 ≤ max (s.deref a).var (s.deref b).var := by
        rcases h3 with h3 | h3
        · exact le_trans (hs.node a h3 ha.2).1 (le_max_left _ _)
        · exact le_trans (hs.node b h3 hb.2).1 (le_max_right _ _)
      have hmax : (s.deref a).var = max (s.deref a).var (s.deref b).var ∨
          (s.deref b).var = max (s.deref a).var (s.deref b).var := by
        rcases max_choice (s.deref a).var (s.deref b).var with e | e
        · exact Or.inl e.symm
        · exact Or.inr e.symm
      obtain ⟨hap, han, hap', han', hadec, hapv, hanv, haev⟩ :=
        split_side hs ha hv0 (le_max_left (s.deref a).var (s.deref b).var)
      obtain ⟨hbp, hbn, hbp', hbn', hbdec, hbpv, hbnv, hbev⟩ :=
        split_side hs hb hv0 (le_max_right (s.deref a).var (s.deref b).var)
      generalize hv : max (s.deref a).var (s.deref b).var = v at *
      generalize (if (s.deref a).var = v then (s.deref a).pos else a) = ap at *
      generalize (if (s.deref a).var = v then (s.deref a).neg else a) = an at *
      generalize (if (s.deref b).var = v then (s.deref b).pos else b) = bp at *
      generalize (if (s.deref b).var = v then (s.deref b).neg else b) = bn at *
      generalize (if counter + 1 = 50000 then 0 else counter + 1) = c0 at *
      have hvnew : v < s.newVar := by
        rcases hmax with e | e
        · exact (hadec e).2.2
        · exact (hbdec e).2.2
      have hdp : ap + bp < a + b := by
        rcases hmax with e | e
        · have := (hadec e).1; omega
        · have := (hbdec e).1; omega
      have hdn : an + bn < a + b := by
        rcases hmax with e | e
        · have := (hadec e).2.1; omega
        · have := (hbdec e).2.1; omega
      obtain ⟨k1, r1, t1, cache1, c1, hk1, hk1', ht1, he1, hr1, hc1, hvar1, hev1, hrun1⟩ :=
        ih ap bp (by omega) s (an :: bn :: toDo) (0 :: a :: b :: results) (v :: vars) cache c0
          hs hap hbp hc
      obtain ⟨k2, r2, t2, cache2, c2, hk2, hk2', ht2, he2, hr2, hc2, hvar2, hev2, hrun2⟩ :=
        ih an bn (by omega) t1 toDo (r1 :: 0 :: a :: b :: results) (v :: vars) cache1 c1
          ht1 (he1.valid han) (he1.valid hbn) hc1
      rw [he1.deref han.2, he1.deref hbn.2] at hvar2
      have hr1ne : r1 ≠ 0 := by have := hr1.1; omega
      have hr1v : (t2.deref r1).var < v := by
        rw [he2.deref hr1.2]
        exact lt_of_le_of_lt hvar1 (max_lt hapv hbpv)
      have hr2v : (t2.deref r2).var < v := lt_of_le_of_lt hvar2 (max_lt hanv hbnv)
      have hev1' : ∀ asg, t2.eval asg r1 = op (s.eval asg ap) (s.eval asg bp) := by
        intro asg
        rw [he2.eval ht1 asg hr1]
        exact hev1 asg
      have hev2' : ∀ asg, t2.eval asg r2 = op (s.eval asg an) (s.eval asg bn) := by
        intro asg
        rw [hev2 asg, he1.eval hs asg han, he1.eval hs asg hbn]
      have hk : k2 + k1 + 1 < 2 ^ (m + 1 + 1) := by
        have : 2 ^ (m + 1 + 1) = 2 ^ (m + 1) + 2 ^ (m + 1) := by ring
        omega
      have hrun : ∀ fuel, loopAss fn (fuel + (k2 + k1 + 1))
            ⟨a, b, toDo, results, vars, cache, counter, s⟩
          = afterFoundAss fn fuel c2 (if r1 = r2 then (r1, t2) else t2.getNode v r1 r2).1
              toDo results vars
              (if c2 % 4 = 0 then
                cacheInsert cache2 (a, b)
                  (if r1 = r2 then (r1, t2) else t2.getNode v r1 r2).1
               else cache2)
              (if r1 = r2 then (r1, t2) else t2.getNode v r1 r2).2 := by
        intro fuel
        have e : fuel + (k2 + k1 + 1) = (fuel + k2 + k1) + 1 := by omega
        rw [e, hstep, hrun1, afterFoundAss_zero, hrun2, afterFoundAss_frame fn fuel c2 r2 hr1ne]
      -- the combined node
      have hcomb : ∃ r3 t3, (if r1 = r2 then (r1, t2) else t2.getNode v r1 r2) = (r3, t3) ∧
          t3.WF ∧ Ext t2 t3 ∧ t3.Valid r3 ∧ (t3.deref r3).var ≤ v ∧
          ∀ asg, t3.eval asg r3 = if asg v.toNat then t2.eval asg r1 else t2.eval asg r2 := by
        by_cases e : r1 = r2
        · refine ⟨r1, t2, by simp [e], ht2, Ext.refl t2, he2.valid hr1, le_of_lt hr1v, ?_⟩
          intro asg
          rw [← e]
          simp
        · obtain ⟨hw, hx, hvalid, h3', hd⟩ :=
            getNode_spec ht2 hv0 (lt_of_lt_of_le hvnew (le_trans he1.1 he2.1))
              (he2.valid hr1) hr2 e hr1v hr2v
          refine ⟨(t2.getNode v r1 r2).1, (t2.getNode v r1 r2).2, by simp [e], hw, hx, hvalid,
            ?_, ?_⟩
          · rw [hd]
          · intro asg
            rw [eval_node hw asg h3' hvalid, hd]
            simp only
            rw [hx.eval ht2 asg (he2.valid hr1), hx.eval ht2 asg hr2]
      obtain ⟨r3, t3, e3, ht3, he3, hr3, hvar3, hev3⟩ := hcomb
      rw [e3] at hrun
      simp only at hrun
      have hext : Ext s t3 := (he1.trans he2).trans he3
      have hsem : ∀ asg, t3.eval asg r3 = op (s.eval asg a) (s.eval asg b) := by
        intro asg
        rw [hev3 asg, hev1' asg, hev2' asg, haev asg, hbev asg]
        split <;> rfl
      have hc3 : CacheOK op t3 (if c2 % 4 = 0 then cacheInsert cache2 (a, b) r3 else cache2) := by
        have hc2' := hc2.ext ht2 he3
        split
        · refine hc2'.insert (hext.valid ha) (hext.valid hb) hr3 ?_ ?_
          · rw [hext.deref ha.2, hext.deref hb.2, hv]
            exact hvar3
          · intro asg
            rw [hsem asg, hext.eval hs asg ha, hext.eval hs asg hb]
        · exact hc2'
      exact ⟨k2 + k1 + 1, r3, t3, _, c2, by omega, hk, ht3, hext, hr3, hc3, hvar3, hsem, hrun⟩

end BDD

end Kernel

namespace Kernel

namespace BDD

theorem constLoopAss_succ (fn : Nat → Nat → Nat) (s : BDD) (v : Bool) (fuel : Nat)
    (st : ConstLoop) :
    constLoopAss fn s v (fuel + 1) st =
      if fn st.n1 st.n2 = 0 ∧ st.cache.contains (st.n1, st.n2) = false ∧
          splitOK s st.n1 st.n2 = false then none
      else
        match (if fn st.n1 st.n2 ≠ 0 then
            if (v && !isTrue (fn st.n1 st.n2)) || (!v && !isFalse (fn st.n1 st.n2)) then none
            else some (st.toDo, st.cache)
          else if st.cache.contains (st.n1, st.n2) then some (st.toDo, st.cache)
          else
            some ((if (s.deref st.n1).var = max (s.deref st.n1).var (s.deref st.n2).var
                    then (s.deref st.n1).pos else st.n1) ::
                  (if (s.deref st.n2).var = max (s.deref st.n1).var (s.deref st.n2).var
                    then (s.deref st.n2).pos else st.n2) ::
                  (if (s.deref st.n1).var = max (s.deref st.n1).var (s.deref st.n2).var
                    then (s.deref st.n1).neg else st.n1) ::
                  (if (s.deref st.n2).var = max (s.deref st.n1).var (s.deref st.n2).var
                    then (s.deref st.n2).neg else st.n2) :: st.toDo,
              if (if st.counter + 1 = 50000 then 0 else st.counter + 1) % 4 = 0
                then (st.n1, st.n2) :: st.cache else st.cache)
          : Option (List Nat × List (Nat × Nat))) with
        | none => some false
        | some (toDo, cache) =>
          constNextAss fn s v fuel toDo cache
            (if st.counter + 1 = 50000 then 0 else st.counter + 1) := by
  rfl

/-- On pairs of nodes of the engine the loop of `hasConstantResult` with the
assertion checked runs as the loop without it: no split fails the check. -/
theorem constLoopAss_eq {fn : Nat → Nat → Nat} {op : Bool → Bool → Bool} (hfn : FnSpec fn op)
    {s : BDD} (hs : s.WF) (v : Bool) :
    ∀ (fuel : Nat) (st : ConstLoop), s.Valid st.n1 → s.Valid st.n2 →
      (∀ x ∈ st.toDo, s.Valid x) →
      constLoopAss fn s v fuel st = constLoop fn s v fuel st := by
  intro fuel
  induction fuel with
  | zero => intro st _ _ _; rfl
  | succ fuel ih =>
    intro st h1 h2 htd
    have hnext : ∀ (toDo : List Nat) (cache : List (Nat × Nat)) (counter : Nat),
        (∀ x ∈ toDo, s.Valid x) →
        constNextAss fn s v fuel toDo cache counter = constNext fn s v fuel toDo cache counter := by
      intro toDo cache counter hv
      cases toDo with
      | nil => rfl
      | cons a rest =>
        cases rest with
        | nil => rfl
        | cons b rest =>
          exact ih ⟨a, b, rest, cache, counter⟩ (hv a (by simp)) (hv b (by simp))
            (fun x hx => hv x (by simp [hx]))
    rw [constLoopAss_succ, constLoop_succ]
    by_cases h0 : fn st.n1 st.n2 = 0
    · by_cases hcached : st.cache.contains (st.n1, st.n2) = true
      · rw [if_neg (by rw [hcached]; simp)]
        simp only [h0, ne_eq, not_true_eq_false, if_false, hcached, if_true]
        exact hnext _ _ _ htd
      · have h3 := (hfn st.n1 st.n2 h1.1 h2.1).1 h0
        have hok := splitOK_of hs h1 h2 h3
        rw [if_neg (by rw [hok]; simp)]
        have hv0 : 0 ≤ max (s.deref st.n1).var (s.deref st.n2).var := by
          rcases h3 with h3 | h3
          · exact le_trans (hs.node _ h3 h1.2).1 (le_max_left _ _)
          · exact le_trans (hs.node _ h3 h2.2).1 (le_max_right _ _)
        obtain ⟨hap, han, _⟩ :=
          split_side hs h1 hv0 (le_max_left (s.deref st.n1).var (s.deref st.n2).var)
        obtain ⟨hbp, hbn, _⟩ :=
          split_side hs h2 hv0 (le_max_right (s.deref st.n1).var (s.deref st.n2).var)
        simp only [h0, ne_eq, not_true_eq_false, if_false, hcached, Bool.false_eq_true]
        apply hnext
        intro x hx
        simp only [List.mem_cons] at hx
        rcases hx with rfl | rfl | rfl | rfl | hx
        · exact hap
        · exact hbp
        · exact han
        · exact hbn
        · exact htd x hx
    · rw [if_neg (fun h => h0 h.1)]
      simp only [ne_eq, h0, not_false_eq_true, if_true]
      by_cases hbad : ((v && !isTrue (fn st.n1 st.n2)) || (!v && !isFalse (fn st.n1 st.n2)))
          = true
      · simp only [hbad, if_true]
      · simp only [hbad, Bool.false_eq_true, if_false]
        exact hnext _ _ _ htd

/-- C26 (operator functors decide constants): in a reachable engine state, for
nodes `n1`, `n2` of the engine and each of `ConjunctionFn`, `DisjunctionFn` and
`XOrNonYFn`: the functor returns a non-null node when both arguments are
constant nodes, and when it returns null the pair can be split.  The loop of
`getBinaryFnResult` and the loop of `hasConstantResult`, run with the check of
the split branch (`ASS_GE(splitVar,0)`, and every node whose `_pos` and `_neg`
are read is an internal node of the node set with children that are nodes of
the engine), return what the calls return: at no split, on the pair of the call
or on a pair reached later, does the check fail. -/
theorem functors_decide_constants (s : BDD) (hs : s.Reach) (n1 n2 : Nat) (h1 : s.Valid n1)
    (h2 : s.Valid n2) (fn : Nat → Nat → Nat)
    (hfn : fn = ConjunctionFn ∨ fn = DisjunctionFn ∨ fn = XOrNonYFn) :
    (s.isConstant n1 = true → s.isConstant n2 = true → fn n1 n2 ≠ 0) ∧
    (fn n1 n2 = 0 →
      0 ≤ max (s.deref n1).var (s.deref n2).var ∧
      ((s.deref n1).var = max (s.deref n1).var (s.deref n2).var →
        s.isConstant n1 = false ∧ s.Valid (s.deref n1).pos ∧ s.Valid (s.deref n1).neg) ∧
      ((s.deref n2).var = max (s.deref n1).var (s.deref n2).var →
        s.isConstant n2 = false ∧ s.Valid (s.deref n2).pos ∧ s.Valid (s.deref n2).neg)) ∧
    (∀ fuel, 2 ^ (n1 + n2 + 1) ≤ fuel →
      ∃ r t, loopAss fn fuel ⟨n1, n2, [], [], [], [], 0, s⟩ = some (r, t) ∧
        s.getBinaryFnResult fuel n1 n2 fn = some (r, t)) ∧
    (∀ (fuel : Nat) (v : Bool), 2 ^ (n1 + n2 + 1) ≤ fuel →
      ∃ b, constLoopAss fn s v fuel ⟨n1, n2, [], [], 0⟩ = some b ∧
        hasConstantResult fuel s n1 n2 v fn = some b) ∧
    (∀ (u : BDD) (a b : Nat), splitOK u a b = true →
      0 ≤ max (u.deref a).var (u.deref b).var ∧
      ((u.deref a).var = max (u.deref a).var (u.deref b).var →
        3 ≤ a ∧ a < u.nodes.length + 3 ∧ u.Valid (u.deref a).pos ∧ u.Valid (u.deref a).neg) ∧
      ((u.deref b).var = max (u.deref a).var (u.deref b).var →
        3 ≤ b ∧ b < u.nodes.length + 3 ∧ u.Valid (u.deref b).pos ∧ u.Valid (u.deref b).neg)) := by
  have key : ∀ op, FnSpec fn op →
      (∀ fuel, 2 ^ (n1 + n2 + 1) ≤ fuel →
        ∃ r t, loopAss fn fuel ⟨n1, n2, [], [], [], [], 0, s⟩ = some (r, t) ∧
          s.getBinaryFnResult fuel n1 n2 fn = some (r, t)) ∧
      (∀ (fuel : Nat) (v : Bool), 2 ^ (n1 + n2 + 1) ≤ fuel →
        ∃ b, constLoopAss fn s v fuel ⟨n1, n2, [], [], 0⟩ = some b ∧
          hasConstantResult fuel s n1 n2 v fn = some b) := by
    intro op hop
    constructor
    · intro fuel hf
      obtain ⟨k, r, t, _, _, _, hk, _, _, _, _, _, _, hrun⟩ :=
        loopAss_eval hop (n1 + n2) n1 n2 (le_refl _) s [] [] [] [] 0 hs.wf h1 h2
          (CacheOK.nil op s)
      have e : fuel = (fuel - k) + k := by omega
      have hr : loopAss fn fuel ⟨n1, n2, [], [], [], [], 0, s⟩ = some (r, t) := by
        rw [e, hrun, afterFoundAss_nil]
      exact ⟨r, t, hr, loopAss_le fn _ _ _ hr⟩
    · intro fuel v hf
      obtain ⟨b, hb, _⟩ := hasConstantResult_spec hop hs.wf h1 h2 v hf
      refine ⟨b, ?_, hb⟩
      rw [constLoopAss_eq hop hs.wf v fuel ⟨n1, n2, [], [], 0⟩ h1 h2 (by simp)]
      exact hb
  have hmean : ∀ (u : BDD) (a b : Nat), splitOK u a b = true →
      0 ≤ max (u.deref a).var (u.deref b).var ∧
      ((u.deref a).var = max (u.deref a).var (u.deref b).var →
        3 ≤ a ∧ a < u.nodes.length + 3 ∧ u.Valid (u.deref a).pos ∧ u.Valid (u.deref a).neg) ∧
      ((u.deref b).var = max (u.deref a).var (u.deref b).var →
        3 ≤ b ∧ b < u.nodes.length + 3 ∧ u.Valid (u.deref b).pos ∧
          u.Valid (u.deref b).neg) := by
    intro u a b h
    unfold splitOK at h
    simp only [Bool.and_eq_true, Bool.or_eq_true, decide_eq_true_eq] at h
    obtain ⟨⟨g0, ga⟩, gb⟩ := h
    refine ⟨g0, ?_, ?_⟩
    · intro e
      rcases ga with ga | ga
      · exact (ga e).elim
      · obtain ⟨⟨⟨⟨⟨x1, x2⟩, x3⟩, x4⟩, x5⟩, x6⟩ := ga
        exact ⟨x1, x2, ⟨x3, x4⟩, ⟨x5, x6⟩⟩
    · intro e
      rcases gb with gb | gb
      · exact (gb e).elim
      · obtain ⟨⟨⟨⟨⟨x1, x2⟩, x3⟩, x4⟩, x5⟩, x6⟩ := gb
        exact ⟨x1, x2, ⟨x3, x4⟩, ⟨x5, x6⟩⟩
  rcases hfn with e | e | e
  · subst e
    obtain ⟨a1, a2⟩ := split_safe conjunctionFn_spec hs.wf h1 h2
    obtain ⟨k1, k2⟩ := key _ conjunctionFn_spec
    exact ⟨a1, a2, k1, k2, hmean⟩
  · subst e
    obtain ⟨a1, a2⟩ := split_safe disjunctionFn_spec hs.wf h1 h2
    obtain ⟨k1, k2⟩ := key _ disjunctionFn_spec
    exact ⟨a1, a2, k1, k2, hmean⟩
  · subst e
    obtain ⟨a1, a2⟩ := split_safe xOrNonYFn_spec hs.wf h1 h2
    obtain ⟨k1, k2⟩ := key _ xOrNonYFn_spec
    exact ⟨a1, a2, k1, k2, hmean⟩

theorem functors_decide_constants_witness :
    (∃ r t, loopAss ConjunctionFn 256
        ⟨3, 4, [], [], [], [], 0, ((BDD.new.getAtomic 0 true).2.getAtomic 1 true).2⟩
          = some (r, t) ∧
      ((BDD.new.getAtomic 0 true).2.getAtomic 1 true).2.getBinaryFnResult 256 3 4 ConjunctionFn
        = some (r, t)) ∧
    (∃ b, constLoopAss ConjunctionFn ((BDD.new.getAtomic 0 true).2.getAtomic 1 true).2 true 256
        ⟨3, 4, [], [], 0⟩ = some b ∧
      hasConstantResult 256 ((BDD.new.getAtomic 0 true).2.getAtomic 1 true).2 3 4 true
        ConjunctionFn = some b) :=
  ⟨(functors_decide_constants _
      (Reach.atomic 1 true (Reach.atomic 0 true Reach.new (by decide)) (by decide))
      3 4 ⟨by decide, by decide⟩ ⟨by decide, by decide⟩ ConjunctionFn (Or.inl rfl)).2.2.1
      256 (by decide),
    (functors_decide_constants _
      (Reach.atomic 1 true (Reach.atomic 0 true Reach.new (by decide)) (by decide))
      3 4 ⟨by decide, by decide⟩ ⟨by decide, by decide⟩ ConjunctionFn (Or.inl rfl)).2.2.2.1
      256 true (by decide)⟩

end BDD

end Kernel
